import Mathlib

/-!
Threads: semaphores (cooperative and preemptive), the intrusive FIFO queue
and channels

A shallow embedding of `queue.c`, `src/sem.c`, `src/PREEMPTIVE/sem.c` and
`src/chan.c`.

* Pointers are natural numbers; `0` is the null pointer.
* A `Qitem` is a thread control block whose first member is the link `next`;
  the contents of all link fields form the map `World.next`.
* `Sem` and `Chan` structs live in typed heaps (`World.sems`, `World.chans`);
  `none` at an address means "not allocated" and every access through such an
  address is undefined behaviour.
* A function whose C execution can be undefined (null or dangling dereference,
  signed overflow of an `int`) returns `Option`; `none` is undefined behaviour.
  `Machine.sem_V` is `sem_V` with the increment taken modulo 2^32 instead.
* Memory handed out by `malloc` has indeterminate contents (`World.sem_junk`,
  `World.chan_junk`); a member holds a known value only after a store to it.
* The preemptive variant lives in the namespace `Preemptive`: `sem_mutex` is
  a flag (held or free) and a condition variable is the list of the threads
  blocked on it.
-/

namespace Threads

/-- Pointers: an address, with `0` the null pointer. -/
abbrev Ptr := Nat

/-- Largest value of a C `int` (32 bit). -/
def INT_MAX : Int := 2147483647

/-- Smallest value of a C `int` (32 bit). -/
def INT_MIN : Int := -2147483648

/-- The struct `Queue` of queue.h: pointers to the first and last `Qitem`. -/
structure Queue where
  front : Ptr
  back : Ptr
deriving DecidableEq, Repr

/-- The struct `Sem` of sem.h: the counter and the queue of blocked threads. -/
structure Sem where
  val : Int
  queue : Queue
deriving DecidableEq, Repr

/-- The struct `Chan` of chan.h. -/
structure Chan where
  rblock : Ptr
  sblock : Ptr
  send_serialiser : Ptr
  data : Int
deriving DecidableEq, Repr

/-- The memory the modules work on: the `next` link of every thread control
block, the scheduler's `ready_queue`, the allocated `Sem` and `Chan` structs,
the two module variables of chan.c (`chan_mutex` and the static
`firstCall` of `chan_create`), and the indeterminate contents of the memory
that `malloc` hands out: `sem_junk p` and `chan_junk p` are what a struct
newly allocated at address `p` holds before the first store to it. -/
@[ext]
structure World where
  next : Ptr → Ptr
  ready_queue : Queue
  sems : Ptr → Option Sem
  chans : Ptr → Option Chan
  chan_mutex : Ptr
  firstCall : Bool
  sem_junk : Ptr → Sem
  chan_junk : Ptr → Chan

/-! ## queue.c -/

/-- `queue_init`: both ends become null; always returns 1. -/
def queue_init (_q : Queue) : Queue × Int :=
  ({ front := 0, back := 0 }, 1)

/-- `queue_empty`: true iff `front` is null. -/
def queue_empty (q : Queue) : Bool :=
  q.front == 0

/-- `queue_put`: clear the link of the new item, hang it behind `back` (or
make it the front of an empty queue) and make it the new `back`.  Undefined
when `new_item` is null, or when the queue is non-empty and `back` is null
(both are null dereferences). -/
def queue_put (m : Ptr → Ptr) (q : Queue) (new_item : Ptr) : Option ((Ptr → Ptr) × Queue) :=
  if new_item = 0 then none
  else
    let m1 := Function.update m new_item 0
    if queue_empty q then
      some (m1, { front := new_item, back := new_item })
    else if q.back = 0 then none
    else some (Function.update m1 q.back new_item, { front := q.front, back := new_item })

/-- `queue_get`: return the old `front`; when the queue is not empty advance
`front` along the link and reset `back` when `front` became null. -/
def queue_get (m : Ptr → Ptr) (q : Queue) : Queue × Ptr :=
  let p := q.front
  if !queue_empty q then
    let f := m q.front
    if f = 0 then ({ front := f, back := 0 }, p)
    else ({ front := f, back := q.back }, p)
  else (q, p)

/-- A store to the struct `*s` (or, with `none`, its deallocation): the world
with the semaphore heap changed at address `s`. -/
def set_sem (w : World) (s : Ptr) (x : Option Sem) : World :=
  { w with sems := Function.update w.sems s x }

/-! ## thread.c (not part of the sources) -/

/-- Modelled from the spec: `thread_yield` of the missing thread.c, "cooperatively
relinquish the processor, allowing another ready thread to run; returns when
rescheduled".  What other threads do while the caller is suspended are calls of
their own; the yield itself leaves the memory of the modules as it is. -/
def thread_yield (w : World) : World := w

/-- Modelled from the spec: `thread_block_and_switch(&s->queue)` of the missing
thread.c, "atomically enqueue the calling thread's own control block onto the
given wait Queue".  `t` is the control block of the calling thread. -/
def thread_block_and_switch (w : World) (s : Ptr) (t : Ptr) : Option World :=
  match w.sems s with
  | none => none
  | some sem =>
    match queue_put w.next sem.queue t with
    | none => none
    | some (m, q) =>
      some (set_sem { w with next := m } s (some { val := sem.val, queue := q }))

/-- Modelled from the spec: the scheduler of the missing thread.c takes the
next thread to run from the global ready queue (`queue_get(&ready_queue)`). -/
def dispatch (w : World) : World :=
  { w with ready_queue := (queue_get w.next w.ready_queue).1 }

/-! ## src/sem.c -/

/-- Outcome of `malloc`, decided by the environment: `hint = none` is a failed
allocation, `hint = some p` offers the address `p`, which is taken when it is
non-null and not in use and counts as a failure otherwise. -/
def malloc {α : Type} (heap : Ptr → Option α) (hint : Option Ptr) : Option Ptr :=
  match hint with
  | none => none
  | some p => if p ≠ 0 ∧ (heap p).isNone then some p else none

/-- `sem_create`: null for a negative value (without calling `malloc`) or a
failed `malloc`; otherwise the struct that `malloc` hands out, with
indeterminate contents `a0`, gets the given value (`s->val = val`) and its
queue is initialised (`queue_init(&(s->queue))`). -/
def sem_create (w : World) (hint : Option Ptr) (val : Int) : World × Ptr :=
  if val < 0 then (w, 0)
  else
    match malloc w.sems hint with
    | none => (w, 0)
    | some s =>
      let a0 := w.sem_junk s
      let a1 : Sem := { a0 with val := val }
      let a2 : Sem := { a1 with queue := (queue_init a1.queue).1 }
      (thread_yield (set_sem w s (some a2)), s)

/-- `sem_destroy`: -1 when the queue of the semaphore is not empty, else free
it and return 1.  Undefined on a pointer that is not a live semaphore. -/
def sem_destroy (w : World) (s : Ptr) : Option (World × Int) :=
  match w.sems s with
  | none => none
  | some sem =>
    if !queue_empty sem.queue then some (w, -1)
    else some (set_sem w s none, 1)

/-- `sem_P`, called by thread `t`: decrement; block the caller on the queue of
the semaphore when the new value is negative, else yield.  Undefined on a
pointer that is not a live semaphore and when the decrement overflows. -/
def sem_P (w : World) (s : Ptr) (t : Ptr) : Option World :=
  match w.sems s with
  | none => none
  | some sem =>
    if sem.val = INT_MIN then none
    else
      let w1 := set_sem w s (some { val := sem.val - 1, queue := sem.queue })
      if sem.val - 1 < 0 then thread_block_and_switch w1 s t
      else some (thread_yield w1)

/-- `sem_V`: increment; when the new value is not positive move the front of
the queue of the semaphore to the back of `ready_queue`; then yield.
Undefined on a pointer that is not a live semaphore, when the increment
overflows, and when `queue_put` is undefined. -/
def sem_V (w : World) (s : Ptr) : Option World :=
  match w.sems s with
  | none => none
  | some sem =>
    if sem.val = INT_MAX then none
    else if sem.val + 1 ≤ 0 then
      let r := queue_get w.next sem.queue
      match queue_put w.next w.ready_queue r.2 with
      | none => none
      | some (m, rq) =>
        some (thread_yield
          (set_sem { w with next := m, ready_queue := rq } s (some { val := sem.val + 1, queue := r.1 })))
    else
      some (thread_yield (set_sem w s (some { val := sem.val + 1, queue := sem.queue })))

/-! ## src/chan.c -/

/-- The allocation oracle of one call: the environment's answers to the
successive `malloc` calls, first call first (see `malloc`); a call beyond the
end of the list fails. -/
def oracle_hd (o : List (Option Ptr)) : Option Ptr :=
  match o with
  | [] => none
  | h :: _ => h

/-- The world with the channel heap changed at address `c`. -/
def set_chan (w : World) (c : Ptr) (x : Option Chan) : World :=
  { w with chans := Function.update w.chans c x }

/-- `free((void*)c)` on a `Chan`. -/
def free_chan (w : World) (c : Ptr) : World :=
  set_chan w c none

/-- A store to a member of `*c`; undefined when `c` is not a live channel. -/
def chan_store (w : World) (c : Ptr) (f : Chan → Chan) : Option World :=
  match w.chans c with
  | none => none
  | some ch => some (set_chan w c (some (f ch)))

/-- True iff `s` is a live semaphore whose value is negative: after `sem_P`
this is the test that sent the caller into `thread_block_and_switch`. -/
def sem_negative (w : World) (s : Ptr) : Bool :=
  match w.sems s with
  | none => false
  | some sem => decide (sem.val < 0)

/-- The part of `chan_create` after the first-call block: allocate the struct
(its contents are indeterminate, `chan_junk c`), create `sblock`, `rblock`,
`send_serialiser` (values 0, 0, 1), storing each pointer in its member, and
clear `data`; on a failure free what the code frees.  The two later failure
paths call `free(c)` and read `c->sblock` (and `c->rblock`) afterwards. -/
def chan_create_alloc (w : World) (o : List (Option Ptr)) : Option (World × Ptr) :=
  match malloc w.chans (oracle_hd o) with
  | none => some (w, 0)
  | some c =>
    let w0 := set_chan w c (some (w.chan_junk c))
    let r1 := sem_create w0 (oracle_hd o.tail) 0
    (chan_store r1.1 c (fun ch => { ch with sblock := r1.2 })).bind fun w1 =>
    if r1.2 = 0 then some (free_chan w1 c, 0)
    else
      let r2 := sem_create w1 (oracle_hd o.tail.tail) 0
      (chan_store r2.1 c (fun ch => { ch with rblock := r2.2 })).bind fun w2 =>
      if r2.2 = 0 then
        let w3 := free_chan w2 c
        (w3.chans c).bind fun ch =>
        (sem_destroy w3 ch.sblock).bind fun d1 =>
        some (d1.1, 0)
      else
        let r3 := sem_create w2 (oracle_hd o.tail.tail.tail) 1
        (chan_store r3.1 c (fun ch => { ch with send_serialiser := r3.2 })).bind fun w3 =>
        if r3.2 = 0 then
          let w4 := free_chan w3 c
          (w4.chans c).bind fun ch =>
          (sem_destroy w4 ch.sblock).bind fun d1 =>
          (d1.1.chans c).bind fun ch2 =>
          (sem_destroy d1.1 ch2.rblock).bind fun d2 =>
          some (d2.1, 0)
        else
          (chan_store w3 c (fun ch => { ch with data := 0 })).bind fun w4 =>
          some (w4, c)

/-- `chan_create`: on the first call create the module semaphore `chan_mutex`
(value 1) and give up when that fails; then `chan_create_alloc`.  The result
pointer is null on failure. -/
def chan_create (w : World) (o : List (Option Ptr)) : Option (World × Ptr) :=
  if w.firstCall then
    let r := sem_create { w with firstCall := false } (oracle_hd o) 1
    let w1 := { r.1 with chan_mutex := r.2 }
    if r.2 = 0 then some (w1, 0)
    else chan_create_alloc w1 o.tail
  else chan_create_alloc w o

/-- The three statements `sem_destroy(backup->rblock); sem_destroy(backup->sblock);
sem_destroy(backup->send_serialiser)` followed by `free(backup)`, of which
`chan_destroy` runs a suffix on each path; `k` is the number of leading
destroys that are skipped (0, 1 or 2). -/
def destroy_spare (w : World) (backup : Ptr) (k : Nat) : Option World :=
  (if k = 0 then
    (w.chans backup).bind fun b => (sem_destroy w b.rblock).bind fun d => some d.1
   else some w).bind fun w1 =>
  (if k ≤ 1 then
    (w1.chans backup).bind fun b => (sem_destroy w1 b.sblock).bind fun d => some d.1
   else some w1).bind fun w2 =>
  (w2.chans backup).bind fun b =>
  (sem_destroy w2 b.send_serialiser).bind fun d =>
  some (free_chan d.1 backup)

/-- Lines 88-93 of chan.c: `rblock` could not be destroyed; destroy the whole
spare channel, release `chan_mutex`, return -1. -/
def chan_destroy_fail1 (w : World) (backup : Ptr) : Option (World × Option Int) :=
  (destroy_spare w backup 0).bind fun w3 =>
  (sem_V w3 w3.chan_mutex).bind fun w4 => some (w4, some (-1))

/-- Lines 97-102 of chan.c: `sblock` could not be destroyed;
`c->rblock = backup->rblock`, destroy the rest of the spare channel, release
`chan_mutex`, return -1. -/
def chan_destroy_fail2 (w : World) (c : Ptr) (backup : Ptr) : Option (World × Option Int) :=
  (w.chans backup).bind fun b =>
  (chan_store w c (fun x => { x with rblock := b.rblock })).bind fun w3 =>
  (destroy_spare w3 backup 1).bind fun w4 =>
  (sem_V w4 w4.chan_mutex).bind fun w5 => some (w5, some (-1))

/-- Lines 107-112 of chan.c: `send_serialiser` could not be destroyed;
`c->rblock = backup->rblock`, `c->sblock = backup->sblock`, destroy the rest
of the spare channel, release `chan_mutex`, return -1. -/
def chan_destroy_fail3 (w : World) (c : Ptr) (backup : Ptr) : Option (World × Option Int) :=
  (w.chans backup).bind fun b =>
  (chan_store w c (fun x => { x with rblock := b.rblock })).bind fun w3 =>
  (w3.chans backup).bind fun b2 =>
  (chan_store w3 c (fun x => { x with sblock := b2.sblock })).bind fun w4 =>
  (destroy_spare w4 backup 2).bind fun w5 =>
  (sem_V w5 w5.chan_mutex).bind fun w6 => some (w6, some (-1))

/-- Lines 116-122 of chan.c: all three semaphores are destroyed; destroy the
spare channel, free `c`, release `chan_mutex`, return 1. -/
def chan_destroy_ok (w : World) (c : Ptr) (backup : Ptr) : Option (World × Option Int) :=
  (destroy_spare w backup 0).bind fun w3 =>
  (sem_V (free_chan w3 c) (free_chan w3 c).chan_mutex).bind fun w5 => some (w5, some 1)

/-- Lines 87-122 of chan.c: the three `sem_destroy` calls on the semaphores of
`c`, each followed by its failure path. -/
def chan_destroy_sems (w : World) (c : Ptr) (backup : Ptr) : Option (World × Option Int) :=
  (w.chans c).bind fun ch =>
  (sem_destroy w ch.rblock).bind fun d1 =>
  if d1.2 = -1 then chan_destroy_fail1 d1.1 backup
  else
    (d1.1.chans c).bind fun ch1 =>
    (sem_destroy d1.1 ch1.sblock).bind fun d2 =>
    if d2.2 = -1 then chan_destroy_fail2 d2.1 c backup
    else
      (d2.1.chans c).bind fun ch2 =>
      (sem_destroy d2.1 ch2.send_serialiser).bind fun d3 =>
      if d3.2 = -1 then chan_destroy_fail3 d3.1 c backup
      else chan_destroy_ok d3.1 c backup

/-- `chan_destroy(c)`, called by thread `t`, with the allocation oracle `o`
for the spare channel.  The result is `none` when the caller was blocked by
`sem_P(chan_mutex)` (the call has not returned), else the returned `int`. -/
def chan_destroy (w : World) (t : Ptr) (c : Ptr) (o : List (Option Ptr)) :
    Option (World × Option Int) :=
  (sem_P w w.chan_mutex t).bind fun w1 =>
  if sem_negative w1 w1.chan_mutex then some (w1, none)
  else
    (chan_create w1 o).bind fun cr =>
    if cr.2 = 0 then some (cr.1, some (-1))
    else chan_destroy_sems cr.1 c cr.2

/-! ## Abstraction: the items a queue holds -/

/-- `Seg m p l e`: following the links `m` from `p` visits exactly the items
of `l` in order, all of them non-null, and arrives at `e`. -/
def Seg (m : Ptr → Ptr) : Ptr → List Ptr → Ptr → Prop
  | p, [], e => p = e
  | p, x :: xs, e => p = x ∧ x ≠ 0 ∧ Seg m (m x) xs e

/-- `Holds m q l`: the queue `q` holds exactly the items `l`, front first: the
chain from `front` runs through `l` to null, no item occurs twice and `back`
is the last item. -/
def Holds (m : Ptr → Ptr) (q : Queue) (l : List Ptr) : Prop :=
  Seg m q.front l 0 ∧ l.Nodup ∧ ∀ x, l.getLast? = some x → q.back = x

/-- `SemInv w s v wl rl`: `s` is a live semaphore with value `v` whose queue
holds the blocked threads `wl`, the ready queue holds `rl`, no thread is on
both, and the counter records the number of blocked threads in its negative
range. -/
def SemInv (w : World) (s : Ptr) (v : Int) (wl rl : List Ptr) : Prop :=
  (∃ q, w.sems s = some { val := v, queue := q } ∧ Holds w.next q wl) ∧
    (wl.length : Int) = max 0 (-v) ∧
    Holds w.next w.ready_queue rl ∧ List.Disjoint wl rl

/-- `Running w s t`: `t` is a thread that can issue a call on `s`: a real
control block that is neither blocked on `s` nor waiting on the ready queue. -/
def Running (w : World) (s : Ptr) (t : Ptr) : Prop :=
  t ≠ 0 ∧ (∀ l, Holds w.next w.ready_queue l → t ∉ l) ∧
    ∀ sem l, w.sems s = some sem → Holds w.next sem.queue l → t ∉ l

/-- The states of the semaphore `s` reached from a successful
`sem_create` (in a world whose ready queue is well formed) by `sem_P` calls of
running threads, `sem_V` calls and the scheduler taking threads off the
ready queue. -/
inductive SemReach (s : Ptr) : World → Prop
  | create (w0 : World) (hint : Option Ptr) (v : Int) :
      (∃ rl, Holds w0.next w0.ready_queue rl) → (sem_create w0 hint v).2 = s → s ≠ 0 →
      SemReach s (sem_create w0 hint v).1
  | P {w w' : World} (t : Ptr) :
      SemReach s w → Running w s t → sem_P w s t = some w' → SemReach s w'
  | V {w w' : World} : SemReach s w → sem_V w s = some w' → SemReach s w'
  | sched {w : World} : SemReach s w → SemReach s (dispatch w)

/-- The statements of `chan_send(c, sentdata)`, executed by thread `t`:
statement `pc` (0 to 4) is, in this order, `sem_P(c->send_serialiser)`,
`c->data = sentdata`, `sem_V(c->rblock)`, `sem_P(c->sblock)`,
`sem_V(c->send_serialiser)`.  The Boolean tells whether the statement was a
`sem_P` that blocked the caller. -/
def chan_send_step (w : World) (t c : Ptr) (sentdata : Int) (pc : Nat) : Option (World × Bool) :=
  match pc with
  | 0 => (w.chans c).bind fun ch =>
      (sem_P w ch.send_serialiser t).map fun w' => (w', sem_negative w' ch.send_serialiser)
  | 1 => (chan_store w c (fun ch => { ch with data := sentdata })).map fun w' => (w', false)
  | 2 => (w.chans c).bind fun ch => (sem_V w ch.rblock).map fun w' => (w', false)
  | 3 => (w.chans c).bind fun ch =>
      (sem_P w ch.sblock t).map fun w' => (w', sem_negative w' ch.sblock)
  | 4 => (w.chans c).bind fun ch => (sem_V w ch.send_serialiser).map fun w' => (w', false)
  | _ => none

/-- The statements of `chan_receive(c, receiveddata)`, executed by thread `t`:
statement `pc` (0 to 2) is `sem_P(c->rblock)`, `*receiveddata = c->data`,
`sem_V(c->sblock)`.  `received` is the current content of `*receiveddata`;
the result carries its new content and whether the caller was blocked. -/
def chan_receive_step (w : World) (t c : Ptr) (received : Int) (pc : Nat) :
    Option (World × Int × Bool) :=
  match pc with
  | 0 => (w.chans c).bind fun ch =>
      (sem_P w ch.rblock t).map fun w' => (w', received, sem_negative w' ch.rblock)
  | 1 => (w.chans c).bind fun ch => some (w, ch.data, false)
  | 2 => (w.chans c).bind fun ch => (sem_V w ch.sblock).map fun w' => (w', received, false)
  | _ => none

/-- A sender and a receiver on one channel: the memory, for each of the two
threads the number of statements of its call already executed and whether it
is suspended inside a `sem_P` that blocked (until the scheduler takes it off
the ready queue again), and the content of the receiver's `*receiveddata`. -/
structure Sys where
  w : World
  spc : Nat
  sparked : Bool
  rpc : Nat
  rparked : Bool
  received : Int

/-- The atomic actions of the system: the sender or the receiver executes its
next statement, or the scheduler takes the next thread off the ready queue. -/
inductive Act where
  | send
  | recv
  | sched
deriving DecidableEq, Repr

/-- An action can be taken: a thread that is not suspended and has not
returned can execute its next statement; the scheduler can dispatch when the
ready queue is not empty. -/
def enabled (σ : Sys) : Act → Bool
  | Act.send => !σ.sparked && decide (σ.spc < 5)
  | Act.recv => !σ.rparked && decide (σ.rpc < 3)
  | Act.sched => !queue_empty σ.w.ready_queue

/-- Effect of an action; `S` and `R` are the control blocks of the sender and
the receiver, `c` the channel, `x` the value sent.  `none` is undefined
behaviour of the statement. -/
def exec (S R c : Ptr) (x : Int) (σ : Sys) : Act → Option Sys
  | Act.send => (chan_send_step σ.w S c x σ.spc).map fun r =>
      { σ with w := r.1, spc := σ.spc + 1, sparked := r.2 }
  | Act.recv => (chan_receive_step σ.w R c σ.received σ.rpc).map fun r =>
      { σ with w := r.1, rpc := σ.rpc + 1, received := r.2.1, rparked := r.2.2 }
  | Act.sched =>
      some { σ with
        w := dispatch σ.w
        sparked := if σ.w.ready_queue.front = S then false else σ.sparked
        rparked := if σ.w.ready_queue.front = R then false else σ.rparked }

/-- A schedule: the actions are taken in the order of the list; `none` when
one of them is not enabled or undefined. -/
def run (S R c : Ptr) (x : Int) (σ : Sys) : List Act → Option Sys
  | [] => some σ
  | a :: as => if enabled σ a then (exec S R c x σ a).bind fun σ' => run S R c x σ' as else none

/-- The start: both threads are about to execute the first statement of their
call; `r0` is the unknown initial content of `*receiveddata`. -/
def sys_init (w : World) (r0 : Int) : Sys :=
  { w := w, spc := 0, sparked := false, rpc := 0, rparked := false, received := r0 }

/-- Value of `send_serialiser` as a function of the number `spc` of statements
the sender has executed: taken (0) while the sender is between its `sem_P`
and its `sem_V` on it. -/
def ser_val (spc : Nat) : Int :=
  if 1 ≤ spc ∧ spc ≤ 4 then 0 else 1

/-- Value of `rblock`: signals of the sender minus waits of the receiver. -/
def rb_val (spc rpc : Nat) : Int :=
  (if 3 ≤ spc then 1 else 0) - (if 1 ≤ rpc then 1 else 0)

/-- Value of `sblock`: signals of the receiver minus waits of the sender. -/
def sb_val (spc rpc : Nat) : Int :=
  (if 3 ≤ rpc then 1 else 0) - (if 4 ≤ spc then 1 else 0)

/-- The thread, if any, that has been woken and waits on the ready queue for
the scheduler: a suspended thread whose semaphore is no longer negative. -/
def pending (S R : Ptr) (σ : Sys) : List Ptr :=
  if σ.rparked = true ∧ 0 ≤ rb_val σ.spc σ.rpc then [R]
  else if σ.sparked = true ∧ 0 ≤ sb_val σ.spc σ.rpc then [S] else []

/-- A bound on the number of actions still to come: the statements left, one
dispatch for each of the two threads that is or may still get suspended, and
the other threads `rest` on the ready queue. -/
def potential (σ : Sys) (rest : List Ptr) : Nat :=
  (5 - σ.spc) + (3 - σ.rpc) + (if σ.rpc = 0 ∨ σ.rparked = true then 1 else 0) +
    (if σ.spc ≤ 3 ∨ σ.sparked = true then 1 else 0) + rest.length

/-- The invariant of a rendezvous of sender `S` and receiver `R` on the
channel `c` with semaphores `rb`, `sb`, `ser`: the three semaphores have the
values given by the progress of the two threads, a negative one holds its
suspended thread, the ready queue holds the other threads `rest` followed by
the woken thread, `data` is the value sent once it is stored and
`*receiveddata` is that value once it is read. -/
structure RendezvousInv (S R c : Ptr) (x : Int) (rb sb ser : Ptr) (σ : Sys)
    (rest : List Ptr) : Prop where
  chan : ∃ d, σ.w.chans c = some { rblock := rb, sblock := sb, send_serialiser := ser, data := d } ∧
    (2 ≤ σ.spc → d = x)
  hser : ∃ q, σ.w.sems ser = some { val := ser_val σ.spc, queue := q } ∧ Holds σ.w.next q []
  hrb : ∃ q, σ.w.sems rb = some { val := rb_val σ.spc σ.rpc, queue := q } ∧
    Holds σ.w.next q (if rb_val σ.spc σ.rpc < 0 then [R] else [])
  hsb : ∃ q, σ.w.sems sb = some { val := sb_val σ.spc σ.rpc, queue := q } ∧
    Holds σ.w.next q (if sb_val σ.spc σ.rpc < 0 then [S] else [])
  ready : Holds σ.w.next σ.w.ready_queue (rest ++ pending S R σ)
  restS : S ∉ rest
  restR : R ∉ rest
  spc_le : σ.spc ≤ 5
  rpc_le : σ.rpc ≤ 3
  rpark : σ.rparked = true → σ.rpc = 1
  spark : σ.sparked = true → σ.spc = 4
  rwait : rb_val σ.spc σ.rpc < 0 → σ.rparked = true
  swait : sb_val σ.spc σ.rpc < 0 → σ.sparked = true
  recv : 2 ≤ σ.rpc → σ.received = x

/-- Successive `sem_P` calls on `s`, one by each of the threads `ts`, in the
order of the list. -/
def sem_P_calls (w : World) (s : Ptr) : List Ptr → Option World
  | [] => some w
  | t :: ts => (sem_P w s t).bind fun w' => sem_P_calls w' s ts

/-- The next `k` calls of `sem_V` on `s`. -/
def sem_V_calls (w : World) (s : Ptr) : Nat → Option World
  | 0 => some w
  | k + 1 => (sem_V w s).bind fun w' => sem_V_calls w' s k

/-! ## Example worlds -/

/-- An empty world: no thread is queued, nothing is allocated, `chan_create`
has not been called yet. -/
def exW : World :=
  { next := fun _ => 0, ready_queue := { front := 0, back := 0 }, sems := fun _ => none,
    chans := fun _ => none, chan_mutex := 0, firstCall := true,
    sem_junk := fun p => { val := 77, queue := { front := p + 1, back := 9 } },
    chan_junk := fun p => { rblock := 6, sblock := p, send_serialiser := 8, data := 99 } }

/-- The world after `sem_create(0)` in `exW` returned the semaphore at address 1. -/
def exW1 : World := (sem_create exW (some 1) 0).1

/-- Then thread 5 called `sem_P` on it. -/
def exW2 : World := (sem_P exW1 1 5).getD exW1

/-- Then `sem_V` was called on it. -/
def exW3 : World := (sem_V exW2 1).getD exW2

/-- The world after the first `chan_create` in `exW`: `chan_mutex` at address 1,
the channel struct at address 1, `sblock`, `rblock`, `send_serialiser` at
addresses 2, 3, 4. -/
def exChan : World :=
  ((chan_create exW [some 1, some 1, some 2, some 3, some 4]).getD (exW, 0)).1

/-- Thread 11 called `chan_send(c, 42)` on that channel and, no receiver having
arrived, is blocked in `sem_P(c->sblock)`: four statements of `chan_send` are
executed. -/
def exSending : World :=
  ((run 11 12 1 42 (sys_init exChan 0) [Act.send, Act.send, Act.send, Act.send]).getD
    (sys_init exChan 0)).w

/-- A schedule of the rendezvous: the sender runs until it blocks in
`sem_P(c->sblock)`, the receiver runs to its end, the scheduler dispatches the
sender, and the sender returns. -/
def exSchedule : List Act :=
  [Act.send, Act.send, Act.send, Act.send, Act.recv, Act.recv, Act.recv, Act.sched, Act.send]

/-- The state after `exSchedule` on the channel of `exChan`, with sender 11
sending 42 and receiver 12. -/
def exTrip : Sys :=
  (run 11 12 1 42 (sys_init exChan 0) exSchedule).getD (sys_init exChan 0)

/-! ## Sequences of queue calls -/

/-- One call on a queue: `queue_init`, `queue_put` of an item, or
`queue_get`. -/
inductive QOp where
  | init
  | put (x : Ptr)
  | get
  deriving DecidableEq, Repr

/-- Run a sequence of calls on the queue `q` over the links `m`.  The third
component lists, in order, what the successful `queue_get` calls returned (a
call that returns the null sentinel is not recorded). -/
def queue_run (m : Ptr → Ptr) (q : Queue) : List QOp → Option ((Ptr → Ptr) × Queue × List Ptr)
  | [] => some (m, q, [])
  | QOp.init :: ops => queue_run m (queue_init q).1 ops
  | QOp.put x :: ops => (queue_put m q x).bind fun r => queue_run r.1 r.2 ops
  | QOp.get :: ops =>
      (queue_run m (queue_get m q).1 ops).map fun s =>
        (s.1, s.2.1, if (queue_get m q).2 = 0 then s.2.2 else (queue_get m q).2 :: s.2.2)

/-- The items handed to `queue_put` by a sequence of calls, in order. -/
def items_put : List QOp → List Ptr
  | [] => []
  | QOp.put x :: ops => x :: items_put ops
  | _ :: ops => items_put ops

/-- What a first-in first-out queue holding `l` holds after the calls. -/
def fifo_content : List Ptr → List QOp → List Ptr
  | l, [] => l
  | _, QOp.init :: ops => fifo_content [] ops
  | l, QOp.put x :: ops => fifo_content (l ++ [x]) ops
  | l, QOp.get :: ops => fifo_content l.tail ops

/-- What the `get` calls take, in order, from a first-in first-out queue
holding `l`. -/
def fifo_outs : List Ptr → List QOp → List Ptr
  | _, [] => []
  | _, QOp.init :: ops => fifo_outs [] ops
  | l, QOp.put x :: ops => fifo_outs (l ++ [x]) ops
  | l, QOp.get :: ops => l.head?.toList ++ fifo_outs l.tail ops

/-! ## The setting of a `chan_destroy` call -/

/-- The setting in which `chan_destroy(c)` runs to its end: `c` is a live
channel whose three semaphores and the free `chan_mutex` (`m`, value `mv`
positive) are four distinct live semaphores, and `b`, `sb'`, `rb'`, `ss'` are
fresh addresses for the spare channel and its semaphores. -/
structure DestroyPre (w : World) (c m : Ptr) (mv : Int) (mq : Queue) (rb sb ss : Ptr)
    (d : Int) (qrb qsb qss : Sem) (b sb' rb' ss' : Ptr) : Prop where
  hf : w.firstCall = false
  hm : w.chan_mutex = m
  hms : w.sems m = some { val := mv, queue := mq }
  hmv : 0 < mv
  hmax : mv ≤ INT_MAX
  hc : w.chans c = some { rblock := rb, sblock := sb, send_serialiser := ss, data := d }
  hrb : w.sems rb = some qrb
  hsb : w.sems sb = some qsb
  hss : w.sems ss = some qss
  hd : [m, rb, sb, ss].Nodup
  hb : b ≠ 0 ∧ w.chans b = none
  hfresh : ∀ x ∈ [sb', rb', ss'], x ≠ 0 ∧ w.sems x = none
  hnd : [sb', rb', ss'].Nodup

/-- The world in which `chan_destroy` starts its three `sem_destroy` calls:
`chan_mutex` is taken and the spare channel `b` exists with its three
semaphores. -/
def spare_world (w : World) (m : Ptr) (mv : Int) (mq : Queue) (b sb' rb' ss' : Ptr) : World :=
  set_chan (set_sem (set_sem (set_sem
    (set_sem w m (some { val := mv - 1, queue := mq }))
    sb' (some { val := 0, queue := { front := 0, back := 0 } }))
    rb' (some { val := 0, queue := { front := 0, back := 0 } }))
    ss' (some { val := 1, queue := { front := 0, back := 0 } }))
    b (some { rblock := rb', sblock := sb', send_serialiser := ss', data := 0 })

/-- The number of live semaphores at the addresses below `n`. -/
def live_sems (w : World) (n : Nat) : Nat :=
  (List.range n).countP fun p => (w.sems p).isSome

/-- Thread 12 called `chan_receive` on the channel of `exChan` and, no sender
having arrived, is blocked in `sem_P(c->rblock)`. -/
def exReceiving : World :=
  ((chan_receive_step exChan 12 1 0 0).getD (exChan, 0, false)).1

/-! ## src/PREEMPTIVE/sem.c -/

namespace Preemptive

/-- `struct sem` of the preemptive variant: the value and the condition
variable, of which the model keeps the threads blocked on it in
`pthread_cond_wait`, in the order of their arrival. -/
structure Sem where
  val : Int
  cond : List Ptr
  deriving DecidableEq, Repr

/-- The state of the preemptive module: the heap of semaphores, the module
lock `sem_mutex` (`true` = held) and the `static int firstcall` of
`sem_create`. -/
structure World where
  sems : Ptr → Option Sem
  sem_mutex : Bool
  firstcall : Bool

/-- How a call ends: it returns, or its caller is blocked in
`pthread_cond_wait` (`waiting`, `sem_mutex` being released), or its caller is
blocked in `pthread_mutex_lock` on a lock that is held (`stuck`). -/
inductive Outcome (α : Type) where
  | returned (r : α)
  | waiting
  | stuck
  deriving DecidableEq, Repr

/-- A store to the struct `*s` (or, with `none`, its deallocation). -/
def set_sem (w : World) (s : Ptr) (x : Option Sem) : World :=
  { w with sems := Function.update w.sems s x }

/-- `pthread_mutex_lock(&sem_mutex)` on a lock that is free; the callers test
the lock first, a caller that finds it held is `stuck`. -/
def pthread_mutex_lock (w : World) : World :=
  { w with sem_mutex := true }

/-- `pthread_mutex_unlock(&sem_mutex)`. -/
def pthread_mutex_unlock (w : World) : World :=
  { w with sem_mutex := false }

/-- `pthread_cond_wait(&s->cond, &sem_mutex)` by thread `t`, up to the point
where the caller is blocked: `t` joins the threads blocked on the condition
variable and the lock is released. -/
def pthread_cond_wait (w : World) (s : Ptr) (t : Ptr) : World :=
  match w.sems s with
  | none => w
  | some a => pthread_mutex_unlock (set_sem w s (some { val := a.val, cond := a.cond ++ [t] }))

/-- `pthread_cond_signal(&s->cond)`: one of the threads blocked on the
condition variable is unblocked, if there is any; which one is the choice of
the environment (`k`). -/
def pthread_cond_signal (w : World) (s : Ptr) (k : Nat) : World :=
  match w.sems s with
  | none => w
  | some a => set_sem w s (some { val := a.val, cond := a.cond.eraseIdx (k % a.cond.length) })

/-- `sem_create`: the first call initialises `sem_mutex`; null for a negative
value, before the lock is taken; then lock, `malloc`, and on a failed `malloc`
`return` at once, with the lock still held; else store the value, initialise
the condition variable, unlock and return the semaphore. -/
def sem_create (w : World) (hint : Option Ptr) (val : Int) : World × Outcome Ptr :=
  let w0 : World := if w.firstcall then { w with firstcall := false, sem_mutex := false } else w
  if val < 0 then (w0, Outcome.returned 0)
  else if w0.sem_mutex then (w0, Outcome.stuck)
  else
    let w1 := pthread_mutex_lock w0
    match malloc w1.sems hint with
    | none => (w1, Outcome.returned 0)
    | some s =>
      (pthread_mutex_unlock (set_sem w1 s (some { val := val, cond := [] })), Outcome.returned s)

/-- `sem_destroy`: lock; -1 (after unlocking) when the value is negative; else
destroy the condition variable, free the semaphore, unlock and return 1.
Undefined on a pointer that is not a live semaphore and when the condition
variable that is destroyed has threads blocked on it. -/
def sem_destroy (w : World) (s : Ptr) : Option (World × Outcome Int) :=
  if w.sem_mutex then some (w, Outcome.stuck)
  else
    let w1 := pthread_mutex_lock w
    match w1.sems s with
    | none => none
    | some a =>
      if a.val < 0 then some (pthread_mutex_unlock w1, Outcome.returned (-1))
      else if a.cond ≠ [] then none
      else some (pthread_mutex_unlock (set_sem w1 s none), Outcome.returned 1)

/-- `sem_P`, called by thread `t`: lock; decrement; when the new value is
negative wait on the condition variable, which releases the lock; else unlock
and return.  Undefined on a pointer that is not a live semaphore and when the
decrement overflows. -/
def sem_P (w : World) (s : Ptr) (t : Ptr) : Option (World × Outcome Unit) :=
  if w.sem_mutex then some (w, Outcome.stuck)
  else
    let w1 := pthread_mutex_lock w
    match w1.sems s with
    | none => none
    | some a =>
      if a.val = INT_MIN then none
      else
        let w2 := set_sem w1 s (some { val := a.val - 1, cond := a.cond })
        if a.val - 1 < 0 then some (pthread_cond_wait w2 s t, Outcome.waiting)
        else some (pthread_mutex_unlock w2, Outcome.returned ())

/-- `sem_V`: lock; increment; when the new value is not positive signal the
condition variable; unlock.  Undefined on a pointer that is not a live
semaphore and when the increment overflows. -/
def sem_V (w : World) (s : Ptr) (k : Nat) : Option (World × Outcome Unit) :=
  if w.sem_mutex then some (w, Outcome.stuck)
  else
    let w1 := pthread_mutex_lock w
    match w1.sems s with
    | none => none
    | some a =>
      if a.val = INT_MAX then none
      else
        let w2 := set_sem w1 s (some { val := a.val + 1, cond := a.cond })
        if a.val + 1 ≤ 0 then
          some (pthread_mutex_unlock (pthread_cond_signal w2 s k), Outcome.returned ())
        else some (pthread_mutex_unlock w2, Outcome.returned ())

end Preemptive

/-! ## The two semaphore variants side by side -/

/-- One step of a client of the semaphore module: `sem_P` (called by thread
`tc` in the cooperative world and by thread `tp` in the preemptive world),
`sem_V` (`k` is the choice of the condition variable in the preemptive
world), `sem_destroy`, or the cooperative scheduler taking the next thread
off the ready queue (no call of the module). -/
inductive SemCall where
  | P (tc tp : Ptr)
  | V (k : Nat)
  | destroy
  | sched
  deriving DecidableEq, Repr

/-- What is observed of one step: the value of the semaphore after it (`none`
when the semaphore is freed), whether the caller of `sem_P` was blocked,
whether `sem_V` woke a blocked thread, and the result of `sem_destroy`. -/
structure Obs where
  val : Option Int
  blocked : Bool
  woke : Bool
  result : Option Int
  deriving DecidableEq, Repr

/-- One step on the cooperative semaphore `s`.  The caller of `sem_P` was
blocked iff the wait queue of `s` changed; `sem_V` woke a thread iff the ready
queue changed. -/
def coop_call (w : World) (s : Ptr) : SemCall → Option (World × Obs)
  | SemCall.P tc _ => (sem_P w s tc).map fun w' =>
      (w', { val := (w'.sems s).map Sem.val,
             blocked := decide ((w'.sems s).map Sem.queue ≠ (w.sems s).map Sem.queue),
             woke := false, result := none })
  | SemCall.V _ => (sem_V w s).map fun w' =>
      (w', { val := (w'.sems s).map Sem.val, blocked := false,
             woke := decide (w'.ready_queue ≠ w.ready_queue), result := none })
  | SemCall.destroy => (sem_destroy w s).map fun r =>
      (r.1, { val := (r.1.sems s).map Sem.val, blocked := false, woke := false,
              result := some r.2 })
  | SemCall.sched =>
      some (dispatch w, { val := (w.sems s).map Sem.val, blocked := false, woke := false,
                          result := none })

/-- One step on the preemptive semaphore `s`.  The caller of `sem_P` was
blocked iff the call ended in `pthread_cond_wait`; `sem_V` woke a thread iff
the threads blocked on the condition variable changed. -/
def pre_call (w : Preemptive.World) (s : Ptr) : SemCall → Option (Preemptive.World × Obs)
  | SemCall.P _ tp => (Preemptive.sem_P w s tp).map fun r =>
      (r.1, { val := (r.1.sems s).map Preemptive.Sem.val,
              blocked := decide (r.2 = Preemptive.Outcome.waiting),
              woke := false, result := none })
  | SemCall.V k => (Preemptive.sem_V w s k).map fun r =>
      (r.1, { val := (r.1.sems s).map Preemptive.Sem.val, blocked := false,
              woke := decide ((r.1.sems s).map Preemptive.Sem.cond ≠
                (w.sems s).map Preemptive.Sem.cond),
              result := none })
  | SemCall.destroy => (Preemptive.sem_destroy w s).map fun r =>
      (r.1, { val := (r.1.sems s).map Preemptive.Sem.val, blocked := false, woke := false,
              result := match r.2 with
                | Preemptive.Outcome.returned x => some x
                | _ => none })
  | SemCall.sched =>
      some (w, { val := (w.sems s).map Preemptive.Sem.val, blocked := false, woke := false,
                 result := none })

/-- The observations of a sequence of steps on the cooperative semaphore; a
step that is undefined ends the trace with `none`. -/
def coop_trace (w : World) (s : Ptr) : List SemCall → List (Option Obs)
  | [] => []
  | c :: cs =>
    match coop_call w s c with
    | none => [none]
    | some r => some r.2 :: coop_trace r.1 s cs

/-- The observations of a sequence of steps on the preemptive semaphore. -/
def pre_trace (w : Preemptive.World) (s : Ptr) : List SemCall → List (Option Obs)
  | [] => []
  | c :: cs =>
    match pre_call w s c with
    | none => [none]
    | some r => some r.2 :: pre_trace r.1 s cs

/-- The contract of a counting semaphore in the words of the specification,
on the value alone (`none`: the semaphore is destroyed): `sem_P` decrements
and blocks iff the new value is negative, `sem_V` increments and wakes a
thread iff the new value is at most 0, `sem_destroy` fails with -1 iff the
value is negative and else frees the semaphore and returns 1. -/
def contract_call (st : Option Int) : SemCall → Option (Option Int × Obs)
  | SemCall.P _ _ =>
      match st with
      | none => none
      | some v =>
        if v = INT_MIN then none
        else some (some (v - 1), { val := some (v - 1), blocked := decide (v - 1 < 0),
                                   woke := false, result := none })
  | SemCall.V _ =>
      match st with
      | none => none
      | some v =>
        if v = INT_MAX then none
        else some (some (v + 1), { val := some (v + 1), blocked := false,
                                   woke := decide (v + 1 ≤ 0), result := none })
  | SemCall.destroy =>
      match st with
      | none => none
      | some v =>
        if v < 0 then some (some v, { val := some v, blocked := false, woke := false,
                                      result := some (-1) })
        else some (none, { val := none, blocked := false, woke := false, result := some 1 })
  | SemCall.sched => some (st, { val := st, blocked := false, woke := false, result := none })

/-- The observations that the contract prescribes for a sequence of steps. -/
def contract_trace (st : Option Int) : List SemCall → List (Option Obs)
  | [] => []
  | c :: cs =>
    match contract_call st c with
    | none => [none]
    | some r => some r.2 :: contract_trace r.1 cs

/-- The callers of `sem_P` in a sequence of steps on the cooperative
semaphore are running threads at the time of their call. -/
def coop_valid (w : World) (s : Ptr) : List SemCall → Prop
  | [] => True
  | c :: cs =>
    (∀ tc tp, c = SemCall.P tc tp → Running w s tc) ∧
      ∀ r, coop_call w s c = some r → coop_valid r.1 s cs

/-- An empty preemptive world: nothing is allocated, `sem_create` has not been
called yet. -/
def exPW : Preemptive.World :=
  { sems := fun _ => none, sem_mutex := false, firstcall := true }

/-- A sequence of steps: thread 5 blocks in `sem_P`, `sem_destroy` fails,
`sem_V` wakes the thread, `sem_destroy` succeeds, and a further `sem_V` is a
use after free. -/
def exCalls : List SemCall :=
  [SemCall.P 5 5, SemCall.destroy, SemCall.V 0, SemCall.destroy, SemCall.V 0]

/-- The cooperative world `w` realises the state `st` of the contract on the
semaphore `s`: the invariant `SemInv` with that value, or `s` is freed. -/
def coop_rel (w : World) (s : Ptr) : Option Int → Prop
  | some v => ∃ wl rl, SemInv w s v wl rl
  | none => w.sems s = none

/-- The preemptive world `w` realises the state `st` of the contract on the
semaphore `s`: the lock is free and `s` has that value, with as many threads
blocked on its condition variable as the negative range of the value counts;
or `s` is freed. -/
def pre_rel (w : Preemptive.World) (s : Ptr) : Option Int → Prop
  | some v => w.sem_mutex = false ∧
      ∃ cl, w.sems s = some { val := v, cond := cl } ∧ (cl.length : Int) = max 0 (-v)
  | none => w.sem_mutex = false ∧ w.sems s = none

/-! ## Several senders and one receiver on one channel -/

/-- The senders `ts` (each calls `chan_send` once) and a receiver that calls
`chan_receive` once for each of them, on one channel: the memory; for each
sender the number of statements of its `chan_send` already executed; for each
thread whether it is suspended inside a `sem_P` that blocked (until the
scheduler takes it off the ready queue); the number of `chan_receive` calls
that have returned; the number of statements executed of the current
`chan_receive` call; the content of its `*receiveddata`; and the values that
the calls that have returned have delivered, oldest first. -/
structure MSys where
  w : World
  pc : Ptr → Nat
  parked : Ptr → Bool
  rcalls : Nat
  rpc : Nat
  cur : Int
  received : List Int

/-- The atomic actions: the sender `t` or the receiver executes its next
statement, or the scheduler takes the next thread off the ready queue. -/
inductive MAct where
  | send (t : Ptr)
  | recv
  | sched
  deriving DecidableEq, Repr

/-- An action can be taken: a sender that is not suspended and has not
returned, the receiver when it is not suspended and has calls left, the
scheduler when the ready queue is not empty. -/
def menabled (ts : List Ptr) (R : Ptr) (σ : MSys) : MAct → Bool
  | MAct.send t => decide (t ∈ ts) && !σ.parked t && decide (σ.pc t < 5)
  | MAct.recv => !σ.parked R && decide (σ.rcalls < ts.length)
  | MAct.sched => !queue_empty σ.w.ready_queue

/-- The state after a statement of the sender `t`. -/
def after_send (σ : MSys) (t : Ptr) (r : World × Bool) : MSys :=
  { σ with w := r.1, pc := Function.update σ.pc t (σ.pc t + 1),
           parked := Function.update σ.parked t r.2 }

/-- The state after a statement of the receiver `R`; after the third
statement the call returns, delivering the content of `*receiveddata`. -/
def after_recv (σ : MSys) (R : Ptr) (r : World × Int × Bool) : MSys :=
  if σ.rpc = 2 then
    { σ with w := r.1, rcalls := σ.rcalls + 1, rpc := 0, cur := r.2.1,
             received := σ.received ++ [r.2.1], parked := Function.update σ.parked R r.2.2 }
  else
    { σ with w := r.1, rpc := σ.rpc + 1, cur := r.2.1,
             parked := Function.update σ.parked R r.2.2 }

/-- Effect of an action; `R` is the control block of the receiver, `c` the
channel, `x t` the value that sender `t` sends.  `none` is undefined
behaviour of the statement. -/
def mexec (R c : Ptr) (x : Ptr → Int) (σ : MSys) : MAct → Option MSys
  | MAct.send t => (chan_send_step σ.w t c (x t) (σ.pc t)).map (after_send σ t)
  | MAct.recv => (chan_receive_step σ.w R c σ.cur σ.rpc).map (after_recv σ R)
  | MAct.sched =>
      some { σ with w := dispatch σ.w,
                    parked := Function.update σ.parked σ.w.ready_queue.front false }

/-- A schedule: the actions are taken in the order of the list; `none` when
one of them is not enabled or undefined. -/
def mrun (ts : List Ptr) (R c : Ptr) (x : Ptr → Int) (σ : MSys) : List MAct → Option MSys
  | [] => some σ
  | a :: as =>
    if menabled ts R σ a then (mexec R c x σ a).bind fun σ' => mrun ts R c x σ' as else none

/-- The start: every thread is about to execute the first statement of its
first call; `r0` is the unknown initial content of `*receiveddata`. -/
def msys_init (w : World) (r0 : Int) : MSys :=
  { w := w, pc := fun _ => 0, parked := fun _ => false, rcalls := 0, rpc := 0, cur := r0,
    received := [] }

/-- The sender `t` is between its `sem_P(c->send_serialiser)` and its
`sem_V(c->send_serialiser)`: the `sem_P` has returned (one statement executed
and the thread is not suspended in it) and the `sem_V` has not been executed
(at most four statements executed). -/
def inside (σ : MSys) (t : Ptr) : Bool :=
  (σ.pc t == 1 && !σ.parked t) || (decide (2 ≤ σ.pc t) && decide (σ.pc t ≤ 4))

/-- Statements of the sender that holds `send_serialiser`, 0 if none does. -/
def hpc (σ : MSys) (hold : Option Ptr) : Nat :=
  match hold with
  | some h => σ.pc h
  | none => 0

/-- Whether the sender that holds `send_serialiser` is suspended. -/
def hparked (σ : MSys) (hold : Option Ptr) : Bool :=
  match hold with
  | some h => σ.parked h
  | none => false

/-- Value of `send_serialiser`: 1 when no sender holds it, else minus the
number of senders blocked on it. -/
def m_ser_val (hold : Option Ptr) (wl : List Ptr) : Int :=
  if hold.isSome then -(wl.length : Int) else 1

/-- Value of `rblock`: the signal of the holder minus the waits of the
receiver since the holder took `send_serialiser`; `e` is 1 when the receiver
has already returned from the call that serves the holder. -/
def m_rb_val (hp e rpc : Nat) : Int :=
  (if 3 ≤ hp then 1 else 0) - (e : Int) - (if 1 ≤ rpc then 1 else 0)

/-- Value of `sblock`: the signal of the receiver minus the wait of the
holder. -/
def m_sb_val (hp e : Nat) : Int :=
  (e : Int) - (if 4 ≤ hp then 1 else 0)

/-- The thread, if any, that has been woken and waits on the ready queue for
the scheduler. -/
def m_pending (R : Ptr) (σ : MSys) (hold : Option Ptr) (e : Nat) : List Ptr :=
  if σ.parked R = true ∧ 0 ≤ m_rb_val (hpc σ hold) e σ.rpc then [R]
  else if hparked σ hold = true ∧ (hpc σ hold = 1 ∨ 0 ≤ m_sb_val (hpc σ hold) e) then
    hold.toList
  else []

/-- A bound on the actions a sender can still cause: its statements left and
the dispatches after the two `sem_P` that may block it. -/
def sender_potential (pc : Nat) (parked : Bool) : Nat :=
  (5 - pc) + (if pc ≤ 3 then 1 else 0) + (if pc = 0 then 1 else 0) + (if parked then 1 else 0)

/-- A bound on the number of actions still to come: those of the senders,
those of the receiver (three statements and one dispatch for each call), and
the dispatches of the other threads `rest` on the ready queue. -/
def m_potential (ts : List Ptr) (R : Ptr) (σ : MSys) (rest : List Ptr) : Nat :=
  (ts.map fun t => sender_potential (σ.pc t) (σ.parked t)).sum +
    (4 * (ts.length - σ.rcalls) -
      (σ.rpc + if 1 ≤ σ.rpc ∧ σ.parked R = false then 1 else 0)) + rest.length

/-- Three live semaphores `a`, `b`, `c` with values `va`, `vb`, `vc` whose
wait queues hold `la`, `lb`, `lc`, and the ready queue holding `rl`: the
semaphores are distinct and no thread is on two queues. -/
structure Net (w : World) (a b c : Ptr) (va vb vc : Int) (la lb lc rl : List Ptr) : Prop where
  sa : ∃ q, w.sems a = some { val := va, queue := q } ∧ Holds w.next q la
  sb : ∃ q, w.sems b = some { val := vb, queue := q } ∧ Holds w.next q lb
  sc : ∃ q, w.sems c = some { val := vc, queue := q } ∧ Holds w.next q lc
  rq : Holds w.next w.ready_queue rl
  ab : a ≠ b
  ac : a ≠ c
  bc : b ≠ c
  dab : List.Disjoint la lb
  dac : List.Disjoint la lc
  dbc : List.Disjoint lb lc
  dar : List.Disjoint la rl
  dbr : List.Disjoint lb rl
  dcr : List.Disjoint lc rl

/-- The invariant of the system of senders `ts` and receiver `R` on the
channel `c` with semaphores `rb`, `sb`, `ser`.  `doneL` lists the senders
whose call has returned, in the order of their return; `hold` is the sender,
if any, that has been granted `send_serialiser` and has not released it; `wl`
lists the senders blocked on `send_serialiser`; `rest` lists the other
threads on the ready queue; `e` is 1 when the receiver has returned from the
call that serves `hold`. -/
structure SerInv (ts : List Ptr) (R c : Ptr) (x : Ptr → Int) (rb sb ser : Ptr) (σ : MSys)
    (rest doneL wl : List Ptr) (hold : Option Ptr) (e : Nat) : Prop where
  chan : ∃ d, σ.w.chans c =
      some { rblock := rb, sblock := sb, send_serialiser := ser, data := d } ∧
    ∀ h, hold = some h → 2 ≤ σ.pc h → d = x h
  net : Net σ.w ser rb sb (m_ser_val hold wl) (m_rb_val (hpc σ hold) e σ.rpc)
    (m_sb_val (hpc σ hold) e) wl
    (if m_rb_val (hpc σ hold) e σ.rpc < 0 then [R] else [])
    (if m_sb_val (hpc σ hold) e < 0 then hold.toList else [])
    (rest ++ m_pending R σ hold e)
  ts_nd : ts.Nodup
  ts_nz : ∀ t ∈ ts, t ≠ 0
  ts_small : (ts.length : Int) ≤ INT_MAX
  R_nz : R ≠ 0
  R_ts : R ∉ ts
  rest_ts : ∀ t ∈ ts, t ∉ rest
  rest_R : R ∉ rest
  done_nd : doneL.Nodup
  done_ts : ∀ t ∈ doneL, t ∈ ts ∧ σ.pc t = 5 ∧ σ.parked t = false
  wl_ts : ∀ t ∈ wl, t ∈ ts ∧ σ.pc t = 1 ∧ σ.parked t = true
  hold_ok : ∀ h, hold = some h → h ∈ ts ∧ 1 ≤ σ.pc h ∧ σ.pc h ≤ 4 ∧ h ∉ wl ∧
    (σ.parked h = true → σ.pc h = 1 ∨ σ.pc h = 4)
  idle : ∀ t ∈ ts, t ∈ doneL ∨ hold = some t ∨ t ∈ wl ∨ (σ.pc t = 0 ∧ σ.parked t = false)
  wl_hold : hold = none → wl = []
  calls : σ.rcalls = doneL.length + e
  e_le : e ≤ 1
  e_one : e = 1 → 3 ≤ hpc σ hold ∧ σ.rpc ≤ 1
  low : hpc σ hold < 3 → σ.rpc ≤ 1
  rpc_le : σ.rpc ≤ 2
  rcalls_le : σ.rcalls ≤ ts.length
  rcalls_eq : σ.rcalls = ts.length → σ.rpc = 0
  rpark : σ.parked R = true → σ.rpc = 1
  rwait : m_rb_val (hpc σ hold) e σ.rpc < 0 → σ.parked R = true
  swait : m_sb_val (hpc σ hold) e < 0 → hparked σ hold = true
  cur : σ.rpc = 2 → ∀ h, hold = some h → σ.cur = x h
  recd : σ.received = doneL.map x ++ (if e = 1 then hold.toList.map x else [])

/-- The values sent by the two senders of the example: 42 by thread 11, 43 by
thread 13. -/
def exValues (t : Ptr) : Int :=
  if t = 11 then 42 else 43

/-- A schedule of two senders 11 and 13 and the receiver 12: sender 11 runs
until it blocks in `sem_P(c->sblock)`, sender 13 blocks on `send_serialiser`,
the receiver completes its first call, sender 11 is dispatched and returns,
sender 13 is dispatched and runs until it blocks in `sem_P(c->sblock)`, the
receiver completes its second call, sender 13 is dispatched and returns. -/
def exSchedule2 : List MAct :=
  [MAct.send 11, MAct.send 11, MAct.send 11, MAct.send 11, MAct.send 13,
    MAct.recv, MAct.recv, MAct.recv, MAct.sched, MAct.send 11, MAct.sched,
    MAct.send 13, MAct.send 13, MAct.send 13, MAct.recv, MAct.recv, MAct.recv,
    MAct.sched, MAct.send 13]

/-- The state after `exSchedule2` on the channel of `exChan`. -/
def exTrip2 : MSys :=
  (mrun [11, 13] 12 1 exValues (msys_init exChan 0) exSchedule2).getD (msys_init exChan 0)

/-! ## The lock of the preemptive semaphore -/

namespace Preemptive

/-- The second half of a `sem_P` whose caller was blocked, run when the
thread has been unblocked by `pthread_cond_signal`: `pthread_cond_wait`
takes `sem_mutex` again before it returns (the caller is `stuck` while the
lock is held), then `sem_P` unlocks and returns. -/
def sem_P_resume (w : World) : World × Outcome Unit :=
  if w.sem_mutex then (w, Outcome.stuck)
  else (pthread_mutex_unlock (pthread_mutex_lock w), Outcome.returned ())

end Preemptive

/-- The preemptive world after a `sem_create(1)` in `exPW` whose `malloc`
failed. -/
def exPWfailed : Preemptive.World :=
  (Preemptive.sem_create exPW none 1).1

/-! ## Sequences of queue calls that may put an item again -/

/-- True iff every `queue_put` of the sequence is given an item that is not
null and is not on the queue at the time of the call, the queue holding `l`
before the sequence.  An item that a `queue_get` has returned, or that a
`queue_init` has dropped, may be put again. -/
def puts_fresh : List Ptr → List QOp → Bool
  | _, [] => true
  | _, QOp.init :: ops => puts_fresh [] ops
  | l, QOp.put x :: ops => decide (x ≠ 0) && decide (x ∉ l) && puts_fresh (l ++ [x]) ops
  | l, QOp.get :: ops => puts_fresh l.tail ops

/-- Item 1 is put while it is on the queue, then two `queue_get` calls
follow. -/
def exDoublePut : List QOp :=
  [QOp.init, QOp.put 1, QOp.put 1, QOp.get, QOp.get]

/-- Items 1 and 2 are put, 1 is taken and put again behind 2, and both are
taken. -/
def exRequeue : List QOp :=
  [QOp.put 1, QOp.put 2, QOp.get, QOp.put 1, QOp.get, QOp.get]

/-! ## `sem_V` with the arithmetic of the machine -/

/-- The value an `int` holds after the arithmetic result `x` is stored in it
on a two's complement machine of 32 bits: `x` modulo 2^32, taken between
`INT_MIN` and `INT_MAX`. -/
def wrap_int (x : Int) : Int :=
  (x + 2147483648) % 4294967296 - 2147483648

namespace Machine

/-- `sem_V` of src/sem.c where `++s->val` wraps around instead of being
undefined at `INT_MAX`: increment modulo 2^32; when the new value is not
positive move the front of the queue of the semaphore to the back of
`ready_queue`; then yield.  Undefined on a pointer that is not a live
semaphore and when `queue_put` is undefined. -/
def sem_V (w : World) (s : Ptr) : Option World :=
  match w.sems s with
  | none => none
  | some sem =>
    let v := wrap_int (sem.val + 1)
    if v ≤ 0 then
      let r := queue_get w.next sem.queue
      match queue_put w.next w.ready_queue r.2 with
      | none => none
      | some (m, rq) =>
        some (thread_yield
          (set_sem { w with next := m, ready_queue := rq } s (some { val := v, queue := r.1 })))
    else
      some (thread_yield (set_sem w s (some { val := v, queue := sem.queue })))

end Machine

/-- The world after `sem_create(INT_MAX)` in `exW` returned the semaphore at
address 1. -/
def exWmax : World := (sem_create exW (some 1) INT_MAX).1

/-! ## The life of one semaphore handle in both variants -/

/-- One step of a client that keeps one semaphore handle `s`:
`s = sem_create(v)`, the environment offering the address `hint` to `malloc`
(`none`: the allocation fails), or a step `SemCall` on the handle. -/
inductive LifeCall where
  | create (v : Int) (hint : Option Ptr)
  | call (c : SemCall)
  deriving DecidableEq, Repr

/-- What is seen of one step of such a client: `sem_create` returned (a null
pointer or not, with the value found under the returned handle); a step on
the handle, with its observation; the caller is blocked in
`pthread_mutex_lock` on a lock that is held, so the call does not return; or
the step is undefined. -/
inductive LifeObs where
  | created (null : Bool) (val : Option Int)
  | step (o : Obs)
  | stuck
  | undefined
  deriving DecidableEq, Repr

/-- The observations of a sequence of steps of a client of the cooperative
variant whose handle is `h`; `sem_create` assigns the handle; an undefined
step ends the trace. -/
def coop_life (w : World) (h : Ptr) : List LifeCall → List LifeObs
  | [] => []
  | LifeCall.create v hint :: cs =>
    LifeObs.created (decide ((sem_create w hint v).2 = 0))
        (((sem_create w hint v).1.sems (sem_create w hint v).2).map Sem.val) ::
      coop_life (sem_create w hint v).1 (sem_create w hint v).2 cs
  | LifeCall.call c :: cs =>
    match coop_call w h c with
    | none => [LifeObs.undefined]
    | some r => LifeObs.step r.2 :: coop_life r.1 h cs

/-- True iff the step on the preemptive semaphore `s` ends with its caller
blocked in `pthread_mutex_lock`. -/
def pre_stuck (w : Preemptive.World) (s : Ptr) : SemCall → Bool
  | SemCall.P _ tp =>
    decide ((Preemptive.sem_P w s tp).map Prod.snd = some Preemptive.Outcome.stuck)
  | SemCall.V k =>
    decide ((Preemptive.sem_V w s k).map Prod.snd = some Preemptive.Outcome.stuck)
  | SemCall.destroy =>
    decide ((Preemptive.sem_destroy w s).map Prod.snd = some Preemptive.Outcome.stuck)
  | SemCall.sched => false

/-- The observations of a sequence of steps of a client of the preemptive
variant whose handle is `h`.  A `sem_create` that does not return leaves the
handle as it is; the steps after a call that does not return are those of
other threads. -/
def pre_life (w : Preemptive.World) (h : Ptr) : List LifeCall → List LifeObs
  | [] => []
  | LifeCall.create v hint :: cs =>
    match (Preemptive.sem_create w hint v).2 with
    | Preemptive.Outcome.returned p =>
      LifeObs.created (decide (p = 0))
          (((Preemptive.sem_create w hint v).1.sems p).map Preemptive.Sem.val) ::
        pre_life (Preemptive.sem_create w hint v).1 p cs
    | _ => LifeObs.stuck :: pre_life (Preemptive.sem_create w hint v).1 h cs
  | LifeCall.call c :: cs =>
    match pre_call w h c with
    | none => [LifeObs.undefined]
    | some r =>
      (if pre_stuck w h c then LifeObs.stuck else LifeObs.step r.2) :: pre_life r.1 h cs

/-- The contract of the semaphore module in the words of the specification,
on the values alone: `vals p` is the value of the semaphore at address `p`
(`none`: no semaphore there) and `h` the handle of the client.  `create`
fails with a null handle if the value is negative or the allocation fails,
and else gives a new semaphore of that value; the steps on the handle follow
`contract_call`. -/
def contract_life (vals : Ptr → Option Int) (h : Ptr) : List LifeCall → List LifeObs
  | [] => []
  | LifeCall.create v hint :: cs =>
    if v < 0 then LifeObs.created true none :: contract_life vals 0 cs
    else
      match malloc vals hint with
      | none => LifeObs.created true none :: contract_life vals 0 cs
      | some p =>
        LifeObs.created false (some v) :: contract_life (Function.update vals p (some v)) p cs
  | LifeCall.call c :: cs =>
    match contract_call (vals h) c with
    | none => [LifeObs.undefined]
    | some r => LifeObs.step r.2 :: contract_life (Function.update vals h r.1) h cs

/-- True iff no `sem_create` of a non-negative value in the sequence meets a
failing `malloc`, up to the first undefined step. -/
def mallocs_succeed (vals : Ptr → Option Int) (h : Ptr) : List LifeCall → Bool
  | [] => true
  | LifeCall.create v hint :: cs =>
    if v < 0 then mallocs_succeed vals 0 cs
    else
      match malloc vals hint with
      | none => false
      | some p => mallocs_succeed (Function.update vals p (some v)) p cs
  | LifeCall.call c :: cs =>
    match contract_call (vals h) c with
    | none => true
    | some r => mallocs_succeed (Function.update vals h r.1) h cs

/-- The callers of `sem_P` in a sequence of steps of a client of the
cooperative variant are running threads at the time of their call. -/
def life_valid (w : World) (h : Ptr) : List LifeCall → Prop
  | [] => True
  | LifeCall.create v hint :: cs =>
    life_valid (sem_create w hint v).1 (sem_create w hint v).2 cs
  | LifeCall.call c :: cs =>
    (∀ tc tp, c = SemCall.P tc tp → Running w h tc) ∧
      ∀ r, coop_call w h c = some r → life_valid r.1 h cs

/-- True iff the call takes `sem_mutex` in the preemptive variant: every call
of the module but a `sem_create` of a negative value. -/
def takes_lock : LifeCall → Bool
  | LifeCall.create v _ => decide (0 ≤ v)
  | LifeCall.call SemCall.sched => false
  | LifeCall.call _ => true

/-- The cooperative world `w` and the handle `h` realise the values `vals`:
the ready queue is well formed, the heap holds exactly the semaphores of
`vals` with their values, nothing lives at the null address, and the
semaphore under the handle satisfies its invariant. -/
def coop_life_rel (w : World) (h : Ptr) (vals : Ptr → Option Int) : Prop :=
  (∃ rl, Holds w.next w.ready_queue rl) ∧ (∀ p, (w.sems p).map Sem.val = vals p) ∧
    vals 0 = none ∧ coop_rel w h (vals h)

/-- The preemptive world `w` and the handle `h` realise the values `vals`:
the lock is free, the heap holds exactly the semaphores of `vals` with their
values, nothing lives at the null address, and as many threads are blocked on
the semaphore under the handle as its value counts. -/
def pre_life_rel (w : Preemptive.World) (h : Ptr) (vals : Ptr → Option Int) : Prop :=
  (∀ p, (w.sems p).map Preemptive.Sem.val = vals p) ∧ vals 0 = none ∧ pre_rel w h (vals h)

/-- A client whose first `sem_create(1)` meets a failing `malloc`, who then
creates a semaphore of value 0 at address 1 and lets thread 5 call `sem_P`
on it. -/
def exLife : List LifeCall :=
  [LifeCall.create 1 none, LifeCall.create 0 (some 1), LifeCall.call (SemCall.P 5 5)]

/-- A client that creates a semaphore of value 0 at address 1 and runs the
steps `exCalls` on it. -/
def exLifeOk : List LifeCall :=
  LifeCall.create 0 (some 1) :: exCalls.map LifeCall.call

/-! ## Lemmas on the queue -/

@[simp] theorem set_sem_sems_same (w : World) (s : Ptr) (x : Option Sem) :
    (set_sem w s x).sems s = x := by
  simp [set_sem]

theorem set_sem_sems_other (w : World) {s s' : Ptr} (x : Option Sem) (h : s' ≠ s) :
    (set_sem w s x).sems s' = w.sems s' := by
  simp [set_sem, Function.update_noteq h]

@[simp] theorem set_sem_next (w : World) (s : Ptr) (x : Option Sem) :
    (set_sem w s x).next = w.next := rfl

@[simp] theorem set_sem_ready (w : World) (s : Ptr) (x : Option Sem) :
    (set_sem w s x).ready_queue = w.ready_queue := rfl

@[simp] theorem set_sem_chans (w : World) (s : Ptr) (x : Option Sem) :
    (set_sem w s x).chans = w.chans := rfl

@[simp] theorem set_sem_chan_mutex (w : World) (s : Ptr) (x : Option Sem) :
    (set_sem w s x).chan_mutex = w.chan_mutex := rfl

@[simp] theorem set_sem_firstCall (w : World) (s : Ptr) (x : Option Sem) :
    (set_sem w s x).firstCall = w.firstCall := rfl

theorem seg_unique {m : Ptr → Ptr} :
    ∀ {l l' : List Ptr} {p : Ptr}, Seg m p l 0 → Seg m p l' 0 → l = l'
  | [], [], _, _, _ => rfl
  | [], y :: ys, p, h, h' => by
    have h1 : p = 0 := h
    exact absurd (h'.1 ▸ h1) h'.2.1
  | x :: xs, [], p, h, h' => by
    have h1 : p = 0 := h'
    exact absurd (h.1 ▸ h1) h.2.1
  | x :: xs, y :: ys, p, h, h' => by
    have hxy : x = y := h.1.symm.trans h'.1
    subst hxy
    rw [seg_unique h.2.2 h'.2.2]

theorem holds_unique {m : Ptr → Ptr} {q : Queue} {l l' : List Ptr}
    (h : Holds m q l) (h' : Holds m q l') : l = l' :=
  seg_unique h.1 h'.1

theorem holds_nil (m : Ptr → Ptr) : Holds m { front := 0, back := 0 } [] :=
  ⟨rfl, List.nodup_nil, fun _ h => by simp at h⟩

theorem holds_empty_iff {m : Ptr → Ptr} {q : Queue} {l : List Ptr} (h : Holds m q l) :
    queue_empty q = true ↔ l = [] := by
  cases l with
  | nil =>
    have : q.front = 0 := h.1
    simp [queue_empty, this]
  | cons x xs =>
    have h1 : q.front = x := h.1.1
    have h2 : x ≠ 0 := h.1.2.1
    simp [queue_empty, h1, h2]

theorem seg_snoc {m : Ptr → Ptr} {x : Ptr} (hx : x ≠ 0) :
    ∀ {l : List Ptr} {p b : Ptr}, Seg m p l 0 → l.Nodup → x ∉ l → l.getLast? = some b →
      Seg (Function.update (Function.update m x 0) b x) p (l ++ [x]) 0
  | [], _, _, _, _, _, hb => by simp at hb
  | [a], p, b, h, _, hxl, hb => by
    have hab : a = b := by simpa using hb
    subst hab
    have hxa : x ≠ a := fun e => hxl (by simp [e])
    refine ⟨h.1, h.2.1, ?_, hx, ?_⟩
    · simp
    · show Function.update (Function.update m x 0) a x x = 0
      rw [Function.update_noteq hxa, Function.update_same]
  | a :: a2 :: rest, p, b, h, hnd, hxl, hb => by
    have hb2 : (a2 :: rest).getLast? = some b := by
      simpa [List.getLast?_cons_cons] using hb
    have hnd2 : (a2 :: rest).Nodup := (List.nodup_cons.mp hnd).2
    have ha2 : a ∉ a2 :: rest := (List.nodup_cons.mp hnd).1
    have hbmem : b ∈ a2 :: rest := List.mem_of_getLast?_eq_some hb2
    have hab : a ≠ b := fun e => ha2 (e ▸ hbmem)
    have hax : a ≠ x := fun e => hxl (by simp [e])
    have hx2 : x ∉ a2 :: rest := fun hm => hxl (List.mem_cons_of_mem _ hm)
    refine ⟨h.1, h.2.1, ?_⟩
    rw [Function.update_noteq hab, Function.update_noteq hax]
    exact seg_snoc hx h.2.2 hnd2 hx2 hb2

theorem seg_congr {m m' : Ptr → Ptr} :
    ∀ {l : List Ptr} {p e : Ptr}, (∀ y ∈ l, m' y = m y) → Seg m p l e → Seg m' p l e
  | [], _, _, _, h => h
  | x :: xs, p, e, hm, h => by
    refine ⟨h.1, h.2.1, ?_⟩
    rw [hm x (by simp)]
    exact seg_congr (fun y hy => hm y (List.mem_cons_of_mem _ hy)) h.2.2

theorem holds_congr {m m' : Ptr → Ptr} {q : Queue} {l : List Ptr}
    (hm : ∀ y ∈ l, m' y = m y) (h : Holds m q l) : Holds m' q l :=
  ⟨seg_congr hm h.1, h.2.1, h.2.2⟩

theorem seg_ne_zero {m : Ptr → Ptr} :
    ∀ {l : List Ptr} {p e : Ptr}, Seg m p l e → ∀ z ∈ l, z ≠ 0
  | [], _, _, _, z, hz => by simp at hz
  | x :: xs, _, _, h, z, hz => by
    rcases List.mem_cons.mp hz with rfl | hz
    · exact h.2.1
    · exact seg_ne_zero h.2.2 z hz

/-- Effect of `queue_put` on a well-formed queue: the new item is appended,
and only the links of the new item and of the old last item are written. -/
theorem queue_put_holds {m : Ptr → Ptr} {q : Queue} {l : List Ptr} {x : Ptr}
    (h : Holds m q l) (hx : x ≠ 0) (hxl : x ∉ l) :
    ∃ m' q', queue_put m q x = some (m', q') ∧ Holds m' q' (l ++ [x]) ∧
      ∀ y, y ≠ x → y ∉ l → m' y = m y := by
  have hnd : (l ++ [x]).Nodup := by
    rw [List.nodup_append]
    exact ⟨h.2.1, List.nodup_singleton x, by
      intro a ha hax
      have : a = x := by simpa using hax
      exact hxl (this ▸ ha)⟩
  have hlast : ∀ z, (l ++ [x]).getLast? = some z → x = z := by
    intro z hz
    simpa using hz
  cases l with
  | nil =>
    have hf : q.front = 0 := h.1
    refine ⟨Function.update m x 0, { front := x, back := x }, ?_, ⟨?_, hnd, hlast⟩, ?_⟩
    · simp [queue_put, hx, queue_empty, hf]
    · exact ⟨rfl, hx, by simp [Seg]⟩
    · intro y hy _
      exact Function.update_noteq hy _ _
  | cons a as =>
    have hf : q.front = a := h.1.1
    have ha : a ≠ 0 := h.1.2.1
    obtain ⟨b, hb⟩ : ∃ b, (a :: as).getLast? = some b := by
      cases hl : (a :: as).getLast? with
      | none => simp at hl
      | some b => exact ⟨b, rfl⟩
    have hqb : q.back = b := h.2.2 b hb
    have hbm : b ∈ a :: as := List.mem_of_getLast?_eq_some hb
    have hb0 : b ≠ 0 := seg_ne_zero h.1 b hbm
    refine ⟨Function.update (Function.update m x 0) b x, { front := q.front, back := x },
      ?_, ⟨?_, hnd, hlast⟩, ?_⟩
    · simp [queue_put, hx, queue_empty, hf, ha, hqb, hb0]
    · exact seg_snoc hx h.1 h.2.1 hxl hb
    · intro y hy hyl
      have hyb : y ≠ b := fun e => hyl (e ▸ hbm)
      rw [Function.update_noteq hyb, Function.update_noteq hy]

/-- Effect of `queue_get` on a non-empty well-formed queue: the front item is
returned and the rest stays. -/
theorem queue_get_holds {m : Ptr → Ptr} {q : Queue} {l : List Ptr} {x : Ptr}
    (h : Holds m q (x :: l)) :
    (queue_get m q).2 = x ∧ Holds m (queue_get m q).1 l := by
  have hf : q.front = x := h.1.1
  have hx : x ≠ 0 := h.1.2.1
  have hs : Seg m (m x) l 0 := h.1.2.2
  have hnd : l.Nodup := (List.nodup_cons.mp h.2.1).2
  cases l with
  | nil =>
    have h0 : m x = 0 := hs
    simp [queue_get, queue_empty, hf, hx, h0, Holds, Seg]
  | cons y ys =>
    have hy : m x = y := hs.1
    have hy0 : y ≠ 0 := hs.2.1
    have hb : ∀ z, (y :: ys).getLast? = some z → q.back = z := by
      intro z hz
      apply h.2.2 z
      rw [List.getLast?_cons_cons]
      exact hz
    have hs' : Seg m y (y :: ys) 0 := hy ▸ hs
    simp only [queue_get, queue_empty, hf, hy]
    simp [hx, hy0]
    exact ⟨hs', hnd, hb⟩

/-- `queue_get` on an empty queue returns null and changes nothing. -/
theorem queue_get_nil {m : Ptr → Ptr} {q : Queue} (h : Holds m q []) :
    queue_get m q = (q, 0) := by
  have hf : q.front = 0 := h.1
  simp [queue_get, queue_empty, hf]

/-! ## Lemmas on the cooperative semaphore -/

theorem malloc_some {α : Type} {heap : Ptr → Option α} {hint : Option Ptr} {p : Ptr}
    (h : malloc heap hint = some p) : hint = some p ∧ p ≠ 0 ∧ heap p = none := by
  cases hint with
  | none => simp [malloc] at h
  | some a =>
    by_cases ha : a ≠ 0 ∧ (heap a).isNone
    · have hap : a = p := by simpa [malloc, ha] using h
      subst hap
      exact ⟨rfl, ha.1, Option.isNone_iff_eq_none.mp ha.2⟩
    · simp only [malloc, ha, if_false] at h
      cases h

theorem malloc_of_free {α : Type} {heap : Ptr → Option α} {p : Ptr}
    (hp : p ≠ 0) (hfree : heap p = none) : malloc heap (some p) = some p := by
  simp [malloc, hp, hfree]

/-- A successful `sem_create`: the value was not negative, the address was
free, and the new world is the old one with the new semaphore added. -/
theorem sem_create_ok {w0 : World} {hint : Option Ptr} {v : Int} {s : Ptr}
    (hs : (sem_create w0 hint v).2 = s) (hs0 : s ≠ 0) :
    0 ≤ v ∧ w0.sems s = none ∧ hint = some s ∧
      (sem_create w0 hint v).1 =
        set_sem w0 s (some { val := v, queue := { front := 0, back := 0 } }) := by
  by_cases hv : v < 0
  · simp [sem_create, hv] at hs
    exact absurd hs.symm hs0
  · cases hm : malloc w0.sems hint with
    | none =>
      simp [sem_create, hv, hm] at hs
      exact absurd hs.symm hs0
    | some p =>
      have hps : p = s := by simpa [sem_create, hv, hm] using hs
      subst hps
      obtain ⟨h1, _, h3⟩ := malloc_some hm
      refine ⟨not_lt.mp hv, h3, h1, ?_⟩
      simp [sem_create, hv, hm, thread_yield, queue_init]

theorem sem_create_inv {w0 : World} {hint : Option Ptr} {v : Int} {s : Ptr} {rl : List Ptr}
    (hr : Holds w0.next w0.ready_queue rl)
    (hs : (sem_create w0 hint v).2 = s) (hs0 : s ≠ 0) :
    SemInv (sem_create w0 hint v).1 s v [] rl := by
  obtain ⟨hv, _, _, hw⟩ := sem_create_ok hs hs0
  rw [hw]
  refine ⟨⟨{ front := 0, back := 0 }, by simp, holds_nil _⟩, ?_, hr, by simp⟩
  simp [hv]

/-- `sem_P` on a semaphore whose value is positive: the value drops by one,
nothing else changes. -/
theorem sem_P_pass {w : World} {s : Ptr} {v : Int} {wl rl : List Ptr} (t : Ptr)
    (h : SemInv w s v wl rl) (hv : 0 < v) :
    ∃ q, w.sems s = some { val := v, queue := q } ∧
      sem_P w s t = some (set_sem w s (some { val := v - 1, queue := q })) ∧
      wl = [] ∧
      SemInv (set_sem w s (some { val := v - 1, queue := q })) s (v - 1) [] rl := by
  obtain ⟨⟨q, hq, hh⟩, hlen, hr, hd⟩ := h
  have hwl : wl = [] := by
    have : max 0 (-v) = 0 := max_eq_left (by omega)
    rw [this] at hlen
    exact List.length_eq_zero.mp (by exact_mod_cast hlen)
  subst hwl
  have hmin : v ≠ INT_MIN := by
    intro e
    rw [e] at hv
    exact absurd hv (by decide)
  refine ⟨q, hq, ?_, rfl, ⟨q, by simp, hh⟩, ?_, hr, hd⟩
  · have h1 : ¬ (v - 1 < 0) := by omega
    simp [sem_P, hq, hmin, h1, thread_yield]
  · have : max 0 (-(v - 1)) = 0 := max_eq_left (by omega)
    rw [this]
    rfl

/-- `sem_P` by a running thread on a semaphore whose value is not positive:
the value drops by one and the caller is appended to the wait queue. -/
theorem sem_P_block {w : World} {s : Ptr} {v : Int} {wl rl : List Ptr} {t : Ptr}
    (h : SemInv w s v wl rl) (hv : v ≤ 0) (hmin : v ≠ INT_MIN)
    (ht : t ≠ 0) (htw : t ∉ wl) (htr : t ∉ rl) :
    ∃ w', sem_P w s t = some w' ∧ SemInv w' s (v - 1) (wl ++ [t]) rl ∧
      w'.ready_queue = w.ready_queue ∧ w'.chans = w.chans ∧
      (∀ s', s' ≠ s → w'.sems s' = w.sems s') := by
  obtain ⟨⟨q, hq, hh⟩, hlen, hr, hd⟩ := h
  obtain ⟨m', q', hput, hh', hframe⟩ := queue_put_holds hh ht htw
  have h1 : v - 1 < 0 := by omega
  refine ⟨set_sem { set_sem w s (some { val := v - 1, queue := q }) with next := m' } s
      (some { val := v - 1, queue := q' }), ?_, ⟨⟨q', by simp, hh'⟩, ?_, ?_, ?_⟩, rfl, rfl, ?_⟩
  · simp [sem_P, hq, hmin, h1, thread_block_and_switch, hput]
  · have e1 : max 0 (-v) = -v := max_eq_right (by omega)
    have e2 : max 0 (-(v - 1)) = -(v - 1) := max_eq_right (by omega)
    rw [e1] at hlen
    rw [e2]
    simp only [List.length_append, List.length_singleton]
    push_cast
    omega
  · exact holds_congr (fun y hy => hframe y (fun e => htr (e ▸ hy))
      (fun hyw => hd hyw hy)) hr
  · intro a ha har
    rcases List.mem_append.mp ha with ha | ha
    · exact hd ha har
    · have : a = t := by simpa using ha
      exact htr (this ▸ har)
  · intro s' hs'
    simp [set_sem, Function.update_noteq hs']

/-- `sem_V` on a semaphore whose value is negative: the value grows by one and
the front of the wait queue moves to the back of the ready queue. -/
theorem sem_V_wake {w : World} {s : Ptr} {v : Int} {x : Ptr} {wl rl : List Ptr}
    (h : SemInv w s v (x :: wl) rl) :
    ∃ w', sem_V w s = some w' ∧ SemInv w' s (v + 1) wl (rl ++ [x]) ∧
      w'.chans = w.chans ∧ (∀ s', s' ≠ s → w'.sems s' = w.sems s') := by
  obtain ⟨⟨q, hq, hh⟩, hlen, hr, hd⟩ := h
  have hv : v < 0 := by
    by_contra hc
    have : max 0 (-v) = 0 := max_eq_left (by omega)
    rw [this] at hlen
    simp at hlen
    omega
  have hlen' : ((wl.length : Int) + 1) = -v := by
    have e1 : max 0 (-v) = -v := max_eq_right (by omega)
    rw [e1] at hlen
    simpa using hlen
  obtain ⟨hg2, hg1⟩ := queue_get_holds hh
  have hx0 : x ≠ 0 := hh.1.2.1
  have hxr : x ∉ rl := fun hm => hd (List.mem_cons_self x wl) hm
  have hxw : x ∉ wl := (List.nodup_cons.mp hh.2.1).1
  obtain ⟨m', rq', hput, hr', hframe⟩ := queue_put_holds hr hx0 hxr
  have hmax : v ≠ INT_MAX := by
    intro e
    rw [e] at hv
    exact absurd hv (by decide)
  have h1 : v + 1 ≤ 0 := by omega
  refine ⟨set_sem { w with next := m', ready_queue := rq' } s
      (some { val := v + 1, queue := (queue_get w.next q).1 }), ?_,
      ⟨⟨(queue_get w.next q).1, by simp, ?_⟩, ?_, hr', ?_⟩, rfl, ?_⟩
  · simp [sem_V, hq, hmax, h1, hg2, hput, thread_yield]
  · exact holds_congr (fun y hy => hframe y (fun e => hxw (e ▸ hy))
      (fun hyr => hd (List.mem_cons_of_mem _ hy) hyr)) hg1
  · have e2 : max 0 (-(v + 1)) = -(v + 1) := max_eq_right (by omega)
    rw [e2]
    omega
  · intro a ha har
    rcases List.mem_append.mp har with har | har
    · exact hd (List.mem_cons_of_mem _ ha) har
    · have : a = x := by simpa using har
      exact hxw (this ▸ ha)
  · intro s' hs'
    simp [set_sem, Function.update_noteq hs']

/-- `sem_V` on a semaphore whose value is not negative: the value grows by
one, no queue is touched. -/
theorem sem_V_plain {w : World} {s : Ptr} {v : Int} {wl rl : List Ptr}
    (h : SemInv w s v wl rl) (hv : 0 ≤ v) (hmax : v ≠ INT_MAX) :
    ∃ q, w.sems s = some { val := v, queue := q } ∧
      sem_V w s = some (set_sem w s (some { val := v + 1, queue := q })) ∧
      wl = [] ∧
      SemInv (set_sem w s (some { val := v + 1, queue := q })) s (v + 1) [] rl := by
  obtain ⟨⟨q, hq, hh⟩, hlen, hr, hd⟩ := h
  have hwl : wl = [] := by
    have : max 0 (-v) = 0 := max_eq_left (by omega)
    rw [this] at hlen
    exact List.length_eq_zero.mp (by exact_mod_cast hlen)
  subst hwl
  refine ⟨q, hq, ?_, rfl, ⟨q, by simp, hh⟩, ?_, hr, hd⟩
  · have h1 : ¬ (v + 1 ≤ 0) := by omega
    simp [sem_V, hq, hmax, h1, thread_yield]
  · have : max 0 (-(v + 1)) = 0 := max_eq_left (by omega)
    rw [this]
    rfl

/-- The scheduler taking a thread off the ready queue keeps the invariant. -/
theorem dispatch_inv {w : World} {s : Ptr} {v : Int} {wl rl : List Ptr}
    (h : SemInv w s v wl rl) : SemInv (dispatch w) s v wl rl.tail := by
  obtain ⟨hs, hlen, hr, hd⟩ := h
  refine ⟨hs, hlen, ?_, fun a ha har => hd ha (List.mem_of_mem_tail har)⟩
  cases rl with
  | nil =>
    show Holds w.next (queue_get w.next w.ready_queue).1 []
    rw [queue_get_nil hr]
    exact hr
  | cons x xs => exact (queue_get_holds hr).2

/-- Every reachable state of a semaphore satisfies the invariant. -/
theorem semreach_inv {s : Ptr} {w : World} (h : SemReach s w) :
    ∃ v wl rl, SemInv w s v wl rl := by
  induction h with
  | create w0 hint v hr hs hs0 =>
    obtain ⟨rl, hr⟩ := hr
    exact ⟨v, [], rl, sem_create_inv hr hs hs0⟩
  | @P w w' t _ hrun hP ih =>
    obtain ⟨v, wl, rl, hinv⟩ := ih
    have hinv0 := hinv
    obtain ⟨⟨q, hq, hh⟩, -, hr, -⟩ := hinv0
    have htw : t ∉ wl := hrun.2.2 _ wl hq hh
    have htr : t ∉ rl := hrun.2.1 rl hr
    by_cases hv : 0 < v
    · obtain ⟨q', hq', hP', -, hinv'⟩ := sem_P_pass t hinv hv
      rw [hP'] at hP
      cases hP
      exact ⟨v - 1, [], rl, hinv'⟩
    · have hmin : v ≠ INT_MIN := by
        intro e
        simp [sem_P, hq, e] at hP
      obtain ⟨w'', hP', hinv', -⟩ := sem_P_block hinv (not_lt.mp hv) hmin hrun.1 htw htr
      rw [hP'] at hP
      cases hP
      exact ⟨v - 1, wl ++ [t], rl, hinv'⟩
  | @V w w' _ hV ih =>
    obtain ⟨v, wl, rl, hinv⟩ := ih
    by_cases hv : 0 ≤ v
    · have hq0 := hinv.1
      obtain ⟨q, hq, -⟩ := hq0
      have hmax : v ≠ INT_MAX := by
        intro e
        simp [sem_V, hq, e] at hV
      obtain ⟨q', hq', hV', -, hinv'⟩ := sem_V_plain hinv hv hmax
      rw [hV'] at hV
      cases hV
      exact ⟨v + 1, [], rl, hinv'⟩
    · cases wl with
      | nil =>
        have hlen := hinv.2.1
        have : max 0 (-v) = -v := max_eq_right (by omega)
        rw [this] at hlen
        simp at hlen
        omega
      | cons x xs =>
        obtain ⟨w'', hV', hinv', -⟩ := sem_V_wake hinv
        rw [hV'] at hV
        cases hV
        exact ⟨v + 1, xs, rl ++ [x], hinv'⟩
  | sched _ ih =>
    obtain ⟨v, wl, rl, hinv⟩ := ih
    exact ⟨v, wl, rl.tail, dispatch_inv hinv⟩

theorem holds_of_front_zero {m : Ptr → Ptr} {q : Queue} {l : List Ptr}
    (hq : q.front = 0) (h : Holds m q l) : l = [] :=
  (holds_empty_iff h).mp (by simp [queue_empty, hq])

theorem running_of_empty {w : World} {s t : Ptr} (ht : t ≠ 0)
    (hr : w.ready_queue.front = 0) (hs : ∀ sem, w.sems s = some sem → sem.queue.front = 0) :
    Running w s t := by
  refine ⟨ht, fun l hl => ?_, fun sem l hsem hl => ?_⟩
  · rw [holds_of_front_zero hr hl]
    simp
  · rw [holds_of_front_zero (hs sem hsem) hl]
    simp

theorem exW1_reach : SemReach 1 exW1 :=
  SemReach.create exW (some 1) 0 ⟨[], holds_nil _⟩ rfl (by decide)

theorem exW1_running (t : Ptr) (ht : t ≠ 0) : Running exW1 1 t := by
  refine running_of_empty ht rfl ?_
  intro sem hsem
  have e : some sem = some { val := 0, queue := { front := 0, back := 0 } } :=
    hsem.symm.trans rfl
  cases e
  rfl

theorem exW2_reach : SemReach 1 exW2 :=
  SemReach.P 5 exW1_reach (exW1_running 5 (by decide)) rfl

theorem exW3_reach : SemReach 1 exW3 :=
  SemReach.V exW2_reach rfl

/-- In a state satisfying the invariant `sem_V` is defined unless the
increment overflows, and `sem_P` by a running thread is defined unless the
decrement overflows. -/
theorem seminv_defined {w : World} {s : Ptr} {v : Int} {wl rl : List Ptr}
    (h : SemInv w s v wl rl) :
    (v ≠ INT_MAX → ∃ w', sem_V w s = some w') ∧
    (∀ t, Running w s t → v ≠ INT_MIN → ∃ w', sem_P w s t = some w') := by
  constructor
  · intro hmax
    by_cases hv : 0 ≤ v
    · obtain ⟨q, -, hV, -, -⟩ := sem_V_plain h hv hmax
      exact ⟨_, hV⟩
    · cases wl with
      | nil =>
        have hlen := h.2.1
        have : max 0 (-v) = -v := max_eq_right (by omega)
        rw [this] at hlen
        simp at hlen
        omega
      | cons x xs =>
        obtain ⟨w', hV, -⟩ := sem_V_wake h
        exact ⟨w', hV⟩
  · intro t hrun hmin
    obtain ⟨⟨q, hq, hh⟩, -, hr, -⟩ := id h
    by_cases hv : 0 < v
    · obtain ⟨q', -, hP, -, -⟩ := sem_P_pass t h hv
      exact ⟨_, hP⟩
    · obtain ⟨w', hP, -⟩ := sem_P_block h (not_lt.mp hv) hmin hrun.1
        (hrun.2.2 _ wl hq hh) (hrun.2.1 rl hr)
      exact ⟨w', hP⟩

/-- The invariant read off a semaphore record: in any state satisfying
`SemInv` the queue of the record holds `wl` and the counter matches. -/
theorem seminv_sem {w : World} {s : Ptr} {v : Int} {wl rl : List Ptr}
    (h : SemInv w s v wl rl) :
    ∃ sem, w.sems s = some sem ∧ sem.val = v ∧ Holds w.next sem.queue wl ∧
      (wl.length : Int) = max 0 (-sem.val) := by
  obtain ⟨⟨q, hq, hh⟩, hlen, -, -⟩ := h
  exact ⟨_, hq, rfl, hh, hlen⟩

/-- `sem_P` on a positive semaphore takes the `thread_yield` branch. -/
theorem sem_P_of_pos {w : World} {s : Ptr} {v : Int} {q : Queue} (t : Ptr)
    (h : w.sems s = some { val := v, queue := q }) (hv : 0 < v) :
    sem_P w s t = some (thread_yield (set_sem w s (some { val := v - 1, queue := q }))) := by
  have hmin : v ≠ INT_MIN := by
    intro e
    rw [e] at hv
    exact absurd hv (by decide)
  have h1 : ¬ (v - 1 < 0) := by omega
  simp [sem_P, h, hmin, h1]

/-- `sem_P` on a semaphore that is not positive takes the
`thread_block_and_switch` branch. -/
theorem sem_P_of_nonpos {w : World} {s : Ptr} {v : Int} {q : Queue} (t : Ptr)
    (h : w.sems s = some { val := v, queue := q }) (hv : v ≤ 0) (hmin : v ≠ INT_MIN) :
    sem_P w s t =
      thread_block_and_switch (set_sem w s (some { val := v - 1, queue := q })) s t := by
  have h1 : v - 1 < 0 := by omega
  simp [sem_P, h, hmin, h1]

/-- As long as the value stays non-negative, successive `sem_P` calls only
count the value down. -/
theorem sem_P_calls_pos (s : Ptr) (q : Queue) :
    ∀ (ts : List Ptr) (w : World) (v : Int), w.sems s = some { val := v, queue := q } →
      (ts.length : Int) ≤ v →
      ∃ w', sem_P_calls w s ts = some w' ∧
        w'.sems s = some { val := v - ts.length, queue := q } ∧
        w'.next = w.next ∧ w'.ready_queue = w.ready_queue
  | [], w, v, h, _ => ⟨w, rfl, by simpa using h, rfl, rfl⟩
  | t :: ts, w, v, h, hl => by
    have hl' : (ts.length : Int) + 1 ≤ v := by simpa using hl
    have hv : 0 < v := by omega
    have hstep := sem_P_of_pos t h hv
    obtain ⟨w', hw', hs', hn', hr'⟩ := sem_P_calls_pos s q ts
      (thread_yield (set_sem w s (some { val := v - 1, queue := q }))) (v - 1)
      (by simp [thread_yield]) (by omega)
    refine ⟨w', ?_, ?_, ?_, ?_⟩
    · simp [sem_P_calls, hstep, hw']
    · rw [hs']
      simp only [List.length_cons]
      push_cast
      congr 2
      omega
    · rw [hn']
      rfl
    · rw [hr']
      rfl

/-- Blocking calls queue up: from a state whose value is not positive, the
`sem_P` calls of distinct running threads append the callers to the wait
queue in the order of the calls. -/
theorem sem_P_calls_block {s : Ptr} {rl : List Ptr} :
    ∀ (ts : List Ptr) (w wb : World) (v : Int) (l0 : List Ptr), SemInv w s v l0 rl → v ≤ 0 →
      ts.Nodup → (∀ t ∈ ts, t ≠ 0 ∧ t ∉ l0 ∧ t ∉ rl) → sem_P_calls w s ts = some wb →
      SemInv wb s (v - ts.length) (l0 ++ ts) rl
  | [], w, wb, v, l0, h, _, _, _, hP => by
    have e : w = wb := by simpa [sem_P_calls] using hP
    subst e
    simpa using h
  | t :: ts, w, wb, v, l0, h, hv, hnd, hrun, hP => by
    obtain ⟨q, hq, -⟩ := h.1
    have hmin : v ≠ INT_MIN := by
      intro e
      simp [sem_P_calls, sem_P, hq, e] at hP
    obtain ⟨ht0, htl, htr⟩ := hrun t (by simp)
    obtain ⟨w', hw', hinv', -⟩ := sem_P_block h hv hmin ht0 htl htr
    have hP' : sem_P_calls w' s ts = some wb := by
      simpa [sem_P_calls, hw'] using hP
    have hnd' := List.nodup_cons.mp hnd
    have hrun' : ∀ t' ∈ ts, t' ≠ 0 ∧ t' ∉ l0 ++ [t] ∧ t' ∉ rl := by
      intro t' ht'
      obtain ⟨a, b, c⟩ := hrun t' (List.mem_cons_of_mem _ ht')
      refine ⟨a, ?_, c⟩
      intro hm
      rcases List.mem_append.mp hm with hm | hm
      · exact b hm
      · have : t' = t := by simpa using hm
        exact hnd'.1 (this ▸ ht')
    have := sem_P_calls_block ts w' wb (v - 1) (l0 ++ [t]) hinv' (by omega) hnd'.2 hrun' hP'
    have e1 : v - 1 - (ts.length : Int) = v - ((t :: ts).length : Int) := by
      simp only [List.length_cons]
      push_cast
      omega
    have e2 : l0 ++ [t] ++ ts = l0 ++ t :: ts := by simp
    rw [e1, e2] at this
    exact this

/-- The next `k` calls of `sem_V` move the first `k` blocked threads, in
their order, to the back of the ready queue. -/
theorem sem_V_calls_wake {s : Ptr} :
    ∀ (k : Nat) (w : World) (v : Int) (wl rl : List Ptr), SemInv w s v wl rl → k ≤ wl.length →
      ∃ wk, sem_V_calls w s k = some wk ∧
        SemInv wk s (v + k) (wl.drop k) (rl ++ wl.take k)
  | 0, w, v, wl, rl, h, _ => ⟨w, rfl, by simpa using h⟩
  | k + 1, w, v, wl, rl, h, hk => by
    cases wl with
    | nil => simp at hk
    | cons x l =>
      obtain ⟨w', hw', hinv', -⟩ := sem_V_wake h
      obtain ⟨wk, hwk, hinvk⟩ := sem_V_calls_wake k w' (v + 1) l (rl ++ [x]) hinv'
        (by simpa using hk)
      refine ⟨wk, by simp [sem_V_calls, hw', hwk], ?_⟩
      have e1 : v + 1 + (k : Int) = v + ((k + 1 : Nat) : Int) := by
        push_cast
        omega
      have e2 : rl ++ [x] ++ List.take k l = rl ++ List.take (k + 1) (x :: l) := by simp
      have e3 : List.drop k l = List.drop (k + 1) (x :: l) := by simp
      rw [e1, e2, e3] at hinvk
      exact hinvk

/-! ## Lemmas on the channel -/

@[simp] theorem set_chan_chans_same (w : World) (c : Ptr) (x : Option Chan) :
    (set_chan w c x).chans c = x := by
  simp [set_chan]

theorem set_chan_chans_other (w : World) {c c' : Ptr} (x : Option Chan) (h : c' ≠ c) :
    (set_chan w c x).chans c' = w.chans c' := by
  simp [set_chan, Function.update_noteq h]

@[simp] theorem set_chan_sems (w : World) (c : Ptr) (x : Option Chan) :
    (set_chan w c x).sems = w.sems := rfl

@[simp] theorem set_chan_next (w : World) (c : Ptr) (x : Option Chan) :
    (set_chan w c x).next = w.next := rfl

@[simp] theorem set_chan_ready (w : World) (c : Ptr) (x : Option Chan) :
    (set_chan w c x).ready_queue = w.ready_queue := rfl

@[simp] theorem set_chan_chan_mutex (w : World) (c : Ptr) (x : Option Chan) :
    (set_chan w c x).chan_mutex = w.chan_mutex := rfl

@[simp] theorem set_chan_firstCall (w : World) (c : Ptr) (x : Option Chan) :
    (set_chan w c x).firstCall = w.firstCall := rfl

@[simp] theorem set_chan_set_chan (w : World) (c : Ptr) (x y : Option Chan) :
    set_chan (set_chan w c x) c y = set_chan w c y := by
  simp [set_chan]

theorem set_chan_self {w : World} {c : Ptr} {x : Option Chan} (h : w.chans c = x) :
    set_chan w c x = w := by
  apply World.ext <;> simp [set_chan, ← h]

@[simp] theorem set_sem_set_sem (w : World) (s : Ptr) (x y : Option Sem) :
    set_sem (set_sem w s x) s y = set_sem w s y := by
  simp [set_sem]

@[simp] theorem set_sem_set_chan (w : World) (s c : Ptr) (x : Option Sem) (y : Option Chan) :
    set_sem (set_chan w c y) s x = set_chan (set_sem w s x) c y := rfl

/-- The two outcomes of `sem_create` for a non-negative value. -/
theorem sem_create_cases (w : World) (hint : Option Ptr) {v : Int} (hv : 0 ≤ v) :
    sem_create w hint v = (w, 0) ∨
    ∃ s, s ≠ 0 ∧ w.sems s = none ∧ hint = some s ∧
      sem_create w hint v =
        (set_sem w s (some { val := v, queue := { front := 0, back := 0 } }), s) := by
  have hv' : ¬ v < 0 := not_lt.mpr hv
  cases hm : malloc w.sems hint with
  | none => left; simp [sem_create, hv', hm]
  | some s =>
    obtain ⟨h1, h2, h3⟩ := malloc_some hm
    right
    exact ⟨s, h2, h3, h1, by simp [sem_create, hv', hm, thread_yield, queue_init]⟩

theorem set_sem_sems_none_iff {w : World} {s s' : Ptr} {x : Sem} :
    (set_sem w s (some x)).sems s' = none ↔ s' ≠ s ∧ w.sems s' = none := by
  by_cases h : s' = s
  · subst h
    simp
  · simp [set_sem_sems_other w _ h, h]

/-- What `chan_create_alloc` returns when its execution is defined: either
null with the world as before, or a fresh channel with three fresh, pairwise
distinct semaphores of values 0 (`sblock`), 0 (`rblock`) and 1
(`send_serialiser`), empty queues, and `data` 0. -/
theorem chan_create_alloc_spec {w r : World} {o : List (Option Ptr)} {c : Ptr}
    (h : chan_create_alloc w o = some (r, c)) :
    (c = 0 ∧ r = w) ∨
    (c ≠ 0 ∧ w.chans c = none ∧ ∃ sb rb ss, sb ≠ 0 ∧ rb ≠ 0 ∧ ss ≠ 0 ∧
      w.sems sb = none ∧ w.sems rb = none ∧ w.sems ss = none ∧
      sb ≠ rb ∧ sb ≠ ss ∧ rb ≠ ss ∧
      r = set_chan (set_sem (set_sem (set_sem w
            sb (some { val := 0, queue := { front := 0, back := 0 } }))
            rb (some { val := 0, queue := { front := 0, back := 0 } }))
            ss (some { val := 1, queue := { front := 0, back := 0 } }))
          c (some { rblock := rb, sblock := sb, send_serialiser := ss, data := 0 })) := by
  unfold chan_create_alloc at h
  cases hm : malloc w.chans (oracle_hd o) with
  | none =>
    simp [hm] at h
    exact Or.inl ⟨h.2.symm, h.1.symm⟩
  | some c' =>
    obtain ⟨ho0, hc0, hcfree⟩ := malloc_some hm
    simp only [hm] at h
    rcases sem_create_cases (set_chan w c' (some (w.chan_junk c'))) (oracle_hd o.tail)
        (le_refl 0) with h1 | ⟨sb, hsb0, hsbf, ho1, h1⟩
    · rw [h1] at h
      simp [chan_store, free_chan] at h
      left
      refine ⟨h.2.symm, ?_⟩
      rw [← h.1]
      exact set_chan_self hcfree
    · rw [h1] at h
      simp only [chan_store, set_chan_chans_same, Option.some_bind, hsb0, if_false,
        set_chan_set_chan, set_sem_set_chan] at h
      rcases sem_create_cases (set_chan (set_sem w sb (some ⟨0, ⟨0, 0⟩⟩)) c'
          (some ⟨(w.chan_junk c').rblock, sb, (w.chan_junk c').send_serialiser,
            (w.chan_junk c').data⟩)) (oracle_hd o.tail.tail) (le_refl 0) with
        h2 | ⟨rb, hrb0, hrbf, ho2, h2⟩
      · rw [h2] at h
        simp [free_chan] at h
      · rw [h2] at h
        simp only [chan_store, set_chan_chans_same, Option.some_bind, hrb0, if_false,
          set_chan_set_chan, set_sem_set_chan] at h
        rcases sem_create_cases (set_chan (set_sem (set_sem w sb (some ⟨0, ⟨0, 0⟩⟩)) rb
            (some ⟨0, ⟨0, 0⟩⟩)) c' (some ⟨rb, sb, (w.chan_junk c').send_serialiser,
            (w.chan_junk c').data⟩)) (oracle_hd o.tail.tail.tail)
            (by decide : (0 : Int) ≤ 1) with h3 | ⟨ss, hss0, hssf, ho3, h3⟩
        · rw [h3] at h
          simp [free_chan] at h
        · rw [h3] at h
          simp only [chan_store, set_chan_chans_same, Option.some_bind, hss0, if_false,
            set_chan_set_chan, set_sem_set_chan] at h
          have hr : r = _ := (congrArg Prod.fst (Option.some.inj h)).symm
          have hc : c = c' := (congrArg Prod.snd (Option.some.inj h)).symm
          subst hc
          simp only [set_chan_sems] at hsbf hrbf hssf
          obtain ⟨hrs, hrbf'⟩ := set_sem_sems_none_iff.mp hrbf
          obtain ⟨hsr, hssf'⟩ := set_sem_sems_none_iff.mp hssf
          obtain ⟨hss, hssf''⟩ := set_sem_sems_none_iff.mp hssf'
          right
          exact ⟨hc0, hcfree, sb, rb, ss, hsb0, hrb0, hss0, hsbf, hrbf', hssf'',
            fun e => hrs e.symm, fun e => hss e.symm, fun e => hsr e.symm, hr⟩

/-- `sem_create` at a free non-null address succeeds. -/
theorem sem_create_fresh {w : World} {s : Ptr} {v : Int} (hv : 0 ≤ v) (hs : s ≠ 0)
    (hfree : w.sems s = none) :
    sem_create w (some s) v =
      (set_sem w s (some { val := v, queue := { front := 0, back := 0 } }), s) := by
  have hv' : ¬ v < 0 := not_lt.mpr hv
  simp [sem_create, hv', malloc_of_free hs hfree, thread_yield, queue_init]

/-- With fresh addresses on offer every allocation of `chan_create_alloc`
succeeds and the new channel is returned. -/
theorem chan_create_alloc_fresh {w : World} {c sb rb ss : Ptr} (rest : List (Option Ptr))
    (hc : c ≠ 0) (hcf : w.chans c = none)
    (hsb : sb ≠ 0) (hrb : rb ≠ 0) (hss : ss ≠ 0)
    (hsbf : w.sems sb = none) (hrbf : w.sems rb = none) (hssf : w.sems ss = none)
    (h1 : sb ≠ rb) (h2 : sb ≠ ss) (h3 : rb ≠ ss) :
    chan_create_alloc w (some c :: some sb :: some rb :: some ss :: rest) =
      some (set_chan (set_sem (set_sem (set_sem w
            sb (some { val := 0, queue := { front := 0, back := 0 } }))
            rb (some { val := 0, queue := { front := 0, back := 0 } }))
            ss (some { val := 1, queue := { front := 0, back := 0 } }))
          c (some { rblock := rb, sblock := sb, send_serialiser := ss, data := 0 }), c) := by
  have e1 : sem_create (set_chan w c (some (w.chan_junk c))) (some sb) 0 = _ :=
    sem_create_fresh (le_refl 0) hsb (by simpa using hsbf)
  have e2 : sem_create (set_chan (set_sem w sb (some ⟨0, ⟨0, 0⟩⟩)) c
      (some ⟨(w.chan_junk c).rblock, sb, (w.chan_junk c).send_serialiser,
        (w.chan_junk c).data⟩)) (some rb) 0 = _ :=
    sem_create_fresh (le_refl 0) hrb
      (by simpa using set_sem_sems_none_iff.mpr ⟨fun e => h1 e.symm, hrbf⟩)
  have e3 : sem_create (set_chan (set_sem (set_sem w sb (some ⟨0, ⟨0, 0⟩⟩)) rb
      (some ⟨0, ⟨0, 0⟩⟩)) c (some ⟨rb, sb, (w.chan_junk c).send_serialiser,
        (w.chan_junk c).data⟩)) (some ss) 1 = _ :=
    sem_create_fresh (by decide) hss
      (by simpa using set_sem_sems_none_iff.mpr ⟨fun e => h3 e.symm,
        set_sem_sems_none_iff.mpr ⟨fun e => h2 e.symm, hssf⟩⟩)
  simp only [chan_create_alloc, oracle_hd, List.tail_cons, malloc_of_free hc hcf, e1,
    chan_store, set_chan_chans_same, Option.some_bind, hsb, if_false, set_chan_set_chan,
    set_sem_set_chan, e2, hrb, e3, hss]

theorem sem_destroy_empty {w : World} {s : Ptr} {a : Sem} (h : w.sems s = some a)
    (he : queue_empty a.queue = true) : sem_destroy w s = some (set_sem w s none, 1) := by
  simp [sem_destroy, h, he]

theorem sem_destroy_nonempty {w : World} {s : Ptr} {a : Sem} (h : w.sems s = some a)
    (he : queue_empty a.queue = false) : sem_destroy w s = some (w, -1) := by
  simp [sem_destroy, h, he]

/-- `sem_V` on a semaphore whose value is not negative only counts up. -/
theorem sem_V_of_nonneg {w : World} {s : Ptr} {v : Int} {q : Queue}
    (h : w.sems s = some { val := v, queue := q }) (hv : 0 ≤ v) (hmax : v ≠ INT_MAX) :
    sem_V w s = some (set_sem w s (some { val := v + 1, queue := q })) := by
  have h1 : ¬ (v + 1 ≤ 0) := by omega
  simp [sem_V, h, hmax, h1, thread_yield]

/-- Destroying the spare channel: with the spare semaphores that are still to
be destroyed live and without waiters, `destroy_spare` frees them and the
spare struct. -/
theorem destroy_spare_ok {w : World} {b rb' sb' ss' : Ptr} {d : Int} (k : Nat)
    (hb : w.chans b = some { rblock := rb', sblock := sb', send_serialiser := ss', data := d })
    (hrb : k = 0 → ∃ v, w.sems rb' = some { val := v, queue := { front := 0, back := 0 } })
    (hsb : k ≤ 1 → ∃ v, w.sems sb' = some { val := v, queue := { front := 0, back := 0 } })
    (hss : ∃ v, w.sems ss' = some { val := v, queue := { front := 0, back := 0 } })
    (h1 : sb' ≠ rb') (h2 : ss' ≠ sb') (h3 : ss' ≠ rb') :
    destroy_spare w b k = some (free_chan
      (set_sem (if k ≤ 1 then set_sem (if k = 0 then set_sem w rb' none else w) sb' none
        else w) ss' none) b) := by
  obtain ⟨v3, hss⟩ := hss
  by_cases hk0 : k = 0
  · obtain ⟨v1, hrb1⟩ := hrb hk0
    obtain ⟨v2, hsb1⟩ := hsb (by omega)
    subst hk0
    simp [destroy_spare, hb, sem_destroy, hrb1, queue_empty, set_sem_sems_other, h1, h2, h3,
      hsb1, hss]
  · by_cases hk1 : k ≤ 1
    · obtain ⟨v2, hsb1⟩ := hsb hk1
      simp [destroy_spare, hb, sem_destroy, queue_empty, set_sem_sems_other, h1, h2, h3,
        hsb1, hss, hk0, hk1]
    · simp [destroy_spare, hb, sem_destroy, queue_empty, set_sem_sems_other, h1, h2, h3,
        hss, hk0, hk1]


/-- Lines 88-93 of chan.c on a world in which the spare channel is complete. -/
theorem chan_destroy_fail1_eq {u : World} {b rb' sb' ss' m : Ptr} {d v : Int} {q : Queue}
    (hb : u.chans b = some { rblock := rb', sblock := sb', send_serialiser := ss', data := d })
    (hrb : ∃ v, u.sems rb' = some { val := v, queue := { front := 0, back := 0 } })
    (hsb : ∃ v, u.sems sb' = some { val := v, queue := { front := 0, back := 0 } })
    (hss : ∃ v, u.sems ss' = some { val := v, queue := { front := 0, back := 0 } })
    (h1 : sb' ≠ rb') (h2 : ss' ≠ sb') (h3 : ss' ≠ rb')
    (hm : u.chan_mutex = m) (hms : u.sems m = some { val := v, queue := q })
    (hv : 0 ≤ v) (hmax : v ≠ INT_MAX) (m1 : m ≠ rb') (m2 : m ≠ sb') (m3 : m ≠ ss') :
    chan_destroy_fail1 u b =
      some (set_sem (free_chan (set_sem (set_sem (set_sem u rb' none) sb' none) ss' none) b)
        m (some { val := v + 1, queue := q }), some (-1)) := by
  have hds := destroy_spare_ok 0 hb (fun _ => hrb) (fun _ => hsb) hss h1 h2 h3
  simp only [Nat.zero_le, if_true] at hds
  have hV : sem_V (free_chan (set_sem (set_sem (set_sem u rb' none) sb' none) ss' none) b) m =
      _ := sem_V_of_nonneg (q := q) (by
        simp [free_chan, set_sem_sems_other, hms, m1, m2, m3]) hv hmax
  simp only [chan_destroy_fail1, hds, Option.some_bind, free_chan, set_chan_chan_mutex,
    set_sem_chan_mutex, hm]
  simp only [free_chan] at hV
  rw [hV]
  rfl


/-- Lines 97-102 of chan.c on a world in which the spare channel is complete
and `c` is a live channel. -/
theorem chan_destroy_fail2_eq {u : World} {c b rb' sb' ss' m : Ptr} {d v : Int} {q : Queue}
    {ch : Chan} (hc : u.chans c = some ch) (hcb : c ≠ b)
    (hb : u.chans b = some { rblock := rb', sblock := sb', send_serialiser := ss', data := d })
    (hsb : ∃ v, u.sems sb' = some { val := v, queue := { front := 0, back := 0 } })
    (hss : ∃ v, u.sems ss' = some { val := v, queue := { front := 0, back := 0 } })
    (h1 : sb' ≠ rb') (h2 : ss' ≠ sb') (h3 : ss' ≠ rb')
    (hm : u.chan_mutex = m) (hms : u.sems m = some { val := v, queue := q })
    (hv : 0 ≤ v) (hmax : v ≠ INT_MAX) (m2 : m ≠ sb') (m3 : m ≠ ss') :
    chan_destroy_fail2 u c b =
      some (set_sem (free_chan (set_sem (set_sem
          (set_chan u c (some { ch with rblock := rb' })) sb' none) ss' none) b)
        m (some { val := v + 1, queue := q }), some (-1)) := by
  have hb' : (set_chan u c (some { ch with rblock := rb' })).chans b = _ :=
    (set_chan_chans_other u _ (Ne.symm hcb)).trans hb
  have hds := destroy_spare_ok 1 hb' (fun e => absurd e (by decide)) (fun _ => hsb) hss h1 h2 h3
  simp only [le_refl, if_true, one_ne_zero, if_false] at hds
  have hV : sem_V (free_chan (set_sem (set_sem
      (set_chan u c (some { ch with rblock := rb' })) sb' none) ss' none) b) m = _ :=
    sem_V_of_nonneg (q := q) (by simp [free_chan, set_sem_sems_other, hms, m2, m3]) hv hmax
  simp only [chan_destroy_fail2, hb, Option.some_bind, chan_store, hc, hds, free_chan,
    set_chan_chan_mutex, set_sem_chan_mutex, hm]
  simp only [free_chan] at hV
  rw [hV]
  rfl

/-- Lines 107-112 of chan.c on a world in which the spare channel is complete
and `c` is a live channel. -/
theorem chan_destroy_fail3_eq {u : World} {c b rb' sb' ss' m : Ptr} {d v : Int} {q : Queue}
    {ch : Chan} (hc : u.chans c = some ch) (hcb : c ≠ b)
    (hb : u.chans b = some { rblock := rb', sblock := sb', send_serialiser := ss', data := d })
    (hss : ∃ v, u.sems ss' = some { val := v, queue := { front := 0, back := 0 } })
    (h1 : sb' ≠ rb') (h2 : ss' ≠ sb') (h3 : ss' ≠ rb')
    (hm : u.chan_mutex = m) (hms : u.sems m = some { val := v, queue := q })
    (hv : 0 ≤ v) (hmax : v ≠ INT_MAX) (m3 : m ≠ ss') :
    chan_destroy_fail3 u c b =
      some (set_sem (free_chan (set_sem
          (set_chan u c (some { ch with rblock := rb', sblock := sb' })) ss' none) b)
        m (some { val := v + 1, queue := q }), some (-1)) := by
  have hb' : (set_chan u c (some { ch with rblock := rb', sblock := sb' })).chans b = _ :=
    (set_chan_chans_other u _ (Ne.symm hcb)).trans hb
  have hds := destroy_spare_ok 2 hb' (fun e => absurd e (by decide))
    (fun e => absurd e (by decide)) hss h1 h2 h3
  simp only [(by decide : ¬ (2 ≤ 1)), if_false] at hds
  have hV : sem_V (free_chan (set_sem
      (set_chan u c (some { ch with rblock := rb', sblock := sb' })) ss' none) b) m = _ :=
    sem_V_of_nonneg (q := q) (by simp [free_chan, set_sem_sems_other, hms, m3]) hv hmax
  simp only [chan_destroy_fail3, hb, Option.some_bind, chan_store, hc, set_chan_chans_same,
    set_chan_chans_other u _ (Ne.symm hcb), set_chan_set_chan, hds, free_chan,
    set_chan_chan_mutex, set_sem_chan_mutex, hm]
  simp only [free_chan] at hV
  rw [hV]
  rfl

/-- Lines 116-122 of chan.c on a world in which the spare channel is complete. -/
theorem chan_destroy_ok_eq {u : World} {c b rb' sb' ss' m : Ptr} {d v : Int} {q : Queue}
    (hb : u.chans b = some { rblock := rb', sblock := sb', send_serialiser := ss', data := d })
    (hrb : ∃ v, u.sems rb' = some { val := v, queue := { front := 0, back := 0 } })
    (hsb : ∃ v, u.sems sb' = some { val := v, queue := { front := 0, back := 0 } })
    (hss : ∃ v, u.sems ss' = some { val := v, queue := { front := 0, back := 0 } })
    (h1 : sb' ≠ rb') (h2 : ss' ≠ sb') (h3 : ss' ≠ rb')
    (hm : u.chan_mutex = m) (hms : u.sems m = some { val := v, queue := q })
    (hv : 0 ≤ v) (hmax : v ≠ INT_MAX) (m1 : m ≠ rb') (m2 : m ≠ sb') (m3 : m ≠ ss') :
    chan_destroy_ok u c b =
      some (set_sem (free_chan (free_chan
          (set_sem (set_sem (set_sem u rb' none) sb' none) ss' none) b) c)
        m (some { val := v + 1, queue := q }), some 1) := by
  have hds := destroy_spare_ok 0 hb (fun _ => hrb) (fun _ => hsb) hss h1 h2 h3
  simp only [Nat.zero_le, if_true] at hds
  have hV : sem_V (free_chan (free_chan
      (set_sem (set_sem (set_sem u rb' none) sb' none) ss' none) b) c) m = _ :=
    sem_V_of_nonneg (q := q) (by simp [free_chan, set_sem_sems_other, hms, m1, m2, m3]) hv hmax
  simp only [chan_destroy_ok, hds, Option.some_bind, free_chan, set_chan_chan_mutex,
    set_sem_chan_mutex, hm]
  simp only [free_chan] at hV
  rw [hV]
  rfl

theorem ne_of_live_free {w : World} {x y : Ptr} {a : Sem}
    (hx : w.sems x = some a) (hy : w.sems y = none) : x ≠ y := by
  intro e
  rw [e, hy] at hx
  cases hx

theorem exSending_sblock_holds : Holds exSending.next { front := 11, back := 11 } [11] := by
  refine ⟨⟨rfl, by decide, rfl⟩, List.nodup_singleton 11, ?_⟩
  intro x hx
  have : 11 = x := by simpa using hx
  exact this

/-! ## Lemmas on the rendezvous -/

theorem holds_nil_any {m m' : Ptr → Ptr} {q : Queue} (h : Holds m q []) : Holds m' q [] :=
  ⟨h.1, h.2.1, h.2.2⟩

/-- `sem_P` on a positive semaphore, with the test of the caller. -/
theorem sem_P_pass_world {w : World} {s : Ptr} {v : Int} {q : Queue} (t : Ptr)
    (h : w.sems s = some { val := v, queue := q }) (hv : 0 < v) :
    sem_P w s t = some (set_sem w s (some { val := v - 1, queue := q })) ∧
      sem_negative (set_sem w s (some { val := v - 1, queue := q })) s = false := by
  refine ⟨sem_P_of_pos t h hv, ?_⟩
  have : ¬ (v - 1 < 0) := by omega
  simp [sem_negative, this]

/-- `sem_P` by a running thread on a semaphore of value 0 without waiters. -/
theorem sem_P_block_world {w : World} {s t : Ptr} {q : Queue} {rl : List Ptr}
    (h : w.sems s = some { val := 0, queue := q }) (hq : Holds w.next q [])
    (hr : Holds w.next w.ready_queue rl) (ht : t ≠ 0) (htr : t ∉ rl) :
    ∃ w', sem_P w s t = some w' ∧ sem_negative w' s = true ∧
      (∃ q', w'.sems s = some { val := -1, queue := q' } ∧ Holds w'.next q' [t]) ∧
      Holds w'.next w'.ready_queue rl ∧ w'.chans = w.chans ∧
      (∀ s', s' ≠ s → w'.sems s' = w.sems s') := by
  have hinv : SemInv w s 0 [] rl := ⟨⟨q, h, hq⟩, by simp, hr, by simp⟩
  obtain ⟨w', hP, hinv', -, hch, hoth⟩ :=
    sem_P_block hinv (le_refl 0) (by decide) ht (by simp) htr
  obtain ⟨⟨q', hq', hh'⟩, -, hr', -⟩ := hinv'
  refine ⟨w', hP, ?_, ⟨q', hq', by simpa using hh'⟩, hr', hch, hoth⟩
  simp [sem_negative, hq']

/-- `sem_V` on a semaphore of value -1 with the single waiter `t`. -/
theorem sem_V_wake_world {w : World} {s t : Ptr} {q : Queue} {rl : List Ptr}
    (h : w.sems s = some { val := -1, queue := q }) (hq : Holds w.next q [t])
    (hr : Holds w.next w.ready_queue rl) (htr : t ∉ rl) :
    ∃ w', sem_V w s = some w' ∧
      (∃ q', w'.sems s = some { val := 0, queue := q' } ∧ Holds w'.next q' []) ∧
      Holds w'.next w'.ready_queue (rl ++ [t]) ∧ w'.chans = w.chans ∧
      (∀ s', s' ≠ s → w'.sems s' = w.sems s') := by
  have hinv : SemInv w s (-1) [t] rl := ⟨⟨q, h, hq⟩, by simp, hr, by
    intro a ha har
    have : a = t := by simpa using ha
    exact htr (this ▸ har)⟩
  obtain ⟨w', hV, hinv', hch, hoth⟩ := sem_V_wake hinv
  obtain ⟨⟨q', hq', hh'⟩, -, hr', -⟩ := hinv'
  exact ⟨w', hV, ⟨q', by simpa using hq', hh'⟩, hr', hch, hoth⟩

/-- A non-null result of `chan_create`: a fresh struct with three pairwise
distinct fresh semaphores of values 0, 0, 1 and empty queues, `data` 0; links
and ready queue are untouched. -/
theorem chan_create_nonnull {w w0 : World} {o : List (Option Ptr)} {c : Ptr}
    (h : chan_create w o = some (w0, c)) (hc : c ≠ 0) :
    w.chans c = none ∧ ∃ rb sb ss,
      w0.chans c = some { rblock := rb, sblock := sb, send_serialiser := ss, data := 0 } ∧
      sb ≠ rb ∧ ss ≠ sb ∧ ss ≠ rb ∧ sb ≠ 0 ∧ rb ≠ 0 ∧ ss ≠ 0 ∧
      w.sems sb = none ∧ w.sems rb = none ∧ w.sems ss = none ∧
      w0.sems sb = some { val := 0, queue := { front := 0, back := 0 } } ∧
      w0.sems rb = some { val := 0, queue := { front := 0, back := 0 } } ∧
      w0.sems ss = some { val := 1, queue := { front := 0, back := 0 } } ∧
      w0.next = w.next ∧ w0.ready_queue = w.ready_queue := by
  have key : ∀ (w1 : World) (o : List (Option Ptr)) (r : World) (c : Ptr),
      chan_create_alloc w1 o = some (r, c) → c ≠ 0 →
      w1.chans c = none ∧ ∃ rb sb ss,
        r.chans c = some { rblock := rb, sblock := sb, send_serialiser := ss, data := 0 } ∧
        sb ≠ rb ∧ ss ≠ sb ∧ ss ≠ rb ∧ sb ≠ 0 ∧ rb ≠ 0 ∧ ss ≠ 0 ∧
        w1.sems sb = none ∧ w1.sems rb = none ∧ w1.sems ss = none ∧
        r.sems sb = some { val := 0, queue := { front := 0, back := 0 } } ∧
        r.sems rb = some { val := 0, queue := { front := 0, back := 0 } } ∧
        r.sems ss = some { val := 1, queue := { front := 0, back := 0 } } ∧
        r.next = w1.next ∧ r.ready_queue = w1.ready_queue := by
    intro w1 o r c h hc
    rcases chan_create_alloc_spec h with ⟨h0, -⟩ | ⟨-, hcf, sb, rb, ss, a1, a2, a3, f1, f2, f3,
      d1, d2, d3, hr⟩
    · exact absurd h0 hc
    · subst hr
      refine ⟨hcf, rb, sb, ss, by simp, d1, fun e => d2 e.symm, fun e => d3 e.symm,
        a1, a2, a3, f1, f2, f3, ?_, ?_, ?_, rfl, rfl⟩
      · simp [set_sem_sems_other _ _ d2, set_sem_sems_other _ _ d1]
      · simp [set_sem_sems_other _ _ d3]
      · simp
  by_cases hf : w.firstCall = true
  · simp only [chan_create, hf, if_true] at h
    rcases sem_create_cases { w with firstCall := false } (oracle_hd o)
        (by decide : (0 : Int) ≤ 1) with h1 | ⟨m, hm0, hmf, -, h1⟩
    · rw [h1] at h
      simp at h
      exact absurd h.2.symm hc
    · rw [h1] at h
      simp only [hm0, if_false] at h
      obtain ⟨hcf, rb, sb, ss, hch, d1, d2, d3, a1, a2, a3, f1, f2, f3, s1, s2, s3, n1, n2⟩ :=
        key _ _ _ _ h hc
      have g1 := (set_sem_sems_none_iff.mp f1).2
      have g2 := (set_sem_sems_none_iff.mp f2).2
      have g3 := (set_sem_sems_none_iff.mp f3).2
      exact ⟨hcf, rb, sb, ss, hch, d1, d2, d3, a1, a2, a3, g1, g2, g3, s1, s2, s3, n1, n2⟩
  · simp only [chan_create, hf] at h
    exact key _ _ _ _ h hc

theorem rinv_intro {S R c : Ptr} {x : Int} {rb sb ser : Ptr} {w : World}
    {spc : Nat} {sparked : Bool} {rpc : Nat} {rparked : Bool} {received : Int}
    {rest : List Ptr}
    (chan : ∃ d, w.chans c = some { rblock := rb, sblock := sb, send_serialiser := ser, data := d } ∧
      (2 ≤ spc → d = x))
    (hser : ∃ q, w.sems ser = some { val := ser_val spc, queue := q } ∧ Holds w.next q [])
    (hrb : ∃ q, w.sems rb = some { val := rb_val spc rpc, queue := q } ∧
      Holds w.next q (if rb_val spc rpc < 0 then [R] else []))
    (hsb : ∃ q, w.sems sb = some { val := sb_val spc rpc, queue := q } ∧
      Holds w.next q (if sb_val spc rpc < 0 then [S] else []))
    (ready : Holds w.next w.ready_queue (rest ++
      (if rparked = true ∧ 0 ≤ rb_val spc rpc then [R]
       else if sparked = true ∧ 0 ≤ sb_val spc rpc then [S] else [])))
    (restS : S ∉ rest) (restR : R ∉ rest) (spc_le : spc ≤ 5) (rpc_le : rpc ≤ 3)
    (rpark : rparked = true → rpc = 1) (spark : sparked = true → spc = 4)
    (rwait : rb_val spc rpc < 0 → rparked = true)
    (swait : sb_val spc rpc < 0 → sparked = true)
    (recv : 2 ≤ rpc → received = x) :
    RendezvousInv S R c x rb sb ser
      { w := w, spc := spc, sparked := sparked, rpc := rpc, rparked := rparked,
        received := received } rest :=
  ⟨chan, hser, hrb, hsb, ready, restS, restR, spc_le, rpc_le, rpark, spark, rwait, swait, recv⟩

set_option maxHeartbeats 1000000 in
theorem send_step_inv {S R c : Ptr} {x : Int} {rb sb ser : Ptr}
    (hS : S ≠ 0) (hSR : S ≠ R) (d1 : rb ≠ sb) (d2 : rb ≠ ser) (d3 : sb ≠ ser)
    {σ : Sys} {rest : List Ptr} (h : RendezvousInv S R c x rb sb ser σ rest)
    (he : enabled σ Act.send = true) :
    ∃ σ', exec S R c x σ Act.send = some σ' ∧ RendezvousInv S R c x rb sb ser σ' rest ∧
      potential σ' rest < potential σ rest := by
  obtain ⟨w, spc, sparked, rpc, rparked, received⟩ := σ
  obtain ⟨⟨d, hch, hd⟩, ⟨qser, hser, hserq⟩, ⟨qrb, hrb, hrbq⟩, ⟨qsb, hsb, hsbq⟩, hready,
    hrS, hrR, hspc, hrpc, hrpark, hspark, hrwait, hswait, hrecv⟩ := h
  simp only [enabled, Bool.and_eq_true, Bool.not_eq_true', decide_eq_true_eq] at he
  obtain ⟨hsp, hlt⟩ := he
  simp only [pending] at hsp hlt hch hd hser hserq hrb hrbq hsb hsbq hready
  simp only at hspc hrpc hrpark hspark hrwait hswait hrecv
  subst hsp
  have hcases : spc = 0 ∨ spc = 1 ∨ spc = 2 ∨ spc = 3 ∨ spc = 4 := by omega
  rcases hcases with rfl | rfl | rfl | rfl | rfl
  · -- sem_P(c->send_serialiser)
    have hser1 : w.sems ser = some { val := 1, queue := qser } := by simpa [ser_val] using hser
    obtain ⟨hP, hneg⟩ := sem_P_pass_world S hser1 (by decide)
    refine ⟨⟨set_sem w ser (some ⟨0, qser⟩), 1, false, rpc, rparked, received⟩, ?_, ?_, ?_⟩
    · simpa [exec, chan_send_step, hch, hP] using hneg
    · simp only [rb_val, sb_val, ser_val] at *
      refine rinv_intro ⟨d, by simpa using hch, by simp⟩ ⟨qser, by simp [ser_val], hserq⟩
        ⟨qrb, ?_, ?_⟩ ⟨qsb, ?_, ?_⟩ ?_ hrS hrR (by simp) hrpc hrpark (by simp) ?_ ?_ hrecv
      all_goals simp only [rb_val, sb_val, ser_val, set_sem_next, set_sem_ready,
        set_sem_sems_other _ _ d2, set_sem_sems_other _ _ d3]
      all_goals assumption
    · simp [potential]
  · -- c->data = sentdata
    refine ⟨⟨set_chan w c (some ⟨rb, sb, ser, x⟩), 2, false, rpc, rparked, received⟩, ?_, ?_, ?_⟩
    · simp [exec, chan_send_step, chan_store, hch]
    · simp only [rb_val, sb_val, ser_val] at *
      refine rinv_intro ⟨x, by simp, fun _ => rfl⟩ ⟨qser, ?_, ?_⟩
        ⟨qrb, ?_, ?_⟩ ⟨qsb, ?_, ?_⟩ ?_ hrS hrR (by simp) hrpc hrpark (by simp) ?_ ?_ hrecv
      all_goals simp only [rb_val, sb_val, ser_val, set_chan_next, set_chan_ready, set_chan_sems]
      all_goals assumption
    · simp [potential]
  · -- sem_V(c->rblock)
    by_cases hr0 : rpc = 0
    · subst hr0
      have hrb0 : w.sems rb = some { val := 0, queue := qrb } := by simpa [rb_val] using hrb
      have hV := sem_V_of_nonneg hrb0 (le_refl 0) (by decide)
      refine ⟨⟨set_sem w rb (some ⟨1, qrb⟩), 3, false, 0, rparked, received⟩, ?_, ?_, ?_⟩
      · simp [exec, chan_send_step, hch, hV]
      · refine rinv_intro ⟨d, by simpa using hch, by simpa using hd⟩ ⟨qser, ?_, ?_⟩
          ⟨qrb, ?_, ?_⟩ ⟨qsb, ?_, ?_⟩ ?_ hrS hrR (by simp) hrpc hrpark (by simp) ?_ ?_ hrecv
        all_goals simp_all [rb_val, sb_val, ser_val, set_sem_sems_other _ _ (Ne.symm d2),
          set_sem_sems_other _ _ (Ne.symm d1)]
      · simp [potential]
    · -- the receiver waits on rblock
      have hneg : rb_val 2 rpc < 0 := by
        have : 1 ≤ rpc := by omega
        simp [rb_val, this]
      have hrp : rparked = true := hrwait hneg
      have hr1 : rpc = 1 := hrpark hrp
      subst hr1
      subst hrp
      have hrb1 : w.sems rb = some { val := -1, queue := qrb } := by simpa [rb_val] using hrb
      have hrbq1 : Holds w.next qrb [R] := by simpa [rb_val] using hrbq
      have hready1 : Holds w.next w.ready_queue rest := by simpa [rb_val, sb_val] using hready
      obtain ⟨w', hV, ⟨q', hq', hh'⟩, hr', hch', hoth⟩ :=
        sem_V_wake_world hrb1 hrbq1 hready1 hrR
      refine ⟨⟨w', 3, false, 1, true, received⟩, ?_, ?_, ?_⟩
      · simp [exec, chan_send_step, hch, hV]
      · refine rinv_intro ⟨d, by rw [hch']; exact hch, by simpa using hd⟩
          ⟨qser, by rw [hoth ser (Ne.symm d2)]; simpa [ser_val] using hser, holds_nil_any hserq⟩
          ⟨q', by simpa [rb_val] using hq', by simpa [rb_val] using hh'⟩
          ⟨qsb, by rw [hoth sb (Ne.symm d1)]; simpa [sb_val] using hsb,
            by simpa [sb_val] using holds_nil_any (by simpa [sb_val] using hsbq)⟩
          (by simpa [rb_val] using hr') hrS hrR (by simp) hrpc (by simp) (by simp)
          (by simp) (by simp [sb_val]) hrecv
      · simp [potential]
  · -- sem_P(c->sblock)
    by_cases hr3 : rpc = 3
    · subst hr3
      have hsb1 : w.sems sb = some { val := 1, queue := qsb } := by simpa [sb_val] using hsb
      obtain ⟨hP, hneg⟩ := sem_P_pass_world S hsb1 (by decide)
      refine ⟨⟨set_sem w sb (some ⟨0, qsb⟩), 4, false, 3, rparked, received⟩, ?_, ?_, ?_⟩
      · simpa [exec, chan_send_step, hch, hP] using hneg
      · refine rinv_intro ⟨d, by simpa using hch, by simpa using hd⟩ ⟨qser, ?_, ?_⟩
          ⟨qrb, ?_, ?_⟩ ⟨qsb, ?_, ?_⟩ ?_ hrS hrR (by simp) hrpc hrpark (by simp) ?_ ?_ hrecv
        all_goals simp_all [rb_val, sb_val, ser_val, set_sem_sems_other _ _ d1,
          set_sem_sems_other _ _ (Ne.symm d3)]
      · simp only [potential]
        split_ifs <;> omega
    · have hlt3 : ¬ (3 ≤ rpc) := by omega
      have hsb0 : w.sems sb = some { val := 0, queue := qsb } := by
        simpa [sb_val, hlt3] using hsb
      have hsbq0 : Holds w.next qsb [] := by simpa [sb_val, hlt3] using hsbq
      have e43 : rb_val 4 rpc = rb_val 3 rpc := by simp [rb_val]
      have hrbnn : ¬ (rb_val 3 rpc < 0) := by
        simp only [rb_val]
        split_ifs <;> omega
      have hSr : S ∉ rest ++ pending S R ⟨w, 3, false, rpc, rparked, received⟩ := by
        by_cases hp : rparked = true ∧ 0 ≤ rb_val 3 rpc <;> simp [pending, hp, hSR, hrS]
      obtain ⟨w', hP, hneg, ⟨q', hq', hh'⟩, hr', hch', hoth⟩ :=
        sem_P_block_world hsb0 hsbq0 hready hS hSr
      refine ⟨⟨w', 4, true, rpc, rparked, received⟩, ?_, ?_, ?_⟩
      · simp [exec, chan_send_step, hch, hP, hneg]
      · refine rinv_intro ⟨d, by rw [hch']; exact hch, by simpa using hd⟩
          ⟨qser, by rw [hoth ser (Ne.symm d3)]; simpa [ser_val] using hser, holds_nil_any hserq⟩
          ⟨qrb, by rw [hoth rb d1, e43]; exact hrb,
            by rw [e43, if_neg hrbnn]; exact holds_nil_any (by simpa [hrbnn] using hrbq)⟩
          ⟨q', by simpa [sb_val, hlt3] using hq', by simpa [sb_val, hlt3] using hh'⟩
          (by rw [e43]; simpa [pending, sb_val, hlt3] using hr') hrS hrR (by simp) hrpc hrpark
          (by simp) (by rw [e43]; exact hrwait) (by simp) hrecv
      · simp [potential]
  · -- sem_V(c->send_serialiser)
    have hr3 : rpc = 3 := by
      by_contra hne
      have : ¬ (3 ≤ rpc) := by omega
      have := hswait (by simp [sb_val, this])
      cases this
    subst hr3
    have hser0 : w.sems ser = some { val := 0, queue := qser } := by simpa [ser_val] using hser
    have hV := sem_V_of_nonneg hser0 (le_refl 0) (by decide)
    refine ⟨⟨set_sem w ser (some ⟨1, qser⟩), 5, false, 3, rparked, received⟩, ?_, ?_, ?_⟩
    · simp [exec, chan_send_step, hch, hV]
    · refine rinv_intro ⟨d, by simpa using hch, by simpa using hd⟩ ⟨qser, ?_, ?_⟩
        ⟨qrb, ?_, ?_⟩ ⟨qsb, ?_, ?_⟩ ?_ hrS hrR (by simp) hrpc hrpark (by simp) ?_ ?_ hrecv
      all_goals simp_all [rb_val, sb_val, ser_val, set_sem_sems_other _ _ d2,
        set_sem_sems_other _ _ d3]
    · simp [potential]


set_option maxHeartbeats 1000000 in
theorem recv_step_inv {S R c : Ptr} {x : Int} {rb sb ser : Ptr}
    (hR : R ≠ 0) (d1 : rb ≠ sb) (d2 : rb ≠ ser) (d3 : sb ≠ ser)
    {σ : Sys} {rest : List Ptr} (h : RendezvousInv S R c x rb sb ser σ rest)
    (he : enabled σ Act.recv = true) :
    ∃ σ', exec S R c x σ Act.recv = some σ' ∧ RendezvousInv S R c x rb sb ser σ' rest ∧
      potential σ' rest < potential σ rest := by
  obtain ⟨w, spc, sparked, rpc, rparked, received⟩ := σ
  obtain ⟨⟨d, hch, hd⟩, ⟨qser, hser, hserq⟩, ⟨qrb, hrb, hrbq⟩, ⟨qsb, hsb, hsbq⟩, hready,
    hrS, hrR, hspc, hrpc, hrpark, hspark, hrwait, hswait, hrecv⟩ := h
  simp only [enabled, Bool.and_eq_true, Bool.not_eq_true', decide_eq_true_eq] at he
  obtain ⟨hrp, hlt⟩ := he
  simp only [pending] at hrp hlt hch hd hser hserq hrb hrbq hsb hsbq hready
  simp only at hspc hrpc hrpark hspark hrwait hswait hrecv
  subst hrp
  have hcases : rpc = 0 ∨ rpc = 1 ∨ rpc = 2 := by omega
  rcases hcases with rfl | rfl | rfl
  · -- sem_P(c->rblock)
    by_cases h3 : 3 ≤ spc
    · have hrb1 : w.sems rb = some { val := 1, queue := qrb } := by simpa [rb_val, h3] using hrb
      obtain ⟨hP, hneg⟩ := sem_P_pass_world R hrb1 (by decide)
      refine ⟨⟨set_sem w rb (some ⟨0, qrb⟩), spc, sparked, 1, false, received⟩, ?_, ?_, ?_⟩
      · simpa [exec, chan_receive_step, hch, hP] using hneg
      · refine rinv_intro ⟨d, by simpa using hch, by simpa using hd⟩ ⟨qser, ?_, ?_⟩
          ⟨qrb, ?_, ?_⟩ ⟨qsb, ?_, ?_⟩ ?_ hrS hrR hspc (by simp) (by simp) hspark ?_ ?_
          (by simp)
        all_goals simp_all [rb_val, sb_val, ser_val, set_sem_sems_other _ _ (Ne.symm d2),
          set_sem_sems_other _ _ (Ne.symm d1)]
      · simp [potential]
    · have hrb0 : w.sems rb = some { val := 0, queue := qrb } := by simpa [rb_val, h3] using hrb
      have hrbq0 : Holds w.next qrb [] := by simpa [rb_val, h3] using hrbq
      have hnsp : sparked = false := by
        cases hsp : sparked with
        | false => rfl
        | true => exact absurd (hspark hsp) (by omega)
      subst hnsp
      have hready0 : Holds w.next w.ready_queue rest := by simpa using hready
      have e4 : ¬ (4 ≤ spc) := by omega
      obtain ⟨w', hP, hneg, ⟨q', hq', hh'⟩, hr', hch', hoth⟩ :=
        sem_P_block_world hrb0 hrbq0 hready0 hR hrR
      refine ⟨⟨w', spc, false, 1, true, received⟩, ?_, ?_, ?_⟩
      · simp [exec, chan_receive_step, hch, hP, hneg]
      · refine rinv_intro ⟨d, by rw [hch']; exact hch, hd⟩
          ⟨qser, by rw [hoth ser (Ne.symm d2)]; exact hser, holds_nil_any hserq⟩
          ⟨q', by simpa [rb_val, h3] using hq', by simpa [rb_val, h3] using hh'⟩
          ⟨qsb, by rw [hoth sb (Ne.symm d1)]; simpa [sb_val, e4] using hsb,
            by simpa [sb_val, e4] using holds_nil_any (by simpa [sb_val, e4] using hsbq)⟩
          (by simpa [rb_val, h3] using hr') hrS hrR hspc (by simp) (by simp) (by simp)
          (by simp) (by simp [sb_val, e4]) (by simp)
      · simp [potential]
  · -- *receiveddata = c->data
    have h3 : 3 ≤ spc := by
      by_contra hne
      have := hrwait (by simp [rb_val, hne])
      cases this
    refine ⟨⟨w, spc, sparked, 2, false, d⟩, ?_, ?_, ?_⟩
    · simp [exec, chan_receive_step, hch]
    · refine rinv_intro ⟨d, hch, hd⟩ ⟨qser, ?_, ?_⟩
        ⟨qrb, ?_, ?_⟩ ⟨qsb, ?_, ?_⟩ ?_ hrS hrR hspc (by simp) (by simp) hspark ?_ ?_
        (fun _ => hd (by omega))
      all_goals simp_all [rb_val, sb_val, ser_val]
    · simp [potential]
  · -- sem_V(c->sblock)
    have h3 : 3 ≤ spc := by
      by_contra hne
      have := hrwait (by simp [rb_val, hne])
      cases this
    by_cases h4 : 4 ≤ spc
    · have hsp : sparked = true := hswait (by simp [sb_val, h4])
      have hs4 : spc = 4 := hspark hsp
      subst hs4
      subst hsp
      have hsb1 : w.sems sb = some { val := -1, queue := qsb } := by simpa [sb_val] using hsb
      have hsbq1 : Holds w.next qsb [S] := by simpa [sb_val] using hsbq
      have hready1 : Holds w.next w.ready_queue rest := by simpa [rb_val, sb_val] using hready
      obtain ⟨w', hV, ⟨q', hq', hh'⟩, hr', hch', hoth⟩ :=
        sem_V_wake_world hsb1 hsbq1 hready1 hrS
      refine ⟨⟨w', 4, true, 3, false, received⟩, ?_, ?_, ?_⟩
      · simp [exec, chan_receive_step, hch, hV]
      · refine rinv_intro ⟨d, by rw [hch']; exact hch, hd⟩
          ⟨qser, by rw [hoth ser (Ne.symm d3)]; exact hser, holds_nil_any hserq⟩
          ⟨qrb, by rw [hoth rb d1]; simpa [rb_val] using hrb,
            by simpa [rb_val] using holds_nil_any (by simpa [rb_val] using hrbq)⟩
          ⟨q', by simpa [sb_val] using hq', by simpa [sb_val] using hh'⟩
          (by simpa [rb_val, sb_val] using hr') hrS hrR hspc (by simp) (by simp) (by simp)
          (by simp [rb_val]) (by simp [sb_val]) (fun _ => hrecv (by omega))
      · simp [potential]
    · have hs3 : spc = 3 := by omega
      subst hs3
      have hnsp : sparked = false := by
        cases hsp : sparked with
        | false => rfl
        | true => exact absurd (hspark hsp) (by omega)
      subst hnsp
      have hsb0 : w.sems sb = some { val := 0, queue := qsb } := by simpa [sb_val] using hsb
      have hV := sem_V_of_nonneg hsb0 (le_refl 0) (by decide)
      refine ⟨⟨set_sem w sb (some ⟨1, qsb⟩), 3, false, 3, false, received⟩, ?_, ?_, ?_⟩
      · simp [exec, chan_receive_step, hch, hV]
      · refine rinv_intro ⟨d, by simpa using hch, hd⟩ ⟨qser, ?_, ?_⟩
          ⟨qrb, ?_, ?_⟩ ⟨qsb, ?_, ?_⟩ ?_ hrS hrR hspc (by simp) (by simp) (by simp) ?_ ?_
          (fun _ => hrecv (by omega))
        all_goals simp_all [rb_val, sb_val, ser_val, set_sem_sems_other _ _ d1,
          set_sem_sems_other _ _ (Ne.symm d3)]
      · simp [potential]


theorem holds_front {m : Ptr → Ptr} {q : Queue} {a : Ptr} {l : List Ptr}
    (h : Holds m q (a :: l)) : q.front = a :=
  h.1.1

theorem sched_step_inv {S R c : Ptr} {x : Int} {rb sb ser : Ptr} (hSR : S ≠ R)
    {σ : Sys} {rest : List Ptr} (h : RendezvousInv S R c x rb sb ser σ rest)
    (he : enabled σ Act.sched = true) :
    ∃ σ' rest', exec S R c x σ Act.sched = some σ' ∧
      RendezvousInv S R c x rb sb ser σ' rest' ∧ potential σ' rest' < potential σ rest := by
  obtain ⟨w, spc, sparked, rpc, rparked, received⟩ := σ
  obtain ⟨⟨d, hch, hd⟩, ⟨qser, hser, hserq⟩, ⟨qrb, hrb, hrbq⟩, ⟨qsb, hsb, hsbq⟩, hready,
    hrS, hrR, hspc, hrpc, hrpark, hspark, hrwait, hswait, hrecv⟩ := h
  simp only [pending] at hch hd hser hserq hrb hrbq hsb hsbq hready
  simp only at hspc hrpc hrpark hspark hrwait hswait hrecv
  have hne : queue_empty w.ready_queue = false := by
    simpa [enabled] using he
  cases rest with
  | cons r rest' =>
    have hfront : w.ready_queue.front = r := holds_front hready
    have hrS' : r ≠ S := fun e => hrS (by simp [e])
    have hrR' : r ≠ R := fun e => hrR (by simp [e])
    have hq := (queue_get_holds hready).2
    refine ⟨⟨dispatch w, spc, sparked, rpc, rparked, received⟩, rest', ?_, ?_, ?_⟩
    · simp [exec, hfront, hrS', hrR']
    · exact rinv_intro ⟨d, hch, hd⟩ ⟨qser, hser, hserq⟩ ⟨qrb, hrb, hrbq⟩ ⟨qsb, hsb, hsbq⟩ hq
        (fun hm => hrS (List.mem_cons_of_mem _ hm)) (fun hm => hrR (List.mem_cons_of_mem _ hm))
        hspc hrpc hrpark hspark hrwait hswait hrecv
    · simp [potential]
  | nil =>
    simp only [List.nil_append] at hready
    by_cases hp : rparked = true ∧ 0 ≤ rb_val spc rpc
    · -- the receiver is dispatched
      simp only [hp, and_self, if_true] at hready
      have hfront : w.ready_queue.front = R := holds_front hready
      have hq := (queue_get_holds hready).2
      have hr1 : rpc = 1 := hrpark hp.1
      subst hr1
      have hsbneg : ¬ (sparked = true ∧ 0 ≤ sb_val spc 1) := by
        rintro ⟨hs, hv⟩
        have := hspark hs
        subst this
        simp [sb_val] at hv
      refine ⟨⟨dispatch w, spc, sparked, 1, false, received⟩, [], ?_, ?_, ?_⟩
      · simp [exec, hfront, Ne.symm hSR]
      · exact rinv_intro ⟨d, hch, hd⟩ ⟨qser, hser, hserq⟩ ⟨qrb, hrb, hrbq⟩ ⟨qsb, hsb, hsbq⟩
          (by simpa [hsbneg] using hq) (by simp) (by simp) hspc hrpc (by simp) hspark
          (fun hv => absurd hp.2 (by omega)) hswait hrecv
      · simp [potential, hp.1]
    · by_cases hp2 : sparked = true ∧ 0 ≤ sb_val spc rpc
      · -- the sender is dispatched
        simp only [hp, hp2, and_self, if_true, if_false] at hready
        have hfront : w.ready_queue.front = S := holds_front hready
        have hq := (queue_get_holds hready).2
        have hs4 : spc = 4 := hspark hp2.1
        subst hs4
        refine ⟨⟨dispatch w, 4, false, rpc, rparked, received⟩, [], ?_, ?_, ?_⟩
        · simp [exec, hfront, hSR]
        · exact rinv_intro ⟨d, hch, hd⟩ ⟨qser, hser, hserq⟩ ⟨qrb, hrb, hrbq⟩ ⟨qsb, hsb, hsbq⟩
            (by simpa [hp] using hq) (by simp) (by simp) hspc hrpc hrpark (by simp)
            hrwait (fun hv => absurd hp2.2 (by omega)) hrecv
        · simp [potential, hp2.1]
      · simp only [hp, hp2, if_false] at hready
        have := (holds_empty_iff hready).mpr rfl
        rw [this] at hne
        cases hne

/-- Every action that is enabled in a state satisfying the invariant is
defined, keeps the invariant and lowers the potential. -/
theorem step_inv {S R c : Ptr} {x : Int} {rb sb ser : Ptr}
    (hS : S ≠ 0) (hR : R ≠ 0) (hSR : S ≠ R) (d1 : rb ≠ sb) (d2 : rb ≠ ser) (d3 : sb ≠ ser)
    {σ : Sys} {rest : List Ptr} (h : RendezvousInv S R c x rb sb ser σ rest) (a : Act)
    (he : enabled σ a = true) :
    ∃ σ' rest', exec S R c x σ a = some σ' ∧
      RendezvousInv S R c x rb sb ser σ' rest' ∧ potential σ' rest' < potential σ rest := by
  cases a with
  | send =>
    obtain ⟨σ', h1, h2, h3⟩ := send_step_inv hS hSR d1 d2 d3 h he
    exact ⟨σ', rest, h1, h2, h3⟩
  | recv =>
    obtain ⟨σ', h1, h2, h3⟩ := recv_step_inv hR d1 d2 d3 h he
    exact ⟨σ', rest, h1, h2, h3⟩
  | sched => exact sched_step_inv hSR h he

/-- The invariant along a schedule, with the bound on its length. -/
theorem run_inv {S R c : Ptr} {x : Int} {rb sb ser : Ptr}
    (hS : S ≠ 0) (hR : R ≠ 0) (hSR : S ≠ R) (d1 : rb ≠ sb) (d2 : rb ≠ ser) (d3 : sb ≠ ser) :
    ∀ (acts : List Act) (σ σ' : Sys) (rest : List Ptr),
      RendezvousInv S R c x rb sb ser σ rest → run S R c x σ acts = some σ' →
      ∃ rest', RendezvousInv S R c x rb sb ser σ' rest' ∧
        acts.length + potential σ' rest' ≤ potential σ rest
  | [], σ, σ', rest, h, hrun => by
    have e : σ = σ' := by simpa [run] using hrun
    subst e
    exact ⟨rest, h, by simp⟩
  | a :: as, σ, σ', rest, h, hrun => by
    by_cases he : enabled σ a = true
    · obtain ⟨σ1, rest1, hex, hinv1, hpot⟩ := step_inv hS hR hSR d1 d2 d3 h a he
      have hrun1 : run S R c x σ1 as = some σ' := by
        simpa [run, he, hex] using hrun
      obtain ⟨rest', hinv', hlen⟩ := run_inv hS hR hSR d1 d2 d3 as σ1 σ' rest1 hinv1 hrun1
      refine ⟨rest', hinv', ?_⟩
      simp only [List.length_cons]
      omega
    · simp [run, he] at hrun

/-- In a state satisfying the invariant some action is enabled unless both
calls have returned. -/
theorem rinv_progress {S R c : Ptr} {x : Int} {rb sb ser : Ptr}
    {σ : Sys} {rest : List Ptr} (h : RendezvousInv S R c x rb sb ser σ rest)
    (hnf : ¬ (σ.spc = 5 ∧ σ.rpc = 3)) : ∃ a, enabled σ a = true := by
  obtain ⟨w, spc, sparked, rpc, rparked, received⟩ := σ
  obtain ⟨-, -, -, -, hready, -, -, hspc, hrpc, hrpark, hspark, hrwait, hswait, -⟩ := h
  simp only [pending] at hready
  simp only at hspc hrpc hrpark hspark hrwait hswait hnf
  by_cases hs : sparked = false ∧ spc < 5
  · exact ⟨Act.send, by simp [enabled, hs.1, hs.2]⟩
  by_cases hr : rparked = false ∧ rpc < 3
  · exact ⟨Act.recv, by simp [enabled, hr.1, hr.2]⟩
  refine ⟨Act.sched, ?_⟩
  have hpend : (if rparked = true ∧ 0 ≤ rb_val spc rpc then [R]
      else if sparked = true ∧ 0 ≤ sb_val spc rpc then [S] else []) ≠ [] := by
    cases hsp : sparked with
    | true =>
      have hs4 : spc = 4 := hspark hsp
      subst hs4
      cases hrp : rparked with
      | true =>
        have hr1 : rpc = 1 := hrpark hrp
        subst hr1
        simp [rb_val]
      | false =>
        have hr3 : rpc = 3 := by
          by_contra hne
          exact hr ⟨hrp, by omega⟩
        subst hr3
        simp [sb_val]
    | false =>
      have hs5 : spc = 5 := by
        by_contra hne
        exact hs ⟨hsp, by omega⟩
      subst hs5
      have hr3 : rpc = 3 := by
        by_contra hne
        have hlt : ¬ (3 ≤ rpc) := by omega
        have := hswait (by simp [sb_val, hlt])
        rw [hsp] at this
        cases this
      exact absurd ⟨rfl, hr3⟩ hnf
  cases hq : queue_empty w.ready_queue with
  | false => simp [enabled, hq]
  | true =>
    have := (holds_empty_iff hready).mp hq
    have h2 : rest = [] ∧ _ := List.append_eq_nil.mp this
    exact absurd h2.2 hpend

/-- The failure path of `chan_create` for `rblock` (lines 50-54 of chan.c):
`free(c)` comes before the read of `c->sblock`, so the execution is undefined. -/
theorem chan_create_rblock_failure_undefined :
    chan_create exW [some 1, some 1, some 2, none] = none := rfl

/-- The failure path of `chan_create` for `send_serialiser` (lines 56-61 of
chan.c) reads `c->sblock` and `c->rblock` after `free(c)` as well. -/
theorem chan_create_serialiser_failure_undefined :
    chan_create exW [some 1, some 1, some 2, some 3, none] = none := rfl

/-! ## Lemmas on sequences of queue calls -/

theorem queue_run_holds : ∀ (ops : List QOp) (m : Ptr → Ptr) (q : Queue) (l : List Ptr),
    Holds m q l → (∀ x ∈ items_put ops, x ≠ 0) → (items_put ops).Nodup →
    (∀ x ∈ l, x ∉ items_put ops) →
    ∃ m' q', queue_run m q ops = some (m', q', fifo_outs l ops) ∧
      Holds m' q' (fifo_content l ops) := by
  intro ops
  induction ops with
  | nil => intro m q l h _ _ _; exact ⟨m, q, rfl, h⟩
  | cons op ops ih =>
    intro m q l h hnz hnd hdis
    cases op with
    | init =>
      simp only [items_put] at hnz hnd hdis
      obtain ⟨m', q', hr, hh⟩ := ih m (queue_init q).1 [] (holds_nil m) hnz hnd (by simp)
      exact ⟨m', q', by simpa [queue_run, fifo_outs] using hr, by simpa [fifo_content] using hh⟩
    | put x =>
      simp only [items_put, List.mem_cons, List.nodup_cons, forall_eq_or_imp] at hnz hnd hdis
      have hxl : x ∉ l := fun hx => (hdis x hx) (Or.inl rfl)
      obtain ⟨m1, q1, hp, hh1, -⟩ := queue_put_holds h hnz.1 hxl
      obtain ⟨m', q', hr, hh⟩ := ih m1 q1 (l ++ [x]) hh1 hnz.2 hnd.2 (by
        intro y hy
        rcases List.mem_append.1 hy with hy | hy
        · exact fun hc => hdis y hy (Or.inr hc)
        · rw [List.mem_singleton.1 hy]; exact hnd.1)
      exact ⟨m', q', by simp [queue_run, hp, hr, fifo_outs], by simpa [fifo_content] using hh⟩
    | get =>
      simp only [items_put] at hnz hnd hdis
      cases l with
      | nil =>
        obtain ⟨m', q', hr, hh⟩ := ih m q [] h hnz hnd (by simp)
        refine ⟨m', q', ?_, by simpa [fifo_content] using hh⟩
        simp [queue_run, queue_get_nil h, hr, fifo_outs]
      | cons a l =>
        obtain ⟨hg2, hg1⟩ := queue_get_holds h
        have ha : a ≠ 0 := h.1.2.1
        obtain ⟨m', q', hr, hh⟩ := ih m (queue_get m q).1 l hg1 hnz hnd
          (fun y hy => hdis y (List.mem_cons_of_mem _ hy))
        refine ⟨m', q', ?_, by simpa [fifo_content] using hh⟩
        simp [queue_run, hr, hg2, ha, fifo_outs]

theorem fifo_conservation : ∀ (ops : List QOp) (l : List Ptr), QOp.init ∉ ops →
    fifo_outs l ops ++ fifo_content l ops = l ++ items_put ops := by
  intro ops
  induction ops with
  | nil => intro l _; simp [fifo_outs, fifo_content, items_put]
  | cons op ops ih =>
    intro l hni
    have hni' : QOp.init ∉ ops := fun h => hni (List.mem_cons_of_mem _ h)
    cases op with
    | init => exact absurd (List.mem_cons_self _ _) hni
    | put x => simp [fifo_outs, fifo_content, items_put, ih _ hni']
    | get =>
      cases l with
      | nil => simp [fifo_outs, fifo_content, items_put, ih _ hni']
      | cons a l => simp [fifo_outs, fifo_content, items_put, ih _ hni']

theorem fifo_outs_puts : ∀ (xs l : List Ptr) (ops : List QOp),
    fifo_outs l (xs.map QOp.put ++ ops) = fifo_outs (l ++ xs) ops := by
  intro xs
  induction xs with
  | nil => intro l ops; simp
  | cons x xs ih => intro l ops; simp [fifo_outs, ih]

theorem fifo_outs_gets : ∀ (l : List Ptr),
    fifo_outs l (List.replicate l.length QOp.get) = l := by
  intro l
  induction l with
  | nil => rfl
  | cons a l ih => simp [List.replicate_succ, fifo_outs, ih]

theorem items_put_puts_gets (xs : List Ptr) (n : Nat) :
    items_put (xs.map QOp.put ++ List.replicate n QOp.get) = xs := by
  induction xs with
  | nil =>
    induction n with
    | zero => rfl
    | succ n ih => simpa [List.replicate_succ, items_put] using ih
  | cons x xs ih => simpa [items_put] using ih

/-! ## The result of `chan_destroy` -/

/-- In the setting of `chan_destroy` the seven semaphore addresses are
pairwise distinct and the channel is not the spare channel. -/
theorem destroy_pre_ne {w : World} {c m : Ptr} {mv : Int} {mq : Queue} {rb sb ss : Ptr} {d : Int}
    {qrb qsb qss : Sem} {b sb' rb' ss' : Ptr}
    (h : DestroyPre w c m mv mq rb sb ss d qrb qsb qss b sb' rb' ss') :
    c ≠ b ∧ (m ≠ rb ∧ rb ≠ m ∧ m ≠ sb ∧ sb ≠ m ∧ m ≠ ss ∧ ss ≠ m ∧ rb ≠ sb ∧ sb ≠ rb ∧ rb ≠ ss ∧
      ss ≠ rb ∧ sb ≠ ss ∧ ss ≠ sb ∧ sb' ≠ rb' ∧ rb' ≠ sb' ∧ sb' ≠ ss' ∧ ss' ≠ sb' ∧
      rb' ≠ ss' ∧ ss' ≠ rb' ∧ m ≠ sb' ∧ sb' ≠ m ∧ m ≠ rb' ∧ rb' ≠ m ∧ m ≠ ss' ∧ ss' ≠ m ∧
      rb ≠ sb' ∧ sb' ≠ rb ∧ rb ≠ rb' ∧ rb' ≠ rb ∧ rb ≠ ss' ∧ ss' ≠ rb ∧ sb ≠ sb' ∧
      sb' ≠ sb ∧ sb ≠ rb' ∧ rb' ≠ sb ∧ sb ≠ ss' ∧ ss' ≠ sb ∧ ss ≠ sb' ∧ sb' ≠ ss ∧
      ss ≠ rb' ∧ rb' ≠ ss ∧ ss ≠ ss' ∧ ss' ≠ ss) := by
  obtain ⟨hf, hm, hms, hmv, hmax, hc, hrb, hsb, hss, hd, hb, hfresh, hnd⟩ := h
  obtain ⟨hsb'0, hsb'f⟩ := hfresh sb' (by simp)
  obtain ⟨hrb'0, hrb'f⟩ := hfresh rb' (by simp)
  obtain ⟨hss'0, hss'f⟩ := hfresh ss' (by simp)
  simp only [List.nodup_cons, List.mem_cons, List.mem_singleton, not_or, List.not_mem_nil,
    not_false_eq_true, List.nodup_nil, and_true] at hd hnd
  obtain ⟨⟨d1, d2, d3⟩, ⟨d4, d5⟩, d6⟩ := hd
  obtain ⟨⟨e1, e2⟩, e3⟩ := hnd
  have x_m_sbp : m ≠ sb' := ne_of_live_free hms hsb'f
  have x_m_rbp : m ≠ rb' := ne_of_live_free hms hrb'f
  have x_m_ssp : m ≠ ss' := ne_of_live_free hms hss'f
  have x_rb_sbp : rb ≠ sb' := ne_of_live_free hrb hsb'f
  have x_rb_rbp : rb ≠ rb' := ne_of_live_free hrb hrb'f
  have x_rb_ssp : rb ≠ ss' := ne_of_live_free hrb hss'f
  have x_sb_sbp : sb ≠ sb' := ne_of_live_free hsb hsb'f
  have x_sb_rbp : sb ≠ rb' := ne_of_live_free hsb hrb'f
  have x_sb_ssp : sb ≠ ss' := ne_of_live_free hsb hss'f
  have x_ss_sbp : ss ≠ sb' := ne_of_live_free hss hsb'f
  have x_ss_rbp : ss ≠ rb' := ne_of_live_free hss hrb'f
  have x_ss_ssp : ss ≠ ss' := ne_of_live_free hss hss'f
  have hcb : c ≠ b := by
    intro e
    rw [e, hb.2] at hc
    cases hc
  exact ⟨hcb,
    ⟨d1, Ne.symm d1, d2, Ne.symm d2, d3, Ne.symm d3, d4, Ne.symm d4, d5, Ne.symm d5, d6,
      Ne.symm d6, e1, Ne.symm e1, e2, Ne.symm e2, e3, Ne.symm e3, x_m_sbp, Ne.symm x_m_sbp,
      x_m_rbp, Ne.symm x_m_rbp, x_m_ssp, Ne.symm x_m_ssp, x_rb_sbp, Ne.symm x_rb_sbp,
      x_rb_rbp, Ne.symm x_rb_rbp, x_rb_ssp, Ne.symm x_rb_ssp, x_sb_sbp, Ne.symm x_sb_sbp,
      x_sb_rbp, Ne.symm x_sb_rbp, x_sb_ssp, Ne.symm x_sb_ssp, x_ss_sbp, Ne.symm x_ss_sbp,
      x_ss_rbp, Ne.symm x_ss_rbp, x_ss_ssp, Ne.symm x_ss_ssp⟩⟩

/-- In the setting of `chan_destroy` the call takes `chan_mutex`, creates the
spare channel and arrives at its three `sem_destroy` calls. -/
theorem chan_destroy_start {w : World} {c m : Ptr} {mv : Int} {mq : Queue} {rb sb ss : Ptr} {d : Int}
    {qrb qsb qss : Sem} {b sb' rb' ss' : Ptr}
    (h : DestroyPre w c m mv mq rb sb ss d qrb qsb qss b sb' rb' ss') (t : Ptr) :
    chan_destroy w t c [some b, some sb', some rb', some ss'] =
      chan_destroy_sems (spare_world w m mv mq b sb' rb' ss') c b := by
  obtain ⟨hcb, hne⟩ := destroy_pre_ne h
  obtain ⟨hf, hm, hms, hmv, hmax, hc, hrb, hsb, hss, hd, hb, hfresh, hnd⟩ := h
  obtain ⟨hsb'0, hsb'f⟩ := hfresh sb' (by simp)
  obtain ⟨hrb'0, hrb'f⟩ := hfresh rb' (by simp)
  obtain ⟨hss'0, hss'f⟩ := hfresh ss' (by simp)
  have x_m_sbp : m ≠ sb' := ne_of_live_free hms hsb'f
  have x_m_rbp : m ≠ rb' := ne_of_live_free hms hrb'f
  have x_m_ssp : m ≠ ss' := ne_of_live_free hms hss'f
  have e1 : sb' ≠ rb' := hne.2.2.2.2.2.2.2.2.2.2.2.2.1
  have e2 : sb' ≠ ss' := hne.2.2.2.2.2.2.2.2.2.2.2.2.2.2.1
  have e3 : rb' ≠ ss' := hne.2.2.2.2.2.2.2.2.2.2.2.2.2.2.2.2.1
  have hP : sem_P w m t = some (set_sem w m (some { val := mv - 1, queue := mq })) :=
    sem_P_of_pos t hms hmv
  have hneg : sem_negative (set_sem w m (some { val := mv - 1, queue := mq })) m = false := by
    have : ¬ (mv - 1 < 0) := by omega
    simp [sem_negative, this]
  have hcreate := chan_create_alloc_fresh (w := set_sem w m (some { val := mv - 1, queue := mq }))
    [] hb.1 (by simpa using hb.2) hsb'0 hrb'0 hss'0
    (set_sem_sems_none_iff.mpr ⟨Ne.symm x_m_sbp, hsb'f⟩)
    (set_sem_sems_none_iff.mpr ⟨Ne.symm x_m_rbp, hrb'f⟩)
    (set_sem_sems_none_iff.mpr ⟨Ne.symm x_m_ssp, hss'f⟩) e1 e2 e3
  have hstart : chan_destroy w t c [some b, some sb', some rb', some ss'] =
      chan_destroy_sems (set_chan (set_sem (set_sem (set_sem
        (set_sem w m (some { val := mv - 1, queue := mq }))
        sb' (some { val := 0, queue := { front := 0, back := 0 } }))
        rb' (some { val := 0, queue := { front := 0, back := 0 } }))
        ss' (some { val := 1, queue := { front := 0, back := 0 } }))
        b (some { rblock := rb', sblock := sb', send_serialiser := ss', data := 0 })) c b := by
    have hcc : chan_create (set_sem w m (some { val := mv - 1, queue := mq }))
        [some b, some sb', some rb', some ss'] =
        chan_create_alloc (set_sem w m (some { val := mv - 1, queue := mq }))
          [some b, some sb', some rb', some ss'] := by
      simp only [chan_create, set_sem_firstCall, hf, Bool.false_eq_true, if_false]
    simp only [chan_destroy, hm, hP, Option.some_bind, set_sem_chan_mutex, hneg,
      Bool.false_eq_true, if_false, hcc, hcreate, hb.1]
  exact hstart

/-- The semaphores and channels of the world in which `chan_destroy` starts
its three `sem_destroy` calls. -/
theorem spare_world_facts {w : World} {c m : Ptr} {mv : Int} {mq : Queue} {rb sb ss : Ptr} {d : Int}
    {qrb qsb qss : Sem} {b sb' rb' ss' : Ptr}
    (h : DestroyPre w c m mv mq rb sb ss d qrb qsb qss b sb' rb' ss') :
    (spare_world w m mv mq b sb' rb' ss').chans c =
      some { rblock := rb, sblock := sb, send_serialiser := ss, data := d } ∧
    (spare_world w m mv mq b sb' rb' ss').chans b =
      some { rblock := rb', sblock := sb', send_serialiser := ss', data := 0 } ∧
    (spare_world w m mv mq b sb' rb' ss').chan_mutex = m ∧
    (spare_world w m mv mq b sb' rb' ss').sems m = some { val := mv - 1, queue := mq } ∧
    (spare_world w m mv mq b sb' rb' ss').sems rb = some qrb ∧
    (spare_world w m mv mq b sb' rb' ss').sems sb = some qsb ∧
    (spare_world w m mv mq b sb' rb' ss').sems ss = some qss ∧
    (spare_world w m mv mq b sb' rb' ss').sems rb' =
      some { val := 0, queue := { front := 0, back := 0 } } ∧
    (spare_world w m mv mq b sb' rb' ss').sems sb' =
      some { val := 0, queue := { front := 0, back := 0 } } ∧
    (spare_world w m mv mq b sb' rb' ss').sems ss' =
      some { val := 1, queue := { front := 0, back := 0 } } := by
  obtain ⟨hcb, hne⟩ := destroy_pre_ne h
  obtain ⟨hf, hm, hms, hmv, hmax, hc, hrb, hsb, hss, hd, hb, hfresh, hnd⟩ := h
  obtain ⟨W, hW⟩ : ∃ W, W = spare_world w m mv mq b sb' rb' ss' := ⟨_, rfl⟩
  rw [← hW]
  have Wc : W.chans c = some { rblock := rb, sblock := sb, send_serialiser := ss, data := d } := by
    rw [hW]
    unfold spare_world
    simp [set_chan_chans_other _ _ hcb, hc]
  have Wb : W.chans b =
      some { rblock := rb', sblock := sb', send_serialiser := ss', data := 0 } := by
    rw [hW]
    unfold spare_world
    simp
  have Wm : W.chan_mutex = m := by
    rw [hW]
    unfold spare_world
    exact hm
  have Wms : W.sems m = some { val := mv - 1, queue := mq } := by
    rw [hW]
    unfold spare_world
    simp [set_sem_sems_other, hne]
  have Wrb : W.sems rb = some qrb := by
    rw [hW]
    unfold spare_world
    simp [set_sem_sems_other, hrb, hne]
  have Wsb : W.sems sb = some qsb := by
    rw [hW]
    unfold spare_world
    simp [set_sem_sems_other, hsb, hne]
  have Wss : W.sems ss = some qss := by
    rw [hW]
    unfold spare_world
    simp [set_sem_sems_other, hss, hne]
  have Wrb' : W.sems rb' = some { val := 0, queue := { front := 0, back := 0 } } := by
    rw [hW]
    unfold spare_world
    simp [set_sem_sems_other, hne]
  have Wsb' : W.sems sb' = some { val := 0, queue := { front := 0, back := 0 } } := by
    rw [hW]
    unfold spare_world
    simp [set_sem_sems_other, hne]
  have Wss' : W.sems ss' = some { val := 1, queue := { front := 0, back := 0 } } := by
    rw [hW]
    unfold spare_world
    simp [set_sem_sems_other, hne]
  exact ⟨Wc, Wb, Wm, Wms, Wrb, Wsb, Wss, Wrb', Wsb', Wss'⟩

/-- The call `chan_destroy(c)` when `rblock` has a blocked thread: -1, and the
world is as before the call. -/
theorem chan_destroy_case1 {w : World} {c m : Ptr} {mv : Int} {mq : Queue} {rb sb ss : Ptr}
    {d : Int} {qrb qsb qss : Sem} {b sb' rb' ss' : Ptr}
    (h : DestroyPre w c m mv mq rb sb ss d qrb qsb qss b sb' rb' ss') (t : Ptr)
    (hq1 : queue_empty qrb.queue = false) :
    ∃ w', chan_destroy w t c [some b, some sb', some rb', some ss'] = some (w', some (-1)) ∧
      w'.next = w.next ∧ w'.ready_queue = w.ready_queue ∧ w'.chan_mutex = w.chan_mutex ∧
      w'.firstCall = w.firstCall ∧
      w'.sems = w.sems ∧
      w'.chans = w.chans := by
  obtain ⟨hcb, hne⟩ := destroy_pre_ne h
  obtain ⟨Wc, Wb, Wm, Wms, Wrb, Wsb, Wss, Wrb', Wsb', Wss'⟩ := spare_world_facts h
  rw [chan_destroy_start h t]
  have hmv' : (0 : Int) ≤ mv - 1 := by have := h.hmv; omega
  have hmax' : mv - 1 ≠ INT_MAX := by have := h.hmax; omega
  have hmm : mv - 1 + 1 = mv := by omega
  have hms := h.hms
  have hc := h.hc
  have hbn := h.hb.2
  have f1 := (h.hfresh sb' (by simp)).2
  have f2 := (h.hfresh rb' (by simp)).2
  have f3 := (h.hfresh ss' (by simp)).2
  obtain ⟨W, hW⟩ : ∃ W, W = spare_world w m mv mq b sb' rb' ss' := ⟨_, rfl⟩
  rw [← hW] at Wc Wb Wm Wms Wrb Wsb Wss Wrb' Wsb' Wss' ⊢
  unfold chan_destroy_sems
  simp only [Wc, Option.some_bind]
  rw [sem_destroy_nonempty Wrb hq1]
  simp only [Option.some_bind, if_true]
  rw [chan_destroy_fail1_eq Wb ⟨_, Wrb'⟩ ⟨_, Wsb'⟩ ⟨_, Wss'⟩ (v := mv - 1) (m := m) (q := mq)
    (by simp [hne]) (by simp [hne]) (by simp [hne]) Wm Wms hmv' hmax' (by simp [hne])
    (by simp [hne]) (by simp [hne])]
  subst hW
  refine ⟨_, rfl, ?_, ?_, ?_, ?_, ?_, ?_⟩
  · simp [free_chan, spare_world]
  · simp [free_chan, spare_world]
  · simp [free_chan, spare_world]
  · simp [free_chan, spare_world]
  · funext p
    simp only [spare_world, set_sem, set_chan, free_chan, Function.update_apply, hmm]
    by_cases h0 : p = m
    · subst h0; simp [hms, hne]
    by_cases h1 : p = ss'
    · subst h1; simp [h0, f3, hne]
    by_cases h2 : p = sb'
    · subst h2; simp [h0, h1, f1, hne]
    by_cases h3 : p = rb'
    · subst h3; simp [h0, h1, h2, f2, hne]
    simp [h0, h1, h2, h3]
  · funext p
    simp only [spare_world, set_sem, set_chan, free_chan, Function.update_apply]
    by_cases h1 : p = b
    · subst h1; simp [hbn, Ne.symm hcb]
    simp [h1]

/-- The call `chan_destroy(c)` when `rblock` has no blocked thread and `sblock`
has one: -1; `rblock` is destroyed and replaced in `c` by the spare one. -/
theorem chan_destroy_case2 {w : World} {c m : Ptr} {mv : Int} {mq : Queue} {rb sb ss : Ptr}
    {d : Int} {qrb qsb qss : Sem} {b sb' rb' ss' : Ptr}
    (h : DestroyPre w c m mv mq rb sb ss d qrb qsb qss b sb' rb' ss') (t : Ptr)
    (hq1 : queue_empty qrb.queue = true) (hq2 : queue_empty qsb.queue = false) :
    ∃ w', chan_destroy w t c [some b, some sb', some rb', some ss'] = some (w', some (-1)) ∧
      w'.next = w.next ∧ w'.ready_queue = w.ready_queue ∧ w'.chan_mutex = w.chan_mutex ∧
      w'.firstCall = w.firstCall ∧
      w'.sems = Function.update (Function.update w.sems rb none) rb'
        (some { val := 0, queue := { front := 0, back := 0 } }) ∧
      w'.chans = Function.update w.chans c
        (some { rblock := rb', sblock := sb, send_serialiser := ss, data := d }) := by
  obtain ⟨hcb, hne⟩ := destroy_pre_ne h
  obtain ⟨Wc, Wb, Wm, Wms, Wrb, Wsb, Wss, Wrb', Wsb', Wss'⟩ := spare_world_facts h
  rw [chan_destroy_start h t]
  have hmv' : (0 : Int) ≤ mv - 1 := by have := h.hmv; omega
  have hmax' : mv - 1 ≠ INT_MAX := by have := h.hmax; omega
  have hmm : mv - 1 + 1 = mv := by omega
  have hms := h.hms
  have hc := h.hc
  have hbn := h.hb.2
  have f1 := (h.hfresh sb' (by simp)).2
  have f2 := (h.hfresh rb' (by simp)).2
  have f3 := (h.hfresh ss' (by simp)).2
  obtain ⟨W, hW⟩ : ∃ W, W = spare_world w m mv mq b sb' rb' ss' := ⟨_, rfl⟩
  rw [← hW] at Wc Wb Wm Wms Wrb Wsb Wss Wrb' Wsb' Wss' ⊢
  unfold chan_destroy_sems
  simp only [Wc, Option.some_bind]
  rw [sem_destroy_empty Wrb hq1]
  simp only [Option.some_bind, (by decide : ¬ ((1 : Int) = -1)), if_false, set_sem_chans, Wc]
  rw [sem_destroy_nonempty (w := set_sem W rb none) (a := qsb)
    (by simp [set_sem_sems_other, Wsb, hne]) hq2]
  simp only [Option.some_bind, if_true]
  rw [chan_destroy_fail2_eq (u := set_sem W rb none) (m := m) (v := mv - 1) (q := mq)
    (d := 0) (by simpa using Wc) hcb (by simpa using Wb)
    ⟨0, by simp [set_sem_sems_other, Wsb', hne]⟩
    ⟨1, by simp [set_sem_sems_other, Wss', hne]⟩ (by simp [hne]) (by simp [hne])
    (by simp [hne]) Wm (by simp [set_sem_sems_other, Wms, hne]) hmv' hmax' (by simp [hne])
    (by simp [hne])]
  subst hW
  refine ⟨_, rfl, ?_, ?_, ?_, ?_, ?_, ?_⟩
  · simp [free_chan, spare_world]
  · simp [free_chan, spare_world]
  · simp [free_chan, spare_world]
  · simp [free_chan, spare_world]
  · funext p
    simp only [spare_world, set_sem, set_chan, free_chan, Function.update_apply, hmm]
    by_cases h0 : p = m
    · subst h0; simp [hms, hne]
    by_cases h1 : p = ss'
    · subst h1; simp [h0, f3, hne]
    by_cases h2 : p = sb'
    · subst h2; simp [h0, h1, f1, hne]
    by_cases h3 : p = rb'
    · subst h3; simp [h0, h1, h2, hne]
    by_cases h4 : p = rb
    · subst h4; simp [h0, h1, h2, h3, hne]
    simp [h0, h1, h2, h3, h4]
  · funext p
    simp only [spare_world, set_sem, set_chan, free_chan, Function.update_apply]
    by_cases h1 : p = b
    · subst h1; simp [hbn, Ne.symm hcb]
    by_cases h2 : p = c
    · subst h2; simp [h1, hc]
    simp [h1, h2]

/-- The call `chan_destroy(c)` when `rblock` and `sblock` have no blocked thread
and `send_serialiser` has one: -1; `rblock` and `sblock` are destroyed and
replaced in `c` by the spare ones. -/
theorem chan_destroy_case3 {w : World} {c m : Ptr} {mv : Int} {mq : Queue} {rb sb ss : Ptr}
    {d : Int} {qrb qsb qss : Sem} {b sb' rb' ss' : Ptr}
    (h : DestroyPre w c m mv mq rb sb ss d qrb qsb qss b sb' rb' ss') (t : Ptr)
    (hq1 : queue_empty qrb.queue = true) (hq2 : queue_empty qsb.queue = true)
    (hq3 : queue_empty qss.queue = false) :
    ∃ w', chan_destroy w t c [some b, some sb', some rb', some ss'] = some (w', some (-1)) ∧
      w'.next = w.next ∧ w'.ready_queue = w.ready_queue ∧ w'.chan_mutex = w.chan_mutex ∧
      w'.firstCall = w.firstCall ∧
      w'.sems = Function.update (Function.update (Function.update (Function.update w.sems
        rb none) sb none) rb' (some { val := 0, queue := { front := 0, back := 0 } }))
        sb' (some { val := 0, queue := { front := 0, back := 0 } }) ∧
      w'.chans = Function.update w.chans c
        (some { rblock := rb', sblock := sb', send_serialiser := ss, data := d }) := by
  obtain ⟨hcb, hne⟩ := destroy_pre_ne h
  obtain ⟨Wc, Wb, Wm, Wms, Wrb, Wsb, Wss, Wrb', Wsb', Wss'⟩ := spare_world_facts h
  rw [chan_destroy_start h t]
  have hmv' : (0 : Int) ≤ mv - 1 := by have := h.hmv; omega
  have hmax' : mv - 1 ≠ INT_MAX := by have := h.hmax; omega
  have hmm : mv - 1 + 1 = mv := by omega
  have hms := h.hms
  have hc := h.hc
  have hbn := h.hb.2
  have f1 := (h.hfresh sb' (by simp)).2
  have f2 := (h.hfresh rb' (by simp)).2
  have f3 := (h.hfresh ss' (by simp)).2
  obtain ⟨W, hW⟩ : ∃ W, W = spare_world w m mv mq b sb' rb' ss' := ⟨_, rfl⟩
  rw [← hW] at Wc Wb Wm Wms Wrb Wsb Wss Wrb' Wsb' Wss' ⊢
  unfold chan_destroy_sems
  simp only [Wc, Option.some_bind]
  rw [sem_destroy_empty Wrb hq1]
  simp only [Option.some_bind, (by decide : ¬ ((1 : Int) = -1)), if_false, set_sem_chans, Wc]
  rw [sem_destroy_empty (w := set_sem W rb none) (a := qsb)
    (by simp [set_sem_sems_other, Wsb, hne]) hq2]
  simp only [Option.some_bind, (by decide : ¬ ((1 : Int) = -1)), if_false, set_sem_chans, Wc]
  rw [sem_destroy_nonempty (w := set_sem (set_sem W rb none) sb none) (a := qss)
    (by simp [set_sem_sems_other, Wss, hne]) hq3]
  simp only [Option.some_bind, if_true]
  rw [chan_destroy_fail3_eq (u := set_sem (set_sem W rb none) sb none) (m := m)
    (v := mv - 1) (q := mq) (d := 0) (by simpa using Wc) hcb (by simpa using Wb)
    ⟨1, by simp [set_sem_sems_other, Wss', hne]⟩ (by simp [hne]) (by simp [hne])
    (by simp [hne]) Wm (by simp [set_sem_sems_other, Wms, hne]) hmv' hmax' (by simp [hne])]
  subst hW
  refine ⟨_, rfl, ?_, ?_, ?_, ?_, ?_, ?_⟩
  · simp [free_chan, spare_world]
  · simp [free_chan, spare_world]
  · simp [free_chan, spare_world]
  · simp [free_chan, spare_world]
  · funext p
    simp only [spare_world, set_sem, set_chan, free_chan, Function.update_apply, hmm]
    by_cases h0 : p = m
    · subst h0; simp [hms, hne]
    by_cases h1 : p = ss'
    · subst h1; simp [h0, f3, hne]
    by_cases h2 : p = sb'
    · subst h2; simp [h0, h1, hne]
    by_cases h3 : p = rb'
    · subst h3; simp [h0, h1, h2, hne]
    by_cases h4 : p = sb
    · subst h4; simp [h0, h1, h2, h3, hne]
    by_cases h5 : p = rb
    · subst h5; simp [h0, h1, h2, h3, h4, hne]
    simp [h0, h1, h2, h3, h4, h5]
  · funext p
    simp only [spare_world, set_sem, set_chan, free_chan, Function.update_apply]
    by_cases h1 : p = b
    · subst h1; simp [hbn, Ne.symm hcb]
    by_cases h2 : p = c
    · subst h2; simp [h1, hc]
    simp [h1, h2]

/-- The call `chan_destroy(c)` when none of the three semaphores has a blocked
thread: 1; the three semaphores and the channel are freed. -/
theorem chan_destroy_case4 {w : World} {c m : Ptr} {mv : Int} {mq : Queue} {rb sb ss : Ptr}
    {d : Int} {qrb qsb qss : Sem} {b sb' rb' ss' : Ptr}
    (h : DestroyPre w c m mv mq rb sb ss d qrb qsb qss b sb' rb' ss') (t : Ptr)
    (hq1 : queue_empty qrb.queue = true) (hq2 : queue_empty qsb.queue = true)
    (hq3 : queue_empty qss.queue = true) :
    ∃ w', chan_destroy w t c [some b, some sb', some rb', some ss'] = some (w', some (1)) ∧
      w'.next = w.next ∧ w'.ready_queue = w.ready_queue ∧ w'.chan_mutex = w.chan_mutex ∧
      w'.firstCall = w.firstCall ∧
      w'.sems = Function.update (Function.update (Function.update w.sems
        rb none) sb none) ss none ∧
      w'.chans = Function.update w.chans c none := by
  obtain ⟨hcb, hne⟩ := destroy_pre_ne h
  obtain ⟨Wc, Wb, Wm, Wms, Wrb, Wsb, Wss, Wrb', Wsb', Wss'⟩ := spare_world_facts h
  rw [chan_destroy_start h t]
  have hmv' : (0 : Int) ≤ mv - 1 := by have := h.hmv; omega
  have hmax' : mv - 1 ≠ INT_MAX := by have := h.hmax; omega
  have hmm : mv - 1 + 1 = mv := by omega
  have hms := h.hms
  have hc := h.hc
  have hbn := h.hb.2
  have f1 := (h.hfresh sb' (by simp)).2
  have f2 := (h.hfresh rb' (by simp)).2
  have f3 := (h.hfresh ss' (by simp)).2
  obtain ⟨W, hW⟩ : ∃ W, W = spare_world w m mv mq b sb' rb' ss' := ⟨_, rfl⟩
  rw [← hW] at Wc Wb Wm Wms Wrb Wsb Wss Wrb' Wsb' Wss' ⊢
  unfold chan_destroy_sems
  simp only [Wc, Option.some_bind]
  rw [sem_destroy_empty Wrb hq1]
  simp only [Option.some_bind, (by decide : ¬ ((1 : Int) = -1)), if_false, set_sem_chans, Wc]
  rw [sem_destroy_empty (w := set_sem W rb none) (a := qsb)
    (by simp [set_sem_sems_other, Wsb, hne]) hq2]
  simp only [Option.some_bind, (by decide : ¬ ((1 : Int) = -1)), if_false, set_sem_chans, Wc]
  rw [sem_destroy_empty (w := set_sem (set_sem W rb none) sb none) (a := qss)
    (by simp [set_sem_sems_other, Wss, hne]) hq3]
  simp only [Option.some_bind, (by decide : ¬ ((1 : Int) = -1)), if_false]
  rw [chan_destroy_ok_eq (u := set_sem (set_sem (set_sem W rb none) sb none) ss none)
    (m := m) (v := mv - 1) (q := mq) (d := 0) (c := c) (by simpa using Wb)
    ⟨0, by simp [set_sem_sems_other, Wrb', hne]⟩
    ⟨0, by simp [set_sem_sems_other, Wsb', hne]⟩
    ⟨1, by simp [set_sem_sems_other, Wss', hne]⟩ (by simp [hne]) (by simp [hne])
    (by simp [hne]) Wm (by simp [set_sem_sems_other, Wms, hne]) hmv' hmax' (by simp [hne])
    (by simp [hne]) (by simp [hne])]
  subst hW
  refine ⟨_, rfl, ?_, ?_, ?_, ?_, ?_, ?_⟩
  · simp [free_chan, spare_world]
  · simp [free_chan, spare_world]
  · simp [free_chan, spare_world]
  · simp [free_chan, spare_world]
  · funext p
    simp only [spare_world, set_sem, set_chan, free_chan, Function.update_apply, hmm]
    by_cases h0 : p = m
    · subst h0; simp [hms, hne]
    by_cases h1 : p = ss'
    · subst h1; simp [h0, f3, hne]
    by_cases h2 : p = sb'
    · subst h2; simp [h0, h1, f1, hne]
    by_cases h3 : p = rb'
    · subst h3; simp [h0, h1, h2, f2, hne]
    by_cases h4 : p = ss
    · subst h4; simp [h0, h1, h2, h3, hne]
    by_cases h5 : p = sb
    · subst h5; simp [h0, h1, h2, h3, h4, hne]
    by_cases h6 : p = rb
    · subst h6; simp [h0, h1, h2, h3, h4, h5, hne]
    simp [h0, h1, h2, h3, h4, h5, h6]
  · funext p
    simp only [spare_world, set_sem, set_chan, free_chan, Function.update_apply]
    by_cases h1 : p = b
    · subst h1; simp [hbn, Ne.symm hcb]
    by_cases h2 : p = c
    · subst h2; simp [h1, hc]
    simp [h1, h2]

/-- Switching one entry of a predicate off lowers its count on a list
without repetitions by one. -/
theorem countP_switch_off {l : List Ptr} (hnd : l.Nodup) {a : Ptr} (ha : a ∈ l)
    {p q : Ptr → Bool} (hpa : p a = true) (hqa : q a = false)
    (hpq : ∀ x, x ≠ a → q x = p x) : l.countP q + 1 = l.countP p := by
  induction l with
  | nil => cases ha
  | cons y l ih =>
    obtain ⟨hy, hnd'⟩ := List.nodup_cons.mp hnd
    by_cases hya : y = a
    · subst hya
      have hsame : l.countP q = l.countP p :=
        List.countP_congr (fun x hx => by rw [hpq x (fun e => hy (e ▸ hx))])
      simp [List.countP_cons, hpa, hqa, hsame]
    · have hal : a ∈ l := by
        rcases List.mem_cons.mp ha with e | e
        · exact absurd e.symm hya
        · exact e
      have := ih hnd' hal
      rw [List.countP_cons, List.countP_cons, hpq y hya]
      omega

/-- The effect on `live_sems` of freeing a live semaphore below the bound. -/
theorem live_sems_free {w u : World} {n a : Nat} (ha : a < n) {x : Sem}
    (hx : w.sems a = some x) (hw : u.sems = Function.update w.sems a none) :
    live_sems u n + 1 = live_sems w n := by
  unfold live_sems
  refine countP_switch_off (List.nodup_range n) (List.mem_range.mpr ha) ?_ ?_ ?_
  · simp [hx]
  · simp [hw]
  · intro y hy
    simp [hw, Function.update_noteq hy]

/-- The effect on `live_sems` of allocating a semaphore at a free address below
the bound. -/
theorem live_sems_alloc {w u : World} {n a : Nat} (ha : a < n) {x : Sem}
    (hx : w.sems a = none) (hw : u.sems = Function.update w.sems a (some x)) :
    live_sems u n = live_sems w n + 1 := by
  unfold live_sems
  refine (countP_switch_off (List.nodup_range n) (List.mem_range.mpr ha) ?_ ?_ ?_).symm
  · simp [hw]
  · simp [hx]
  · intro y hy
    simp [hw, Function.update_noteq hy]

/-- The world `exSending` is in the setting of `chan_destroy`, with the
addresses 2, 6, 7, 8 free for the spare channel. -/
theorem exSending_pre : DestroyPre exSending 1 1 1 { front := 0, back := 0 } 3 2 4 42
    { val := 1, queue := { front := 0, back := 0 } }
    { val := -1, queue := { front := 11, back := 11 } }
    { val := 0, queue := { front := 0, back := 0 } } 2 6 7 8 :=
  { hf := rfl, hm := rfl, hms := rfl, hmv := by decide, hmax := by decide, hc := rfl, hrb := rfl,
    hsb := rfl, hss := rfl, hd := by decide, hb := ⟨by decide, rfl⟩,
    hfresh := by
      intro x hx
      simp only [List.mem_cons, List.mem_singleton, List.not_mem_nil, or_false] at hx
      rcases hx with rfl | rfl | rfl
      · exact ⟨by decide, rfl⟩
      · exact ⟨by decide, rfl⟩
      · exact ⟨by decide, rfl⟩
    hnd := by decide }

/-! ## Lemmas on the two semaphore variants -/

/-- A queue that holds one item more at its back is a different queue. -/
theorem holds_snoc_ne {m m' : Ptr → Ptr} {q q' : Queue} {l : List Ptr} {x : Ptr}
    (h : Holds m q l) (h' : Holds m' q' (l ++ [x])) (hx : x ∉ l) : q' ≠ q := by
  intro e
  subst e
  cases l with
  | nil =>
    have h0 : q'.front = 0 := h.1
    obtain ⟨hf, hx0, -⟩ := h'.1
    exact hx0 (hf ▸ h0)
  | cons a l =>
    have hb' : q'.back = x := h'.2.2 x (by rw [List.getLast?_append]; rfl)
    obtain ⟨y, hy⟩ : ∃ y, (a :: l).getLast? = some y := by
      cases hl : (a :: l).getLast? with
      | none => simp at hl
      | some y => exact ⟨y, rfl⟩
    have hb : q'.back = y := h.2.2 y hy
    have hmem : y ∈ a :: l := List.mem_of_getLast?_eq_some hy
    exact hx ((hb'.symm.trans hb) ▸ hmem)

theorem coop_call_contract {w : World} {s : Ptr} {st : Option Int} {c : SemCall}
    (h : coop_rel w s st) (hv : ∀ tc tp, c = SemCall.P tc tp → Running w s tc) :
    (contract_call st c = none ∧ coop_call w s c = none) ∨
    ∃ st' o w', contract_call st c = some (st', o) ∧ coop_call w s c = some (w', o) ∧
      coop_rel w' s st' := by
  cases st with
  | none =>
    have h0 : w.sems s = none := h
    cases c with
    | P tc tp => left; simp [contract_call, coop_call, sem_P, h0]
    | V k => left; simp [contract_call, coop_call, sem_V, h0]
    | destroy => left; simp [contract_call, coop_call, sem_destroy, h0]
    | sched =>
      right
      exact ⟨none, _, dispatch w, rfl, by simp [coop_call, h0], h0⟩
  | some v =>
    obtain ⟨wl, rl, hinv⟩ := h
    obtain ⟨⟨q, hq, hh⟩, hlen, hr, hd⟩ := id hinv
    cases c with
    | P tc tp =>
      obtain ⟨ht0, htr, htw⟩ := hv tc tp rfl
      by_cases hmin : v = INT_MIN
      · left
        simp [contract_call, coop_call, sem_P, hq, hmin]
      · right
        by_cases hpos : 0 < v
        · obtain ⟨q1, hq1, hP, -, hinv'⟩ := sem_P_pass tc hinv hpos
          have hn : ¬ (v - 1 < 0) := by omega
          refine ⟨some (v - 1), { val := some (v - 1), blocked := decide (v - 1 < 0), woke := false, result := none },
            _, by simp [contract_call, hmin], ?_, ⟨_, _, hinv'⟩⟩
          simp [coop_call, hP, hq1, hn]
        · have htw' : tc ∉ wl := htw _ wl hq hh
          obtain ⟨w', hP, hinv', -⟩ := sem_P_block hinv (by omega) hmin ht0 htw' (htr rl hr)
          obtain ⟨⟨q', hq', hh'⟩, -⟩ := id hinv'
          have hne : q' ≠ q := holds_snoc_ne hh hh' htw'
          have hn : v - 1 < 0 := by omega
          refine ⟨some (v - 1), { val := some (v - 1), blocked := decide (v - 1 < 0), woke := false, result := none },
            w', by simp [contract_call, hmin], ?_, ⟨_, _, hinv'⟩⟩
          simp [coop_call, hP, hq, hq', hne, hn]
    | V k =>
      by_cases hmax : v = INT_MAX
      · left
        simp [contract_call, coop_call, sem_V, hq, hmax]
      · right
        by_cases hneg : v + 1 ≤ 0
        · cases wl with
          | nil =>
            have : max 0 (-v) = -v := max_eq_right (by omega)
            rw [this] at hlen
            simp at hlen
            omega
          | cons x wl =>
            obtain ⟨w', hV, hinv', -⟩ := sem_V_wake hinv
            obtain ⟨⟨q', hq', -⟩, -, hr', -⟩ := id hinv'
            have hxr : x ∉ rl := fun hm => hd (List.mem_cons_self x wl) hm
            have hne : w'.ready_queue ≠ w.ready_queue := holds_snoc_ne hr hr' hxr
            refine ⟨some (v + 1), { val := some (v + 1), blocked := false, woke := decide (v + 1 ≤ 0), result := none },
              w', by simp [contract_call, hmax], ?_, ⟨_, _, hinv'⟩⟩
            simp [coop_call, hV, hq', hne, hneg]
        · obtain ⟨q1, hq1, hV, -, hinv'⟩ := sem_V_plain hinv (by omega) hmax
          refine ⟨some (v + 1), { val := some (v + 1), blocked := false, woke := decide (v + 1 ≤ 0), result := none },
            _, by simp [contract_call, hmax], ?_, ⟨_, _, hinv'⟩⟩
          simp [coop_call, hV, hneg]
    | destroy =>
      right
      have hiff := holds_empty_iff hh
      by_cases hneg : v < 0
      · have hwl : wl ≠ [] := by
          intro e
          have : max 0 (-v) = -v := max_eq_right (by omega)
          rw [this, e] at hlen
          simp at hlen
          omega
        have he : queue_empty q = false := by
          cases hc : queue_empty q with
          | false => rfl
          | true => exact absurd (hiff.mp hc) hwl
        have hD := sem_destroy_nonempty hq he
        refine ⟨some v, { val := some v, blocked := false, woke := false, result := some (-1) },
          w, by simp [contract_call, hneg], ?_, ⟨_, _, hinv⟩⟩
        simp [coop_call, hD, hq]
      · have hwl : wl = [] := by
          have : max 0 (-v) = 0 := max_eq_left (by omega)
          rw [this] at hlen
          exact List.length_eq_zero.mp (by exact_mod_cast hlen)
        have hD := sem_destroy_empty hq (hiff.mpr hwl)
        refine ⟨none, { val := none, blocked := false, woke := false, result := some 1 },
          set_sem w s none, by simp [contract_call, hneg], ?_, ?_⟩
        · simp [coop_call, hD]
        · simp [coop_rel]
    | sched =>
      right
      refine ⟨some v, _, dispatch w, rfl, ?_, ⟨_, _, dispatch_inv hinv⟩⟩
      simp [coop_call, hq]

theorem coop_trace_contract (s : Ptr) : ∀ (calls : List SemCall) (w : World) (st : Option Int),
    coop_rel w s st → coop_valid w s calls →
    coop_trace w s calls = contract_trace st calls := by
  intro calls
  induction calls with
  | nil => intro w st _ _; rfl
  | cons c cs ih =>
    intro w st h hv
    obtain ⟨hv1, hv2⟩ := hv
    rcases coop_call_contract h hv1 with ⟨e1, e2⟩ | ⟨st', o, w', e1, e2, h'⟩
    · simp [coop_trace, contract_trace, e1, e2]
    · have := ih w' st' h' (hv2 _ e2)
      simp [coop_trace, contract_trace, e1, e2, this]

theorem pre_call_contract {w : Preemptive.World} {s : Ptr} {st : Option Int} {c : SemCall}
    (h : pre_rel w s st) :
    (contract_call st c = none ∧ pre_call w s c = none) ∨
    ∃ st' o w', contract_call st c = some (st', o) ∧ pre_call w s c = some (w', o) ∧
      pre_rel w' s st' := by
  cases st with
  | none =>
    obtain ⟨hm, h0⟩ := h
    cases c with
    | P tc tp =>
      left
      simp [contract_call, pre_call, Preemptive.sem_P, hm, Preemptive.pthread_mutex_lock, h0]
    | V k =>
      left
      simp [contract_call, pre_call, Preemptive.sem_V, hm, Preemptive.pthread_mutex_lock, h0]
    | destroy =>
      left
      simp [contract_call, pre_call, Preemptive.sem_destroy, hm, Preemptive.pthread_mutex_lock,
        h0]
    | sched =>
      right
      exact ⟨none, _, w, rfl, by simp [pre_call, h0], hm, h0⟩
  | some v =>
    obtain ⟨hm, cl, hq, hlen⟩ := h
    cases c with
    | P tc tp =>
      by_cases hmin : v = INT_MIN
      · left
        simp [contract_call, pre_call, Preemptive.sem_P, hm, Preemptive.pthread_mutex_lock, hq,
          hmin]
      · right
        by_cases hneg : v - 1 < 0
        · refine ⟨some (v - 1),
            { val := some (v - 1), blocked := decide (v - 1 < 0), woke := false, result := none },
            Preemptive.pthread_mutex_unlock (Preemptive.set_sem
              (Preemptive.set_sem (Preemptive.pthread_mutex_lock w) s
                (some { val := v - 1, cond := cl })) s
              (some { val := v - 1, cond := cl ++ [tp] })),
            by simp [contract_call, hmin], ?_, rfl, cl ++ [tp], ?_, ?_⟩
          · simp [pre_call, Preemptive.sem_P, hm, Preemptive.pthread_mutex_lock, hq, hmin, hneg,
              Preemptive.pthread_cond_wait, Preemptive.set_sem,
              Preemptive.pthread_mutex_unlock]
          · simp [Preemptive.pthread_mutex_unlock, Preemptive.set_sem]
          · have e1 : max 0 (-v) = -v := max_eq_right (by omega)
            have e2 : max 0 (-(v - 1)) = -(v - 1) := max_eq_right (by omega)
            rw [e1] at hlen
            rw [e2]
            simp only [List.length_append, List.length_singleton, Nat.cast_add, Nat.cast_one]
            omega
        · refine ⟨some (v - 1),
            { val := some (v - 1), blocked := decide (v - 1 < 0), woke := false, result := none },
            Preemptive.pthread_mutex_unlock (Preemptive.set_sem (Preemptive.pthread_mutex_lock w)
              s (some { val := v - 1, cond := cl })),
            by simp [contract_call, hmin], ?_, rfl, cl, ?_, ?_⟩
          · simp [pre_call, Preemptive.sem_P, hm, Preemptive.pthread_mutex_lock, hq, hmin, hneg,
              Preemptive.set_sem, Preemptive.pthread_mutex_unlock]
          · simp [Preemptive.pthread_mutex_unlock, Preemptive.set_sem]
          · have e1 : max 0 (-v) = 0 := max_eq_left (by omega)
            have e2 : max 0 (-(v - 1)) = 0 := max_eq_left (by omega)
            rw [e2, ← e1]
            exact hlen
    | V k =>
      by_cases hmax : v = INT_MAX
      · left
        simp [contract_call, pre_call, Preemptive.sem_V, hm, Preemptive.pthread_mutex_lock, hq,
          hmax]
      · right
        by_cases hneg : v + 1 ≤ 0
        · have e1 : max 0 (-v) = -v := max_eq_right (by omega)
          rw [e1] at hlen
          have hpos : 0 < cl.length := by omega
          have hk : k % cl.length < cl.length := Nat.mod_lt _ hpos
          have hlen' : (cl.eraseIdx (k % cl.length)).length = cl.length - 1 := by
            rw [List.length_eraseIdx]
            simp [hk]
          have hne : cl.eraseIdx (k % cl.length) ≠ cl := by
            intro e
            rw [e] at hlen'
            omega
          refine ⟨some (v + 1),
            { val := some (v + 1), blocked := false, woke := decide (v + 1 ≤ 0), result := none },
            Preemptive.pthread_mutex_unlock (Preemptive.set_sem
              (Preemptive.set_sem (Preemptive.pthread_mutex_lock w) s
                (some { val := v + 1, cond := cl })) s
              (some { val := v + 1, cond := cl.eraseIdx (k % cl.length) })),
            by simp [contract_call, hmax], ?_, rfl, cl.eraseIdx (k % cl.length), ?_, ?_⟩
          · simp [pre_call, Preemptive.sem_V, hm, Preemptive.pthread_mutex_lock, hq, hmax, hneg,
              Preemptive.pthread_cond_signal, Preemptive.set_sem,
              Preemptive.pthread_mutex_unlock, hne]
          · simp [Preemptive.pthread_mutex_unlock, Preemptive.set_sem]
          · have e2 : max 0 (-(v + 1)) = -(v + 1) := max_eq_right (by omega)
            rw [e2, hlen']
            omega
        · refine ⟨some (v + 1),
            { val := some (v + 1), blocked := false, woke := decide (v + 1 ≤ 0), result := none },
            Preemptive.pthread_mutex_unlock (Preemptive.set_sem (Preemptive.pthread_mutex_lock w)
              s (some { val := v + 1, cond := cl })),
            by simp [contract_call, hmax], ?_, rfl, cl, ?_, ?_⟩
          · simp [pre_call, Preemptive.sem_V, hm, Preemptive.pthread_mutex_lock, hq, hmax, hneg,
              Preemptive.set_sem, Preemptive.pthread_mutex_unlock]
          · simp [Preemptive.pthread_mutex_unlock, Preemptive.set_sem]
          · have e1 : max 0 (-v) = 0 := max_eq_left (by omega)
            have e2 : max 0 (-(v + 1)) = 0 := max_eq_left (by omega)
            rw [e2, ← e1]
            exact hlen
    | destroy =>
      right
      by_cases hneg : v < 0
      · refine ⟨some v, { val := some v, blocked := false, woke := false, result := some (-1) },
          Preemptive.pthread_mutex_unlock (Preemptive.pthread_mutex_lock w),
          by simp [contract_call, hneg], ?_, rfl, cl, ?_, hlen⟩
        · simp [pre_call, Preemptive.sem_destroy, hm, Preemptive.pthread_mutex_lock, hq, hneg,
            Preemptive.pthread_mutex_unlock]
        · simpa [Preemptive.pthread_mutex_unlock, Preemptive.pthread_mutex_lock] using hq
      · have hcl : cl = [] := by
          have : max 0 (-v) = 0 := max_eq_left (by omega)
          rw [this] at hlen
          exact List.length_eq_zero.mp (by exact_mod_cast hlen)
        refine ⟨none, { val := none, blocked := false, woke := false, result := some 1 },
          Preemptive.pthread_mutex_unlock (Preemptive.set_sem (Preemptive.pthread_mutex_lock w)
            s none),
          by simp [contract_call, hneg], ?_, rfl, ?_⟩
        · simp [pre_call, Preemptive.sem_destroy, hm, Preemptive.pthread_mutex_lock, hq, hneg,
            hcl, Preemptive.set_sem, Preemptive.pthread_mutex_unlock]
        · simp [Preemptive.pthread_mutex_unlock, Preemptive.set_sem]
    | sched =>
      right
      exact ⟨some v, _, w, rfl, by simp [pre_call, hq], hm, cl, hq, hlen⟩

theorem pre_trace_contract (s : Ptr) :
    ∀ (calls : List SemCall) (w : Preemptive.World) (st : Option Int),
    pre_rel w s st → pre_trace w s calls = contract_trace st calls := by
  intro calls
  induction calls with
  | nil => intro w st _; rfl
  | cons c cs ih =>
    intro w st h
    rcases pre_call_contract (c := c) h with ⟨e1, e2⟩ | ⟨st', o, w', e1, e2, h'⟩
    · simp [pre_trace, contract_trace, e1, e2]
    · have := ih w' st' h'
      simp [pre_trace, contract_trace, e1, e2, this]

/-- A successful `sem_create` of the preemptive variant gives a semaphore of
the given value without blocked threads, and leaves the lock free. -/
theorem pre_create_ok {w : Preemptive.World} {hint : Option Ptr} {v : Int} {s : Ptr}
    (hs : (Preemptive.sem_create w hint v).2 = Preemptive.Outcome.returned s) (hs0 : s ≠ 0) :
    0 ≤ v ∧ pre_rel (Preemptive.sem_create w hint v).1 s (some v) := by
  obtain ⟨w0, hw0⟩ : ∃ w0 : Preemptive.World, w0 =
      (if w.firstcall then { w with firstcall := false, sem_mutex := false } else w) :=
    ⟨_, rfl⟩
  have hdef : Preemptive.sem_create w hint v =
      (if v < 0 then (w0, Preemptive.Outcome.returned 0)
       else if w0.sem_mutex then (w0, Preemptive.Outcome.stuck)
       else
         match malloc (Preemptive.pthread_mutex_lock w0).sems hint with
         | none => (Preemptive.pthread_mutex_lock w0, Preemptive.Outcome.returned 0)
         | some s =>
           (Preemptive.pthread_mutex_unlock (Preemptive.set_sem (Preemptive.pthread_mutex_lock w0)
             s (some { val := v, cond := [] })), Preemptive.Outcome.returned s)) := by
    rw [hw0]
    rfl
  rw [hdef] at hs ⊢
  clear hdef hw0
  by_cases hv : v < 0
  · simp only [hv, if_true, Preemptive.Outcome.returned.injEq] at hs
    exact absurd hs.symm hs0
  · simp only [hv, if_false] at hs ⊢
    by_cases hl : w0.sem_mutex = true
    · simp [hl] at hs
    · have hl' : w0.sem_mutex = false := by simpa using hl
      simp only [hl', Bool.false_eq_true, if_false] at hs ⊢
      cases hm : malloc (Preemptive.pthread_mutex_lock w0).sems hint with
      | none =>
        rw [hm] at hs
        simp only [Preemptive.Outcome.returned.injEq] at hs
        exact absurd hs.symm hs0
      | some p =>
        rw [hm] at hs
        simp only [Preemptive.Outcome.returned.injEq] at hs
        subst hs
        simp only []
        refine ⟨by omega, rfl, [], ?_, ?_⟩
        · simp [Preemptive.pthread_mutex_unlock, Preemptive.set_sem]
        · have : max 0 (-v) = 0 := max_eq_left (by omega)
          rw [this]
          rfl

/-- A sequence of steps without a `sem_P` has no caller to be checked. -/
theorem coop_valid_of_no_P (s : Ptr) : ∀ (cs : List SemCall) (w : World),
    (∀ c ∈ cs, ∀ tc tp, c ≠ SemCall.P tc tp) → coop_valid w s cs := by
  intro cs
  induction cs with
  | nil => intro _ _; trivial
  | cons c cs ih =>
    intro w h
    refine ⟨fun tc tp e => absurd e (h c (List.mem_cons_self _ _) tc tp), fun r _ => ?_⟩
    exact ih r.1 (fun c' hc' => h c' (List.mem_cons_of_mem _ hc'))

/-! ## Lemmas on three semaphores and the ready queue -/

theorem Net.rot {w : World} {a b c : Ptr} {va vb vc : Int} {la lb lc rl : List Ptr}
    (h : Net w a b c va vb vc la lb lc rl) : Net w b c a vb vc va lb lc la rl :=
  { sa := h.sb, sb := h.sc, sc := h.sa, rq := h.rq, ab := h.bc, ac := h.ab.symm,
    bc := h.ac.symm, dab := h.dbc, dac := h.dab.symm, dbc := h.dac.symm, dar := h.dbr,
    dbr := h.dcr, dcr := h.dar }

/-- A `sem_P` that passes, on the first of three semaphores. -/
theorem Net.P_pass {w : World} {a b c : Ptr} {va vb vc : Int} {la lb lc rl : List Ptr}
    (h : Net w a b c va vb vc la lb lc rl) (t : Ptr) (hv : 0 < va) :
    ∃ w', sem_P w a t = some w' ∧ sem_negative w' a = false ∧ w'.chans = w.chans ∧
      Net w' a b c (va - 1) vb vc la lb lc rl := by
  obtain ⟨qa, hqa, hla⟩ := h.sa
  obtain ⟨qb, hqb, hlb⟩ := h.sb
  obtain ⟨qc, hqc, hlc⟩ := h.sc
  have hn : ¬ (va - 1 < 0) := by omega
  refine ⟨_, sem_P_of_pos t hqa hv, by simp [sem_negative, thread_yield, hn], rfl, ?_⟩
  exact { h with
    sa := ⟨qa, by simp [thread_yield], hla⟩
    sb := ⟨qb, by simp [thread_yield, set_sem_sems_other, h.ab.symm, hqb], hlb⟩
    sc := ⟨qc, by simp [thread_yield, set_sem_sems_other, h.ac.symm, hqc], hlc⟩
    rq := h.rq }

/-- A `sem_P` that blocks its caller `t`, on the first of three semaphores. -/
theorem Net.P_block {w : World} {a b c : Ptr} {va vb vc : Int} {la lb lc rl : List Ptr}
    (h : Net w a b c va vb vc la lb lc rl) {t : Ptr} (hv : va ≤ 0) (hmin : va ≠ INT_MIN)
    (ht : t ≠ 0) (hta : t ∉ la) (htb : t ∉ lb) (htc : t ∉ lc) (htr : t ∉ rl) :
    ∃ w', sem_P w a t = some w' ∧ sem_negative w' a = true ∧ w'.chans = w.chans ∧
      Net w' a b c (va - 1) vb vc (la ++ [t]) lb lc rl := by
  obtain ⟨qa, hqa, hla⟩ := h.sa
  obtain ⟨qb, hqb, hlb⟩ := h.sb
  obtain ⟨qc, hqc, hlc⟩ := h.sc
  obtain ⟨m', q', hput, hh', hframe⟩ := queue_put_holds hla ht hta
  have hP : sem_P w a t =
      some (set_sem { set_sem w a (some { val := va - 1, queue := qa }) with next := m' } a
        (some { val := va - 1, queue := q' })) := by
    rw [sem_P_of_nonpos t hqa hv hmin]
    simp [thread_block_and_switch, hput]
  have hn : va - 1 < 0 := by omega
  have keep : ∀ {q : Queue} {l : List Ptr}, Holds w.next q l → t ∉ l → List.Disjoint la l →
      Holds m' q l := fun hq htl hd =>
    holds_congr (fun y hy => hframe y (fun e => htl (e ▸ hy)) (fun hya => hd hya hy)) hq
  refine ⟨_, hP, by simp [sem_negative, hn], rfl, ?_⟩
  exact
    { sa := ⟨q', by simp, hh'⟩
      sb := ⟨qb, by simp [set_sem, Function.update_noteq h.ab.symm, hqb], keep hlb htb h.dab⟩
      sc := ⟨qc, by simp [set_sem, Function.update_noteq h.ac.symm, hqc], keep hlc htc h.dac⟩
      rq := keep h.rq htr h.dar
      ab := h.ab, ac := h.ac, bc := h.bc
      dab := by
        intro y hy hyb
        rcases List.mem_append.mp hy with hy | hy
        · exact h.dab hy hyb
        · exact htb ((List.mem_singleton.mp hy) ▸ hyb)
      dac := by
        intro y hy hyc
        rcases List.mem_append.mp hy with hy | hy
        · exact h.dac hy hyc
        · exact htc ((List.mem_singleton.mp hy) ▸ hyc)
      dbc := h.dbc
      dar := by
        intro y hy hyr
        rcases List.mem_append.mp hy with hy | hy
        · exact h.dar hy hyr
        · exact htr ((List.mem_singleton.mp hy) ▸ hyr)
      dbr := h.dbr, dcr := h.dcr }

/-- A `sem_V` that wakes nobody, on the first of three semaphores. -/
theorem Net.V_plain {w : World} {a b c : Ptr} {va vb vc : Int} {la lb lc rl : List Ptr}
    (h : Net w a b c va vb vc la lb lc rl) (hv : 0 ≤ va) (hmax : va ≠ INT_MAX) :
    ∃ w', sem_V w a = some w' ∧ w'.chans = w.chans ∧
      Net w' a b c (va + 1) vb vc la lb lc rl := by
  obtain ⟨qa, hqa, hla⟩ := h.sa
  obtain ⟨qb, hqb, hlb⟩ := h.sb
  obtain ⟨qc, hqc, hlc⟩ := h.sc
  refine ⟨_, sem_V_of_nonneg hqa hv hmax, rfl, ?_⟩
  exact { h with
    sa := ⟨qa, by simp, hla⟩
    sb := ⟨qb, by simp [set_sem_sems_other, h.ab.symm, hqb], hlb⟩
    sc := ⟨qc, by simp [set_sem_sems_other, h.ac.symm, hqc], hlc⟩
    rq := h.rq }

/-- A `sem_V` that wakes the front waiter `x`, on the first of three
semaphores. -/
theorem Net.V_wake {w : World} {a b c : Ptr} {va vb vc : Int} {x : Ptr}
    {l lb lc rl : List Ptr}
    (h : Net w a b c va vb vc (x :: l) lb lc rl) (hv : va + 1 ≤ 0) :
    ∃ w', sem_V w a = some w' ∧ w'.chans = w.chans ∧
      Net w' a b c (va + 1) vb vc l lb lc (rl ++ [x]) := by
  obtain ⟨qa, hqa, hla⟩ := h.sa
  obtain ⟨qb, hqb, hlb⟩ := h.sb
  obtain ⟨qc, hqc, hlc⟩ := h.sc
  obtain ⟨hg2, hg1⟩ := queue_get_holds hla
  have hx0 : x ≠ 0 := hla.1.2.1
  have hxr : x ∉ rl := fun hm => h.dar (List.mem_cons_self x l) hm
  have hxa : x ∉ l := (List.nodup_cons.mp hla.2.1).1
  have hxb : x ∉ lb := fun hm => h.dab (List.mem_cons_self x l) hm
  have hxc : x ∉ lc := fun hm => h.dac (List.mem_cons_self x l) hm
  obtain ⟨m', rq', hput, hr', hframe⟩ := queue_put_holds h.rq hx0 hxr
  have hmax : va ≠ INT_MAX := by
    intro e
    rw [e] at hv
    exact absurd hv (by decide)
  have hV : sem_V w a = some (set_sem { w with next := m', ready_queue := rq' } a
      (some { val := va + 1, queue := (queue_get w.next qa).1 })) := by
    simp [sem_V, hqa, hmax, hv, hg2, hput, thread_yield]
  have keep : ∀ {q : Queue} {l : List Ptr}, Holds w.next q l → x ∉ l → List.Disjoint l rl →
      Holds m' q l := fun hq hxl hd =>
    holds_congr (fun y hy => hframe y (fun e => hxl (e ▸ hy)) (fun hyr => hd hy hyr)) hq
  refine ⟨_, hV, rfl, ?_⟩
  exact
    { sa := ⟨_, by simp, keep hg1 hxa (fun y hy => h.dar (List.mem_cons_of_mem _ hy))⟩
      sb := ⟨qb, by simp [set_sem, Function.update_noteq h.ab.symm, hqb], keep hlb hxb h.dbr⟩
      sc := ⟨qc, by simp [set_sem, Function.update_noteq h.ac.symm, hqc], keep hlc hxc h.dcr⟩
      rq := hr'
      ab := h.ab, ac := h.ac, bc := h.bc
      dab := fun y hy => h.dab (List.mem_cons_of_mem _ hy)
      dac := fun y hy => h.dac (List.mem_cons_of_mem _ hy)
      dbc := h.dbc
      dar := by
        intro y hy hyr
        rcases List.mem_append.mp hyr with hyr | hyr
        · exact h.dar (List.mem_cons_of_mem _ hy) hyr
        · exact hxa ((List.mem_singleton.mp hyr) ▸ hy)
      dbr := by
        intro y hy hyr
        rcases List.mem_append.mp hyr with hyr | hyr
        · exact h.dbr hy hyr
        · exact hxb ((List.mem_singleton.mp hyr) ▸ hy)
      dcr := by
        intro y hy hyr
        rcases List.mem_append.mp hyr with hyr | hyr
        · exact h.dcr hy hyr
        · exact hxc ((List.mem_singleton.mp hyr) ▸ hy) }

/-- The scheduler taking the next thread off the ready queue. -/
theorem Net.sched {w : World} {a b c : Ptr} {va vb vc : Int} {la lb lc rl : List Ptr}
    (h : Net w a b c va vb vc la lb lc rl) :
    Net (dispatch w) a b c va vb vc la lb lc rl.tail := by
  have hr : Holds w.next (queue_get w.next w.ready_queue).1 rl.tail := by
    cases rl with
    | nil => rw [queue_get_nil h.rq]; exact h.rq
    | cons y rl => exact (queue_get_holds h.rq).2
  exact
    { sa := h.sa, sb := h.sb, sc := h.sc, rq := hr, ab := h.ab, ac := h.ac, bc := h.bc
      dab := h.dab, dac := h.dac, dbc := h.dbc
      dar := fun y hy hyr => h.dar hy (List.mem_of_mem_tail hyr)
      dbr := fun y hy hyr => h.dbr hy (List.mem_of_mem_tail hyr)
      dcr := fun y hy hyr => h.dcr hy (List.mem_of_mem_tail hyr) }

theorem Net.cast {w : World} {a b c : Ptr} {va vb vc va' vb' vc' : Int}
    {la lb lc rl la' lb' lc' rl' : List Ptr} (h : Net w a b c va vb vc la lb lc rl)
    (e1 : va = va') (e2 : vb = vb') (e3 : vc = vc') (e4 : la = la') (e5 : lb = lb')
    (e6 : lc = lc') (e7 : rl = rl') : Net w a b c va' vb' vc' la' lb' lc' rl' := by
  subst e1 e2 e3 e4 e5 e6 e7
  exact h

/-- A store to a member of a channel touches no semaphore and no queue. -/
theorem Net.set_chan {w : World} {a b c : Ptr} {va vb vc : Int} {la lb lc rl : List Ptr}
    (h : Net w a b c va vb vc la lb lc rl) (p : Ptr) (y : Option Chan) :
    Net (set_chan w p y) a b c va vb vc la lb lc rl :=
  { sa := h.sa, sb := h.sb, sc := h.sc, rq := h.rq, ab := h.ab, ac := h.ac, bc := h.bc
    dab := h.dab, dac := h.dac, dbc := h.dbc, dar := h.dar, dbr := h.dbr, dcr := h.dcr }

/-! ## Lemmas on several senders and one receiver -/

@[simp] theorem after_send_w (σ : MSys) (t : Ptr) (r : World × Bool) :
    (after_send σ t r).w = r.1 := rfl

@[simp] theorem after_send_pc (σ : MSys) (t : Ptr) (r : World × Bool) :
    (after_send σ t r).pc = Function.update σ.pc t (σ.pc t + 1) := rfl

@[simp] theorem after_send_parked (σ : MSys) (t : Ptr) (r : World × Bool) :
    (after_send σ t r).parked = Function.update σ.parked t r.2 := rfl

@[simp] theorem after_send_rcalls (σ : MSys) (t : Ptr) (r : World × Bool) :
    (after_send σ t r).rcalls = σ.rcalls := rfl

@[simp] theorem after_send_rpc (σ : MSys) (t : Ptr) (r : World × Bool) :
    (after_send σ t r).rpc = σ.rpc := rfl

@[simp] theorem after_send_cur (σ : MSys) (t : Ptr) (r : World × Bool) :
    (after_send σ t r).cur = σ.cur := rfl

@[simp] theorem after_send_received (σ : MSys) (t : Ptr) (r : World × Bool) :
    (after_send σ t r).received = σ.received := rfl

/-- A list without repetitions inside another one is not longer. -/
theorem length_le_of_nodup_subset {l ts : List Ptr} (hnd : l.Nodup) (hs : ∀ t ∈ l, t ∈ ts) :
    l.length ≤ ts.length :=
  (List.Nodup.subperm hnd hs).length_le

/-- Lowering one summand of a sum over a list without repetitions lowers the
sum. -/
theorem sum_map_lt {ts : List Ptr} (hnd : ts.Nodup) {t : Ptr} (ht : t ∈ ts) {f g : Ptr → Nat}
    (hfg : ∀ u, u ≠ t → g u = f u) (hlt : g t < f t) :
    (ts.map g).sum < (ts.map f).sum := by
  induction ts with
  | nil => cases ht
  | cons y ts ih =>
    obtain ⟨hy, hnd'⟩ := List.nodup_cons.mp hnd
    by_cases hyt : y = t
    · subst hyt
      have hsame : ts.map g = ts.map f :=
        List.map_congr_left (fun u hu => hfg u (fun e => hy (e ▸ hu)))
      simp only [List.map_cons, List.sum_cons, hsame]
      omega
    · have htl : t ∈ ts := by
        rcases List.mem_cons.mp ht with e | e
        · exact absurd e.symm hyt
        · exact e
      have := ih hnd' htl
      simp only [List.map_cons, List.sum_cons, hfg y hyt]
      omega

/-- The potential after a statement of sender `t` that lowers the potential of
`t`. -/
theorem m_potential_send {ts : List Ptr} {R : Ptr} {σ : MSys} {rest : List Ptr} {t : Ptr}
    (hnd : ts.Nodup) (ht : t ∈ ts) (hR : R ∉ ts) (r : World × Bool)
    (hlt : sender_potential (σ.pc t + 1) r.2 < sender_potential (σ.pc t) (σ.parked t)) :
    m_potential ts R (after_send σ t r) rest < m_potential ts R σ rest := by
  have htR : R ≠ t := fun e => hR (e ▸ ht)
  have hsum := sum_map_lt hnd ht
    (f := fun u => sender_potential (σ.pc u) (σ.parked u))
    (g := fun u => sender_potential ((after_send σ t r).pc u) ((after_send σ t r).parked u))
    (fun u hu => by simp [Function.update_noteq hu]) (by simpa using hlt)
  simp only [m_potential, after_send_rcalls, after_send_rpc, after_send_parked,
    Function.update_noteq htR]
  simp only [after_send_parked] at hsum
  omega

theorem send_idle_inv {ts : List Ptr} {R c : Ptr} {x : Ptr → Int} {rb sb ser : Ptr} {σ : MSys}
    {rest doneL wl : List Ptr} {hold : Option Ptr} {e : Nat}
    (hinv : SerInv ts R c x rb sb ser σ rest doneL wl hold e) {t : Ptr} (ht : t ∈ ts)
    (hpc0 : σ.pc t = 0) (hpk : σ.parked t = false) :
    ∃ σ' wl' hold', mexec R c x σ (MAct.send t) = some σ' ∧
      SerInv ts R c x rb sb ser σ' rest doneL wl' hold' e ∧
      m_potential ts R σ' rest < m_potential ts R σ rest := by
  obtain ⟨d, hch, hd⟩ := hinv.chan
  have htR : t ≠ R := fun e => hinv.R_ts (e ▸ ht)
  have ht0 := hinv.ts_nz t ht
  have htw : t ∉ wl := fun hm => by have := (hinv.wl_ts t hm).2.1; omega
  have htd : t ∉ doneL := fun hm => by have := (hinv.done_ts t hm).2.1; omega
  have hth : hold ≠ some t := fun e => by have := (hinv.hold_ok t e).2.1; omega
  cases hold with
  | none =>
    have hwl := hinv.wl_hold rfl
    subst hwl
    obtain ⟨w', hP, hneg, hchans, hnet'⟩ := hinv.net.P_pass t (by simp [m_ser_val])
    have e0 : e = 0 := by
      have := hinv.e_one
      have := hinv.e_le
      simp [hpc] at *
      omega
    subst e0
    refine ⟨after_send σ t (w', false), [], some t, ?_, ?_, ?_⟩
    · simp [mexec, chan_send_step, hpc0, hch, hP, hneg]
    · have hlow := hinv.low (by simp [hpc])
      exact
        { chan := ⟨d, by simpa [hchans] using hch, by
            intro h hh
            cases hh
            simp [hpc0]⟩
          net := hnet'.cast (by simp [m_ser_val]) (by simp [m_rb_val, hpc, hpc0])
            (by simp [m_sb_val, hpc, hpc0]) rfl (by simp [m_rb_val, hpc, hpc0])
            (by simp [m_sb_val, hpc, hpc0])
            (by simp [m_pending, hpc, hparked, hpc0, Function.update_noteq htR.symm, m_rb_val])
          ts_nd := hinv.ts_nd, ts_nz := hinv.ts_nz, ts_small := hinv.ts_small
          R_nz := hinv.R_nz, R_ts := hinv.R_ts, rest_ts := hinv.rest_ts, rest_R := hinv.rest_R
          done_nd := hinv.done_nd
          done_ts := fun u hu => by
            have hut : u ≠ t := fun e => htd (e ▸ hu)
            simpa [Function.update_noteq hut] using hinv.done_ts u hu
          wl_ts := fun u hu => by simp at hu
          hold_ok := fun h hh => by
            cases hh
            simp [hpc0, ht]
          idle := fun u hu => by
            by_cases hut : u = t
            · exact Or.inr (Or.inl (by rw [hut]))
            · rcases hinv.idle u hu with h1 | h1 | h1 | h1
              · exact Or.inl h1
              · cases h1
              · exact Or.inr (Or.inr (Or.inl h1))
              · exact Or.inr (Or.inr (Or.inr (by simpa [Function.update_noteq hut] using h1)))
          wl_hold := fun _ => rfl
          calls := hinv.calls, e_le := hinv.e_le
          e_one := fun h => by omega
          low := fun _ => hlow
          rpc_le := hinv.rpc_le, rcalls_le := hinv.rcalls_le, rcalls_eq := hinv.rcalls_eq
          rpark := fun h => hinv.rpark (by simpa [Function.update_noteq htR.symm] using h)
          rwait := fun h => by
            have := hinv.rwait (by simpa [m_rb_val, hpc, hpc0] using h)
            simpa [Function.update_noteq htR.symm] using this
          swait := fun h => by simp [m_sb_val, hpc, hpc0] at h
          cur := fun h => by exfalso; simp at h; omega
          recd := by simpa using hinv.recd }
    · exact m_potential_send hinv.ts_nd ht hinv.R_ts _ (by simp [sender_potential, hpc0, hpk])
  | some h =>
    obtain ⟨hts, h1, h4, hhw, hhp⟩ := hinv.hold_ok h rfl
    have hth' : t ≠ h := fun e => hth (by rw [e])
    obtain ⟨qs, -, hqs⟩ := hinv.net.sa
    have hwlen : wl.length ≤ ts.length :=
      length_le_of_nodup_subset hqs.2.1 (fun u hu => (hinv.wl_ts u hu).1)
    have hsmall := hinv.ts_small
    obtain ⟨w', hP, hneg, hchans, hnet'⟩ := hinv.net.P_block (t := t)
      (by simp [m_ser_val])
      (by simp only [m_ser_val, Option.isSome_some, if_true, INT_MIN]
          simp only [INT_MAX] at hsmall
          omega)
      ht0 htw
      (by split_ifs <;> simp [htR])
      (by split_ifs <;> simp [hth'])
      (by
        intro hm
        rcases List.mem_append.mp hm with hm | hm
        · exact hinv.rest_ts t ht hm
        · unfold m_pending at hm
          split_ifs at hm
          · exact htR (by simpa using hm)
          · exact hth' (by simpa using hm)
          · simp at hm)
    have hp' : hpc (after_send σ t (w', true)) (some h) = hpc σ (some h) := by
      simp [hpc, Function.update_noteq hth'.symm]
    have hk' : hparked (after_send σ t (w', true)) (some h) = hparked σ (some h) := by
      simp [hparked, Function.update_noteq hth'.symm]
    have hR' : (after_send σ t (w', true)).parked R = σ.parked R := by
      simp [Function.update_noteq htR.symm]
    have hpend : m_pending R (after_send σ t (w', true)) (some h) e = m_pending R σ (some h) e := by
      simp only [m_pending, hp', hk', hR', after_send_rpc]
    refine ⟨after_send σ t (w', true), wl ++ [t], some h, ?_, ?_, ?_⟩
    · simp [mexec, chan_send_step, hpc0, hch, hP, hneg]
    · exact
        { chan := ⟨d, by simpa [hchans] using hch, by
            intro h' hh
            cases hh
            simpa [Function.update_noteq hth'.symm] using hd h rfl⟩
          net := hnet'.cast (by simp [m_ser_val]; omega) (by rw [hp']; rfl) (by rw [hp'])
            rfl (by rw [hp']; rfl) (by rw [hp']) (by rw [hpend])
          ts_nd := hinv.ts_nd, ts_nz := hinv.ts_nz, ts_small := hinv.ts_small
          R_nz := hinv.R_nz, R_ts := hinv.R_ts, rest_ts := hinv.rest_ts, rest_R := hinv.rest_R
          done_nd := hinv.done_nd
          done_ts := fun u hu => by
            have hut : u ≠ t := fun e => htd (e ▸ hu)
            simpa [Function.update_noteq hut] using hinv.done_ts u hu
          wl_ts := fun u hu => by
            rcases List.mem_append.mp hu with hu | hu
            · have hut : u ≠ t := fun e => htw (e ▸ hu)
              simpa [Function.update_noteq hut] using hinv.wl_ts u hu
            · have hut : u = t := by simpa using hu
              subst hut
              simp [hpc0, ht]
          hold_ok := fun h' hh => by
            cases hh
            simp only [after_send_pc, after_send_parked, Function.update_noteq hth'.symm]
            refine ⟨hts, h1, h4, ?_, hhp⟩
            simp [hhw, hth'.symm]
          idle := fun u hu => by
            by_cases hut : u = t
            · exact Or.inr (Or.inr (Or.inl (by simp [hut])))
            · rcases hinv.idle u hu with h1 | h1 | h1 | h1
              · exact Or.inl h1
              · exact Or.inr (Or.inl h1)
              · exact Or.inr (Or.inr (Or.inl (List.mem_append_left _ h1)))
              · exact Or.inr (Or.inr (Or.inr (by simpa [Function.update_noteq hut] using h1)))
          wl_hold := fun hn => by cases hn
          calls := hinv.calls, e_le := hinv.e_le
          e_one := fun he => by rw [hp']; exact hinv.e_one he
          low := fun hl => by rw [hp'] at hl; exact hinv.low hl
          rpc_le := hinv.rpc_le, rcalls_le := hinv.rcalls_le, rcalls_eq := hinv.rcalls_eq
          rpark := fun hr => hinv.rpark (by rw [← hR']; exact hr)
          rwait := fun hr => by rw [hR']; rw [hp'] at hr; exact hinv.rwait hr
          swait := fun hs => by rw [hk']; rw [hp'] at hs; exact hinv.swait hs
          cur := fun hc h' hh => by
            cases hh
            exact hinv.cur hc h rfl
          recd := by simpa using hinv.recd }
    · exact m_potential_send hinv.ts_nd ht hinv.R_ts _ (by simp [sender_potential, hpc0, hpk])

/-- The holder of `send_serialiser` executes one of its statements 2 to 4
(`pc` 1 to 3): what is left to show is the state of the channel and of the
semaphores after the statement. -/
theorem hold_advance {ts : List Ptr} {R c : Ptr} {x : Ptr → Int} {rb sb ser : Ptr} {σ : MSys}
    {rest doneL wl : List Ptr} {h : Ptr} {e : Nat}
    (hinv : SerInv ts R c x rb sb ser σ rest doneL wl (some h) e)
    (hpk : σ.parked h = false) (hk : σ.pc h ≤ 3) (w' : World) (b : Bool)
    (hchan : ∃ d, w'.chans c =
        some { rblock := rb, sblock := sb, send_serialiser := ser, data := d } ∧
      (2 ≤ σ.pc h + 1 → d = x h))
    (hnet : Net w' ser rb sb (m_ser_val (some h) wl) (m_rb_val (σ.pc h + 1) e σ.rpc)
      (m_sb_val (σ.pc h + 1) e) wl
      (if m_rb_val (σ.pc h + 1) e σ.rpc < 0 then [R] else [])
      (if m_sb_val (σ.pc h + 1) e < 0 then [h] else [])
      (rest ++ m_pending R (after_send σ h (w', b)) (some h) e))
    (hlow : σ.pc h + 1 < 3 → σ.rpc ≤ 1) (he1 : e = 1 → 3 ≤ σ.pc h + 1)
    (hb : b = true → σ.pc h + 1 = 4)
    (hrw : m_rb_val (σ.pc h + 1) e σ.rpc < 0 → σ.parked R = true)
    (hsw : m_sb_val (σ.pc h + 1) e < 0 → b = true) :
    SerInv ts R c x rb sb ser (after_send σ h (w', b)) rest doneL wl (some h) e ∧
      m_potential ts R (after_send σ h (w', b)) rest < m_potential ts R σ rest := by
  obtain ⟨hts, h1, h4, hhw, hhp⟩ := hinv.hold_ok h rfl
  have hhR : h ≠ R := fun e => hinv.R_ts (e ▸ hts)
  have hhd : h ∉ doneL := fun hm => by have := (hinv.done_ts h hm).2.1; omega
  have hp' : hpc (after_send σ h (w', b)) (some h) = σ.pc h + 1 := by simp [hpc]
  have hk' : hparked (after_send σ h (w', b)) (some h) = b := by simp [hparked]
  have hR' : (after_send σ h (w', b)).parked R = σ.parked R := by
    simp [Function.update_noteq hhR.symm]
  obtain ⟨d, hch, hd⟩ := hchan
  constructor
  · exact
      { chan := ⟨d, hch, by
          intro h' hh
          cases hh
          simpa using hd⟩
        net := hnet.cast rfl (by rw [hp']; rfl) (by rw [hp']) rfl (by rw [hp']; rfl)
          (by rw [hp']; rfl) rfl
        ts_nd := hinv.ts_nd, ts_nz := hinv.ts_nz, ts_small := hinv.ts_small
        R_nz := hinv.R_nz, R_ts := hinv.R_ts, rest_ts := hinv.rest_ts, rest_R := hinv.rest_R
        done_nd := hinv.done_nd
        done_ts := fun u hu => by
          have hut : u ≠ h := fun e => hhd (e ▸ hu)
          simpa [Function.update_noteq hut] using hinv.done_ts u hu
        wl_ts := fun u hu => by
          have hut : u ≠ h := fun e => hhw (e ▸ hu)
          simpa [Function.update_noteq hut] using hinv.wl_ts u hu
        hold_ok := fun h' hh => by
          cases hh
          simp only [after_send_pc, after_send_parked, Function.update_same]
          refine ⟨hts, by omega, by omega, hhw, fun hbt => Or.inr (hb hbt)⟩
        idle := fun u hu => by
          by_cases hut : u = h
          · exact Or.inr (Or.inl (by rw [hut]))
          · rcases hinv.idle u hu with h1 | h1 | h1 | h1
            · exact Or.inl h1
            · exact Or.inr (Or.inl h1)
            · exact Or.inr (Or.inr (Or.inl h1))
            · exact Or.inr (Or.inr (Or.inr (by simpa [Function.update_noteq hut] using h1)))
        wl_hold := fun hn => by cases hn
        calls := hinv.calls, e_le := hinv.e_le
        e_one := fun he => by
          rw [hp']
          exact ⟨he1 he, (hinv.e_one he).2⟩
        low := fun hl => by rw [hp'] at hl; exact hlow hl
        rpc_le := hinv.rpc_le, rcalls_le := hinv.rcalls_le, rcalls_eq := hinv.rcalls_eq
        rpark := fun hr => hinv.rpark (by rw [← hR']; exact hr)
        rwait := fun hr => by rw [hR']; rw [hp'] at hr; exact hrw hr
        swait := fun hs => by rw [hk']; rw [hp'] at hs; exact hsw hs
        cur := fun hc h' hh => by
          cases hh
          exact hinv.cur hc h rfl
        recd := by simpa using hinv.recd }
  · refine m_potential_send hinv.ts_nd hts hinv.R_ts _ ?_
    simp only [sender_potential, hpk]
    cases b with
    | false => simp; split_ifs <;> omega
    | true =>
      have := hb rfl
      simp
      split_ifs <;> omega

/-- Statement 2 of `chan_send` by the holder: `c->data = sentdata`. -/
theorem send_store_inv {ts : List Ptr} {R c : Ptr} {x : Ptr → Int} {rb sb ser : Ptr}
    {σ : MSys} {rest doneL wl : List Ptr} {h : Ptr} {e : Nat}
    (hinv : SerInv ts R c x rb sb ser σ rest doneL wl (some h) e)
    (hpk : σ.parked h = false) (hpc1 : σ.pc h = 1) :
    ∃ σ', mexec R c x σ (MAct.send h) = some σ' ∧
      SerInv ts R c x rb sb ser σ' rest doneL wl (some h) e ∧
      m_potential ts R σ' rest < m_potential ts R σ rest := by
  obtain ⟨d, hch, -⟩ := hinv.chan
  obtain ⟨hts, -⟩ := hinv.hold_ok h rfl
  have hhR : h ≠ R := fun e => hinv.R_ts (e ▸ hts)
  have hlow := hinv.low (by simp [hpc, hpc1])
  have he0 : e ≠ 1 := fun he => by
    have := (hinv.e_one he).1
    simp [hpc, hpc1] at this
  refine ⟨after_send σ h (set_chan σ.w c
    (some { rblock := rb, sblock := sb, send_serialiser := ser, data := x h }), false), ?_, ?_⟩
  · simp [mexec, chan_send_step, hpc1, chan_store, hch]
  · refine hold_advance hinv hpk (by omega) _ false ⟨x h, by simp, fun _ => rfl⟩ ?_
      (fun _ => hlow) (fun he => absurd he he0) (fun hb => by cases hb) ?_ ?_
    · refine (hinv.net.set_chan c _).cast rfl ?_ ?_ rfl ?_ ?_ ?_
      · simp [m_rb_val, hpc, hpc1]
      · simp [m_sb_val, hpc, hpc1]
      · simp [m_rb_val, hpc, hpc1]
      · simp [m_sb_val, hpc, hpc1]
      · simp [m_pending, hpc, hparked, hpk, hpc1, m_rb_val, Function.update_noteq hhR.symm]
    · intro hr
      exact hinv.rwait (by simpa [m_rb_val, hpc, hpc1] using hr)
    · intro hs
      simp [m_sb_val, hpc1] at hs
      omega

/-- Statement 3 of `chan_send` by the holder: `sem_V(c->rblock)`. -/
theorem send_signal_inv {ts : List Ptr} {R c : Ptr} {x : Ptr → Int} {rb sb ser : Ptr}
    {σ : MSys} {rest doneL wl : List Ptr} {h : Ptr} {e : Nat}
    (hinv : SerInv ts R c x rb sb ser σ rest doneL wl (some h) e)
    (hpk : σ.parked h = false) (hpc2 : σ.pc h = 2) :
    ∃ σ', mexec R c x σ (MAct.send h) = some σ' ∧
      SerInv ts R c x rb sb ser σ' rest doneL wl (some h) e ∧
      m_potential ts R σ' rest < m_potential ts R σ rest := by
  obtain ⟨d, hch, hd⟩ := hinv.chan
  obtain ⟨hts, -⟩ := hinv.hold_ok h rfl
  have hhR : h ≠ R := fun e => hinv.R_ts (e ▸ hts)
  have hlow := hinv.low (by simp [hpc, hpc2])
  have he0 : e = 0 := by
    have h1 := hinv.e_le
    have h2 : e ≠ 1 := fun he => by
      have := (hinv.e_one he).1
      simp [hpc, hpc2] at this
    omega
  subst he0
  have hdx : d = x h := hd h rfl (by omega)
  by_cases hr0 : σ.rpc = 0
  · have hRp : σ.parked R = false := by
      cases hp : σ.parked R with
      | false => rfl
      | true => have := hinv.rpark hp; omega
    obtain ⟨w', hV, hchans, hnet'⟩ := hinv.net.rot.V_plain
      (by simp [m_rb_val, hpc, hpc2, hr0]) (by simp [m_rb_val, hpc, hpc2, hr0, INT_MAX])
    refine ⟨after_send σ h (w', false), ?_, ?_⟩
    · simp [mexec, chan_send_step, hpc2, hch, hV]
    · refine hold_advance hinv hpk (by omega) _ false
        ⟨d, by rw [hchans]; exact hch, fun _ => hdx⟩ ?_
        (fun hl => by omega) (fun he => by omega) (fun hb => by cases hb) ?_ ?_
      · refine hnet'.rot.rot.cast rfl ?_ ?_ rfl ?_ ?_ ?_
        · simp [m_rb_val, hpc, hpc2, hr0]
        · simp [m_sb_val, hpc, hpc2]
        · simp [m_rb_val, hpc, hpc2, hr0]
        · simp [m_sb_val, hpc, hpc2]
        · simp [m_pending, hpc, hparked, hpk, hpc2, m_rb_val, Function.update_noteq hhR.symm,
            hRp]
      · intro hr
        simp [m_rb_val, hpc2, hr0] at hr
      · intro hs
        simp [m_sb_val, hpc2] at hs
  · have hr1 : σ.rpc = 1 := by omega
    have hRp : σ.parked R = true := hinv.rwait (by simp [m_rb_val, hpc, hpc2, hr1])
    obtain ⟨w', hV, hchans, hnet'⟩ := Net.V_wake (x := R) (l := [])
      (hinv.net.rot.cast rfl rfl rfl (by simp [m_rb_val, hpc, hpc2, hr1]) rfl rfl rfl)
      (by simp [m_rb_val, hpc, hpc2, hr1])
    refine ⟨after_send σ h (w', false), ?_, ?_⟩
    · simp [mexec, chan_send_step, hpc2, hch, hV]
    · refine hold_advance hinv hpk (by omega) _ false
        ⟨d, by rw [hchans]; exact hch, fun _ => hdx⟩ ?_
        (fun hl => by omega) (fun he => by omega) (fun hb => by cases hb) ?_ ?_
      · refine hnet'.rot.rot.cast rfl ?_ ?_ rfl ?_ ?_ ?_
        · simp [m_rb_val, hpc, hpc2, hr1]
        · simp [m_sb_val, hpc, hpc2]
        · simp [m_rb_val, hpc, hpc2, hr1]
        · simp [m_sb_val, hpc, hpc2]
        · simp [m_pending, hpc, hparked, hpk, hpc2, m_rb_val, Function.update_noteq hhR.symm,
            hRp, hr1]
      · intro _
        exact hRp
      · intro hs
        simp [m_sb_val, hpc2] at hs

/-- Statement 4 of `chan_send` by the holder: `sem_P(c->sblock)`. -/
theorem send_wait_inv {ts : List Ptr} {R c : Ptr} {x : Ptr → Int} {rb sb ser : Ptr}
    {σ : MSys} {rest doneL wl : List Ptr} {h : Ptr} {e : Nat}
    (hinv : SerInv ts R c x rb sb ser σ rest doneL wl (some h) e)
    (hpk : σ.parked h = false) (hpc3 : σ.pc h = 3) :
    ∃ σ', mexec R c x σ (MAct.send h) = some σ' ∧
      SerInv ts R c x rb sb ser σ' rest doneL wl (some h) e ∧
      m_potential ts R σ' rest < m_potential ts R σ rest := by
  obtain ⟨d, hch, hd⟩ := hinv.chan
  obtain ⟨hts, -, -, hhw, -⟩ := hinv.hold_ok h rfl
  have hhR : h ≠ R := fun e => hinv.R_ts (e ▸ hts)
  have hh0 := hinv.ts_nz h hts
  have hdx : d = x h := hd h rfl (by omega)
  have hele := hinv.e_le
  by_cases he1 : e = 1
  · subst he1
    obtain ⟨w', hP, hneg, hchans, hnet'⟩ := hinv.net.rot.rot.P_pass h
      (by simp [m_sb_val, hpc, hpc3])
    refine ⟨after_send σ h (w', false), ?_, ?_⟩
    · simp [mexec, chan_send_step, hpc3, hch, hP, hneg]
    · refine hold_advance hinv hpk (by omega) _ false
        ⟨d, by rw [hchans]; exact hch, fun _ => hdx⟩ ?_
        (fun hl => by omega) (fun he => by omega) (fun hb => by cases hb) ?_ ?_
      · refine hnet'.rot.cast rfl ?_ ?_ rfl ?_ ?_ ?_
        · simp [m_rb_val, hpc, hpc3]
        · simp [m_sb_val, hpc, hpc3]
        · simp [m_rb_val, hpc, hpc3]
        · simp [m_sb_val, hpc, hpc3]
        · simp [m_pending, hpc, hparked, hpk, hpc3, m_rb_val, Function.update_noteq hhR.symm]
      · intro hr
        exact hinv.rwait (by simpa [m_rb_val, hpc, hpc3] using hr)
      · intro hs
        simp [m_sb_val, hpc3] at hs
  · have he0 : e = 0 := by omega
    subst he0
    obtain ⟨w', hP, hneg, hchans, hnet'⟩ := hinv.net.rot.rot.P_block (t := h)
      (by simp [m_sb_val, hpc, hpc3]) (by simp [m_sb_val, hpc, hpc3, INT_MIN]) hh0
      (by simp [m_sb_val, hpc, hpc3]) hhw
      (by split_ifs <;> simp [hhR])
      (by
        intro hm
        rcases List.mem_append.mp hm with hm | hm
        · exact hinv.rest_ts h hts hm
        · unfold m_pending at hm
          split_ifs at hm with c1 c2
          · exact hhR (by simpa using hm)
          · simp [hparked, hpk] at c2
          · simp at hm)
    refine ⟨after_send σ h (w', true), ?_, ?_⟩
    · simp [mexec, chan_send_step, hpc3, hch, hP, hneg]
    · refine hold_advance hinv hpk (by omega) _ true
        ⟨d, by rw [hchans]; exact hch, fun _ => hdx⟩ ?_
        (fun hl => by omega) (fun he => by omega) (fun _ => by omega) ?_ ?_
      · refine hnet'.rot.cast rfl ?_ ?_ rfl ?_ ?_ ?_
        · simp [m_rb_val, hpc, hpc3]
        · simp [m_sb_val, hpc, hpc3]
        · simp [m_rb_val, hpc, hpc3]
        · simp [m_sb_val, hpc, hpc3]
        · simp [m_pending, hpc, hparked, hpk, hpc3, m_rb_val, m_sb_val,
            Function.update_noteq hhR.symm]
      · intro hr
        exact hinv.rwait (by simpa [m_rb_val, hpc, hpc3] using hr)
      · intro _
        rfl

/-- Statement 5 of `chan_send` by the holder: `sem_V(c->send_serialiser)`;
the call returns and the first sender blocked on `send_serialiser`, if any,
becomes the holder. -/
theorem send_release_inv {ts : List Ptr} {R c : Ptr} {x : Ptr → Int} {rb sb ser : Ptr}
    {σ : MSys} {rest doneL wl : List Ptr} {h : Ptr} {e : Nat}
    (hinv : SerInv ts R c x rb sb ser σ rest doneL wl (some h) e)
    (hpk : σ.parked h = false) (hpc4 : σ.pc h = 4) :
    ∃ σ' wl' hold', mexec R c x σ (MAct.send h) = some σ' ∧
      SerInv ts R c x rb sb ser σ' rest (doneL ++ [h]) wl' hold' 0 ∧
      m_potential ts R σ' rest < m_potential ts R σ rest := by
  obtain ⟨d, hch, hd⟩ := hinv.chan
  obtain ⟨hts, -, -, hhw, -⟩ := hinv.hold_ok h rfl
  have hhR : h ≠ R := fun e => hinv.R_ts (e ▸ hts)
  have hhd : h ∉ doneL := fun hm => by have := (hinv.done_ts h hm).2.1; omega
  have he1 : e = 1 := by
    have h1 := hinv.e_le
    by_contra hne
    have h0 : e = 0 := by omega
    have := hinv.swait (by simp [m_sb_val, hpc, hpc4, h0])
    simp [hparked, hpk] at this
  subst he1
  have hrpc : σ.rpc ≤ 1 := (hinv.e_one rfl).2
  have hRb : ¬ (σ.parked R = true ∧ 0 ≤ m_rb_val 4 1 σ.rpc) := by
    rintro ⟨hp, hv⟩
    have := hinv.rpark hp
    simp [m_rb_val, this] at hv
  have hpot : ∀ w' : World,
      m_potential ts R (after_send σ h (w', false)) rest < m_potential ts R σ rest :=
    fun w' => m_potential_send hinv.ts_nd hts hinv.R_ts _
      (by simp [sender_potential, hpc4, hpk])
  have hR' : ∀ w' : World, (after_send σ h (w', false)).parked R = σ.parked R := fun w' => by
    simp [Function.update_noteq hhR.symm]
  have hdone_nd : (doneL ++ [h]).Nodup := by
    rw [List.nodup_append]
    refine ⟨hinv.done_nd, List.nodup_singleton h, ?_⟩
    intro u hu hu'
    exact hhd ((List.mem_singleton.mp hu') ▸ hu)
  have hdone_ts : ∀ w' : World, ∀ u ∈ doneL ++ [h], u ∈ ts ∧
      (after_send σ h (w', false)).pc u = 5 ∧ (after_send σ h (w', false)).parked u = false := by
    intro w' u hu
    rcases List.mem_append.mp hu with hu | hu
    · have hut : u ≠ h := fun e => hhd (e ▸ hu)
      simpa [Function.update_noteq hut] using hinv.done_ts u hu
    · have hut : u = h := by simpa using hu
      subst hut
      simp [hpc4, hts]
  have hrecd : σ.received = (doneL ++ [h]).map x ++ [] := by
    simpa using hinv.recd
  cases wl with
  | nil =>
    obtain ⟨w', hV, hchans, hnet'⟩ := hinv.net.V_plain (by simp [m_ser_val])
      (by simp [m_ser_val, INT_MAX])
    refine ⟨after_send σ h (w', false), [], none, ?_, ?_, hpot w'⟩
    · simp [mexec, chan_send_step, hpc4, hch, hV]
    · exact
        { chan := ⟨d, by rw [after_send_w, hchans]; exact hch, fun h' hh => by cases hh⟩
          net := hnet'.cast (by simp [m_ser_val]) (by simp [m_rb_val, hpc, hpc4])
            (by simp [m_sb_val, hpc, hpc4]) rfl (by simp [m_rb_val, hpc, hpc4])
            (by simp [m_sb_val, hpc, hpc4])
            (by
              simp only [m_pending, hpc, hparked, hpk, hpc4, hR' w', after_send_rpc] at hRb ⊢
              simp [m_rb_val] at hRb ⊢)
          ts_nd := hinv.ts_nd, ts_nz := hinv.ts_nz, ts_small := hinv.ts_small
          R_nz := hinv.R_nz, R_ts := hinv.R_ts, rest_ts := hinv.rest_ts, rest_R := hinv.rest_R
          done_nd := hdone_nd
          done_ts := hdone_ts w'
          wl_ts := fun u hu => by simp at hu
          hold_ok := fun h' hh => by cases hh
          idle := fun u hu => by
            by_cases hut : u = h
            · exact Or.inl (by simp [hut])
            · rcases hinv.idle u hu with h1 | h1 | h1 | h1
              · exact Or.inl (List.mem_append_left _ h1)
              · exact absurd (Option.some.inj h1).symm hut
              · simp at h1
              · exact Or.inr (Or.inr (Or.inr (by simpa [Function.update_noteq hut] using h1)))
          wl_hold := fun _ => rfl
          calls := by
            have := hinv.calls
            simp only [after_send_rcalls, List.length_append, List.length_singleton]
            omega
          e_le := by omega
          e_one := fun he => by omega
          low := fun _ => hrpc
          rpc_le := hinv.rpc_le, rcalls_le := hinv.rcalls_le, rcalls_eq := hinv.rcalls_eq
          rpark := fun hr => hinv.rpark (by rw [← hR' w']; exact hr)
          rwait := fun hr => by
            rw [hR' w']
            exact hinv.rwait (by simpa [m_rb_val, hpc, hpc4] using hr)
          swait := fun hs => by simp [m_sb_val, hpc] at hs
          cur := fun hc h' hh => by cases hh
          recd := by simpa using hrecd }
  | cons t' wl' =>
    obtain ⟨ht's, ht'pc, ht'pk⟩ := hinv.wl_ts t' (List.mem_cons_self _ _)
    have ht'h : t' ≠ h := fun e => hhw (e ▸ List.mem_cons_self _ _)
    obtain ⟨qs, -, hqs⟩ := hinv.net.sa
    have ht'w : t' ∉ wl' := (List.nodup_cons.mp hqs.2.1).1
    obtain ⟨w', hV, hchans, hnet'⟩ := hinv.net.V_wake (by simp [m_ser_val])
    have hp' : hpc (after_send σ h (w', false)) (some t') = 1 := by
      simp [hpc, Function.update_noteq ht'h, ht'pc]
    have hk' : hparked (after_send σ h (w', false)) (some t') = true := by
      simp [hparked, Function.update_noteq ht'h, ht'pk]
    refine ⟨after_send σ h (w', false), wl', some t', ?_, ?_, hpot w'⟩
    · simp [mexec, chan_send_step, hpc4, hch, hV]
    · exact
        { chan := ⟨d, by rw [after_send_w, hchans]; exact hch, fun h' hh => by
            cases hh
            intro h2
            simp [Function.update_noteq ht'h, ht'pc] at h2⟩
          net := hnet'.cast (by simp [m_ser_val])
            (by rw [hp']; simp [m_rb_val, hpc, hpc4])
            (by rw [hp']; simp [m_sb_val, hpc, hpc4]) rfl
            (by rw [hp']; simp [m_rb_val, hpc, hpc4])
            (by rw [hp']; simp [m_sb_val, hpc, hpc4])
            (by
              have hl : m_pending R σ (some h) 1 = [] := by
                cases hpR : σ.parked R with
                | false => simp [m_pending, hpR, hparked, hpk]
                | true =>
                  have := hinv.rpark hpR
                  simp [m_pending, hpR, hparked, hpk, hpc, hpc4, m_rb_val, this]
              have hr : m_pending R (after_send σ h (w', false)) (some t') 0 = [t'] := by
                simp only [m_pending, hp', hk', hR' w', after_send_rpc]
                cases hpR : σ.parked R with
                | false => simp
                | true =>
                  have := hinv.rpark hpR
                  simp [m_rb_val, this]
              rw [hl, hr, List.append_nil])
          ts_nd := hinv.ts_nd, ts_nz := hinv.ts_nz, ts_small := hinv.ts_small
          R_nz := hinv.R_nz, R_ts := hinv.R_ts, rest_ts := hinv.rest_ts, rest_R := hinv.rest_R
          done_nd := hdone_nd
          done_ts := hdone_ts w'
          wl_ts := fun u hu => by
            have hut : u ≠ h := fun e => hhw (e ▸ List.mem_cons_of_mem _ hu)
            simpa [Function.update_noteq hut] using hinv.wl_ts u (List.mem_cons_of_mem _ hu)
          hold_ok := fun h' hh => by
            cases hh
            simp only [after_send_pc, after_send_parked, Function.update_noteq ht'h, ht'pc]
            exact ⟨ht's, le_refl 1, by omega, ht'w, fun _ => Or.inl trivial⟩
          idle := fun u hu => by
            by_cases hut : u = h
            · exact Or.inl (by simp [hut])
            · rcases hinv.idle u hu with h1 | h1 | h1 | h1
              · exact Or.inl (List.mem_append_left _ h1)
              · exact absurd (Option.some.inj h1).symm hut
              · rcases List.mem_cons.mp h1 with h1 | h1
                · exact Or.inr (Or.inl (by rw [h1]))
                · exact Or.inr (Or.inr (Or.inl h1))
              · exact Or.inr (Or.inr (Or.inr (by simpa [Function.update_noteq hut] using h1)))
          wl_hold := fun hn => by cases hn
          calls := by
            have := hinv.calls
            simp only [after_send_rcalls, List.length_append, List.length_singleton]
            omega
          e_le := by omega
          e_one := fun he => by omega
          low := fun _ => hrpc
          rpc_le := hinv.rpc_le, rcalls_le := hinv.rcalls_le, rcalls_eq := hinv.rcalls_eq
          rpark := fun hr => hinv.rpark (by rw [← hR' w']; exact hr)
          rwait := fun hr => by
            rw [hR' w']
            rw [hp'] at hr
            exact hinv.rwait (by simpa [m_rb_val, hpc, hpc4] using hr)
          swait := fun hs => by
            rw [hp'] at hs
            simp [m_sb_val] at hs
          cur := fun hc => by
            exfalso
            simp at hc
            omega
          recd := by simpa using hrecd }

/-- The potential after a step that leaves the senders alone. -/
theorem m_potential_recv {ts : List Ptr} {R : Ptr} {σ σ' : MSys} {rest : List Ptr}
    (hR : R ∉ ts) (hpc : σ'.pc = σ.pc) (b : Bool)
    (hpk : σ'.parked = Function.update σ.parked R b)
    (hlt : 4 * (ts.length - σ'.rcalls) -
        (σ'.rpc + if 1 ≤ σ'.rpc ∧ b = false then 1 else 0) <
      4 * (ts.length - σ.rcalls) -
        (σ.rpc + if 1 ≤ σ.rpc ∧ σ.parked R = false then 1 else 0)) :
    m_potential ts R σ' rest < m_potential ts R σ rest := by
  have hsum : (ts.map fun u => sender_potential (σ'.pc u) (σ'.parked u)) =
      ts.map fun u => sender_potential (σ.pc u) (σ.parked u) :=
    List.map_congr_left (fun u hu => by
      have huR : u ≠ R := fun e => hR (e ▸ hu)
      rw [hpc, hpk, Function.update_noteq huR])
  have hRb : σ'.parked R = b := by rw [hpk, Function.update_same]
  simp only [m_potential, hsum, hRb]
  omega

/-- The receiver executes statement 1 or 2 of `chan_receive` (`rpc` 0 or 1):
what is left to show is the state of the channel and of the semaphores after
the statement. -/
theorem recv_advance {ts : List Ptr} {R c : Ptr} {x : Ptr → Int} {rb sb ser : Ptr} {σ : MSys}
    {rest doneL wl : List Ptr} {hold : Option Ptr} {e : Nat}
    (hinv : SerInv ts R c x rb sb ser σ rest doneL wl hold e)
    (hpk : σ.parked R = false) (hr : σ.rpc ≤ 1) (hcalls : σ.rcalls < ts.length)
    (w' : World) (cur' : Int) (b : Bool)
    (hchan : ∃ d, w'.chans c =
        some { rblock := rb, sblock := sb, send_serialiser := ser, data := d } ∧
      ∀ h, hold = some h → 2 ≤ σ.pc h → d = x h)
    (hnet : Net w' ser rb sb (m_ser_val hold wl) (m_rb_val (hpc σ hold) e (σ.rpc + 1))
      (m_sb_val (hpc σ hold) e) wl
      (if m_rb_val (hpc σ hold) e (σ.rpc + 1) < 0 then [R] else [])
      (if m_sb_val (hpc σ hold) e < 0 then hold.toList else [])
      (rest ++ m_pending R (after_recv σ R (w', cur', b)) hold e))
    (hb : b = true → σ.rpc = 0)
    (hrw : m_rb_val (hpc σ hold) e (σ.rpc + 1) < 0 → b = true)
    (hlow : hpc σ hold < 3 → σ.rpc = 0) (he1 : e = 1 → σ.rpc = 0)
    (hcur : σ.rpc = 1 → ∀ h, hold = some h → cur' = x h) :
    SerInv ts R c x rb sb ser (after_recv σ R (w', cur', b)) rest doneL wl hold e ∧
      m_potential ts R (after_recv σ R (w', cur', b)) rest < m_potential ts R σ rest := by
  have hne : σ.rpc ≠ 2 := by omega
  obtain ⟨σ', hσ'⟩ : ∃ σ', σ' = after_recv σ R (w', cur', b) := ⟨_, rfl⟩
  have hw : σ'.w = w' := by rw [hσ']; simp [after_recv, hne]
  have hpcs : σ'.pc = σ.pc := by rw [hσ']; simp [after_recv, hne]
  have hpks : σ'.parked = Function.update σ.parked R b := by rw [hσ']; simp [after_recv, hne]
  have hrc : σ'.rcalls = σ.rcalls := by rw [hσ']; simp [after_recv, hne]
  have hrp : σ'.rpc = σ.rpc + 1 := by rw [hσ']; simp [after_recv, hne]
  have hcu : σ'.cur = cur' := by rw [hσ']; simp [after_recv, hne]
  have hre : σ'.received = σ.received := by rw [hσ']; simp [after_recv, hne]
  have hpR : σ'.parked R = b := by rw [hpks, Function.update_same]
  have hpo : ∀ u ∈ ts, σ'.parked u = σ.parked u := fun u hu => by
    have huR : u ≠ R := fun e => hinv.R_ts (e ▸ hu)
    rw [hpks, Function.update_noteq huR]
  have hp' : hpc σ' hold = hpc σ hold := by
    cases hold <;> simp [hpc, hpcs]
  have hk' : hparked σ' hold = hparked σ hold := by
    cases hold with
    | none => rfl
    | some h => exact hpo h (hinv.hold_ok h rfl).1
  rw [← hσ'] at hnet ⊢
  obtain ⟨d, hch, hd⟩ := hchan
  constructor
  · exact
      { chan := ⟨d, by rw [hw]; exact hch, by rw [hpcs]; exact hd⟩
        net := by
          rw [hw, hp', hrp]
          exact hnet
        ts_nd := hinv.ts_nd, ts_nz := hinv.ts_nz, ts_small := hinv.ts_small
        R_nz := hinv.R_nz, R_ts := hinv.R_ts, rest_ts := hinv.rest_ts, rest_R := hinv.rest_R
        done_nd := hinv.done_nd
        done_ts := fun u hu => by
          have := hinv.done_ts u hu
          rw [hpcs, hpo u this.1]
          exact this
        wl_ts := fun u hu => by
          have := hinv.wl_ts u hu
          rw [hpcs, hpo u this.1]
          exact this
        hold_ok := fun h hh => by
          have := hinv.hold_ok h hh
          rw [hpcs, hpo h this.1]
          exact this
        idle := fun u hu => by
          rw [hpcs, hpo u hu]
          exact hinv.idle u hu
        wl_hold := hinv.wl_hold
        calls := by rw [hrc]; exact hinv.calls
        e_le := hinv.e_le
        e_one := fun he => by
          rw [hp', hrp]
          exact ⟨(hinv.e_one he).1, by have := he1 he; omega⟩
        low := fun hl => by
          rw [hp'] at hl
          rw [hrp]
          have := hlow hl
          omega
        rpc_le := by rw [hrp]; omega
        rcalls_le := by rw [hrc]; exact hinv.rcalls_le
        rcalls_eq := fun h => by rw [hrc] at h; omega
        rpark := fun hp => by
          rw [hpR] at hp
          rw [hrp]
          have := hb hp
          omega
        rwait := fun hr' => by
          rw [hp', hrp] at hr'
          rw [hpR]
          exact hrw hr'
        swait := fun hs => by
          rw [hp'] at hs
          rw [hk']
          exact hinv.swait hs
        cur := fun hc h hh => by
          rw [hrp] at hc
          rw [hcu]
          exact hcur (by omega) h hh
        recd := by rw [hre]; exact hinv.recd }
  · refine m_potential_recv hinv.R_ts hpcs b hpks ?_
    rw [hrc, hrp, hpk]
    have hbb : σ.rpc = 1 → b = false := fun h1 => by
      cases b with
      | false => rfl
      | true => have := hb rfl; omega
    rcases Nat.eq_zero_or_pos σ.rpc with h0 | h0
    · rw [h0]
      cases b <;> simp <;> omega
    · have h1 : σ.rpc = 1 := by omega
      rw [h1, hbb h1]
      simp
      omega

/-- The woken thread after a statement of the receiver other than its last. -/
theorem m_pending_after_recv {ts : List Ptr} {R c : Ptr} {x : Ptr → Int} {rb sb ser : Ptr}
    {σ : MSys} {rest doneL wl : List Ptr} {hold : Option Ptr} {e : Nat}
    (hinv : SerInv ts R c x rb sb ser σ rest doneL wl hold e) (hr : σ.rpc ≤ 1)
    (w' : World) (cur' : Int) (b : Bool) :
    m_pending R (after_recv σ R (w', cur', b)) hold e =
      if b = true ∧ 0 ≤ m_rb_val (hpc σ hold) e (σ.rpc + 1) then [R]
      else if hparked σ hold = true ∧ (hpc σ hold = 1 ∨ 0 ≤ m_sb_val (hpc σ hold) e) then
        hold.toList
      else [] := by
  have hne : σ.rpc ≠ 2 := by omega
  have hp' : hpc (after_recv σ R (w', cur', b)) hold = hpc σ hold := by
    cases hold <;> simp [hpc, after_recv, hne]
  have hk' : hparked (after_recv σ R (w', cur', b)) hold = hparked σ hold := by
    cases hold with
    | none => rfl
    | some h =>
      have huR : h ≠ R := fun e => hinv.R_ts (e ▸ (hinv.hold_ok h rfl).1)
      simp [hparked, after_recv, hne, Function.update_noteq huR]
  have hR' : (after_recv σ R (w', cur', b)).parked R = b := by simp [after_recv, hne]
  have hrp : (after_recv σ R (w', cur', b)).rpc = σ.rpc + 1 := by simp [after_recv, hne]
  simp only [m_pending, hp', hk', hR', hrp]

/-- Statement 1 of `chan_receive`: `sem_P(c->rblock)`. -/
theorem recv_wait_inv {ts : List Ptr} {R c : Ptr} {x : Ptr → Int} {rb sb ser : Ptr}
    {σ : MSys} {rest doneL wl : List Ptr} {hold : Option Ptr} {e : Nat}
    (hinv : SerInv ts R c x rb sb ser σ rest doneL wl hold e)
    (hpk : σ.parked R = false) (hr0 : σ.rpc = 0) (hcalls : σ.rcalls < ts.length) :
    ∃ σ', mexec R c x σ MAct.recv = some σ' ∧
      SerInv ts R c x rb sb ser σ' rest doneL wl hold e ∧
      m_potential ts R σ' rest < m_potential ts R σ rest := by
  obtain ⟨d, hch, hd⟩ := hinv.chan
  have hnn : 0 ≤ m_rb_val (hpc σ hold) e σ.rpc := by
    by_contra hc
    have := hinv.rwait (by omega)
    rw [hpk] at this
    cases this
  have hRh : ∀ h, hold = some h → R ≠ h := fun h hh e =>
    hinv.R_ts (e ▸ (hinv.hold_ok h hh).1)
  have hRw : R ∉ wl := fun hm => hinv.R_ts (hinv.wl_ts R hm).1
  have hpend : m_pending R σ hold e =
      if hparked σ hold = true ∧ (hpc σ hold = 1 ∨ 0 ≤ m_sb_val (hpc σ hold) e) then
        hold.toList else [] := by
    simp [m_pending, hpk]
  by_cases hpos : 0 < m_rb_val (hpc σ hold) e σ.rpc
  · obtain ⟨w', hP, hneg, hchans, hnet'⟩ := hinv.net.rot.P_pass R hpos
    refine ⟨after_recv σ R (w', σ.cur, false), ?_, ?_⟩
    · simp [mexec, chan_receive_step, hr0, hch, hP, hneg]
    · refine recv_advance hinv hpk (by omega) hcalls w' σ.cur false
        ⟨d, by rw [hchans]; exact hch, hd⟩ ?_ (fun hb => by cases hb) ?_ (fun _ => hr0)
        (fun _ => hr0) (fun h1 => by omega)
      · rw [m_pending_after_recv hinv (by omega)]
        refine hnet'.rot.rot.cast rfl ?_ rfl rfl ?_ rfl ?_
        · simp only [m_rb_val, hr0] at hpos ⊢
          simp at hpos ⊢
        · simp only [m_rb_val, hr0] at hpos ⊢
          simp at hpos ⊢
          split_ifs <;> first | rfl | omega
        · rw [hpend]
          simp
      · intro hlt
        simp only [m_rb_val, hr0] at hpos hlt
        simp at hpos hlt
        omega
  · have hz : m_rb_val (hpc σ hold) e σ.rpc = 0 := by omega
    obtain ⟨w', hP, hneg, hchans, hnet'⟩ := hinv.net.rot.P_block (t := R)
      (by omega) (by rw [hz]; decide) hinv.R_nz (by simp [hz])
      (by
        split_ifs
        · cases hh : hold with
          | none => simp
          | some h => simpa using hRh h hh
        · simp)
      hRw
      (by
        intro hm
        rcases List.mem_append.mp hm with hm | hm
        · exact hinv.rest_R hm
        · rw [hpend] at hm
          split_ifs at hm
          · cases hh : hold with
            | none => simp [hh] at hm
            | some h =>
              rw [hh] at hm
              exact hRh h hh (by simpa using hm)
          · simp at hm)
    refine ⟨after_recv σ R (w', σ.cur, true), ?_, ?_⟩
    · simp [mexec, chan_receive_step, hr0, hch, hP, hneg]
    · have hm1 : m_rb_val (hpc σ hold) e (σ.rpc + 1) = -1 := by
        simp only [m_rb_val, hr0] at hz ⊢
        simp at hz ⊢
        omega
      refine recv_advance hinv hpk (by omega) hcalls w' σ.cur true
        ⟨d, by rw [hchans]; exact hch, hd⟩ ?_ (fun _ => hr0) (fun _ => rfl) (fun _ => hr0)
        (fun _ => hr0) (fun h1 => by omega)
      rw [m_pending_after_recv hinv (by omega), hm1]
      refine hnet'.rot.rot.cast rfl (by omega) rfl rfl ?_ rfl ?_
      · simp [hz]
      · rw [hpend]
        simp

/-- Statement 2 of `chan_receive`: `*receiveddata = c->data`. -/
theorem recv_read_inv {ts : List Ptr} {R c : Ptr} {x : Ptr → Int} {rb sb ser : Ptr}
    {σ : MSys} {rest doneL wl : List Ptr} {hold : Option Ptr} {e : Nat}
    (hinv : SerInv ts R c x rb sb ser σ rest doneL wl hold e)
    (hpk : σ.parked R = false) (hr1 : σ.rpc = 1) (hcalls : σ.rcalls < ts.length) :
    ∃ σ', mexec R c x σ MAct.recv = some σ' ∧
      SerInv ts R c x rb sb ser σ' rest doneL wl hold e ∧
      m_potential ts R σ' rest < m_potential ts R σ rest := by
  obtain ⟨d, hch, hd⟩ := hinv.chan
  have hnn : 0 ≤ m_rb_val (hpc σ hold) e σ.rpc := by
    by_contra hc
    have := hinv.rwait (by omega)
    rw [hpk] at this
    cases this
  have hele := hinv.e_le
  have hfacts : 3 ≤ hpc σ hold ∧ e = 0 := by
    simp only [m_rb_val, hr1] at hnn
    simp at hnn
    split_ifs at hnn <;> constructor <;> omega
  obtain ⟨hhp, he0⟩ := hfacts
  subst he0
  refine ⟨after_recv σ R (σ.w, d, false), ?_, ?_⟩
  · simp [mexec, chan_receive_step, hr1, hch]
  · refine recv_advance hinv hpk (by omega) hcalls σ.w d false ⟨d, hch, hd⟩ ?_
      (fun hb => by cases hb) ?_ (fun hl => by omega) (fun he => by omega) ?_
    · rw [m_pending_after_recv hinv (by omega)]
      refine hinv.net.cast rfl ?_ rfl rfl ?_ rfl ?_
      · simp [m_rb_val, hr1]
      · simp [m_rb_val, hr1]
      · simp [m_pending, hpk]
    · intro hlt
      simp [m_rb_val, hr1, hhp] at hlt
    · intro _ h hh
      refine hd h hh ?_
      rw [hh] at hhp
      simp only [hpc] at hhp
      omega

/-- Statement 3 of `chan_receive`: `sem_V(c->sblock)`; the call returns and
delivers the value read. -/
theorem recv_signal_inv {ts : List Ptr} {R c : Ptr} {x : Ptr → Int} {rb sb ser : Ptr}
    {σ : MSys} {rest doneL wl : List Ptr} {hold : Option Ptr} {e : Nat}
    (hinv : SerInv ts R c x rb sb ser σ rest doneL wl hold e)
    (hpk : σ.parked R = false) (hr2 : σ.rpc = 2) (hcalls : σ.rcalls < ts.length) :
    ∃ σ', mexec R c x σ MAct.recv = some σ' ∧
      SerInv ts R c x rb sb ser σ' rest doneL wl hold 1 ∧
      m_potential ts R σ' rest < m_potential ts R σ rest := by
  obtain ⟨d, hch, hd⟩ := hinv.chan
  have hele := hinv.e_le
  have he0 : e = 0 := by
    by_contra hne
    have := (hinv.e_one (by omega)).2
    omega
  subst he0
  have hhp : 3 ≤ hpc σ hold := by
    by_contra hlt
    have := hinv.low (by omega)
    omega
  cases hold with
  | none => simp [hpc] at hhp
  | some h =>
    obtain ⟨hts, h1, h4, hhw, hhpk⟩ := hinv.hold_ok h rfl
    have hhR : h ≠ R := fun e => hinv.R_ts (e ▸ hts)
    have hcur := hinv.cur hr2 h rfl
    simp only [hpc] at hhp
    obtain ⟨σ', hσ'⟩ : ∃ σ', ∀ w' : World, σ' w' = after_recv σ R (w', σ.cur, false) :=
      ⟨fun w' => after_recv σ R (w', σ.cur, false), fun _ => rfl⟩
    have hw : ∀ w', (σ' w').w = w' := fun w' => by rw [hσ']; simp [after_recv, hr2]
    have hpcs : ∀ w', (σ' w').pc = σ.pc := fun w' => by rw [hσ']; simp [after_recv, hr2]
    have hpks : ∀ w', (σ' w').parked = Function.update σ.parked R false := fun w' => by
      rw [hσ']; simp [after_recv, hr2]
    have hrc : ∀ w', (σ' w').rcalls = σ.rcalls + 1 := fun w' => by
      rw [hσ']; simp [after_recv, hr2]
    have hrp : ∀ w', (σ' w').rpc = 0 := fun w' => by rw [hσ']; simp [after_recv, hr2]
    have hre : ∀ w', (σ' w').received = σ.received ++ [σ.cur] := fun w' => by
      rw [hσ']; simp [after_recv, hr2]
    have hpR : ∀ w', (σ' w').parked R = false := fun w' => by
      rw [hpks, Function.update_same]
    have hpo : ∀ w', ∀ u ∈ ts, (σ' w').parked u = σ.parked u := fun w' u hu => by
      have huR : u ≠ R := fun e => hinv.R_ts (e ▸ hu)
      rw [hpks, Function.update_noteq huR]
    have hp' : ∀ w', hpc (σ' w') (some h) = σ.pc h := fun w' => by simp [hpc, hpcs]
    have hk' : ∀ w', hparked (σ' w') (some h) = σ.parked h := fun w' => hpo w' h hts
    have hpend' : ∀ w', m_pending R (σ' w') (some h) 1 = if σ.parked h = true then [h] else [] :=
      fun w' => by
        simp only [m_pending, hpR, hp', hk']
        have : (0 : Int) ≤ m_sb_val (σ.pc h) 1 := by
          simp [m_sb_val]
          split_ifs <;> omega
        simp [this]
    have hpend : m_pending R σ (some h) 0 =
        if σ.parked h = true ∧ 0 ≤ m_sb_val (σ.pc h) 0 then [h] else [] := by
      have : σ.pc h ≠ 1 := by omega
      simp [m_pending, hpk, hpc, hparked, this]
    have hfin : ∀ w', (∃ d, w'.chans c =
          some { rblock := rb, sblock := sb, send_serialiser := ser, data := d } ∧
          ∀ h', some h = some h' → 2 ≤ σ.pc h' → d = x h') →
        Net w' ser rb sb (m_ser_val (some h) wl) (m_rb_val (σ.pc h) 1 0) (m_sb_val (σ.pc h) 1)
          wl (if m_rb_val (σ.pc h) 1 0 < 0 then [R] else [])
          (if m_sb_val (σ.pc h) 1 < 0 then [h] else [])
          (rest ++ if σ.parked h = true then [h] else []) →
        SerInv ts R c x rb sb ser (σ' w') rest doneL wl (some h) 1 ∧
          m_potential ts R (σ' w') rest < m_potential ts R σ rest := by
      intro w' hchan hnet
      constructor
      · exact
          { chan := by rw [hw, hpcs]; exact hchan
            net := by
              rw [hw, hp', hrp, hpend']
              exact hnet
            ts_nd := hinv.ts_nd, ts_nz := hinv.ts_nz, ts_small := hinv.ts_small
            R_nz := hinv.R_nz, R_ts := hinv.R_ts, rest_ts := hinv.rest_ts
            rest_R := hinv.rest_R
            done_nd := hinv.done_nd
            done_ts := fun u hu => by
              have := hinv.done_ts u hu
              rw [hpcs, hpo w' u this.1]
              exact this
            wl_ts := fun u hu => by
              have := hinv.wl_ts u hu
              rw [hpcs, hpo w' u this.1]
              exact this
            hold_ok := fun h' hh => by
              have := hinv.hold_ok h' hh
              rw [hpcs, hpo w' h' this.1]
              exact this
            idle := fun u hu => by
              rw [hpcs, hpo w' u hu]
              exact hinv.idle u hu
            wl_hold := hinv.wl_hold
            calls := by
              rw [hrc]
              have := hinv.calls
              omega
            e_le := le_refl 1
            e_one := fun _ => by
              rw [hp', hrp]
              exact ⟨hhp, by omega⟩
            low := fun _ => by rw [hrp]; omega
            rpc_le := by rw [hrp]; omega
            rcalls_le := by rw [hrc]; omega
            rcalls_eq := fun _ => hrp w'
            rpark := fun hp => by rw [hpR] at hp; cases hp
            rwait := fun hr' => by
              rw [hp', hrp] at hr'
              simp [m_rb_val, hhp] at hr'
            swait := fun hs => by
              rw [hp'] at hs
              simp [m_sb_val] at hs
              split_ifs at hs <;> omega
            cur := fun hc => by rw [hrp] at hc; cases hc
            recd := by
              rw [hre, hinv.recd, hcur]
              simp }
      · refine m_potential_recv hinv.R_ts (hpcs w') false (hpks w') ?_
        rw [hrc, hrp, hr2, hpk]
        simp
        omega
    by_cases hpc3 : σ.pc h = 3
    · have hhf : σ.parked h = false := by
        cases hp : σ.parked h with
        | false => rfl
        | true => have := hhpk hp; omega
      obtain ⟨w', hV, hchans, hnet'⟩ := hinv.net.rot.rot.V_plain
        (by simp [m_sb_val, hpc, hpc3]) (by simp [m_sb_val, hpc, hpc3, INT_MAX])
      refine ⟨σ' w', ?_, hfin w' ⟨d, by rw [hchans]; exact hch, hd⟩ ?_⟩
      · rw [hσ']
        simp [mexec, chan_receive_step, hr2, hch, hV]
      · refine hnet'.rot.cast rfl ?_ ?_ rfl ?_ ?_ ?_
        · simp [m_rb_val, hpc, hpc3, hr2]
        · simp [m_sb_val, hpc, hpc3]
        · simp [m_rb_val, hpc, hpc3, hr2]
        · simp [m_sb_val, hpc, hpc3]
        · rw [hpend]
          simp [hhf]
    · have hpc4 : σ.pc h = 4 := by omega
      have hht : σ.parked h = true := by
        have := hinv.swait (by simp [m_sb_val, hpc, hpc4])
        simpa [hparked] using this
      obtain ⟨w', hV, hchans, hnet'⟩ := Net.V_wake (x := h) (l := [])
        (hinv.net.rot.rot.cast rfl rfl rfl (by simp [m_sb_val, hpc, hpc4]) rfl rfl rfl)
        (by simp [m_sb_val, hpc, hpc4])
      refine ⟨σ' w', ?_, hfin w' ⟨d, by rw [hchans]; exact hch, hd⟩ ?_⟩
      · rw [hσ']
        simp [mexec, chan_receive_step, hr2, hch, hV]
      · refine hnet'.rot.cast rfl ?_ ?_ rfl ?_ ?_ ?_
        · simp [m_rb_val, hpc, hpc4, hr2]
        · simp [m_sb_val, hpc, hpc4]
        · simp [m_rb_val, hpc, hpc4, hr2]
        · simp [m_sb_val, hpc, hpc4]
        · rw [hpend]
          simp [hht, m_sb_val, hpc4]

/-- The scheduler takes the next thread off the ready queue. -/
theorem sched_m_inv {ts : List Ptr} {R c : Ptr} {x : Ptr → Int} {rb sb ser : Ptr}
    {σ : MSys} {rest doneL wl : List Ptr} {hold : Option Ptr} {e : Nat}
    (hinv : SerInv ts R c x rb sb ser σ rest doneL wl hold e)
    (hen : queue_empty σ.w.ready_queue = false) :
    ∃ σ' rest', mexec R c x σ MAct.sched = some σ' ∧
      SerInv ts R c x rb sb ser σ' rest' doneL wl hold e ∧
      m_potential ts R σ' rest' < m_potential ts R σ rest := by
  obtain ⟨p, hp⟩ : ∃ p, p = σ.w.ready_queue.front := ⟨_, rfl⟩
  obtain ⟨σ', hσ'⟩ : ∃ σ' : MSys, σ' =
      { σ with w := dispatch σ.w, parked := Function.update σ.parked p false } := ⟨_, rfl⟩
  have hex : mexec R c x σ MAct.sched = some σ' := by rw [hσ', hp]; rfl
  have hw : σ'.w = dispatch σ.w := by rw [hσ']
  have hpcs : σ'.pc = σ.pc := by rw [hσ']
  have hpks : σ'.parked = Function.update σ.parked p false := by rw [hσ']
  have hrc : σ'.rcalls = σ.rcalls := by rw [hσ']
  have hrp : σ'.rpc = σ.rpc := by rw [hσ']
  have hcu : σ'.cur = σ.cur := by rw [hσ']
  have hre : σ'.received = σ.received := by rw [hσ']
  have hp' : hpc σ' hold = hpc σ hold := by cases hold <;> simp [hpc, hpcs]
  have hne : rest ++ m_pending R σ hold e ≠ [] := fun e0 => by
    have := (holds_empty_iff hinv.net.rq).mpr e0
    rw [hen] at this
    cases this
  obtain ⟨y, l, hl⟩ : ∃ y l, rest ++ m_pending R σ hold e = y :: l := by
    cases hc : rest ++ m_pending R σ hold e with
    | nil => exact absurd hc hne
    | cons y l => exact ⟨y, l, rfl⟩
  have hpy : p = y := by
    have := hinv.net.rq
    rw [hl] at this
    rw [hp]
    exact holds_front this
  have hprl : p ∈ rest ++ m_pending R σ hold e := by rw [hl, hpy]; exact List.mem_cons_self _ _
  have hoff : ∀ u, σ'.parked u = true → u ≠ p ∧ σ.parked u = true := fun u hu => by
    rw [hpks] at hu
    by_cases hup : u = p
    · rw [hup, Function.update_same] at hu
      cases hu
    · rw [Function.update_noteq hup] at hu
      exact ⟨hup, hu⟩
  have hon : ∀ u, u ≠ p → σ'.parked u = σ.parked u := fun u hu => by
    rw [hpks, Function.update_noteq hu]
  have hfalse : ∀ u, σ.parked u = false → σ'.parked u = false := fun u hu => by
    cases hc : σ'.parked u with
    | false => rfl
    | true => rw [(hoff u hc).2] at hu; cases hu
  have hgen : ∀ rest' : List Ptr, (∀ u ∈ rest', u ∈ rest) →
      (rest ++ m_pending R σ hold e).tail = rest' ++ m_pending R σ' hold e →
      SerInv ts R c x rb sb ser σ' rest' doneL wl hold e := by
    intro rest' hsub htail
    exact
      { chan := by rw [hw, hpcs]; exact hinv.chan
        net := by
          rw [hw, hp', hrp, ← htail]
          exact hinv.net.sched
        ts_nd := hinv.ts_nd, ts_nz := hinv.ts_nz, ts_small := hinv.ts_small
        R_nz := hinv.R_nz, R_ts := hinv.R_ts
        rest_ts := fun t ht hm => hinv.rest_ts t ht (hsub t hm)
        rest_R := fun hm => hinv.rest_R (hsub R hm)
        done_nd := hinv.done_nd
        done_ts := fun u hu => by
          have := hinv.done_ts u hu
          rw [hpcs]
          exact ⟨this.1, this.2.1, hfalse u this.2.2⟩
        wl_ts := fun u hu => by
          have := hinv.wl_ts u hu
          have hup : u ≠ p := fun e0 => hinv.net.dar hu (e0 ▸ hprl)
          rw [hpcs, hon u hup]
          exact this
        hold_ok := fun h hh => by
          have := hinv.hold_ok h hh
          rw [hpcs]
          exact ⟨this.1, this.2.1, this.2.2.1, this.2.2.2.1,
            fun hk => this.2.2.2.2 (hoff h hk).2⟩
        idle := fun u hu => by
          rw [hpcs]
          rcases hinv.idle u hu with h1 | h1 | h1 | h1
          · exact Or.inl h1
          · exact Or.inr (Or.inl h1)
          · exact Or.inr (Or.inr (Or.inl h1))
          · exact Or.inr (Or.inr (Or.inr ⟨h1.1, hfalse u h1.2⟩))
        wl_hold := hinv.wl_hold
        calls := by rw [hrc]; exact hinv.calls
        e_le := hinv.e_le
        e_one := by rw [hp', hrp]; exact hinv.e_one
        low := by rw [hp', hrp]; exact hinv.low
        rpc_le := by rw [hrp]; exact hinv.rpc_le
        rcalls_le := by rw [hrc]; exact hinv.rcalls_le
        rcalls_eq := by rw [hrc, hrp]; exact hinv.rcalls_eq
        rpark := fun hk => by rw [hrp]; exact hinv.rpark (hoff R hk).2
        rwait := fun hr => by
          rw [hp', hrp] at hr
          have hRp : R ≠ p := fun e0 => by
            have hm : R ∈ (if m_rb_val (hpc σ hold) e σ.rpc < 0 then [R] else []) := by
              simp [hr]
            exact hinv.net.dbr hm (e0 ▸ hprl)
          rw [hon R hRp]
          exact hinv.rwait hr
        swait := fun hs => by
          rw [hp'] at hs
          have := hinv.swait hs
          cases hold with
          | none => simp [hparked] at this
          | some h =>
            have hhp : h ≠ p := fun e0 => by
              have hm : h ∈ (if m_sb_val (hpc σ (some h)) e < 0 then (some h).toList else []) := by
                simp [hs]
              exact hinv.net.dcr hm (e0 ▸ hprl)
            simp only [hparked] at this ⊢
            rw [hon h hhp]
            exact this
        cur := by rw [hrp, hcu]; exact hinv.cur
        recd := by rw [hre]; exact hinv.recd }
  have hhR : ∀ h, hold = some h → h ≠ R := fun h hh e0 =>
    hinv.R_ts (e0 ▸ (hinv.hold_ok h hh).1)
  cases rest with
  | cons q rest' =>
    have hqp : q = p := by
      simp only [List.cons_append, List.cons.injEq] at hl
      rw [hpy]
      exact hl.1
    subst hqp
    have hqR : q ≠ R := fun e0 => hinv.rest_R (e0 ▸ List.mem_cons_self _ _)
    have hqts : q ∉ ts := fun hm => hinv.rest_ts q hm (List.mem_cons_self _ _)
    have hk' : hparked σ' hold = hparked σ hold := by
      cases hold with
      | none => rfl
      | some h =>
        have : h ≠ q := fun e0 => hqts (e0 ▸ (hinv.hold_ok h rfl).1)
        exact hon h this
    have hpend : m_pending R σ' hold e = m_pending R σ hold e := by
      simp only [m_pending, hp', hk', hrp, hon R hqR.symm]
    refine ⟨σ', rest', hex, hgen rest' (fun u hu => List.mem_cons_of_mem _ hu) ?_, ?_⟩
    · rw [hpend]
      rfl
    · have hsum : (ts.map fun u => sender_potential (σ'.pc u) (σ'.parked u)) =
          ts.map fun u => sender_potential (σ.pc u) (σ.parked u) :=
        List.map_congr_left (fun u hu => by
          have : u ≠ q := fun e0 => hqts (e0 ▸ hu)
          rw [hpcs, hon u this])
      simp only [m_potential, hsum, hrc, hrp, hon R hqR.symm, List.length_cons]
      omega
  | nil =>
    simp only [List.nil_append] at hl hgen hprl
    by_cases hRb : σ.parked R = true ∧ 0 ≤ m_rb_val (hpc σ hold) e σ.rpc
    · have hpR : R = p := by
        simp only [m_pending, hRb, and_self, if_true, List.cons.injEq] at hl
        rw [hpy]
        exact hl.1
      subst hpR
      have hr1 := hinv.rpark hRb.1
      have hele := hinv.e_le
      have hfacts : 3 ≤ hpc σ hold ∧ e = 0 := by
        have := hRb.2
        simp only [m_rb_val, hr1] at this
        simp at this
        split_ifs at this <;> constructor <;> omega
      have hk' : hparked σ' hold = hparked σ hold := by
        cases hold with
        | none => rfl
        | some h => exact hon h (hhR h rfl)
      have hpend' : m_pending R σ' hold e = [] := by
        have hRf : σ'.parked R = false := by rw [hpks, Function.update_same]
        simp only [m_pending, hp', hk', hrp, hRf]
        cases hold with
        | none => simp [hparked]
        | some h =>
          have hok := hinv.hold_ok h rfl
          simp only [hpc] at hfacts
          by_cases hk : σ.parked h = true
          · have h4 : σ.pc h = 4 := by
              have := hok.2.2.2.2 hk
              omega
            simp [hparked, hpc, hk, h4, m_sb_val, hfacts.2]
          · simp [hparked, hk]
      refine ⟨σ', [], hex, hgen [] (fun u hu => by cases hu) ?_, ?_⟩
      · rw [hpend']
        simp [m_pending, hRb]
      · have hcl : σ.rcalls < ts.length := by
          have h1 := hinv.rcalls_le
          have h2 := hinv.rcalls_eq
          by_contra hc
          have := h2 (by omega)
          omega
        refine m_potential_recv hinv.R_ts hpcs false hpks ?_
        rw [hrc, hrp, hr1, hRb.1]
        simp
        omega
    · have hl2 : (if hparked σ hold = true ∧ (hpc σ hold = 1 ∨ 0 ≤ m_sb_val (hpc σ hold) e)
          then hold.toList else []) = y :: l := by
        simpa only [m_pending, hRb, if_false] using hl
      cases hold with
      | none => simp at hl2
      | some h =>
        by_cases hc : hparked σ (some h) = true ∧
            (hpc σ (some h) = 1 ∨ 0 ≤ m_sb_val (hpc σ (some h)) e)
        · have hph : h = p := by
            simp only [hc, and_self, if_true, Option.toList_some, List.cons.injEq] at hl2
            rw [hpy]
            exact hl2.1
          subst hph
          have hts := (hinv.hold_ok h rfl).1
          have hpf : σ'.parked h = false := by rw [hpks, Function.update_same]
          have hpend' : m_pending R σ' (some h) e = [] := by
            simp only [m_pending, hp', hrp, hon R (hhR h rfl).symm, hRb, if_false, hparked, hpf]
            simp
          refine ⟨σ', [], hex, hgen [] (fun u hu => by cases hu) ?_, ?_⟩
          · rw [hpend']
            simp [m_pending, hRb, hc]
          · have hsum := sum_map_lt hinv.ts_nd hts
              (f := fun u => sender_potential (σ.pc u) (σ.parked u))
              (g := fun u => sender_potential (σ'.pc u) (σ'.parked u))
              (fun u hu => by
                show sender_potential (σ'.pc u) (σ'.parked u) =
                  sender_potential (σ.pc u) (σ.parked u)
                rw [hpcs, hon u hu])
              (by
                have hk : σ.parked h = true := hc.1
                show sender_potential (σ'.pc h) (σ'.parked h) <
                  sender_potential (σ.pc h) (σ.parked h)
                rw [hpcs, hpf, hk]
                simp [sender_potential])
            simp only [m_potential, hrc, hrp, hon R (hhR h rfl).symm]
            omega
        · simp [hc] at hl2

/-- Every enabled action is defined, keeps the invariant and lowers the
potential. -/
theorem mstep_inv {ts : List Ptr} {R c : Ptr} {x : Ptr → Int} {rb sb ser : Ptr}
    {σ : MSys} {rest doneL wl : List Ptr} {hold : Option Ptr} {e : Nat}
    (hinv : SerInv ts R c x rb sb ser σ rest doneL wl hold e) (a : MAct)
    (hen : menabled ts R σ a = true) :
    ∃ σ' rest' doneL' wl' hold' e', mexec R c x σ a = some σ' ∧
      SerInv ts R c x rb sb ser σ' rest' doneL' wl' hold' e' ∧
      m_potential ts R σ' rest' < m_potential ts R σ rest := by
  cases a with
  | send t =>
    simp only [menabled, Bool.and_eq_true, decide_eq_true_eq, Bool.not_eq_true',
      ] at hen
    obtain ⟨⟨ht, hpk⟩, hlt⟩ := hen
    rcases hinv.idle t ht with h1 | h1 | h1 | h1
    · have := (hinv.done_ts t h1).2.1
      omega
    · subst h1
      obtain ⟨-, h1, h4, -, -⟩ := hinv.hold_ok t rfl
      have hcases : σ.pc t = 1 ∨ σ.pc t = 2 ∨ σ.pc t = 3 ∨ σ.pc t = 4 := by omega
      rcases hcases with hc | hc | hc | hc
      · obtain ⟨σ', h1, h2, h3⟩ := send_store_inv hinv hpk hc
        exact ⟨σ', _, _, _, _, _, h1, h2, h3⟩
      · obtain ⟨σ', h1, h2, h3⟩ := send_signal_inv hinv hpk hc
        exact ⟨σ', _, _, _, _, _, h1, h2, h3⟩
      · obtain ⟨σ', h1, h2, h3⟩ := send_wait_inv hinv hpk hc
        exact ⟨σ', _, _, _, _, _, h1, h2, h3⟩
      · obtain ⟨σ', wl', hold', h1, h2, h3⟩ := send_release_inv hinv hpk hc
        exact ⟨σ', _, _, _, _, _, h1, h2, h3⟩
    · have := (hinv.wl_ts t h1).2.2
      rw [hpk] at this
      cases this
    · obtain ⟨σ', wl', hold', h1, h2, h3⟩ := send_idle_inv hinv ht h1.1 hpk
      exact ⟨σ', _, _, _, _, _, h1, h2, h3⟩
  | recv =>
    simp only [menabled, Bool.and_eq_true, decide_eq_true_eq, Bool.not_eq_true'] at hen
    obtain ⟨hpk, hcalls⟩ := hen
    have hle := hinv.rpc_le
    have hcases : σ.rpc = 0 ∨ σ.rpc = 1 ∨ σ.rpc = 2 := by omega
    rcases hcases with hc | hc | hc
    · obtain ⟨σ', h1, h2, h3⟩ := recv_wait_inv hinv hpk hc hcalls
      exact ⟨σ', _, _, _, _, _, h1, h2, h3⟩
    · obtain ⟨σ', h1, h2, h3⟩ := recv_read_inv hinv hpk hc hcalls
      exact ⟨σ', _, _, _, _, _, h1, h2, h3⟩
    · obtain ⟨σ', h1, h2, h3⟩ := recv_signal_inv hinv hpk hc hcalls
      exact ⟨σ', _, _, _, _, _, h1, h2, h3⟩
  | sched =>
    simp only [menabled, Bool.not_eq_true'] at hen
    obtain ⟨σ', rest', h1, h2, h3⟩ := sched_m_inv hinv hen
    exact ⟨σ', _, _, _, _, _, h1, h2, h3⟩

/-- The invariant holds along every schedule, whose length is bounded by the
loss of potential. -/
theorem mrun_inv {ts : List Ptr} {R c : Ptr} {x : Ptr → Int} {rb sb ser : Ptr} :
    ∀ (acts : List MAct) (σ σ' : MSys) (rest doneL wl : List Ptr) (hold : Option Ptr) (e : Nat),
      SerInv ts R c x rb sb ser σ rest doneL wl hold e → mrun ts R c x σ acts = some σ' →
      ∃ rest' doneL' wl' hold' e', SerInv ts R c x rb sb ser σ' rest' doneL' wl' hold' e' ∧
        acts.length + m_potential ts R σ' rest' ≤ m_potential ts R σ rest
  | [], σ, σ', rest, doneL, wl, hold, e, h, hrun => by
    have e0 : σ = σ' := by simpa [mrun] using hrun
    subst e0
    exact ⟨rest, doneL, wl, hold, e, h, by simp⟩
  | a :: as, σ, σ', rest, doneL, wl, hold, e, h, hrun => by
    by_cases he : menabled ts R σ a = true
    · obtain ⟨σ1, rest1, doneL1, wl1, hold1, e1, hex, hinv1, hpot⟩ := mstep_inv h a he
      have hrun1 : mrun ts R c x σ1 as = some σ' := by
        simpa [mrun, he, hex] using hrun
      obtain ⟨rest', doneL', wl', hold', e', hinv', hlen⟩ :=
        mrun_inv as σ1 σ' rest1 doneL1 wl1 hold1 e1 hinv1 hrun1
      refine ⟨rest', doneL', wl', hold', e', hinv', ?_⟩
      simp only [List.length_cons]
      omega
    · simp [mrun, he] at hrun

/-- At most one sender is between its `sem_P` and its `sem_V` on
`send_serialiser`: such a sender is the holder. -/
theorem minv_mutex {ts : List Ptr} {R c : Ptr} {x : Ptr → Int} {rb sb ser : Ptr}
    {σ : MSys} {rest doneL wl : List Ptr} {hold : Option Ptr} {e : Nat}
    (hinv : SerInv ts R c x rb sb ser σ rest doneL wl hold e) :
    ∀ t ∈ ts, inside σ t = true → hold = some t := by
  intro t ht hin
  simp only [inside, Bool.or_eq_true, Bool.and_eq_true, beq_iff_eq, Bool.not_eq_true',
    decide_eq_true_eq] at hin
  rcases hinv.idle t ht with h1 | h1 | h1 | h1
  · have := (hinv.done_ts t h1).2.1
    omega
  · exact h1
  · have := hinv.wl_ts t h1
    rcases hin with hin | hin
    · rw [this.2.2] at hin
      cases hin.2
    · omega
  · omega

/-- The values delivered so far are those of distinct senders, one for each
call that has returned; once every sender has returned, all calls of the
receiver have returned and have delivered the values sent, each once. -/
theorem minv_delivery {ts : List Ptr} {R c : Ptr} {x : Ptr → Int} {rb sb ser : Ptr}
    {σ : MSys} {rest doneL wl : List Ptr} {hold : Option Ptr} {e : Nat}
    (hinv : SerInv ts R c x rb sb ser σ rest doneL wl hold e) :
    (∃ l : List Ptr, l.Nodup ∧ (∀ t ∈ l, t ∈ ts) ∧ l.length = σ.rcalls ∧
      σ.received = l.map x) ∧
    ((∀ t ∈ ts, σ.pc t = 5) → σ.rcalls = ts.length ∧ σ.received.Perm (ts.map x)) := by
  constructor
  · by_cases he : e = 1
    · obtain ⟨hhp, -⟩ := hinv.e_one he
      cases hold with
      | none => simp [hpc] at hhp
      | some h =>
        obtain ⟨hts, -, h4, -, -⟩ := hinv.hold_ok h rfl
        have hhd : h ∉ doneL := fun hm => by have := (hinv.done_ts h hm).2.1; omega
        refine ⟨doneL ++ [h], ?_, ?_, ?_, ?_⟩
        · rw [List.nodup_append]
          refine ⟨hinv.done_nd, List.nodup_singleton h, ?_⟩
          intro u hu hu'
          exact hhd ((List.mem_singleton.mp hu') ▸ hu)
        · intro t ht
          rcases List.mem_append.mp ht with ht | ht
          · exact (hinv.done_ts t ht).1
          · rw [List.mem_singleton.mp ht]
            exact hts
        · rw [hinv.calls, he]
          simp
        · rw [hinv.recd]
          simp [he]
    · refine ⟨doneL, hinv.done_nd, fun t ht => (hinv.done_ts t ht).1, ?_, ?_⟩
      · have := hinv.e_le
        rw [hinv.calls]
        omega
      · rw [hinv.recd]
        simp [he]
  · intro hall
    have hnone : hold = none := by
      cases hold with
      | none => rfl
      | some h =>
        obtain ⟨hts, -, h4, -, -⟩ := hinv.hold_ok h rfl
        have := hall h hts
        omega
    subst hnone
    have he0 : e = 0 := by
      have h1 := hinv.e_le
      by_contra hne
      have := (hinv.e_one (by omega)).1
      simp [hpc] at this
    subst he0
    have hmem : ∀ t, t ∈ doneL ↔ t ∈ ts := by
      intro t
      constructor
      · exact fun ht => (hinv.done_ts t ht).1
      · intro ht
        rcases hinv.idle t ht with h1 | h1 | h1 | h1
        · exact h1
        · cases h1
        · have := (hinv.wl_ts t h1).2.1
          have := hall t ht
          omega
        · have := hall t ht
          omega
    have hperm : doneL.Perm ts := (List.perm_ext_iff_of_nodup hinv.done_nd hinv.ts_nd).mpr hmem
    refine ⟨?_, ?_⟩
    · rw [hinv.calls, hperm.length_eq]
      rfl
    · rw [hinv.recd]
      simpa using hperm.map x

/-- In a state satisfying the invariant some action is enabled unless every
call has returned. -/
theorem minv_progress {ts : List Ptr} {R c : Ptr} {x : Ptr → Int} {rb sb ser : Ptr}
    {σ : MSys} {rest doneL wl : List Ptr} {hold : Option Ptr} {e : Nat}
    (hinv : SerInv ts R c x rb sb ser σ rest doneL wl hold e)
    (hnf : ¬ ((∀ t ∈ ts, σ.pc t = 5) ∧ σ.rcalls = ts.length)) :
    ∃ a, menabled ts R σ a = true := by
  by_cases hq : queue_empty σ.w.ready_queue = false
  · exact ⟨MAct.sched, by simp [menabled, hq]⟩
  have hq' : queue_empty σ.w.ready_queue = true := by
    cases hc : queue_empty σ.w.ready_queue with
    | true => rfl
    | false => exact absurd hc hq
  have hnil := (holds_empty_iff hinv.net.rq).mp hq'
  have hpend : m_pending R σ hold e = [] := (List.append_eq_nil.mp hnil).2
  by_cases hr : σ.parked R = false ∧ σ.rcalls < ts.length
  · exact ⟨MAct.recv, by simp [menabled, hr.1, hr.2]⟩
  by_cases hs : ∃ t ∈ ts, σ.parked t = false ∧ σ.pc t < 5
  · obtain ⟨t, ht, h1, h2⟩ := hs
    exact ⟨MAct.send t, by simp [menabled, ht, h1, h2]⟩
  exfalso
  have hs' : ∀ t ∈ ts, σ.parked t = false → σ.pc t = 5 := by
    intro t ht hp
    by_contra hne
    refine hs ⟨t, ht, hp, ?_⟩
    rcases hinv.idle t ht with h1 | h1 | h1 | h1
    · have := (hinv.done_ts t h1).2.1
      omega
    · have := (hinv.hold_ok t h1).2.2.1
      omega
    · have := (hinv.wl_ts t h1).2.1
      omega
    · omega
  have hele := hinv.e_le
  cases hold with
  | none =>
    have hwl := hinv.wl_hold rfl
    have hall : ∀ t ∈ ts, σ.pc t = 5 := by
      intro t ht
      rcases hinv.idle t ht with h1 | h1 | h1 | h1
      · exact (hinv.done_ts t h1).2.1
      · cases h1
      · rw [hwl] at h1
        cases h1
      · exact hs' t ht h1.2
    exact hnf ⟨hall, (minv_delivery hinv).2 hall |>.1⟩
  | some h =>
    obtain ⟨hts, h1, h4, hhw, hhp⟩ := hinv.hold_ok h rfl
    have hpk : σ.parked h = true := by
      cases hc : σ.parked h with
      | true => rfl
      | false => have := hs' h hts hc; omega
    have hhd : h ∉ doneL := fun hm => by have := (hinv.done_ts h hm).2.1; omega
    have hlen : doneL.length < ts.length := by
      have hnd : (h :: doneL).Nodup := List.nodup_cons.mpr ⟨hhd, hinv.done_nd⟩
      have : (h :: doneL).length ≤ ts.length := length_le_of_nodup_subset hnd (fun t ht => by
        rcases List.mem_cons.mp ht with e0 | ht
        · rw [e0]; exact hts
        · exact (hinv.done_ts t ht).1)
      simpa using this
    simp only [m_pending, hparked, hpc, hpk] at hpend
    by_cases hRb : σ.parked R = true ∧ 0 ≤ m_rb_val (σ.pc h) e σ.rpc
    · simp [hRb] at hpend
    · simp only [hRb, if_false, true_and] at hpend
      by_cases hc : σ.pc h = 1 ∨ 0 ≤ m_sb_val (σ.pc h) e
      · simp [hc] at hpend
      · have hpc4 : σ.pc h = 4 := by
          have := hhp hpk
          omega
        have he0 : e = 0 := by
          have : ¬ (0 ≤ m_sb_val (σ.pc h) e) := fun hh => hc (Or.inr hh)
          simp [m_sb_val, hpc4] at this
          omega
        have hcalls : σ.rcalls < ts.length := by
          rw [hinv.calls, he0]
          simpa using hlen
        by_cases hRp : σ.parked R = true
        · have hr1 := hinv.rpark hRp
          exact hRb ⟨hRp, by simp [m_rb_val, hpc4, he0, hr1]⟩
        · exact hr ⟨by simpa using hRp, hcalls⟩

/-- The invariant holds at the start, on a channel fresh from `chan_create`. -/
theorem serinv_init {w w0 : World} {o : List (Option Ptr)} {c : Ptr} {rl ts : List Ptr}
    {R : Ptr} (x : Ptr → Int) (r0 : Int)
    (hcreate : chan_create w o = some (w0, c)) (hc : c ≠ 0)
    (hrl : Holds w.next w.ready_queue rl)
    (hts : ts.Nodup) (hts0 : ∀ t ∈ ts, t ≠ 0 ∧ t ≠ R ∧ t ∉ rl)
    (hN : (ts.length : Int) ≤ INT_MAX) (hR : R ≠ 0) (hRrl : R ∉ rl) :
    ∃ rb sb ser, SerInv ts R c x rb sb ser (msys_init w0 r0) rl [] [] none 0 := by
  obtain ⟨-, rb, sb, ss, hch, d1, d2, d3, -, -, -, -, -, -, s1, s2, s3, n1, n2⟩ :=
    chan_create_nonnull hcreate hc
  refine ⟨rb, sb, ss, ?_⟩
  have hnet : Net w0 ss rb sb 1 0 0 [] [] [] rl :=
    { sa := ⟨_, s3, holds_nil _⟩, sb := ⟨_, s2, holds_nil _⟩, sc := ⟨_, s1, holds_nil _⟩
      rq := by rw [n1, n2]; exact hrl
      ab := d3, ac := d2, bc := Ne.symm d1
      dab := by simp, dac := by simp, dbc := by simp, dar := by simp, dbr := by simp
      dcr := by simp }
  exact
    { chan := ⟨0, hch, fun h hh => by cases hh⟩
      net := hnet.cast (by simp [m_ser_val]) (by simp [m_rb_val, hpc, msys_init])
        (by simp [m_sb_val, hpc]) rfl (by simp [m_rb_val, hpc, msys_init])
        (by simp [m_sb_val, hpc]) (by simp [m_pending, msys_init])
      ts_nd := hts
      ts_nz := fun t ht => (hts0 t ht).1
      ts_small := hN
      R_nz := hR
      R_ts := fun hm => (hts0 R hm).2.1 rfl
      rest_ts := fun t ht => (hts0 t ht).2.2
      rest_R := hRrl
      done_nd := List.nodup_nil
      done_ts := fun t ht => by cases ht
      wl_ts := fun t ht => by cases ht
      hold_ok := fun h hh => by cases hh
      idle := fun t _ => Or.inr (Or.inr (Or.inr ⟨rfl, rfl⟩))
      wl_hold := fun _ => rfl
      calls := rfl
      e_le := by omega
      e_one := fun he => by omega
      low := fun _ => by simp [msys_init]
      rpc_le := by simp [msys_init]
      rcalls_le := by simp [msys_init]
      rcalls_eq := fun _ => rfl
      rpark := fun hp => by simp [msys_init] at hp
      rwait := fun hr => by simp [m_rb_val, hpc, msys_init] at hr
      swait := fun hs => by simp [m_sb_val, hpc] at hs
      cur := fun hc => by simp [msys_init] at hc
      recd := by simp [msys_init] }

/-- The potential at the start. -/
theorem m_potential_init (ts : List Ptr) (R : Ptr) (w : World) (r0 : Int) (rl : List Ptr) :
    m_potential ts R (msys_init w r0) rl = 11 * ts.length + rl.length := by
  have hsum : (ts.map fun t => sender_potential ((msys_init w r0).pc t)
      ((msys_init w r0).parked t)).sum = 7 * ts.length := by
    induction ts with
    | nil => rfl
    | cons y ts ih =>
      simp only [List.map_cons, List.sum_cons, ih, List.length_cons]
      simp [sender_potential, msys_init]
      omega
  simp only [m_potential, hsum]
  simp [msys_init]
  omega

/-! ## Lemmas on the lock of the preemptive semaphore -/

/-- The world in which `sem_create` starts after its first-call block has the
lock free when the call is the first one or the lock was free. -/
theorem pre_first_call_free {w : Preemptive.World}
    (hfree : w.firstcall = true ∨ w.sem_mutex = false) :
    (if w.firstcall then ({ w with firstcall := false, sem_mutex := false } : Preemptive.World)
      else w).sem_mutex = false := by
  rcases Bool.eq_false_or_eq_true w.firstcall with hf | hf
  · simp [hf]
  · rcases hfree with h1 | h1
    · rw [hf] at h1
      cases h1
    · simp [hf, h1]

/-- A sequence of calls whose puts are fresh is defined, returns what a
first-in first-out queue returns and leaves the queue holding what such a
queue holds. -/
theorem queue_run_fresh : ∀ (ops : List QOp) (m : Ptr → Ptr) (q : Queue) (l : List Ptr),
    Holds m q l → puts_fresh l ops = true →
    ∃ m' q', queue_run m q ops = some (m', q', fifo_outs l ops) ∧
      Holds m' q' (fifo_content l ops) := by
  intro ops
  induction ops with
  | nil => intro m q l h _; exact ⟨m, q, rfl, h⟩
  | cons op ops ih =>
    intro m q l h hf
    cases op with
    | init =>
      simp only [puts_fresh] at hf
      obtain ⟨m', q', hr, hh⟩ := ih m (queue_init q).1 [] (holds_nil m) hf
      exact ⟨m', q', by simpa [queue_run, fifo_outs] using hr, by simpa [fifo_content] using hh⟩
    | put x =>
      simp only [puts_fresh, Bool.and_eq_true, decide_eq_true_eq] at hf
      obtain ⟨⟨hx0, hxl⟩, hf'⟩ := hf
      obtain ⟨m1, q1, hp, hh1, -⟩ := queue_put_holds h hx0 hxl
      obtain ⟨m', q', hr, hh⟩ := ih m1 q1 (l ++ [x]) hh1 hf'
      exact ⟨m', q', by simp [queue_run, hp, hr, fifo_outs], by simpa [fifo_content] using hh⟩
    | get =>
      simp only [puts_fresh] at hf
      cases l with
      | nil =>
        obtain ⟨m', q', hr, hh⟩ := ih m q [] h hf
        refine ⟨m', q', ?_, by simpa [fifo_content] using hh⟩
        simp [queue_run, queue_get_nil h, hr, fifo_outs]
      | cons a l =>
        obtain ⟨hg2, hg1⟩ := queue_get_holds h
        have ha : a ≠ 0 := h.1.2.1
        obtain ⟨m', q', hr, hh⟩ := ih m (queue_get m q).1 l hg1 hf
        refine ⟨m', q', ?_, by simpa [fifo_content] using hh⟩
        simp [queue_run, hr, hg2, ha, fifo_outs]

theorem wrap_int_of_range {x : Int} (hlo : INT_MIN ≤ x) (hhi : x ≤ INT_MAX) :
    wrap_int x = x := by
  unfold wrap_int
  unfold INT_MIN at hlo
  unfold INT_MAX at hhi
  omega

theorem wrap_int_max : wrap_int (INT_MAX + 1) = INT_MIN := by
  decide

/-- Below `INT_MAX` the increment does not wrap and both readings of `sem_V`
agree. -/
theorem machine_sem_V_eq {w : World} {s : Ptr} {a : Sem} (ha : w.sems s = some a)
    (hlo : INT_MIN ≤ a.val) (hhi : a.val ≤ INT_MAX) (hne : a.val ≠ INT_MAX) :
    Machine.sem_V w s = sem_V w s := by
  have hw : wrap_int (a.val + 1) = a.val + 1 := by
    apply wrap_int_of_range
    · unfold INT_MIN at *; omega
    · unfold INT_MAX at *; omega
  simp only [Machine.sem_V, sem_V, ha, hw, hne, if_false]

theorem exWmax_reach : SemReach 1 exWmax :=
  SemReach.create exW (some 1) INT_MAX ⟨[], holds_nil _⟩ rfl (by decide)

theorem malloc_congr {α β : Type} {h1 : Ptr → Option α} {h2 : Ptr → Option β}
    (e : ∀ p, h1 p = none ↔ h2 p = none) (hint : Option Ptr) :
    malloc h1 hint = malloc h2 hint := by
  cases hint with
  | none => rfl
  | some p =>
    have : (h1 p).isNone = (h2 p).isNone := by
      cases a : h1 p with
      | none => rw [(e p).1 a]; rfl
      | some x =>
        cases b : h2 p with
        | none => rw [(e p).2 b] at a; cases a
        | some y => rfl
    show (if p ≠ 0 ∧ (h1 p).isNone then some p else none) =
      (if p ≠ 0 ∧ (h2 p).isNone then some p else none)
    rw [this]

theorem map_val_none_iff {w : World} {vals : Ptr → Option Int}
    (e : ∀ p, (w.sems p).map Sem.val = vals p) (p : Ptr) : w.sems p = none ↔ vals p = none := by
  rw [← e p, Option.map_eq_none']

theorem pre_map_val_none_iff {w : Preemptive.World} {vals : Ptr → Option Int}
    (e : ∀ p, (w.sems p).map Preemptive.Sem.val = vals p) (p : Ptr) :
    w.sems p = none ↔ vals p = none := by
  rw [← e p, Option.map_eq_none']

theorem contract_call_none {c : SemCall} {st : Option Int} {o : Obs}
    (e : contract_call none c = some (st, o)) : st = none := by
  cases c <;> simp [contract_call] at e
  exact e.1.symm

theorem sem_P_sems_other {w w' : World} {s t : Ptr} (e : sem_P w s t = some w') {p : Ptr}
    (hp : p ≠ s) : w'.sems p = w.sems p := by
  unfold sem_P at e
  cases hs : w.sems s with
  | none => simp [hs] at e
  | some a =>
    simp only [hs] at e
    split_ifs at e with h1 h2
    · unfold thread_block_and_switch at e
      simp only [set_sem_sems_same] at e
      cases hq : queue_put w.next a.queue t with
      | none =>
        simp [hq, set_sem] at e
      | some r =>
        have e' : w'.sems = Function.update (Function.update w.sems s
            (some { val := a.val - 1, queue := a.queue })) s
            (some { val := a.val - 1, queue := r.2 }) := by
          have e2 := e
          simp only [set_sem, hq, Option.some.injEq] at e2
          rw [← e2]
        rw [e']
        simp [Function.update_noteq hp]
    · simp only [Option.some.injEq] at e
      rw [← e]
      simp [thread_yield, set_sem, Function.update_noteq hp]

theorem sem_V_sems_other {w w' : World} {s : Ptr} (e : sem_V w s = some w') {p : Ptr}
    (hp : p ≠ s) : w'.sems p = w.sems p := by
  unfold sem_V at e
  cases hs : w.sems s with
  | none => simp [hs] at e
  | some a =>
    simp only [hs] at e
    split_ifs at e with h1 h2
    · cases hq : queue_put w.next w.ready_queue (queue_get w.next a.queue).2 with
      | none => simp [hq] at e
      | some r =>
        simp only [hq, Option.some.injEq] at e
        rw [← e]
        simp [thread_yield, set_sem, Function.update_noteq hp]
    · simp only [Option.some.injEq] at e
      rw [← e]
      simp [thread_yield, set_sem, Function.update_noteq hp]

theorem sem_destroy_frame {w : World} {s : Ptr} {r : World × Int} (e : sem_destroy w s = some r) :
    r.1.next = w.next ∧ r.1.ready_queue = w.ready_queue ∧
      ∀ p, p ≠ s → r.1.sems p = w.sems p := by
  unfold sem_destroy at e
  cases hs : w.sems s with
  | none => simp [hs] at e
  | some a =>
    simp only [hs] at e
    split_ifs at e with h1
    · simp only [Option.some.injEq] at e
      rw [← e]
      exact ⟨rfl, rfl, fun _ _ => rfl⟩
    · simp only [Option.some.injEq] at e
      rw [← e]
      exact ⟨rfl, rfl, fun p hp => by simp [set_sem, Function.update_noteq hp]⟩

theorem coop_call_sems_other {w w' : World} {s : Ptr} {c : SemCall} {o : Obs}
    (e : coop_call w s c = some (w', o)) {p : Ptr} (hp : p ≠ s) : w'.sems p = w.sems p := by
  cases c with
  | P tc tp =>
    simp only [coop_call, Option.map_eq_some', Prod.mk.injEq] at e
    obtain ⟨x, hx, rfl, -⟩ := e
    exact sem_P_sems_other hx hp
  | V k =>
    simp only [coop_call, Option.map_eq_some', Prod.mk.injEq] at e
    obtain ⟨x, hx, rfl, -⟩ := e
    exact sem_V_sems_other hx hp
  | destroy =>
    simp only [coop_call, Option.map_eq_some', Prod.mk.injEq] at e
    obtain ⟨x, hx, rfl, -⟩ := e
    exact (sem_destroy_frame hx).2.2 p hp
  | sched =>
    simp only [coop_call, Option.some.injEq, Prod.mk.injEq] at e
    rw [← e.1]
    rfl

theorem dispatch_ready {w : World} {rl : List Ptr} (h : Holds w.next w.ready_queue rl) :
    Holds (dispatch w).next (dispatch w).ready_queue rl.tail := by
  cases rl with
  | nil =>
    show Holds w.next (queue_get w.next w.ready_queue).1 []
    rw [queue_get_nil h]
    exact h
  | cons x rl => exact (queue_get_holds h).2

theorem coop_life_create {w : World} {h : Ptr} {vals : Ptr → Option Int}
    (hc : coop_life_rel w h vals) (v : Int) (hint : Option Ptr) :
    (v < 0 ∨ malloc vals hint = none →
      sem_create w hint v = (w, 0) ∧ (w.sems 0).map Sem.val = none ∧ coop_life_rel w 0 vals) ∧
    (¬ v < 0 → ∀ p, malloc vals hint = some p →
      (sem_create w hint v).2 = p ∧ p ≠ 0 ∧
      ((sem_create w hint v).1.sems p).map Sem.val = some v ∧
      coop_life_rel (sem_create w hint v).1 p (Function.update vals p (some v))) := by
  obtain ⟨⟨rl, hr⟩, hm, h0, -⟩ := hc
  have hmc : malloc w.sems hint = malloc vals hint := malloc_congr (map_val_none_iff hm) hint
  have hw0 : w.sems 0 = none := (map_val_none_iff hm 0).2 h0
  constructor
  · intro hor
    have e : sem_create w hint v = (w, 0) := by
      by_cases hv : v < 0
      · simp [sem_create, hv]
      · rcases hor with h1 | h1
        · exact absurd h1 hv
        · simp [sem_create, hv, hmc, h1]
    refine ⟨e, by simp [hw0], ⟨rl, hr⟩, hm, h0, ?_⟩
    rw [h0]
    exact hw0
  · intro hv p hp
    rw [← hmc] at hp
    obtain ⟨hh, hp0, hfree⟩ := malloc_some hp
    have e : sem_create w hint v =
        (set_sem w p (some { val := v, queue := { front := 0, back := 0 } }), p) := by
      rw [hh]
      exact sem_create_fresh (not_lt.mp hv) hp0 hfree
    have hinv : SemInv (sem_create w hint v).1 p v [] rl :=
      sem_create_inv hr (by rw [e]) hp0
    refine ⟨by rw [e], hp0, by rw [e]; simp, ⟨rl, hinv.2.2.1⟩, ?_, ?_, ?_⟩
    · intro p'
      rw [e]
      by_cases hpp : p' = p
      · subst hpp
        simp
      · simp [set_sem_sems_other _ _ hpp, Function.update_noteq hpp, hm p']
    · rw [Function.update_noteq (Ne.symm hp0)]
      exact h0
    · rw [Function.update_same]
      exact ⟨[], rl, hinv⟩

theorem coop_life_on {w : World} {h : Ptr} {vals : Ptr → Option Int} {c : SemCall}
    (hc : coop_life_rel w h vals) (hv : ∀ tc tp, c = SemCall.P tc tp → Running w h tc) :
    (contract_call (vals h) c = none ∧ coop_call w h c = none) ∨
    ∃ st' o w', contract_call (vals h) c = some (st', o) ∧ coop_call w h c = some (w', o) ∧
      coop_life_rel w' h (Function.update vals h st') := by
  obtain ⟨⟨rl, hr⟩, hm, h0, hrel⟩ := hc
  rcases coop_call_contract hrel hv with hl | ⟨st', o, w', e1, e2, hrel'⟩
  · exact Or.inl hl
  · right
    refine ⟨st', o, w', e1, e2, ?_, ?_, ?_, ?_⟩
    · cases st' with
      | some v' =>
        obtain ⟨wl', rl', hinv'⟩ := hrel'
        exact ⟨rl', hinv'.2.2.1⟩
      | none =>
        cases c with
        | P tc tp =>
          cases hvh : vals h with
          | none => simp [contract_call, hvh] at e1
          | some x =>
            by_cases hx : x = INT_MIN
            · simp [contract_call, hvh, hx] at e1
            · simp [contract_call, hvh, hx] at e1
        | V k =>
          cases hvh : vals h with
          | none => simp [contract_call, hvh] at e1
          | some x =>
            by_cases hx : x = INT_MAX
            · simp [contract_call, hvh, hx] at e1
            · simp [contract_call, hvh, hx] at e1
        | destroy =>
          simp only [coop_call, Option.map_eq_some', Prod.mk.injEq] at e2
          obtain ⟨x, hx, hxw, -⟩ := e2
          obtain ⟨f1, f2, -⟩ := sem_destroy_frame hx
          rw [← hxw, f1, f2]
          exact ⟨rl, hr⟩
        | sched =>
          simp only [coop_call, Option.some.injEq, Prod.mk.injEq] at e2
          rw [← e2.1]
          exact ⟨rl.tail, dispatch_ready hr⟩
    · intro p
      by_cases hp : p = h
      · subst hp
        rw [Function.update_same]
        cases st' with
        | some v' =>
          obtain ⟨wl', rl', ⟨q, hq, -⟩, -⟩ := hrel'
          simp [hq]
        | none =>
          have : w'.sems p = none := hrel'
          simp [this]
      · rw [Function.update_noteq hp, coop_call_sems_other e2 hp]
        exact hm p
    · by_cases hh : h = 0
      · subst hh
        rw [h0] at e1
        rw [contract_call_none e1, Function.update_same]
      · rw [Function.update_noteq (Ne.symm hh)]
        exact h0
    · rw [Function.update_same]
      exact hrel'

theorem coop_life_contract : ∀ (calls : List LifeCall) (w : World) (h : Ptr)
    (vals : Ptr → Option Int), coop_life_rel w h vals → life_valid w h calls →
    coop_life w h calls = contract_life vals h calls := by
  intro calls
  induction calls with
  | nil => intro w h vals _ _; rfl
  | cons c cs ih =>
    intro w h vals hc hv
    cases c with
    | create v hint =>
      obtain ⟨k1, k2⟩ := coop_life_create hc v hint
      simp only [life_valid] at hv
      by_cases hneg : v < 0
      · obtain ⟨e, e0, hc'⟩ := k1 (Or.inl hneg)
        rw [e] at hv
        simp only [coop_life, contract_life, e, hneg, if_true, e0, decide_True]
        rw [ih w 0 vals hc' hv]
      · cases hmal : malloc vals hint with
        | none =>
          obtain ⟨e, e0, hc'⟩ := k1 (Or.inr hmal)
          rw [e] at hv
          simp only [coop_life, contract_life, e, hneg, if_false, e0, decide_True, hmal]
          rw [ih w 0 vals hc' hv]
        | some p =>
          obtain ⟨e, hp0, ev, hc'⟩ := k2 hneg p hmal
          rw [e] at hv
          have := ih _ _ _ hc' hv
          simp only [coop_life, contract_life, e, hneg, if_false, hmal, hp0, ev, decide_False]
          rw [this]
    | call c =>
      obtain ⟨hv1, hv2⟩ := hv
      rcases coop_life_on hc hv1 with ⟨e1, e2⟩ | ⟨st', o, w', e1, e2, hc'⟩
      · simp [coop_life, contract_life, e1, e2]
      · have := ih w' h _ hc' (hv2 _ e2)
        simp [coop_life, contract_life, e1, e2, this]

theorem pre_rel_mutex {w : Preemptive.World} {s : Ptr} {st : Option Int} (h : pre_rel w s st) :
    w.sem_mutex = false := by
  cases st with
  | none => exact h.1
  | some v => exact h.1

theorem pre_call_sems_other {w w' : Preemptive.World} {s : Ptr} {c : SemCall} {o : Obs}
    (e : pre_call w s c = some (w', o)) {p : Ptr} (hp : p ≠ s) : w'.sems p = w.sems p := by
  cases c with
  | P tc tp =>
    simp only [pre_call, Option.map_eq_some', Prod.mk.injEq] at e
    obtain ⟨x, hx, rfl, -⟩ := e
    unfold Preemptive.sem_P at hx
    split_ifs at hx with h1
    · cases hx; rfl
    · cases hs : w.sems s with
      | none => simp [hs, Preemptive.pthread_mutex_lock] at hx
      | some a =>
        simp only [Preemptive.pthread_mutex_lock, hs] at hx
        split_ifs at hx with h2 h3
        · cases hx
          simp [Preemptive.pthread_cond_wait, Preemptive.set_sem, Preemptive.pthread_mutex_unlock,
            Function.update_noteq hp]
        · cases hx
          simp [Preemptive.set_sem, Preemptive.pthread_mutex_unlock, Function.update_noteq hp]
  | V k =>
    simp only [pre_call, Option.map_eq_some', Prod.mk.injEq] at e
    obtain ⟨x, hx, rfl, -⟩ := e
    unfold Preemptive.sem_V at hx
    split_ifs at hx with h1
    · cases hx; rfl
    · cases hs : w.sems s with
      | none => simp [hs, Preemptive.pthread_mutex_lock] at hx
      | some a =>
        simp only [Preemptive.pthread_mutex_lock, hs] at hx
        split_ifs at hx with h2 h3
        · cases hx
          simp [Preemptive.pthread_cond_signal, Preemptive.set_sem,
            Preemptive.pthread_mutex_unlock, Function.update_noteq hp]
        · cases hx
          simp [Preemptive.set_sem, Preemptive.pthread_mutex_unlock, Function.update_noteq hp]
  | destroy =>
    simp only [pre_call, Option.map_eq_some', Prod.mk.injEq] at e
    obtain ⟨x, hx, rfl, -⟩ := e
    unfold Preemptive.sem_destroy at hx
    split_ifs at hx with h1
    · cases hx; rfl
    · cases hs : w.sems s with
      | none => simp [hs, Preemptive.pthread_mutex_lock] at hx
      | some a =>
        simp only [Preemptive.pthread_mutex_lock, hs] at hx
        split_ifs at hx with h2 h3
        · cases hx
          simp [Preemptive.pthread_mutex_unlock]
        · cases hx
          simp [Preemptive.set_sem, Preemptive.pthread_mutex_unlock, Function.update_noteq hp]
  | sched =>
    simp only [pre_call, Option.some.injEq, Prod.mk.injEq] at e
    rw [← e.1]

theorem pre_stuck_free {w : Preemptive.World} (hm : w.sem_mutex = false) (s : Ptr)
    (c : SemCall) : pre_stuck w s c = false := by
  cases c with
  | P tc tp =>
    simp only [pre_stuck, decide_eq_false_iff_not]
    unfold Preemptive.sem_P
    simp only [hm, Bool.false_eq_true, if_false]
    cases hs : (Preemptive.pthread_mutex_lock w).sems s with
    | none => simp
    | some a =>
      simp only
      split_ifs <;> simp
  | V k =>
    simp only [pre_stuck, decide_eq_false_iff_not]
    unfold Preemptive.sem_V
    simp only [hm, Bool.false_eq_true, if_false]
    cases hs : (Preemptive.pthread_mutex_lock w).sems s with
    | none => simp
    | some a =>
      simp only
      split_ifs <;> simp
  | destroy =>
    simp only [pre_stuck, decide_eq_false_iff_not]
    unfold Preemptive.sem_destroy
    simp only [hm, Bool.false_eq_true, if_false]
    cases hs : (Preemptive.pthread_mutex_lock w).sems s with
    | none => simp
    | some a =>
      simp only
      split_ifs <;> simp
  | sched => rfl

/-- The preemptive `sem_create` on a free lock, path by path. -/
theorem pre_create_paths {w : Preemptive.World} (hm : w.sem_mutex = false) (v : Int)
    (hint : Option Ptr) :
    (v < 0 → (Preemptive.sem_create w hint v).2 = Preemptive.Outcome.returned 0 ∧
      (Preemptive.sem_create w hint v).1.sems = w.sems ∧
      (Preemptive.sem_create w hint v).1.sem_mutex = false) ∧
    (¬ v < 0 → malloc w.sems hint = none →
      (Preemptive.sem_create w hint v).2 = Preemptive.Outcome.returned 0 ∧
      (Preemptive.sem_create w hint v).1.sems = w.sems ∧
      (Preemptive.sem_create w hint v).1.sem_mutex = true ∧
      (Preemptive.sem_create w hint v).1.firstcall = false) ∧
    (¬ v < 0 → ∀ p, malloc w.sems hint = some p →
      (Preemptive.sem_create w hint v).2 = Preemptive.Outcome.returned p ∧
      (Preemptive.sem_create w hint v).1.sems =
        Function.update w.sems p (some { val := v, cond := [] }) ∧
      (Preemptive.sem_create w hint v).1.sem_mutex = false) := by
  rcases Bool.eq_false_or_eq_true w.firstcall with hf | hf
  · refine ⟨?_, ?_, ?_⟩
    · intro hv
      simp [Preemptive.sem_create, hf, hv]
    · intro hv hmal
      simp [Preemptive.sem_create, hf, hv, Preemptive.pthread_mutex_lock, hmal]
    · intro hv p hmal
      simp [Preemptive.sem_create, hf, hv, Preemptive.pthread_mutex_lock, hmal,
        Preemptive.pthread_mutex_unlock, Preemptive.set_sem]
  · refine ⟨?_, ?_, ?_⟩
    · intro hv
      simp [Preemptive.sem_create, hf, hv, hm]
    · intro hv hmal
      simp [Preemptive.sem_create, hf, hv, hm, Preemptive.pthread_mutex_lock, hmal]
    · intro hv p hmal
      simp [Preemptive.sem_create, hf, hv, hm, Preemptive.pthread_mutex_lock, hmal,
        Preemptive.pthread_mutex_unlock, Preemptive.set_sem]

theorem pre_life_create {w : Preemptive.World} {h : Ptr} {vals : Ptr → Option Int}
    (hp : pre_life_rel w h vals) (v : Int) (hint : Option Ptr) :
    (v < 0 → (Preemptive.sem_create w hint v).2 = Preemptive.Outcome.returned 0 ∧
      ((Preemptive.sem_create w hint v).1.sems 0).map Preemptive.Sem.val = none ∧
      pre_life_rel (Preemptive.sem_create w hint v).1 0 vals) ∧
    (¬ v < 0 → malloc vals hint = none →
      (Preemptive.sem_create w hint v).2 = Preemptive.Outcome.returned 0 ∧
      ((Preemptive.sem_create w hint v).1.sems 0).map Preemptive.Sem.val = none ∧
      (Preemptive.sem_create w hint v).1.sem_mutex = true ∧
      (Preemptive.sem_create w hint v).1.firstcall = false) ∧
    (¬ v < 0 → ∀ p, malloc vals hint = some p →
      (Preemptive.sem_create w hint v).2 = Preemptive.Outcome.returned p ∧ p ≠ 0 ∧
      ((Preemptive.sem_create w hint v).1.sems p).map Preemptive.Sem.val = some v ∧
      pre_life_rel (Preemptive.sem_create w hint v).1 p (Function.update vals p (some v))) := by
  obtain ⟨hm, h0, hrel⟩ := hp
  have hmu := pre_rel_mutex hrel
  have hmc : malloc w.sems hint = malloc vals hint :=
    malloc_congr (pre_map_val_none_iff hm) hint
  have hw0 : w.sems 0 = none := (pre_map_val_none_iff hm 0).2 h0
  obtain ⟨k1, k2, k3⟩ := pre_create_paths hmu v hint
  refine ⟨?_, ?_, ?_⟩
  · intro hv
    obtain ⟨e1, e2, e3⟩ := k1 hv
    refine ⟨e1, by rw [e2, hw0]; rfl, by rw [e2]; exact hm, h0, ?_⟩
    rw [h0]
    exact ⟨e3, by rw [e2]; exact hw0⟩
  · intro hv hmal
    obtain ⟨e1, e2, e3, e4⟩ := k2 hv (hmc.trans hmal)
    exact ⟨e1, by rw [e2, hw0]; rfl, e3, e4⟩
  · intro hv p hmal
    obtain ⟨e1, e2, e3⟩ := k3 hv p (hmc.trans hmal)
    obtain ⟨-, hp0, -⟩ := malloc_some hmal
    refine ⟨e1, hp0, by rw [e2]; simp, ?_, ?_, ?_⟩
    · intro p'
      rw [e2]
      by_cases hpp : p' = p
      · subst hpp
        simp
      · simp [Function.update_noteq hpp, hm p']
    · rw [Function.update_noteq (Ne.symm hp0)]
      exact h0
    · rw [Function.update_same]
      refine ⟨e3, [], by rw [e2]; simp, ?_⟩
      have : max 0 (-v) = 0 := max_eq_left (by omega)
      simp [this]

theorem pre_life_on {w : Preemptive.World} {h : Ptr} {vals : Ptr → Option Int} {c : SemCall}
    (hp : pre_life_rel w h vals) :
    (contract_call (vals h) c = none ∧ pre_call w h c = none) ∨
    ∃ st' o w', contract_call (vals h) c = some (st', o) ∧ pre_call w h c = some (w', o) ∧
      pre_life_rel w' h (Function.update vals h st') := by
  obtain ⟨hm, h0, hrel⟩ := hp
  rcases pre_call_contract (c := c) hrel with hl | ⟨st', o, w', e1, e2, hrel'⟩
  · exact Or.inl hl
  · right
    refine ⟨st', o, w', e1, e2, ?_, ?_, ?_⟩
    · intro p
      by_cases hpp : p = h
      · subst hpp
        rw [Function.update_same]
        cases st' with
        | some v' =>
          obtain ⟨-, cl, hcl, -⟩ := hrel'
          simp [hcl]
        | none =>
          have : w'.sems p = none := hrel'.2
          simp [this]
      · rw [Function.update_noteq hpp, pre_call_sems_other e2 hpp]
        exact hm p
    · by_cases hh : h = 0
      · subst hh
        rw [h0] at e1
        rw [contract_call_none e1, Function.update_same]
      · rw [Function.update_noteq (Ne.symm hh)]
        exact h0
    · rw [Function.update_same]
      exact hrel'

theorem pre_life_contract : ∀ (calls : List LifeCall) (w : Preemptive.World) (h : Ptr)
    (vals : Ptr → Option Int), pre_life_rel w h vals → mallocs_succeed vals h calls = true →
    pre_life w h calls = contract_life vals h calls := by
  intro calls
  induction calls with
  | nil => intro w h vals _ _; rfl
  | cons c cs ih =>
    intro w h vals hp hok
    cases c with
    | create v hint =>
      obtain ⟨k1, -, k3⟩ := pre_life_create hp v hint
      by_cases hneg : v < 0
      · obtain ⟨e, e0, hp'⟩ := k1 hneg
        simp only [mallocs_succeed, hneg, if_true] at hok
        simp only [pre_life, contract_life, e, hneg, if_true, e0, decide_True]
        rw [ih _ 0 vals hp' hok]
      · cases hmal : malloc vals hint with
        | none => simp [mallocs_succeed, hneg, hmal] at hok
        | some p =>
          obtain ⟨e, hp0, ev, hp'⟩ := k3 hneg p hmal
          simp only [mallocs_succeed, hneg, if_false, hmal] at hok
          simp only [pre_life, contract_life, e, hneg, if_false, hmal, hp0, ev, decide_False]
          rw [ih _ p _ hp' hok]
    | call c =>
      have hst := pre_stuck_free (pre_rel_mutex hp.2.2) h c
      rcases pre_life_on (c := c) hp with ⟨e1, e2⟩ | ⟨st', o, w', e1, e2, hp'⟩
      · simp [pre_life, contract_life, e1, e2]
      · simp only [mallocs_succeed, e1] at hok
        have := ih w' h _ hp' hok
        simp [pre_life, contract_life, e1, e2, this, hst]

/-- Once the lock is held and nobody is there to release it, every call that
takes the lock blocks its caller. -/
theorem pre_life_stuck {w : Preemptive.World} (hm : w.sem_mutex = true)
    (hf : w.firstcall = false) (h : Ptr) : ∀ rest : List LifeCall,
    (∀ c ∈ rest, takes_lock c = true) →
    pre_life w h rest = rest.map (fun _ => LifeObs.stuck) := by
  intro rest
  induction rest with
  | nil => intro _; rfl
  | cons c cs ih =>
    intro hall
    have hc := hall c (List.mem_cons_self _ _)
    have ih' := ih (fun x hx => hall x (List.mem_cons_of_mem _ hx))
    cases c with
    | create v hint =>
      have hv : ¬ v < 0 := by
        simp only [takes_lock, decide_eq_true_eq] at hc
        omega
      have e : Preemptive.sem_create w hint v = (w, Preemptive.Outcome.stuck) := by
        simp [Preemptive.sem_create, hf, hv, hm]
      simp only [pre_life, e, List.map_cons]
      rw [ih']
    | call c =>
      cases c with
      | P tc tp =>
        have e : Preemptive.sem_P w h tp = some (w, Preemptive.Outcome.stuck) := by
          simp [Preemptive.sem_P, hm]
        simp only [pre_life, pre_call, pre_stuck, e, Option.map_some', decide_True, if_true,
          List.map_cons]
        rw [ih']
      | V k =>
        have e : Preemptive.sem_V w h k = some (w, Preemptive.Outcome.stuck) := by
          simp [Preemptive.sem_V, hm]
        simp only [pre_life, pre_call, pre_stuck, e, Option.map_some', decide_True, if_true,
          List.map_cons]
        rw [ih']
      | destroy =>
        have e : Preemptive.sem_destroy w h = some (w, Preemptive.Outcome.stuck) := by
          simp [Preemptive.sem_destroy, hm]
        simp only [pre_life, pre_call, pre_stuck, e, Option.map_some', decide_True, if_true,
          List.map_cons]
        rw [ih']
      | sched => simp [takes_lock] at hc

theorem life_valid_of_no_P : ∀ (cs : List LifeCall) (w : World) (h : Ptr),
    (∀ c ∈ cs, ∀ tc tp, c ≠ LifeCall.call (SemCall.P tc tp)) → life_valid w h cs := by
  intro cs
  induction cs with
  | nil => intro _ _ _; trivial
  | cons c cs ih =>
    intro w h hall
    have ih' := fun w h => ih w h (fun x hx => hall x (List.mem_cons_of_mem _ hx))
    cases c with
    | create v hint => exact ih' _ _
    | call c =>
      refine ⟨fun tc tp e => ?_, fun r _ => ih' _ _⟩
      exact absurd (by rw [e]) (hall _ (List.mem_cons_self _ _) tc tp)

theorem coop_life_ne_stuck (w : World) (h : Ptr) (c : LifeCall) (cs : List LifeCall)
    (l : List LifeObs) : coop_life w h (c :: cs) ≠ LifeObs.stuck :: l := by
  cases c with
  | create v hint => simp [coop_life]
  | call c =>
    cases hcall : coop_call w h c with
    | none => simp [coop_life, hcall]
    | some r => simp [coop_life, hcall]

theorem exW_life_rel : coop_life_rel exW 0 (fun _ => none) :=
  ⟨⟨[], holds_nil _⟩, fun _ => rfl, rfl, rfl⟩

theorem exPW_life_rel : pre_life_rel exPW 0 (fun _ => none) :=
  ⟨fun _ => rfl, rfl, rfl, rfl⟩

theorem exLifeOk_valid : life_valid exW 0 exLifeOk := by
  show life_valid exW1 1 (exCalls.map LifeCall.call)
  refine ⟨fun tc _ e => by cases e; exact exW1_running 5 (by decide), fun r _ => ?_⟩
  apply life_valid_of_no_P
  intro c hc tc tp e
  subst e
  simp at hc

/-! ## The claims -/

/-- C1: in every state of a semaphore reached from `sem_create(v)` (which
succeeds only for `v ≥ 0`) by any finite sequence of `sem_P` calls of running
threads and `sem_V` calls, the number of threads on the wait queue of the
semaphore is `max(0, -val)`.  The next call is defined there, so the sequence
can go on, unless it overflows the `int`: `sem_V` at `val = INT_MAX`, `sem_P`
at `val = INT_MIN`. -/
theorem sem_wait_count_eq (s : Ptr) (w : World) (h : SemReach s w) :
    ∃ sem wl, w.sems s = some sem ∧ Holds w.next sem.queue wl ∧
      (wl.length : Int) = max 0 (-sem.val) ∧
      (sem.val ≠ INT_MAX → ∃ w', sem_V w s = some w') ∧
      (∀ t, Running w s t → sem.val ≠ INT_MIN → ∃ w', sem_P w s t = some w') := by
  obtain ⟨v, wl, rl, hinv⟩ := semreach_inv h
  obtain ⟨sem, hsem, hval, hh, hlen⟩ := seminv_sem hinv
  subst hval
  exact ⟨sem, wl, hsem, hh, hlen, seminv_defined hinv⟩

/-- Witness of C1: after `sem_create(0)` and a `sem_P` by thread 5 the state is
reachable, and one thread waits while the value is -1. -/
theorem sem_wait_count_eq_witness :
    SemReach 1 exW2 ∧ ∃ sem wl, exW2.sems 1 = some sem ∧ Holds exW2.next sem.queue wl ∧
      (wl.length : Int) = max 0 (-sem.val) ∧
      (sem.val ≠ INT_MAX → ∃ w', sem_V exW2 1 = some w') ∧
      (∀ t, Running exW2 1 t → sem.val ≠ INT_MIN → ∃ w', sem_P exW2 1 t = some w') :=
  ⟨exW2_reach, sem_wait_count_eq 1 exW2 exW2_reach⟩

/-- C2: on the semaphore returned by `sem_create(v)`, with no `sem_V` in
between, each of the first `v` calls of `sem_P` takes the `thread_yield`
branch and leaves the wait queue empty (and every link and the ready queue
untouched), and the call after them takes the `thread_block_and_switch`
branch: the value becomes -1 and the wait queue holds exactly the caller. -/
theorem sem_P_blocks_after_v (w0 : World) (hint : Option Ptr) (v : Int) (s : Ptr)
    (hs : (sem_create w0 hint v).2 = s) (hs0 : s ≠ 0)
    (ts : List Ptr) (t : Ptr) (hlen : (ts.length : Int) = v) (ht : t ≠ 0) :
    (∀ k tk, ts.get? k = some tk →
      ∃ wk, sem_P_calls (sem_create w0 hint v).1 s (ts.take k) = some wk ∧
        sem_P wk s tk = some (thread_yield (set_sem wk s
          (some { val := v - k - 1, queue := { front := 0, back := 0 } }))) ∧
        0 ≤ v - k - 1 ∧ wk.next = w0.next ∧ wk.ready_queue = w0.ready_queue) ∧
    ∃ wv w', sem_P_calls (sem_create w0 hint v).1 s ts = some wv ∧
      sem_P wv s t = thread_block_and_switch
        (set_sem wv s (some { val := -1, queue := { front := 0, back := 0 } })) s t ∧
      sem_P wv s t = some w' ∧
      w'.sems s = some { val := -1, queue := { front := t, back := t } } ∧
      Holds w'.next { front := t, back := t } [t] := by
  obtain ⟨hv, -, -, hw⟩ := sem_create_ok hs hs0
  have hsem : (sem_create w0 hint v).1.sems s =
      some { val := v, queue := { front := 0, back := 0 } } := by
    rw [hw]
    simp
  have hnext : (sem_create w0 hint v).1.next = w0.next := by rw [hw]; rfl
  have hready : (sem_create w0 hint v).1.ready_queue = w0.ready_queue := by rw [hw]; rfl
  constructor
  · intro k tk hk
    have hklt : k < ts.length := by
      rcases Nat.lt_or_ge k ts.length with h | h
      · exact h
      · rw [List.get?_eq_none.mpr h] at hk
        cases hk
    have hkl : (ts.take k).length = k := by
      rw [List.length_take]
      omega
    obtain ⟨wk, hwk, hsk, hnk, hrk⟩ := sem_P_calls_pos s _ (ts.take k) _ v hsem
      (by rw [hkl]; omega)
    rw [hkl] at hsk
    have hpos : (0 : Int) < v - k := by omega
    refine ⟨wk, hwk, ?_, by omega, hnk.trans hnext, hrk.trans hready⟩
    exact sem_P_of_pos tk hsk hpos
  · obtain ⟨wv, hwv, hsv, hnv, hrv⟩ := sem_P_calls_pos s _ ts _ v hsem (le_of_eq hlen)
    have hsv0 : wv.sems s = some { val := 0, queue := { front := 0, back := 0 } } := by
      rw [hsv, hlen]
      simp
    have hbr := sem_P_of_nonpos t hsv0 (le_refl 0) (by decide)
    have hbr' : sem_P wv s t = thread_block_and_switch
        (set_sem wv s (some { val := -1, queue := { front := 0, back := 0 } })) s t := by
      rw [hbr]
      rfl
    have hput : queue_put wv.next { front := 0, back := 0 } t =
        some (Function.update wv.next t 0, { front := t, back := t }) := by
      simp [queue_put, ht, queue_empty]
    have hres : thread_block_and_switch
        (set_sem wv s (some { val := -1, queue := { front := 0, back := 0 } })) s t =
        some (set_sem { set_sem wv s (some { val := -1, queue := { front := 0, back := 0 } })
          with next := Function.update wv.next t 0 } s
          (some { val := -1, queue := { front := t, back := t } })) := by
      simp [thread_block_and_switch, hput]
    refine ⟨wv, _, hwv, hbr', hbr'.trans hres, by simp, ?_⟩
    refine ⟨⟨rfl, ht, ?_⟩, List.nodup_singleton t, ?_⟩
    · simp [Seg, set_sem]
    · intro x hx
      have : t = x := by simpa using hx
      exact this

/-- Witness of C2: `sem_create(2)` at address 1, then threads 5 and 6 pass and
thread 7 blocks. -/
theorem sem_P_blocks_after_v_witness :
    (∀ k tk, [5, 6].get? k = some tk →
      ∃ wk, sem_P_calls (sem_create exW (some 1) 2).1 1 ([5, 6].take k) = some wk ∧
        sem_P wk 1 tk = some (thread_yield (set_sem wk 1
          (some { val := 2 - k - 1, queue := { front := 0, back := 0 } }))) ∧
        (0 : Int) ≤ 2 - k - 1 ∧ wk.next = exW.next ∧ wk.ready_queue = exW.ready_queue) ∧
    ∃ wv w', sem_P_calls (sem_create exW (some 1) 2).1 1 [5, 6] = some wv ∧
      sem_P wv 1 7 = thread_block_and_switch
        (set_sem wv 1 (some { val := -1, queue := { front := 0, back := 0 } })) 1 7 ∧
      sem_P wv 1 7 = some w' ∧
      w'.sems 1 = some { val := -1, queue := { front := 7, back := 7 } } ∧
      Holds w'.next { front := 7, back := 7 } [7] :=
  sem_P_blocks_after_v exW (some 1) 2 1 rfl (by decide) [5, 6] 7 rfl (by decide)

/-- C3: in every reachable state of a semaphore, `sem_destroy` returns -1 and
leaves the whole world (value, wait queue, allocation) as it is when at least
one thread is blocked on it, and returns 1 and frees the semaphore when no
thread is blocked on it. -/
theorem sem_destroy_result (s : Ptr) (w : World) (h : SemReach s w) :
    ∃ sem wl, w.sems s = some sem ∧ Holds w.next sem.queue wl ∧
      (wl ≠ [] → sem_destroy w s = some (w, -1)) ∧
      (wl = [] → sem_destroy w s = some (set_sem w s none, 1) ∧
        (set_sem w s none).sems s = none) := by
  obtain ⟨v, wl, rl, hinv⟩ := semreach_inv h
  obtain ⟨sem, hsem, -, hh, -⟩ := seminv_sem hinv
  refine ⟨sem, wl, hsem, hh, ?_, ?_⟩
  · intro hne
    have : queue_empty sem.queue = false := by
      cases hq : queue_empty sem.queue with
      | false => rfl
      | true => exact absurd ((holds_empty_iff hh).mp hq) hne
    simp [sem_destroy, hsem, this]
  · intro he
    have : queue_empty sem.queue = true := (holds_empty_iff hh).mpr he
    simp [sem_destroy, hsem, this]

/-- Witness of C3: the state after `sem_create(0)`, a blocking `sem_P` and a
`sem_V` is reachable. -/
theorem sem_destroy_result_witness :
    SemReach 1 exW3 ∧ ∃ sem wl, exW3.sems 1 = some sem ∧ Holds exW3.next sem.queue wl ∧
      (wl ≠ [] → sem_destroy exW3 1 = some (exW3, -1)) ∧
      (wl = [] → sem_destroy exW3 1 = some (set_sem exW3 1 none, 1) ∧
        (set_sem exW3 1 none).sems 1 = none) :=
  ⟨exW3_reach, sem_destroy_result 1 exW3 exW3_reach⟩

/-- C4: FIFO wake-up.  In a reachable state of the semaphore `s` whose value
is not positive (so that `sem_P` blocks), with threads `l0` already waiting,
let the distinct running threads `ts` = T1..Tn call `sem_P` in that order.
Then the wait queue holds `l0` followed by T1..Tn, and for every `k` the next
`k` calls of `sem_V` are defined, remove the first `k` of them from the wait
queue and append them to `ready_queue` in exactly that order.  With no thread
waiting beforehand (`l0 = []`) the next `n` calls of `sem_V` append T1..Tn. -/
theorem sem_V_wakes_fifo (s : Ptr) (w : World) (hreach : SemReach s w)
    (v : Int) (q : Queue) (l0 rl : List Ptr)
    (hsem : w.sems s = some { val := v, queue := q }) (hv : v ≤ 0)
    (hl0 : Holds w.next q l0) (hrl : Holds w.next w.ready_queue rl)
    (ts : List Ptr) (hnd : ts.Nodup) (hrun : ∀ t ∈ ts, Running w s t)
    (wb : World) (hP : sem_P_calls w s ts = some wb) :
    (∃ qb, wb.sems s = some { val := v - ts.length, queue := qb } ∧
      Holds wb.next qb (l0 ++ ts)) ∧
    Holds wb.next wb.ready_queue rl ∧
    ∀ k, k ≤ (l0 ++ ts).length →
      ∃ wk, sem_V_calls wb s k = some wk ∧
        Holds wk.next wk.ready_queue (rl ++ (l0 ++ ts).take k) ∧
        ∃ qk, wk.sems s = some { val := v - ts.length + k, queue := qk } ∧
          Holds wk.next qk ((l0 ++ ts).drop k) := by
  obtain ⟨v', wl', rl', hinv⟩ := semreach_inv hreach
  obtain ⟨⟨q', hq', hh'⟩, -, hr', -⟩ := id hinv
  have e : ({ val := v', queue := q' } : Sem) = { val := v, queue := q } :=
    Option.some.inj (hq'.symm.trans hsem)
  have ev : v' = v := congrArg Sem.val e
  have eq : q' = q := congrArg Sem.queue e
  subst ev
  subst eq
  have el : wl' = l0 := holds_unique hh' hl0
  have er : rl' = rl := holds_unique hr' hrl
  subst el
  subst er
  have hrun' : ∀ t ∈ ts, t ≠ 0 ∧ t ∉ wl' ∧ t ∉ rl' := fun t ht =>
    ⟨(hrun t ht).1, (hrun t ht).2.2 _ wl' hsem hl0, (hrun t ht).2.1 rl' hrl⟩
  have hb := sem_P_calls_block ts w wb v' wl' hinv hv hnd hrun' hP
  refine ⟨hb.1, hb.2.2.1, ?_⟩
  intro k hk
  obtain ⟨wk, hwk, hinvk⟩ := sem_V_calls_wake k wb _ _ _ hb hk
  exact ⟨wk, hwk, hinvk.2.2.1, hinvk.1⟩

/-- Witness of C4: threads 5, 6, 7 block on a fresh semaphore of value 0. -/
theorem sem_V_wakes_fifo_witness :
    (∃ qb, ((sem_P_calls exW1 1 [5, 6, 7]).getD exW1).sems 1 =
        some { val := 0 - ([5, 6, 7] : List Ptr).length, queue := qb } ∧
      Holds ((sem_P_calls exW1 1 [5, 6, 7]).getD exW1).next qb ([] ++ [5, 6, 7])) ∧
    Holds ((sem_P_calls exW1 1 [5, 6, 7]).getD exW1).next
      ((sem_P_calls exW1 1 [5, 6, 7]).getD exW1).ready_queue [] ∧
    ∀ k, k ≤ (([] : List Ptr) ++ [5, 6, 7]).length →
      ∃ wk, sem_V_calls ((sem_P_calls exW1 1 [5, 6, 7]).getD exW1) 1 k = some wk ∧
        Holds wk.next wk.ready_queue ([] ++ ([] ++ [5, 6, 7]).take k) ∧
        ∃ qk, wk.sems 1 = some { val := 0 - ([5, 6, 7] : List Ptr).length + k, queue := qk } ∧
          Holds wk.next qk (([] ++ [5, 6, 7]).drop k) :=
  sem_V_wakes_fifo 1 exW1 exW1_reach 0 { front := 0, back := 0 } [] [] rfl (by decide)
    (holds_nil _) (holds_nil _) [5, 6, 7] (by decide)
    (fun t ht => exW1_running t (by
      intro e
      subst e
      simp at ht))
    ((sem_P_calls exW1 1 [5, 6, 7]).getD exW1) rfl

/-- C5: `sem_create(val)` returns null iff `val < 0` or the allocation fails;
for `val < 0` the world is unchanged whatever `malloc` would have answered;
on success the result is a fresh address, and the struct `a` found there
after the call has the value `val` and a queue that `queue_empty` reports
empty and that holds no thread, whatever the allocated memory held before
(`sem_junk`); nothing else changed. -/
theorem sem_create_result (w : World) (hint : Option Ptr) (val : Int) :
    ((sem_create w hint val).2 = 0 ↔ (val < 0 ∨ malloc w.sems hint = none)) ∧
    (val < 0 → ∀ hint', sem_create w hint' val = (w, 0)) ∧
    ((sem_create w hint val).2 = 0 → (sem_create w hint val).1 = w) ∧
    ((sem_create w hint val).2 ≠ 0 →
      w.sems (sem_create w hint val).2 = none ∧
      ∃ a, (sem_create w hint val).1.sems (sem_create w hint val).2 = some a ∧
        a.val = val ∧ queue_empty a.queue = true ∧
        Holds (sem_create w hint val).1.next a.queue [] ∧
        (sem_create w hint val).1 = set_sem w (sem_create w hint val).2 (some a)) ∧
    (∀ j : Ptr → Sem,
      (sem_create { w with sem_junk := j } hint val).2 = (sem_create w hint val).2 ∧
      (sem_create { w with sem_junk := j } hint val).1.sems = (sem_create w hint val).1.sems) := by
  refine ⟨?_, ?_, ?_, ?_, ?_⟩
  · by_cases hv : val < 0
    · simp [sem_create, hv]
    · cases hm : malloc w.sems hint with
      | none => simp [sem_create, hv, hm]
      | some p =>
        have hp := (malloc_some hm).2.1
        simp [sem_create, hv, hm, hp]
  · intro hv hint'
    simp [sem_create, hv]
  · intro h0
    by_cases hv : val < 0
    · simp [sem_create, hv]
    · cases hm : malloc w.sems hint with
      | none => simp [sem_create, hv, hm]
      | some p =>
        have hp := (malloc_some hm).2.1
        simp [sem_create, hv, hm, hp] at h0
  · intro hne
    by_cases hv : val < 0
    · simp [sem_create, hv] at hne
    · cases hm : malloc w.sems hint with
      | none => simp [sem_create, hv, hm] at hne
      | some p =>
        have hp := (malloc_some hm).2.2
        have e : sem_create w hint val =
            (set_sem w p (some { val := val, queue := (queue_init (w.sem_junk p).queue).1 }), p) := by
          simp [sem_create, hv, hm, thread_yield]
        rw [e]
        refine ⟨hp, _, by simp, rfl, ?_, ?_, rfl⟩
        · simp [queue_init, queue_empty]
        · exact holds_nil _
  · intro j
    by_cases hv : val < 0
    · simp [sem_create, hv]
    · cases hm : malloc w.sems hint with
      | none => simp [sem_create, hv, hm]
      | some p => simp [sem_create, hv, hm, thread_yield, queue_init, set_sem]

/-- C6, the code at the failing input: thread 11 is blocked inside
`chan_send(c, 42)` (it has signalled `rblock`, whose value is 1, and waits on
`sblock`).  `chan_destroy(c)` returns -1, but the channel is not as before:
the old `rblock` (address 3, value 1) is freed and `c->rblock` is the spare
semaphore at address 7 with value 0.  Before the call a `chan_receive` by
thread 12 completes the rendezvous and obtains 42; after the call the
receiver blocks in `sem_P(c->rblock)`, the sender stays blocked and no action
is enabled any more. -/
theorem chan_destroy_failure_changes_channel :
    ∃ w', chan_destroy exSending 13 1 [some 2, some 6, some 7, some 8] = some (w', some (-1)) ∧
      exSending.chans 1 = some { rblock := 3, sblock := 2, send_serialiser := 4, data := 42 } ∧
      exSending.sems 3 = some { val := 1, queue := { front := 0, back := 0 } } ∧
      w'.chans 1 = some { rblock := 7, sblock := 2, send_serialiser := 4, data := 42 } ∧
      w'.sems 3 = none ∧
      w'.sems 7 = some { val := 0, queue := { front := 0, back := 0 } } ∧
      w'.sems 2 = some { val := -1, queue := { front := 11, back := 11 } } ∧
      (∃ σ, run 11 12 1 42
          { w := exSending, spc := 4, sparked := true, rpc := 0, rparked := false, received := 0 }
          [Act.recv, Act.recv, Act.recv, Act.sched, Act.send] = some σ ∧
        σ.spc = 5 ∧ σ.rpc = 3 ∧ σ.received = 42) ∧
      (∃ σ, run 11 12 1 42
          { w := w', spc := 4, sparked := true, rpc := 0, rparked := false, received := 0 }
          [Act.recv] = some σ ∧
        σ.sparked = true ∧ σ.rparked = true ∧ ∀ a, enabled σ a = false) := by
  refine ⟨_, rfl, rfl, rfl, rfl, rfl, rfl, rfl, ⟨_, rfl, rfl, rfl, rfl⟩, ⟨_, rfl, rfl, rfl, ?_⟩⟩
  intro a
  cases a <;> rfl

/-- C7: let `c` be a live channel whose three semaphores and `chan_mutex` are
four distinct live semaphores, `chan_mutex` being free (value positive), and
let the environment answer the allocations of the spare channel with fresh
addresses (so that its creation succeeds).  Then `chan_destroy(c)` returns;
it returns 1 or -1; it returns 1 iff none of `rblock`, `sblock`,
`send_serialiser` has a blocked thread (all three queues are empty), and then
the channel struct is freed; it returns -1 whenever at least one of them has
a blocked thread, and then the channel struct is still allocated. -/
theorem chan_destroy_result (w : World) (t c m : Ptr) (mv : Int) (mq : Queue)
    (rb sb ss : Ptr) (d : Int) (qrb qsb qss : Sem) (lrb lsb lss : List Ptr)
    (b sb' rb' ss' : Ptr)
    (hf : w.firstCall = false) (hm : w.chan_mutex = m)
    (hms : w.sems m = some { val := mv, queue := mq }) (hmv : 0 < mv) (hmax : mv ≤ INT_MAX)
    (hc : w.chans c = some { rblock := rb, sblock := sb, send_serialiser := ss, data := d })
    (hrb : w.sems rb = some qrb) (hsb : w.sems sb = some qsb) (hss : w.sems ss = some qss)
    (hlrb : Holds w.next qrb.queue lrb) (hlsb : Holds w.next qsb.queue lsb)
    (hlss : Holds w.next qss.queue lss)
    (hd : [m, rb, sb, ss].Nodup)
    (hb : b ≠ 0 ∧ w.chans b = none)
    (hfresh : ∀ x ∈ [sb', rb', ss'], x ≠ 0 ∧ w.sems x = none) (hnd : [sb', rb', ss'].Nodup) :
    ∃ w' r, chan_destroy w t c [some b, some sb', some rb', some ss'] = some (w', some r) ∧
      (r = 1 ∨ r = -1) ∧
      (r = 1 ↔ lrb = [] ∧ lsb = [] ∧ lss = []) ∧
      (r = -1 ↔ lrb ≠ [] ∨ lsb ≠ [] ∨ lss ≠ []) ∧
      (r = -1 → ∃ ch, w'.chans c = some ch) ∧ (r = 1 → w'.chans c = none) := by
  obtain ⟨hsb'0, hsb'f⟩ := hfresh sb' (by simp)
  obtain ⟨hrb'0, hrb'f⟩ := hfresh rb' (by simp)
  obtain ⟨hss'0, hss'f⟩ := hfresh ss' (by simp)
  simp only [List.nodup_cons, List.mem_cons, List.mem_singleton, not_or, List.not_mem_nil,
    not_false_eq_true, List.nodup_nil, and_true] at hd hnd
  obtain ⟨⟨d1, d2, d3⟩, ⟨d4, d5⟩, d6⟩ := hd
  obtain ⟨⟨e1, e2⟩, e3⟩ := hnd
  have x_m_sbp : m ≠ sb' := ne_of_live_free hms hsb'f
  have x_m_rbp : m ≠ rb' := ne_of_live_free hms hrb'f
  have x_m_ssp : m ≠ ss' := ne_of_live_free hms hss'f
  have x_rb_sbp : rb ≠ sb' := ne_of_live_free hrb hsb'f
  have x_rb_rbp : rb ≠ rb' := ne_of_live_free hrb hrb'f
  have x_rb_ssp : rb ≠ ss' := ne_of_live_free hrb hss'f
  have x_sb_sbp : sb ≠ sb' := ne_of_live_free hsb hsb'f
  have x_sb_rbp : sb ≠ rb' := ne_of_live_free hsb hrb'f
  have x_sb_ssp : sb ≠ ss' := ne_of_live_free hsb hss'f
  have x_ss_sbp : ss ≠ sb' := ne_of_live_free hss hsb'f
  have x_ss_rbp : ss ≠ rb' := ne_of_live_free hss hrb'f
  have x_ss_ssp : ss ≠ ss' := ne_of_live_free hss hss'f
  have hcb : c ≠ b := by
    intro e
    rw [e, hb.2] at hc
    cases hc
  have hne :
      m ≠ rb ∧ rb ≠ m ∧ m ≠ sb ∧ sb ≠ m ∧ m ≠ ss ∧ ss ≠ m ∧ rb ≠ sb ∧ sb ≠ rb ∧ rb ≠ ss ∧
      ss ≠ rb ∧ sb ≠ ss ∧ ss ≠ sb ∧ sb' ≠ rb' ∧ rb' ≠ sb' ∧ sb' ≠ ss' ∧ ss' ≠ sb' ∧
      rb' ≠ ss' ∧ ss' ≠ rb' ∧ m ≠ sb' ∧ sb' ≠ m ∧ m ≠ rb' ∧ rb' ≠ m ∧ m ≠ ss' ∧ ss' ≠ m ∧
      rb ≠ sb' ∧ sb' ≠ rb ∧ rb ≠ rb' ∧ rb' ≠ rb ∧ rb ≠ ss' ∧ ss' ≠ rb ∧ sb ≠ sb' ∧
      sb' ≠ sb ∧ sb ≠ rb' ∧ rb' ≠ sb ∧ sb ≠ ss' ∧ ss' ≠ sb ∧ ss ≠ sb' ∧ sb' ≠ ss ∧
      ss ≠ rb' ∧ rb' ≠ ss ∧ ss ≠ ss' ∧ ss' ≠ ss :=
    ⟨d1, Ne.symm d1, d2, Ne.symm d2, d3, Ne.symm d3, d4, Ne.symm d4, d5, Ne.symm d5, d6,
      Ne.symm d6, e1, Ne.symm e1, e2, Ne.symm e2, e3, Ne.symm e3, x_m_sbp, Ne.symm x_m_sbp,
      x_m_rbp, Ne.symm x_m_rbp, x_m_ssp, Ne.symm x_m_ssp, x_rb_sbp, Ne.symm x_rb_sbp,
      x_rb_rbp, Ne.symm x_rb_rbp, x_rb_ssp, Ne.symm x_rb_ssp, x_sb_sbp, Ne.symm x_sb_sbp,
      x_sb_rbp, Ne.symm x_sb_rbp, x_sb_ssp, Ne.symm x_sb_ssp, x_ss_sbp, Ne.symm x_ss_sbp,
      x_ss_rbp, Ne.symm x_ss_rbp, x_ss_ssp, Ne.symm x_ss_ssp⟩
  have hP : sem_P w m t = some (set_sem w m (some { val := mv - 1, queue := mq })) :=
    sem_P_of_pos t hms hmv
  have hneg : sem_negative (set_sem w m (some { val := mv - 1, queue := mq })) m = false := by
    have : ¬ (mv - 1 < 0) := by omega
    simp [sem_negative, this]
  have hcreate := chan_create_alloc_fresh (w := set_sem w m (some { val := mv - 1, queue := mq }))
    [] hb.1 (by simpa using hb.2) hsb'0 hrb'0 hss'0
    (set_sem_sems_none_iff.mpr ⟨Ne.symm x_m_sbp, hsb'f⟩)
    (set_sem_sems_none_iff.mpr ⟨Ne.symm x_m_rbp, hrb'f⟩)
    (set_sem_sems_none_iff.mpr ⟨Ne.symm x_m_ssp, hss'f⟩) e1 e2 e3
  have hstart : chan_destroy w t c [some b, some sb', some rb', some ss'] =
      chan_destroy_sems (set_chan (set_sem (set_sem (set_sem
        (set_sem w m (some { val := mv - 1, queue := mq }))
        sb' (some { val := 0, queue := { front := 0, back := 0 } }))
        rb' (some { val := 0, queue := { front := 0, back := 0 } }))
        ss' (some { val := 1, queue := { front := 0, back := 0 } }))
        b (some { rblock := rb', sblock := sb', send_serialiser := ss', data := 0 })) c b := by
    have hcc : chan_create (set_sem w m (some { val := mv - 1, queue := mq }))
        [some b, some sb', some rb', some ss'] =
        chan_create_alloc (set_sem w m (some { val := mv - 1, queue := mq }))
          [some b, some sb', some rb', some ss'] := by
      simp only [chan_create, set_sem_firstCall, hf, Bool.false_eq_true, if_false]
    simp only [chan_destroy, hm, hP, Option.some_bind, set_sem_chan_mutex, hneg,
      Bool.false_eq_true, if_false, hcc, hcreate, hb.1]
  rw [hstart]
  have hmv' : (0 : Int) ≤ mv - 1 := by omega
  have hmax' : mv - 1 ≠ INT_MAX := by omega
  have erb : queue_empty qrb.queue = true ↔ lrb = [] := holds_empty_iff hlrb
  have esb : queue_empty qsb.queue = true ↔ lsb = [] := holds_empty_iff hlsb
  have ess : queue_empty qss.queue = true ↔ lss = [] := holds_empty_iff hlss
  obtain ⟨W, hW⟩ : ∃ W, W = set_chan (set_sem (set_sem (set_sem
        (set_sem w m (some { val := mv - 1, queue := mq }))
        sb' (some { val := 0, queue := { front := 0, back := 0 } }))
        rb' (some { val := 0, queue := { front := 0, back := 0 } }))
        ss' (some { val := 1, queue := { front := 0, back := 0 } }))
        b (some { rblock := rb', sblock := sb', send_serialiser := ss', data := 0 }) := ⟨_, rfl⟩
  rw [← hW]
  have Wc : W.chans c = some { rblock := rb, sblock := sb, send_serialiser := ss, data := d } := by
    rw [hW]
    simp [set_chan_chans_other _ _ hcb, hc]
  have Wb : W.chans b =
      some { rblock := rb', sblock := sb', send_serialiser := ss', data := 0 } := by
    rw [hW]
    simp
  have Wm : W.chan_mutex = m := by
    rw [hW]
    exact hm
  have Wms : W.sems m = some { val := mv - 1, queue := mq } := by
    rw [hW]
    simp [set_sem_sems_other, hne]
  have Wrb : W.sems rb = some qrb := by
    rw [hW]
    simp [set_sem_sems_other, hrb, hne]
  have Wsb : W.sems sb = some qsb := by
    rw [hW]
    simp [set_sem_sems_other, hsb, hne]
  have Wss : W.sems ss = some qss := by
    rw [hW]
    simp [set_sem_sems_other, hss, hne]
  have Wrb' : W.sems rb' = some { val := 0, queue := { front := 0, back := 0 } } := by
    rw [hW]
    simp [set_sem_sems_other, hne]
  have Wsb' : W.sems sb' = some { val := 0, queue := { front := 0, back := 0 } } := by
    rw [hW]
    simp [set_sem_sems_other, hne]
  have Wss' : W.sems ss' = some { val := 1, queue := { front := 0, back := 0 } } := by
    rw [hW]
    simp [set_sem_sems_other, hne]
  clear hW hstart hcreate
  unfold chan_destroy_sems
  simp only [Wc, Option.some_bind]
  cases hq1 : queue_empty qrb.queue with
  | false =>
    have n1 : lrb ≠ [] := fun e => by rw [erb.mpr e] at hq1; cases hq1
    rw [sem_destroy_nonempty Wrb hq1]
    simp only [Option.some_bind, if_true]
    rw [chan_destroy_fail1_eq Wb ⟨_, Wrb'⟩ ⟨_, Wsb'⟩ ⟨_, Wss'⟩ e1 (Ne.symm e2) (Ne.symm e3)
      Wm Wms hmv' hmax' x_m_rbp x_m_sbp x_m_ssp]
    refine ⟨_, -1, rfl, Or.inr rfl, ?_, ?_, ?_, ?_⟩
    · constructor
      · intro h; exact absurd h (by decide)
      · intro h; exact absurd h.1 n1
    · exact ⟨fun _ => Or.inl n1, fun _ => rfl⟩
    · intro _
      simp only [free_chan, set_sem_chans, set_chan_chans_other _ _ hcb, Wc]
      exact ⟨_, rfl⟩
    · intro h; exact absurd h (by decide)
  | true =>
    have z1 : lrb = [] := erb.mp hq1
    rw [sem_destroy_empty Wrb hq1]
    simp only [Option.some_bind, (by decide : ¬ ((1 : Int) = -1)), if_false, set_sem_chans, Wc]
    cases hq2 : queue_empty qsb.queue with
    | false =>
      have n2 : lsb ≠ [] := fun e => by rw [esb.mpr e] at hq2; cases hq2
      rw [sem_destroy_nonempty (w := set_sem W rb none) (a := qsb)
        (by simp [set_sem_sems_other, Wsb, hne]) hq2]
      simp only [Option.some_bind, if_true]
      rw [chan_destroy_fail2_eq (u := set_sem W rb none) (m := m) (v := mv - 1) (q := mq)
        (d := 0) (by simpa using Wc) hcb (by simpa using Wb)
        ⟨0, by simp [set_sem_sems_other, Wsb', hne]⟩
        ⟨1, by simp [set_sem_sems_other, Wss', hne]⟩ e1 (Ne.symm e2) (Ne.symm e3)
        Wm (by simp [set_sem_sems_other, Wms, hne]) hmv' hmax' x_m_sbp x_m_ssp]
      refine ⟨_, -1, rfl, Or.inr rfl, ?_, ?_, ?_, ?_⟩
      · constructor
        · intro h; exact absurd h (by decide)
        · intro h; exact absurd h.2.1 n2
      · exact ⟨fun _ => Or.inr (Or.inl n2), fun _ => rfl⟩
      · intro _
        simp only [free_chan, set_sem_chans, set_chan_chans_other _ _ hcb, set_chan_chans_same]
        exact ⟨_, rfl⟩
      · intro h; exact absurd h (by decide)
    | true =>
      have z2 : lsb = [] := esb.mp hq2
      rw [sem_destroy_empty (w := set_sem W rb none) (a := qsb)
        (by simp [set_sem_sems_other, Wsb, hne]) hq2]
      simp only [Option.some_bind, (by decide : ¬ ((1 : Int) = -1)), if_false,
        set_sem_chans, Wc]
      cases hq3 : queue_empty qss.queue with
      | false =>
        have n3 : lss ≠ [] := fun e => by rw [ess.mpr e] at hq3; cases hq3
        rw [sem_destroy_nonempty (w := set_sem (set_sem W rb none) sb none) (a := qss)
          (by simp [set_sem_sems_other, Wss, hne]) hq3]
        simp only [Option.some_bind, if_true]
        rw [chan_destroy_fail3_eq (u := set_sem (set_sem W rb none) sb none) (m := m)
          (v := mv - 1) (q := mq) (d := 0) (by simpa using Wc) hcb (by simpa using Wb)
          ⟨1, by simp [set_sem_sems_other, Wss', hne]⟩ e1 (Ne.symm e2) (Ne.symm e3)
          Wm (by simp [set_sem_sems_other, Wms, hne]) hmv' hmax' x_m_ssp]
        refine ⟨_, -1, rfl, Or.inr rfl, ?_, ?_, ?_, ?_⟩
        · constructor
          · intro h; exact absurd h (by decide)
          · intro h; exact absurd h.2.2 n3
        · exact ⟨fun _ => Or.inr (Or.inr n3), fun _ => rfl⟩
        · intro _
          simp only [free_chan, set_sem_chans, set_chan_chans_other _ _ hcb, set_chan_chans_same]
          exact ⟨_, rfl⟩
        · intro h; exact absurd h (by decide)
      | true =>
        have z3 : lss = [] := ess.mp hq3
        rw [sem_destroy_empty (w := set_sem (set_sem W rb none) sb none) (a := qss)
          (by simp [set_sem_sems_other, Wss, hne]) hq3]
        simp only [Option.some_bind, (by decide : ¬ ((1 : Int) = -1)), if_false]
        rw [chan_destroy_ok_eq (u := set_sem (set_sem (set_sem W rb none) sb none) ss none)
          (m := m) (v := mv - 1) (q := mq) (d := 0) (c := c) (by simpa using Wb)
          ⟨0, by simp [set_sem_sems_other, Wrb', hne]⟩
          ⟨0, by simp [set_sem_sems_other, Wsb', hne]⟩
          ⟨1, by simp [set_sem_sems_other, Wss', hne]⟩ e1 (Ne.symm e2) (Ne.symm e3)
          Wm (by simp [set_sem_sems_other, Wms, hne]) hmv' hmax' x_m_rbp x_m_sbp x_m_ssp]
        refine ⟨_, 1, rfl, Or.inl rfl, ?_, ?_, ?_, ?_⟩
        · exact ⟨fun _ => ⟨z1, z2, z3⟩, fun _ => rfl⟩
        · constructor
          · intro h; exact absurd h (by decide)
          · intro h
            rcases h with h | h | h
            · exact absurd z1 h
            · exact absurd z2 h
            · exact absurd z3 h
        · intro h; exact absurd h (by decide)
        · intro _
          simp [free_chan]

/-- Witness of C7: `chan_destroy` on the channel of `exSending`, where the
sender is blocked on `sblock`, with fresh addresses 2, 6, 7, 8 on offer for
the spare channel. -/
theorem chan_destroy_result_witness :
    ∃ w' r, chan_destroy exSending 13 1 [some 2, some 6, some 7, some 8] = some (w', some r) ∧
      (r = 1 ∨ r = -1) ∧
      (r = 1 ↔ ([] : List Ptr) = [] ∧ [11] = ([] : List Ptr) ∧ ([] : List Ptr) = []) ∧
      (r = -1 ↔ ([] : List Ptr) ≠ [] ∨ [11] ≠ ([] : List Ptr) ∨ ([] : List Ptr) ≠ []) ∧
      (r = -1 → ∃ ch, w'.chans 1 = some ch) ∧ (r = 1 → w'.chans 1 = none) :=
  chan_destroy_result exSending 13 1 1 1 { front := 0, back := 0 } 3 2 4 42
    { val := 1, queue := { front := 0, back := 0 } }
    { val := -1, queue := { front := 11, back := 11 } }
    { val := 0, queue := { front := 0, back := 0 } } [] [11] [] 2 6 7 8
    rfl rfl rfl (by decide) (by decide) rfl rfl rfl rfl
    (holds_nil _) exSending_sblock_holds (holds_nil _) (by decide) ⟨by decide, rfl⟩
    (by
      intro x hx
      simp only [List.mem_cons, List.mem_singleton, List.not_mem_nil, or_false] at hx
      rcases hx with rfl | rfl | rfl
      · exact ⟨by decide, rfl⟩
      · exact ⟨by decide, rfl⟩
      · exact ⟨by decide, rfl⟩)
    (by decide)

/-- C8: whenever `chan_create` returns a channel (which it does exactly when
no allocation failed), the struct `ch` found at the returned address is
fresh and, whatever the allocated memory held before: its `data` is 0; its
`sblock` and `rblock` are distinct fresh semaphores of value 0 and its
`send_serialiser` is a third fresh semaphore of value 1; and the queue of
each of the three is reported empty by `queue_empty` and holds no thread.
And when the environment answers every `malloc` with a fresh address,
`chan_create` does return the channel.  So in `exW`, whose unallocated memory
holds non-zero values, the first `chan_create` returns the channel at address
1 with `data` 0 and its semaphores at 2, 3, 4 with empty queues. -/
theorem chan_create_fresh_channel (w : World) :
    (∀ o r c, chan_create w o = some (r, c) → c ≠ 0 →
      w.chans c = none ∧ ∃ ch a b d,
        r.chans c = some ch ∧ ch.data = 0 ∧
        r.sems ch.sblock = some a ∧ r.sems ch.rblock = some b ∧
        r.sems ch.send_serialiser = some d ∧
        a.val = 0 ∧ b.val = 0 ∧ d.val = 1 ∧
        queue_empty a.queue = true ∧ queue_empty b.queue = true ∧
        queue_empty d.queue = true ∧
        Holds r.next a.queue [] ∧ Holds r.next b.queue [] ∧ Holds r.next d.queue [] ∧
        ch.sblock ≠ ch.rblock ∧ ch.send_serialiser ≠ ch.sblock ∧
        ch.send_serialiser ≠ ch.rblock ∧
        ch.sblock ≠ 0 ∧ ch.rblock ≠ 0 ∧ ch.send_serialiser ≠ 0 ∧
        w.sems ch.sblock = none ∧ w.sems ch.rblock = none ∧
        w.sems ch.send_serialiser = none) ∧
    (∀ m c sb rb ss : Ptr, c ≠ 0 → w.chans c = none →
      (∀ x ∈ [m, sb, rb, ss], x ≠ 0 ∧ w.sems x = none) → [m, sb, rb, ss].Nodup →
      ∃ r, chan_create w ((if w.firstCall then [some m] else []) ++
          [some c, some sb, some rb, some ss]) = some (r, c)) ∧
    (exW.chan_junk 1 = { rblock := 6, sblock := 1, send_serialiser := 8, data := 99 } ∧
      exW.sem_junk 2 = { val := 77, queue := { front := 3, back := 9 } } ∧
      ∃ r, chan_create exW [some 1, some 1, some 2, some 3, some 4] = some (r, 1) ∧
        r.chans 1 = some { rblock := 3, sblock := 2, send_serialiser := 4, data := 0 } ∧
        r.sems 2 = some { val := 0, queue := { front := 0, back := 0 } } ∧
        r.sems 3 = some { val := 0, queue := { front := 0, back := 0 } } ∧
        r.sems 4 = some { val := 1, queue := { front := 0, back := 0 } }) := by
  refine ⟨?_, ?_, rfl, rfl, _, rfl, rfl, rfl, rfl, rfl⟩
  · intro o r c h hc
    obtain ⟨hcf, rb, sb, ss, hch, d1, d2, d3, a1, a2, a3, g1, g2, g3, s1, s2, s3, -, -⟩ :=
      chan_create_nonnull h hc
    exact ⟨hcf, _, _, _, _, hch, rfl, s1, s2, s3, rfl, rfl, rfl, rfl, rfl, rfl,
      holds_nil _, holds_nil _, holds_nil _, d1, d2, d3, a1, a2, a3, g1, g2, g3⟩
  · intro m c sb rb ss hc hcf hfresh hnd
    have hm := hfresh m (by simp)
    have hsb := hfresh sb (by simp)
    have hrb := hfresh rb (by simp)
    have hss := hfresh ss (by simp)
    simp only [List.nodup_cons, List.mem_cons, List.mem_singleton, not_or, List.not_mem_nil,
      not_false_eq_true, List.nodup_nil, and_true] at hnd
    obtain ⟨⟨n1, n2, n3⟩, ⟨n4, n5⟩, n6⟩ := hnd
    by_cases hf : w.firstCall = true
    · have e0 : sem_create { w with firstCall := false } (some m) 1 = _ :=
        sem_create_fresh (by decide) hm.1 hm.2
      have e : chan_create w ((if w.firstCall then [some m] else []) ++
          [some c, some sb, some rb, some ss]) =
          chan_create_alloc { set_sem { w with firstCall := false } m
            (some { val := 1, queue := { front := 0, back := 0 } }) with chan_mutex := m }
            [some c, some sb, some rb, some ss] := by
        simp only [chan_create, hf, if_true, List.singleton_append, oracle_hd, e0, hm.1,
          if_false, List.tail_cons]
      rw [e]
      exact ⟨_, chan_create_alloc_fresh [] hc hcf hsb.1 hrb.1 hss.1
        (set_sem_sems_none_iff.mpr ⟨fun e => n1 e.symm, hsb.2⟩)
        (set_sem_sems_none_iff.mpr ⟨fun e => n2 e.symm, hrb.2⟩)
        (set_sem_sems_none_iff.mpr ⟨fun e => n3 e.symm, hss.2⟩) n4 n5 n6⟩
    · have e : chan_create w ((if w.firstCall then [some m] else []) ++
          [some c, some sb, some rb, some ss]) =
          chan_create_alloc w [some c, some sb, some rb, some ss] := by
        simp only [chan_create, hf, List.nil_append]
        rfl
      rw [e]
      exact ⟨_, chan_create_alloc_fresh [] hc hcf hsb.1 hrb.1 hss.1 hsb.2 hrb.2 hss.2 n4 n5 n6⟩

/-- C9, counterexample: on the first call of the module, with the `malloc` of
the channel struct failing, `chan_create` returns null although the semaphore
at address 1, created during the call (it is `chan_mutex`), stays allocated:
the live allocations are not those before the call. -/
theorem chan_create_null_keeps_chan_mutex :
    ∃ r, chan_create exW [some 1, none] = some (r, 0) ∧ exW.sems 1 = none ∧
      r.sems 1 = some { val := 1, queue := { front := 0, back := 0 } } ∧ r.chan_mutex = 1 :=
  ⟨_, rfl, rfl, rfl, rfl⟩

/-- C9, amended: whenever `chan_create` returns null (its execution being
defined), the live channel structs, every link and the ready queue are those
before the call; after the first call the whole world is unchanged, and on
the first call the semaphores are those before the call except for the new
`chan_mutex`, which stays allocated when its creation succeeded. -/
theorem chan_create_null_no_leak (w : World) (o : List (Option Ptr)) (r : World)
    (h : chan_create w o = some (r, 0)) :
    r.chans = w.chans ∧ r.next = w.next ∧ r.ready_queue = w.ready_queue ∧
    (w.firstCall = false → r = w) ∧
    (w.firstCall = true → r.firstCall = false ∧
      ((r.sems = w.sems ∧ r.chan_mutex = 0) ∨
       ∃ m, m ≠ 0 ∧ w.sems m = none ∧ r.chan_mutex = m ∧
         r.sems = Function.update w.sems m
           (some { val := 1, queue := { front := 0, back := 0 } }))) := by
  by_cases hf : w.firstCall = true
  · simp only [chan_create, hf, if_true] at h
    rcases sem_create_cases { w with firstCall := false } (oracle_hd o)
        (by decide : (0 : Int) ≤ 1) with h1 | ⟨m, hm0, hmf, -, h1⟩
    · rw [h1] at h
      simp at h
      subst h
      simp [hf]
    · rw [h1] at h
      simp only [hm0, if_false] at h
      rcases chan_create_alloc_spec h with ⟨-, hr⟩ | ⟨hc, -⟩
      · subst hr
        refine ⟨rfl, rfl, rfl, by simp [hf], fun _ => ⟨rfl, Or.inr ⟨m, hm0, hmf, rfl, rfl⟩⟩⟩
      · exact absurd rfl hc
  · simp only [chan_create, hf] at h
    rcases chan_create_alloc_spec h with ⟨-, hr⟩ | ⟨hc, -⟩
    · subst hr
      exact ⟨rfl, rfl, rfl, fun _ => rfl, fun e => absurd e hf⟩
    · exact absurd rfl hc

/-- Witness of C9 (amended): first call, `chan_mutex` at address 1, the channel
struct at address 1, and the creation of `sblock` fails. -/
theorem chan_create_null_no_leak_witness :
    ((chan_create exW [some 1, some 1, none]).getD (exW, 0)).1.chans = exW.chans ∧
    ((chan_create exW [some 1, some 1, none]).getD (exW, 0)).1.next = exW.next ∧
    ((chan_create exW [some 1, some 1, none]).getD (exW, 0)).1.ready_queue =
      exW.ready_queue ∧
    (exW.firstCall = false → ((chan_create exW [some 1, some 1, none]).getD (exW, 0)).1 = exW) ∧
    (exW.firstCall = true →
      ((chan_create exW [some 1, some 1, none]).getD (exW, 0)).1.firstCall = false ∧
      ((((chan_create exW [some 1, some 1, none]).getD (exW, 0)).1.sems = exW.sems ∧
        ((chan_create exW [some 1, some 1, none]).getD (exW, 0)).1.chan_mutex = 0) ∨
       ∃ m, m ≠ 0 ∧ exW.sems m = none ∧
         ((chan_create exW [some 1, some 1, none]).getD (exW, 0)).1.chan_mutex = m ∧
         ((chan_create exW [some 1, some 1, none]).getD (exW, 0)).1.sems =
           Function.update exW.sems m
             (some { val := 1, queue := { front := 0, back := 0 } }))) :=
  chan_create_null_no_leak exW [some 1, some 1, none]
    ((chan_create exW [some 1, some 1, none]).getD (exW, 0)).1 rfl

/-- C10: channel round trip.  On a channel freshly created by `chan_create`,
with one sender `S` calling `chan_send(c, x)` and one receiver `R` calling
`chan_receive(c, &r)` (two distinct real threads that are not on the ready
queue), let the statements of the two calls and the dispatches of the
scheduler be interleaved in any order `acts`.  In the state reached: once the
receiver has read `c->data` its `r` is `x`; `chan_send` has returned only if
the receiver has executed all its statements (so it has read `c->data`); every
enabled action is defined; some action is enabled unless both calls have
returned; and the schedule has at most `10 + |ready queue|` actions, so
every schedule can be continued to the state in which both calls have
returned with `r = x`, and none runs for ever. -/
theorem chan_round_trip (w : World) (o : List (Option Ptr)) (w0 : World) (c : Ptr)
    (rl : List Ptr) (S R : Ptr) (x r0 : Int)
    (hcreate : chan_create w o = some (w0, c)) (hc : c ≠ 0)
    (hrl : Holds w.next w.ready_queue rl)
    (hS : S ≠ 0) (hR : R ≠ 0) (hSR : S ≠ R) (hSrl : S ∉ rl) (hRrl : R ∉ rl)
    (acts : List Act) (σ : Sys) (hrun : run S R c x (sys_init w0 r0) acts = some σ) :
    (2 ≤ σ.rpc → σ.received = x) ∧
    (σ.spc = 5 → σ.rpc = 3) ∧
    (∀ a, enabled σ a = true → ∃ σ', exec S R c x σ a = some σ') ∧
    (¬ (σ.spc = 5 ∧ σ.rpc = 3) → ∃ a, enabled σ a = true) ∧
    acts.length ≤ 10 + rl.length := by
  obtain ⟨-, rb, sb, ss, hch, d1, d2, d3, -, -, -, -, -, -, s1, s2, s3, n1, n2⟩ :=
    chan_create_nonnull hcreate hc
  have hinit : RendezvousInv S R c x rb sb ss (sys_init w0 r0) rl := by
    refine rinv_intro ⟨0, hch, by simp⟩
      ⟨_, by simpa [ser_val] using s3, holds_nil _⟩
      ⟨_, by simpa [rb_val] using s2, by simpa [rb_val] using holds_nil _⟩
      ⟨_, by simpa [sb_val] using s1, by simpa [sb_val] using holds_nil _⟩
      ?_ hSrl hRrl (by simp) (by simp) (by simp) (by simp) (by simp [rb_val])
      (by simp [sb_val]) (by simp)
    rw [n1, n2]
    simpa using hrl
  obtain ⟨rest', hinv, hlen⟩ :=
    run_inv hS hR hSR (Ne.symm d1) (Ne.symm d3) (Ne.symm d2) acts _ _ _ hinit hrun
  refine ⟨hinv.recv, ?_, ?_, rinv_progress hinv, ?_⟩
  · intro h5
    by_contra hne
    have hlt : ¬ (3 ≤ σ.rpc) := by
      have := hinv.rpc_le
      omega
    have hsp := hinv.swait (by simp [sb_val, h5, hlt])
    have := hinv.spark hsp
    omega
  · intro a he
    obtain ⟨σ', -, hex, -, -⟩ :=
      step_inv hS hR hSR (Ne.symm d1) (Ne.symm d3) (Ne.symm d2) hinv a he
    exact ⟨σ', hex⟩
  · have hp : potential (sys_init w0 r0) rl = 10 + rl.length := by
      simp [potential, sys_init]
    omega

/-- Witness of C10: the first channel created in the empty world, sender 11
sending 42, receiver 12; the sender runs until it blocks, the receiver runs
to its end, the scheduler dispatches the sender, which returns. -/
theorem chan_round_trip_witness :
    (2 ≤ exTrip.rpc → exTrip.received = 42) ∧
    (exTrip.spc = 5 → exTrip.rpc = 3) ∧
    (∀ a, enabled exTrip a = true → ∃ σ', exec 11 12 1 42 exTrip a = some σ') ∧
    (¬ (exTrip.spc = 5 ∧ exTrip.rpc = 3) → ∃ a, enabled exTrip a = true) ∧
    exSchedule.length ≤ 10 + ([] : List Ptr).length :=
  chan_round_trip exW [some 1, some 1, some 2, some 3, some 4] exChan 1 [] 11 12 42 0
    rfl (by decide) (holds_nil _) (by decide) (by decide) (by decide) (by simp) (by simp)
    exSchedule exTrip rfl

/-- C12: for every queue `q` and (non-null) item `x`: after `queue_init` the
queue is empty; after one `queue_put` of `x` it is not empty; the following
`queue_get` returns exactly `x` and leaves the queue empty again.  The links
`m` are arbitrary. -/
theorem queue_init_put_get (m : Ptr → Ptr) (q : Queue) (x : Ptr) (hx : x ≠ 0) :
    queue_empty (queue_init q).1 = true ∧
    ∃ m' q', queue_put m (queue_init q).1 x = some (m', q') ∧ queue_empty q' = false ∧
      (queue_get m' q').2 = x ∧ queue_empty (queue_get m' q').1 = true := by
  refine ⟨rfl, Function.update m x 0, { front := x, back := x }, ?_, ?_, ?_, ?_⟩
  · simp [queue_put, queue_init, queue_empty, hx]
  · simp [queue_empty, hx]
  · simp [queue_get, queue_empty, hx]
  · simp [queue_get, queue_empty, hx]

/-- Witness for C12: item 5 on a queue whose fields held garbage. -/
theorem queue_init_put_get_witness :
    (5 : Ptr) ≠ 0 ∧
    (queue_empty (queue_init { front := 3, back := 4 }).1 = true ∧
    ∃ m' q', queue_put (fun _ => 7) (queue_init { front := 3, back := 4 }).1 5 = some (m', q') ∧
      queue_empty q' = false ∧
      (queue_get m' q').2 = 5 ∧ queue_empty (queue_get m' q').1 = true) :=
  ⟨by decide, queue_init_put_get (fun _ => 7) { front := 3, back := 4 } 5 (by decide)⟩

/-- C13: first-in first-out order.  On a queue initialised by `queue_init`,
whatever the links `m` held beforehand: putting pairwise distinct non-null
items `xs` in order and then calling `queue_get` as many times returns exactly
`xs`; and for any interleaving `ops` of puts (of pairwise distinct non-null
items) and gets, the results `outs` of the successful gets followed by the
items `rest` still held are the items put, in the order they were put, so the
k-th successful get returned the k-th item put. -/
theorem queue_fifo_order (m : Ptr → Ptr) (q : Queue) :
    (∀ xs : List Ptr, xs.Nodup → (∀ x ∈ xs, x ≠ 0) →
      ∃ m' q', queue_run m q
        (QOp.init :: (xs.map QOp.put ++ List.replicate xs.length QOp.get)) = some (m', q', xs)) ∧
    (∀ ops : List QOp, QOp.init ∉ ops → (items_put ops).Nodup → (∀ x ∈ items_put ops, x ≠ 0) →
      ∃ m' q' outs rest, queue_run m q (QOp.init :: ops) = some (m', q', outs) ∧
        Holds m' q' rest ∧ outs ++ rest = items_put ops ∧
        outs = (items_put ops).take outs.length) := by
  constructor
  · intro xs hnd hnz
    have hi := items_put_puts_gets xs xs.length
    obtain ⟨m', q', hr, -⟩ := queue_run_holds
      (xs.map QOp.put ++ List.replicate xs.length QOp.get) m (queue_init q).1 []
      (holds_nil m) (by rwa [hi]) (by rwa [hi]) (by simp)
    refine ⟨m', q', ?_⟩
    have ho := fifo_outs_gets xs
    rw [fifo_outs_puts, List.nil_append, ho] at hr
    simpa [queue_run] using hr
  · intro ops hni hnd hnz
    obtain ⟨m', q', hr, hh⟩ := queue_run_holds ops m (queue_init q).1 []
      (holds_nil m) hnz hnd (by simp)
    have hc := fifo_conservation ops [] hni
    rw [List.nil_append] at hc
    refine ⟨m', q', fifo_outs [] ops, fifo_content [] ops, by simpa [queue_run] using hr,
      hh, hc, ?_⟩
    rw [← hc, List.take_left]

/-- C14, the claim as worded fails on a sequence that puts an item while it
is on the queue.  After `queue_init`, `queue_put` of item 1, `queue_put` of
item 1 again and two `queue_get` calls, both gets have returned item 1, so
every item put has been taken out again and a first-in first-out queue holds
nothing; but `front` is not null, `queue_empty` answers false, the next
`queue_get` returns item 1 a third time and leaves the queue as it is, and
the chain from `front` is a cycle: it is the chain of no list of items. -/
theorem queue_double_put_front_not_null :
    ∃ m' q', queue_run (fun _ => 0) { front := 0, back := 0 } exDoublePut =
        some (m', q', [1, 1]) ∧
      items_put exDoublePut = [1, 1] ∧ fifo_content [] exDoublePut = [] ∧
      ¬ (q'.front = 0 ↔ fifo_content [] exDoublePut = []) ∧
      queue_empty q' = false ∧ queue_get m' q' = (q', 1) ∧
      ∀ l, ¬ Holds m' q' l := by
  have hm : Function.update (Function.update (Function.update
      (fun _ : Ptr => (0 : Ptr)) 1 0) 1 0) 1 1 1 = 1 := by simp
  refine ⟨Function.update (Function.update (Function.update (fun _ => 0) 1 0) 1 0) 1 1,
    { front := 1, back := 1 }, rfl, rfl, rfl, ?_, rfl, ?_, ?_⟩
  · intro h
    exact absurd (h.2 rfl) (by decide)
  · simp [queue_get, queue_empty]
  · intro l hl
    obtain ⟨hseg, hnd, -⟩ := hl
    cases l with
    | nil =>
      have h10 : (1 : Ptr) = 0 := hseg
      exact absurd h10 (by decide)
    | cons x xs =>
      obtain ⟨hx, -, hrest⟩ := hseg
      have hx1 : x = 1 := hx.symm
      subst hx1
      rw [hm] at hrest
      cases xs with
      | nil =>
        have h10 : (1 : Ptr) = 0 := hrest
        exact absurd h10 (by decide)
      | cons y ys =>
        have hy1 : y = 1 := hrest.1.symm
        subst hy1
        simp at hnd

/-- C14, amended: `queue_get` on an empty queue returns the null sentinel and
leaves the queue unchanged; on a queue holding exactly one item `x` it returns
`x` and sets `front` and `back` to null; and after `queue_init` followed by
any sequence of `queue_init`, `queue_put` and `queue_get` calls in which each
`queue_put` is given a non-null item that is not on the queue at that moment
(an item taken out may be put again), the calls are defined, the gets have
returned the items in the order of their puts, the queue holds exactly the
items put since the last `queue_init` and not yet taken out, in that order,
and `front` is null (and `queue_empty` true) if and only if there is no such
item. -/
theorem queue_get_boundary (m : Ptr → Ptr) (q : Queue) :
    (queue_empty q = true → queue_get m q = (q, 0)) ∧
    (∀ x, Holds m q [x] → queue_get m q = ({ front := 0, back := 0 }, x)) ∧
    (∀ ops : List QOp, puts_fresh [] ops = true →
      ∃ m' q', queue_run m q (QOp.init :: ops) = some (m', q', fifo_outs [] ops) ∧
        Holds m' q' (fifo_content [] ops) ∧
        (q'.front = 0 ↔ fifo_content [] ops = []) ∧
        (queue_empty q' = true ↔ fifo_content [] ops = [])) := by
  refine ⟨?_, ?_, ?_⟩
  · intro he
    have : q.front = 0 := by simpa [queue_empty] using he
    simp [queue_get, he, this]
  · intro x h
    obtain ⟨⟨hf, hx, hm⟩, -, -⟩ := h
    simp only [Seg] at hm
    simp [queue_get, queue_empty, hf, hx, hm]
  · intro ops hf
    obtain ⟨m', q', hr, hh⟩ := queue_run_fresh ops m (queue_init q).1 [] (holds_nil m) hf
    refine ⟨m', q', by simpa [queue_run] using hr, hh, ?_, holds_empty_iff hh⟩
    have := holds_empty_iff hh
    simpa [queue_empty] using this

/-- Witness for C14: on a queue whose fields and links held garbage, items 1
and 2 are put, 1 is taken and put again, and two more gets empty the queue:
the gets returned 1, 2, 1 and `front` is null. -/
theorem queue_get_boundary_witness :
    puts_fresh [] exRequeue = true ∧
    ∃ m' q', queue_run (fun _ => 7) { front := 3, back := 4 } (QOp.init :: exRequeue) =
        some (m', q', [1, 2, 1]) ∧ Holds m' q' [] ∧ q'.front = 0 := by
  refine ⟨rfl, ?_⟩
  obtain ⟨m', q', hr, hh, hfront, -⟩ :=
    (queue_get_boundary (fun _ => 7) { front := 3, back := 4 }).2.2 exRequeue rfl
  exact ⟨m', q', hr, hh, hfront.2 rfl⟩

/-- C15, the code at the failing input and below it.  Let `a` be the struct
of the semaphore `s` in a state reached from a successful `sem_create` by
`sem_P`, `sem_V` and scheduling, its value being an `int`.  Below `INT_MAX`
the increment of `sem_V` does not wrap, and if the value after it is at most
0 then the wait queue is not empty, `queue_get` returns a non-null waiter,
the `queue_put` on the ready queue is defined for it and `sem_V` is defined.
At `INT_MAX`, which `sem_create(INT_MAX)` reaches, the increment wraps to
`INT_MIN`, so the test `<= 0` succeeds although the wait queue is empty:
`queue_get` returns the null sentinel, `queue_put(&ready_queue, ...)` is
passed it and writes through the null pointer. -/
theorem sem_V_waiter_present (s : Ptr) (w : World) (h : SemReach s w) (a : Sem)
    (ha : w.sems s = some a) (hlo : INT_MIN ≤ a.val) (hhi : a.val ≤ INT_MAX) :
    (a.val ≠ INT_MAX →
      wrap_int (a.val + 1) = a.val + 1 ∧ Machine.sem_V w s = sem_V w s ∧
      (a.val + 1 ≤ 0 →
        queue_empty a.queue = false ∧ (queue_get w.next a.queue).2 ≠ 0 ∧
        (∃ m' q', queue_put w.next w.ready_queue (queue_get w.next a.queue).2 =
          some (m', q')) ∧
        ∃ w', sem_V w s = some w')) ∧
    (a.val = INT_MAX →
      wrap_int (a.val + 1) = INT_MIN ∧ wrap_int (a.val + 1) ≤ 0 ∧
      queue_empty a.queue = true ∧ (queue_get w.next a.queue).2 = 0 ∧
      queue_put w.next w.ready_queue (queue_get w.next a.queue).2 = none ∧
      Machine.sem_V w s = none) := by
  obtain ⟨v, wl, rl, hinv⟩ := semreach_inv h
  obtain ⟨a', ha', hval, hh, hlen⟩ := seminv_sem hinv
  rw [ha] at ha'
  cases ha'
  constructor
  · intro hne
    have hw : wrap_int (a.val + 1) = a.val + 1 := by
      apply wrap_int_of_range
      · unfold INT_MIN at *; omega
      · unfold INT_MAX at *; omega
    refine ⟨hw, machine_sem_V_eq ha hlo hhi hne, ?_⟩
    intro hv
    cases wl with
    | nil =>
      have : max 0 (-a.val) = -a.val := max_eq_right (by omega)
      rw [this] at hlen
      simp at hlen
      omega
    | cons x wl =>
      obtain ⟨hg2, -⟩ := queue_get_holds hh
      have hx0 : x ≠ 0 := hh.1.2.1
      have hxr : x ∉ rl := fun hm => hinv.2.2.2 (List.mem_cons_self x wl) hm
      obtain ⟨m', rq', hput, -, -⟩ := queue_put_holds hinv.2.2.1 hx0 hxr
      obtain ⟨w', hV, -⟩ := sem_V_wake hinv
      refine ⟨?_, by rw [hg2]; exact hx0, ⟨m', rq', by rw [hg2]; exact hput⟩, w', hV⟩
      have := holds_empty_iff hh
      cases he : queue_empty a.queue with
      | false => rfl
      | true => exact absurd (this.1 he) (by simp)
  · intro hmax
    have hwl : wl = [] := by
      have : max 0 (-a.val) = 0 := max_eq_left (by rw [hmax]; decide)
      rw [this] at hlen
      exact List.length_eq_zero.mp (by exact_mod_cast hlen)
    subst hwl
    have hg := queue_get_nil hh
    have hwm : wrap_int (a.val + 1) = INT_MIN := by rw [hmax]; exact wrap_int_max
    refine ⟨hwm, by rw [hwm]; decide, (holds_empty_iff hh).2 rfl, by rw [hg], ?_, ?_⟩
    · rw [hg]
      simp [queue_put]
    · simp only [Machine.sem_V, ha, hwm, hg]
      simp [queue_put, INT_MIN]

/-- Witness for C15, the failing input: the semaphore created by
`sem_create(INT_MAX)` in the empty world; the first `sem_V` on it passes the
null sentinel to `queue_put`. -/
theorem sem_V_waiter_present_witness :
    SemReach 1 exWmax ∧
    exWmax.sems 1 = some { val := INT_MAX, queue := { front := 0, back := 0 } } ∧
    wrap_int (INT_MAX + 1) = INT_MIN ∧ wrap_int (INT_MAX + 1) ≤ 0 ∧
    queue_empty ({ front := 0, back := 0 } : Queue) = true ∧
    (queue_get exWmax.next { front := 0, back := 0 }).2 = 0 ∧
    queue_put exWmax.next exWmax.ready_queue
      (queue_get exWmax.next { front := 0, back := 0 }).2 = none ∧
    Machine.sem_V exWmax 1 = none :=
  ⟨exWmax_reach, rfl,
    (sem_V_waiter_present 1 exWmax exWmax_reach
      { val := INT_MAX, queue := { front := 0, back := 0 } } rfl (by decide) (by decide)).2 rfl⟩

/-- C16: effect of a defined `sem_V` on a live semaphore `a` whose queue holds
the waiters `wl`, with the ready queue holding `rl` (no thread on both).  The
value grows by exactly 1.  When the new value is at most 0 the front waiter
`x` leaves the wait queue, which then holds the remaining waiters in their
order, and the ready queue holds its former threads in their order followed
by `x`.  When the new value is positive the wait queue, the ready queue and
all links are unchanged. -/
theorem sem_V_queue_effect (w : World) (s : Ptr) (a : Sem) (ha : w.sems s = some a)
    (wl rl : List Ptr) (hwl : Holds w.next a.queue wl) (hrl : Holds w.next w.ready_queue rl)
    (hdis : List.Disjoint wl rl) (w' : World) (hV : sem_V w s = some w') :
    ∃ a', w'.sems s = some a' ∧ a'.val = a.val + 1 ∧
      (a.val + 1 ≤ 0 → ∃ x wl', wl = x :: wl' ∧ Holds w'.next a'.queue wl' ∧
        Holds w'.next w'.ready_queue (rl ++ [x])) ∧
      (0 < a.val + 1 → a'.queue = a.queue ∧ w'.ready_queue = w.ready_queue ∧
        w'.next = w.next) := by
  have hmax : a.val ≠ INT_MAX := by
    intro e
    simp [sem_V, ha, e] at hV
  by_cases h1 : a.val + 1 ≤ 0
  · cases wl with
    | nil =>
      simp [sem_V, ha, hmax, h1, queue_get_nil hwl, queue_put] at hV
    | cons x wl =>
      obtain ⟨hg2, hg1⟩ := queue_get_holds hwl
      have hx0 : x ≠ 0 := hwl.1.2.1
      have hxr : x ∉ rl := fun hm => hdis (List.mem_cons_self x wl) hm
      have hxw : x ∉ wl := (List.nodup_cons.mp hwl.2.1).1
      obtain ⟨m', rq', hput, hr', hframe⟩ := queue_put_holds hrl hx0 hxr
      simp only [sem_V, ha, hmax, h1, hg2, hput, thread_yield, if_true, if_false,
        Option.some.injEq] at hV
      subst hV
      refine ⟨{ val := a.val + 1, queue := (queue_get w.next a.queue).1 }, by simp, rfl, ?_, ?_⟩
      · intro _
        refine ⟨x, wl, rfl, ?_, hr'⟩
        exact holds_congr (fun y hy => hframe y (fun e => hxw (e ▸ hy))
          (fun hyr => hdis (List.mem_cons_of_mem _ hy) hyr)) hg1
      · intro h2
        omega
  · simp only [sem_V, ha, hmax, h1, thread_yield, if_false, Option.some.injEq] at hV
    subst hV
    refine ⟨{ val := a.val + 1, queue := a.queue }, by simp, rfl, ?_, ?_⟩
    · intro h2
      exact absurd h2 h1
    · intro _
      exact ⟨rfl, rfl, rfl⟩

/-- Witness for C16: `sem_V` on the semaphore of `exW2` (value -1, thread 5
waiting, empty ready queue) gives `exW3`. -/
theorem sem_V_queue_effect_witness :
    ∃ a', exW3.sems 1 = some a' ∧ a'.val = (-1 : Int) + 1 ∧
      ((-1 : Int) + 1 ≤ 0 → ∃ x wl', [5] = x :: wl' ∧ Holds exW3.next a'.queue wl' ∧
        Holds exW3.next exW3.ready_queue ([] ++ [x])) ∧
      (0 < (-1 : Int) + 1 → a'.queue = ({ front := 5, back := 5 } : Queue) ∧
        exW3.ready_queue = exW2.ready_queue ∧ exW3.next = exW2.next) :=
  sem_V_queue_effect exW2 1 { val := -1, queue := { front := 5, back := 5 } } rfl [5] []
    (by refine ⟨⟨rfl, by decide, rfl⟩, by simp, ?_⟩; intro x hx; simp at hx; exact hx ▸ rfl)
    (holds_nil _) (by simp) exW3 rfl

/-- C18, the claim as worded fails.  In `exSending` the sender is blocked on
`sblock` (address 2), so `sblock` is the semaphore that cannot be destroyed:
`chan_destroy` returns -1, `c->sblock` is still the semaphore at address 2 and
the spare `sblock` (address 6) is destroyed; the semaphore that is replaced is
`rblock`, which was destroyed.  In `exReceiving` the receiver is blocked on
`rblock` (address 3), the first semaphore that `chan_destroy` tries: it
returns -1 and no semaphore of the channel is replaced, the three spare
semaphores are destroyed. -/
theorem chan_destroy_keeps_undestroyed_semaphore :
    (∃ w', chan_destroy exSending 13 1 [some 2, some 6, some 7, some 8] = some (w', some (-1)) ∧
      exSending.chans 1 = some { rblock := 3, sblock := 2, send_serialiser := 4, data := 42 } ∧
      exSending.sems 2 = some { val := -1, queue := { front := 11, back := 11 } } ∧
      w'.chans 1 = some { rblock := 7, sblock := 2, send_serialiser := 4, data := 42 } ∧
      w'.sems 2 = some { val := -1, queue := { front := 11, back := 11 } } ∧
      w'.sems 6 = none) ∧
    (∃ w', chan_destroy exReceiving 13 1 [some 2, some 6, some 7, some 8] =
        some (w', some (-1)) ∧
      exReceiving.chans 1 = some { rblock := 3, sblock := 2, send_serialiser := 4, data := 0 } ∧
      exReceiving.sems 3 = some { val := -1, queue := { front := 12, back := 12 } } ∧
      w'.chans 1 = some { rblock := 3, sblock := 2, send_serialiser := 4, data := 0 } ∧
      w'.sems 3 = some { val := -1, queue := { front := 12, back := 12 } } ∧
      w'.sems 6 = none ∧ w'.sems 7 = none ∧ w'.sems 8 = none) :=
  ⟨⟨_, rfl, rfl, rfl, rfl, rfl, rfl⟩, ⟨_, rfl, rfl, rfl, rfl, rfl, rfl, rfl, rfl⟩⟩

/-- C18, amended: in the setting `DestroyPre` (live channel, free `chan_mutex`,
spare channel created at fresh addresses) a failing sub-destroy makes
`chan_destroy` return -1 and replaces exactly the semaphores of the channel
that were destroyed before it by the corresponding spare semaphores (fresh,
value 0, empty queue); the semaphore that could not be destroyed and those
after it stay in the channel unchanged.  So nothing is replaced when `rblock`
fails, `rblock` when `sblock` fails, `rblock` and `sblock` when
`send_serialiser` fails. -/
theorem chan_destroy_rollback {w : World} {c m : Ptr} {mv : Int} {mq : Queue}
    {rb sb ss : Ptr} {d : Int} {qrb qsb qss : Sem} {b sb' rb' ss' : Ptr}
    (h : DestroyPre w c m mv mq rb sb ss d qrb qsb qss b sb' rb' ss') (t : Ptr) :
    ∃ w' r, chan_destroy w t c [some b, some sb', some rb', some ss'] = some (w', some r) ∧
      (queue_empty qrb.queue = false → r = -1 ∧
        w'.chans c = some { rblock := rb, sblock := sb, send_serialiser := ss, data := d } ∧
        w'.sems rb = some qrb ∧ w'.sems sb = some qsb ∧ w'.sems ss = some qss) ∧
      (queue_empty qrb.queue = true → queue_empty qsb.queue = false → r = -1 ∧
        w'.chans c = some { rblock := rb', sblock := sb, send_serialiser := ss, data := d } ∧
        w'.sems rb = none ∧
        w'.sems rb' = some { val := 0, queue := { front := 0, back := 0 } } ∧
        w'.sems sb = some qsb ∧ w'.sems ss = some qss) ∧
      (queue_empty qrb.queue = true → queue_empty qsb.queue = true →
        queue_empty qss.queue = false → r = -1 ∧
        w'.chans c = some { rblock := rb', sblock := sb', send_serialiser := ss, data := d } ∧
        w'.sems rb = none ∧ w'.sems sb = none ∧
        w'.sems rb' = some { val := 0, queue := { front := 0, back := 0 } } ∧
        w'.sems sb' = some { val := 0, queue := { front := 0, back := 0 } } ∧
        w'.sems ss = some qss) := by
  obtain ⟨hcb, hne⟩ := destroy_pre_ne h
  have hc := h.hc
  have hrb := h.hrb
  have hsb := h.hsb
  have hss := h.hss
  cases hq1 : queue_empty qrb.queue with
  | false =>
    obtain ⟨w', he, -, -, -, -, hs, hch⟩ := chan_destroy_case1 h t hq1
    refine ⟨w', -1, he, ?_, ?_, ?_⟩
    · intro _
      rw [hs, hch]
      exact ⟨rfl, hc, hrb, hsb, hss⟩
    · intro e; cases e
    · intro e; cases e
  | true =>
    cases hq2 : queue_empty qsb.queue with
    | false =>
      obtain ⟨w', he, -, -, -, -, hs, hch⟩ := chan_destroy_case2 h t hq1 hq2
      refine ⟨w', -1, he, ?_, ?_, ?_⟩
      · intro e; cases e
      · intro _ _
        rw [hs, hch]
        refine ⟨rfl, by simp, ?_, by simp, ?_, ?_⟩
        · simp [Function.update_apply, hne]
        · simp [Function.update_apply, hne, hsb]
        · simp [Function.update_apply, hne, hss]
      · intro _ e; cases e
    | true =>
      cases hq3 : queue_empty qss.queue with
      | false =>
        obtain ⟨w', he, -, -, -, -, hs, hch⟩ := chan_destroy_case3 h t hq1 hq2 hq3
        refine ⟨w', -1, he, ?_, ?_, ?_⟩
        · intro e; cases e
        · intro _ e; cases e
        · intro _ _ _
          rw [hs, hch]
          refine ⟨rfl, by simp, ?_, ?_, ?_, by simp, ?_⟩
          · simp [Function.update_apply, hne]
          · simp [Function.update_apply, hne]
          · simp [Function.update_apply, hne]
          · simp [Function.update_apply, hne, hss]
      | true =>
        obtain ⟨w', he, -⟩ := chan_destroy_case4 h t hq1 hq2 hq3
        refine ⟨w', 1, he, ?_, ?_, ?_⟩
        · intro e; cases e
        · intro _ e; cases e
        · intro _ _ e; cases e

/-- Witness for C18 (amended): `chan_destroy` on the channel of `exSending`,
where the sender is blocked on `sblock`. -/
theorem chan_destroy_rollback_witness :
    ∃ w' r, chan_destroy exSending 13 1 [some 2, some 6, some 7, some 8] = some (w', some r) ∧
      (queue_empty ({ front := 0, back := 0 } : Queue) = false → r = -1 ∧
        w'.chans 1 = some { rblock := 3, sblock := 2, send_serialiser := 4, data := 42 } ∧
        w'.sems 3 = some { val := 1, queue := { front := 0, back := 0 } } ∧
        w'.sems 2 = some { val := -1, queue := { front := 11, back := 11 } } ∧
        w'.sems 4 = some { val := 0, queue := { front := 0, back := 0 } }) ∧
      (queue_empty ({ front := 0, back := 0 } : Queue) = true →
        queue_empty ({ front := 11, back := 11 } : Queue) = false → r = -1 ∧
        w'.chans 1 = some { rblock := 7, sblock := 2, send_serialiser := 4, data := 42 } ∧
        w'.sems 3 = none ∧
        w'.sems 7 = some { val := 0, queue := { front := 0, back := 0 } } ∧
        w'.sems 2 = some { val := -1, queue := { front := 11, back := 11 } } ∧
        w'.sems 4 = some { val := 0, queue := { front := 0, back := 0 } }) ∧
      (queue_empty ({ front := 0, back := 0 } : Queue) = true →
        queue_empty ({ front := 11, back := 11 } : Queue) = true →
        queue_empty ({ front := 0, back := 0 } : Queue) = false → r = -1 ∧
        w'.chans 1 = some { rblock := 7, sblock := 6, send_serialiser := 4, data := 42 } ∧
        w'.sems 3 = none ∧ w'.sems 2 = none ∧
        w'.sems 7 = some { val := 0, queue := { front := 0, back := 0 } } ∧
        w'.sems 6 = some { val := 0, queue := { front := 0, back := 0 } } ∧
        w'.sems 4 = some { val := 0, queue := { front := 0, back := 0 } }) :=
  chan_destroy_rollback exSending_pre 13

/-- C19, the code at the failing input: when `chan_mutex` (`m`, value `mv`
positive) is free and the `malloc` of the spare channel struct fails,
`chan_destroy` returns -1 through its early `return`, which has no
`sem_V(chan_mutex)`: the value of `chan_mutex` after the call is `mv - 1`,
not `mv`.  Nothing else in the world has changed. -/
theorem chan_destroy_early_return_holds_chan_mutex (w : World) (t c m : Ptr) (mv : Int)
    (mq : Queue) (hf : w.firstCall = false) (hm : w.chan_mutex = m)
    (hms : w.sems m = some { val := mv, queue := mq }) (hmv : 0 < mv)
    (o : List (Option Ptr)) (ho : oracle_hd o = none) :
    chan_destroy w t c o =
        some (set_sem w m (some { val := mv - 1, queue := mq }), some (-1)) ∧
      (set_sem w m (some { val := mv - 1, queue := mq })).sems m ≠ w.sems m := by
  have hP : sem_P w m t = some (set_sem w m (some { val := mv - 1, queue := mq })) :=
    sem_P_of_pos t hms hmv
  have hneg : sem_negative (set_sem w m (some { val := mv - 1, queue := mq })) m = false := by
    have : ¬ (mv - 1 < 0) := by omega
    simp [sem_negative, this]
  constructor
  · simp [chan_destroy, hm, hP, hneg, chan_create, hf, chan_create_alloc, ho, malloc]
  · rw [hms]
    simp

/-- Witness for C19 on the world `exChan`, whose `chan_mutex` has value 1: the
spare channel cannot be allocated, `chan_destroy` returns -1 and leaves
`chan_mutex` at 0; the next `chan_destroy` (by thread 14, allocations
succeeding) does not return: its caller is blocked in `sem_P(chan_mutex)`. -/
theorem chan_destroy_early_return_holds_chan_mutex_witness :
    (chan_destroy exChan 13 1 [none] =
        some (set_sem exChan 1 (some { val := 1 - 1, queue := { front := 0, back := 0 } }),
          some (-1)) ∧
      (set_sem exChan 1 (some { val := 1 - 1, queue := { front := 0, back := 0 } })).sems 1 ≠
        exChan.sems 1) ∧
    ∃ w'', chan_destroy
        (set_sem exChan 1 (some { val := 1 - 1, queue := { front := 0, back := 0 } })) 14 1
        [some 2, some 6, some 7, some 8] = some (w'', none) ∧
      w''.sems 1 = some { val := -1, queue := { front := 14, back := 14 } } :=
  ⟨chan_destroy_early_return_holds_chan_mutex exChan 13 1 1 1 { front := 0, back := 0 }
    rfl rfl rfl (by decide) [none] rfl, ⟨_, rfl, rfl⟩⟩

/-- C20: semaphore accounting of `chan_destroy` in the setting `DestroyPre`
(so the spare channel is created).  The call returns 1 or -1; the spare
channel struct is freed; every spare semaphore is either destroyed or
installed in the channel; and, counting the live semaphores at the addresses
below any bound `n` above the six semaphores involved, the number of live
semaphores is unchanged when the call returns -1 and lower by exactly 3 when
it returns 1. -/
theorem chan_destroy_sem_accounting {w : World} {c m : Ptr} {mv : Int} {mq : Queue}
    {rb sb ss : Ptr} {d : Int} {qrb qsb qss : Sem} {b sb' rb' ss' : Ptr}
    (h : DestroyPre w c m mv mq rb sb ss d qrb qsb qss b sb' rb' ss') (t : Ptr) (n : Nat)
    (hn : ∀ x ∈ [rb, sb, ss, sb', rb', ss'], x < n) :
    ∃ w' r, chan_destroy w t c [some b, some sb', some rb', some ss'] = some (w', some r) ∧
      (r = 1 ∨ r = -1) ∧ w'.chans b = none ∧
      (∀ x ∈ [sb', rb', ss'], w'.sems x = none ∨
        ∃ ch, w'.chans c = some ch ∧ (ch.rblock = x ∨ ch.sblock = x) ∧
          w'.sems x = some { val := 0, queue := { front := 0, back := 0 } }) ∧
      (r = -1 → live_sems w' n = live_sems w n) ∧
      (r = 1 → live_sems w' n + 3 = live_sems w n) := by
  obtain ⟨hcb, hne⟩ := destroy_pre_ne h
  have hbn := h.hb.2
  have hrb := h.hrb
  have hsb := h.hsb
  have hss := h.hss
  have f1 := (h.hfresh sb' (by simp)).2
  have f2 := (h.hfresh rb' (by simp)).2
  have f3 := (h.hfresh ss' (by simp)).2
  have n1 : rb < n := hn rb (by simp)
  have n2 : sb < n := hn sb (by simp)
  have n3 : ss < n := hn ss (by simp)
  have n4 : sb' < n := hn sb' (by simp)
  have n5 : rb' < n := hn rb' (by simp)
  cases hq1 : queue_empty qrb.queue with
  | false =>
    obtain ⟨w', he, -, -, -, -, hs, hch⟩ := chan_destroy_case1 h t hq1
    refine ⟨w', -1, he, Or.inr rfl, by rw [hch]; exact hbn, ?_, ?_, ?_⟩
    · intro x hx
      left
      rw [hs]
      exact (h.hfresh x hx).2
    · intro _
      simp only [live_sems, hs]
    · intro e
      exact absurd e (by decide)
  | true =>
    cases hq2 : queue_empty qsb.queue with
    | false =>
      obtain ⟨w', he, -, -, -, -, hs, hch⟩ := chan_destroy_case2 h t hq1 hq2
      refine ⟨w', -1, he, Or.inr rfl, ?_, ?_, ?_, ?_⟩
      · rw [hch]
        simp [Function.update_apply, Ne.symm hcb, hbn]
      · intro x hx
        simp only [List.mem_cons, List.mem_singleton, List.not_mem_nil, or_false] at hx
        rcases hx with hx | hx | hx <;> rw [hx]
        · left; rw [hs]; simp [Function.update_apply, hne, f1]
        · right
          exact ⟨{ rblock := rb', sblock := sb, send_serialiser := ss, data := d },
            by rw [hch, Function.update_same], Or.inl rfl, by rw [hs, Function.update_same]⟩
        · left; rw [hs]; simp [Function.update_apply, hne, f3]
      · intro _
        have e1 := live_sems_free (u := set_sem w rb none) n1 hrb rfl
        have e2 := live_sems_alloc (w := set_sem w rb none) (u := w') n5
          (by simp [set_sem, Function.update_apply, hne, f2]) hs
        omega
      · intro e
        exact absurd e (by decide)
    | true =>
      cases hq3 : queue_empty qss.queue with
      | false =>
        obtain ⟨w', he, -, -, -, -, hs, hch⟩ := chan_destroy_case3 h t hq1 hq2 hq3
        refine ⟨w', -1, he, Or.inr rfl, ?_, ?_, ?_, ?_⟩
        · rw [hch]
          simp [Function.update_apply, Ne.symm hcb, hbn]
        · intro x hx
          simp only [List.mem_cons, List.mem_singleton, List.not_mem_nil, or_false] at hx
          rcases hx with hx | hx | hx <;> rw [hx]
          · right
            exact ⟨{ rblock := rb', sblock := sb', send_serialiser := ss, data := d },
              by rw [hch, Function.update_same], Or.inr rfl, by rw [hs, Function.update_same]⟩
          · right
            exact ⟨{ rblock := rb', sblock := sb', send_serialiser := ss, data := d },
              by rw [hch, Function.update_same], Or.inl rfl,
              by rw [hs]; simp [Function.update_apply, hne]⟩
          · left; rw [hs]; simp [Function.update_apply, hne, f3]
        · intro _
          have e1 := live_sems_free (u := set_sem w rb none) n1 hrb rfl
          have e2 := live_sems_free (w := set_sem w rb none)
            (u := set_sem (set_sem w rb none) sb none) (x := qsb) n2
            (by simp [set_sem, Function.update_apply, hne, hsb]) rfl
          have e3 := live_sems_alloc (w := set_sem (set_sem w rb none) sb none)
            (u := set_sem (set_sem (set_sem w rb none) sb none) rb'
              (some { val := 0, queue := { front := 0, back := 0 } })) n5
            (by simp [set_sem, Function.update_apply, hne, f2]) rfl
          have e4 := live_sems_alloc (w := set_sem (set_sem (set_sem w rb none) sb none) rb'
              (some { val := 0, queue := { front := 0, back := 0 } })) (u := w') n4
            (by simp [set_sem, Function.update_apply, hne, f1]) hs
          omega
        · intro e
          exact absurd e (by decide)
      | true =>
        obtain ⟨w', he, -, -, -, -, hs, hch⟩ := chan_destroy_case4 h t hq1 hq2 hq3
        refine ⟨w', 1, he, Or.inl rfl, ?_, ?_, ?_, ?_⟩
        · rw [hch]
          simp [Function.update_apply, Ne.symm hcb, hbn]
        · intro x hx
          simp only [List.mem_cons, List.mem_singleton, List.not_mem_nil, or_false] at hx
          rcases hx with hx | hx | hx <;> rw [hx]
          · left; rw [hs]; simp [Function.update_apply, hne, f1]
          · left; rw [hs]; simp [Function.update_apply, hne, f2]
          · left; rw [hs]; simp [Function.update_apply, hne, f3]
        · intro e
          exact absurd e (by decide)
        · intro _
          have e1 := live_sems_free (u := set_sem w rb none) n1 hrb rfl
          have e2 := live_sems_free (w := set_sem w rb none)
            (u := set_sem (set_sem w rb none) sb none) (x := qsb) n2
            (by simp [set_sem, Function.update_apply, hne, hsb]) rfl
          have e3 := live_sems_free (w := set_sem (set_sem w rb none) sb none) (u := w')
            (x := qss) n3
            (by simp [set_sem, Function.update_apply, hne, hss]) hs
          omega

/-- Witness for C20: `chan_destroy` on the channel of `exSending`, counting
the semaphores at the addresses below 10. -/
theorem chan_destroy_sem_accounting_witness :
    ∃ w' r, chan_destroy exSending 13 1 [some 2, some 6, some 7, some 8] = some (w', some r) ∧
      (r = 1 ∨ r = -1) ∧ w'.chans 2 = none ∧
      (∀ x ∈ [6, 7, 8], w'.sems x = none ∨
        ∃ ch, w'.chans 1 = some ch ∧ (ch.rblock = x ∨ ch.sblock = x) ∧
          w'.sems x = some { val := 0, queue := { front := 0, back := 0 } }) ∧
      (r = -1 → live_sems w' 10 = live_sems exSending 10) ∧
      (r = 1 → live_sems w' 10 + 3 = live_sems exSending 10) :=
  chan_destroy_sem_accounting exSending_pre 13 10 (by decide)

/-- C17, the code where the variants agree and at the failing input.  A
client keeps one semaphore handle `h` and issues `sem_create`, `sem_P`,
`sem_V` and `sem_destroy` calls in any order; both variants start from
worlds that realise the same values `vals`, the lock being free.  The
cooperative variant follows the contract on every sequence whose `sem_P`
callers are running threads, also when a `malloc` fails.  As long as no
`sem_create` of a non-negative value meets a failing `malloc`, the
preemptive variant makes the same observations step by step: the same value
after each call, `sem_P` blocks iff the new value is negative, `sem_V` wakes
a thread iff the new value is at most 0, `sem_destroy` returns -1 iff the
value is negative and 1 otherwise, and a call is undefined in one variant iff
it is in the other.  When the `malloc` of a `sem_create(v)`, `v >= 0`,
fails, both variants return null, but the preemptive one keeps `sem_mutex`:
every later call that takes the lock blocks its caller for good, while the
cooperative variant goes on, so the observations differ from the next call
on.  The condition variable is taken without spurious wake-ups. -/
theorem sem_variants_same_contract (w : World) (pw : Preemptive.World) (h : Ptr)
    (vals : Ptr → Option Int) (hc : coop_life_rel w h vals) (hp : pre_life_rel pw h vals) :
    (∀ calls, life_valid w h calls →
      coop_life w h calls = contract_life vals h calls ∧
      (mallocs_succeed vals h calls = true →
        pre_life pw h calls = coop_life w h calls ∧
        pre_life pw h calls = contract_life vals h calls)) ∧
    (∀ v hint rest, 0 ≤ v → malloc vals hint = none → (∀ c ∈ rest, takes_lock c = true) →
      pre_life pw h (LifeCall.create v hint :: rest) =
        LifeObs.created true none :: rest.map (fun _ => LifeObs.stuck) ∧
      coop_life w h (LifeCall.create v hint :: rest) =
        LifeObs.created true none :: coop_life w 0 rest ∧
      (life_valid w 0 rest → coop_life w 0 rest = contract_life vals 0 rest) ∧
      (rest ≠ [] → pre_life pw h (LifeCall.create v hint :: rest) ≠
        coop_life w h (LifeCall.create v hint :: rest))) := by
  constructor
  · intro calls hv
    have e1 := coop_life_contract calls w h vals hc hv
    refine ⟨e1, fun hok => ?_⟩
    have e2 := pre_life_contract calls pw h vals hp hok
    exact ⟨e2.trans e1.symm, e2⟩
  · intro v hint rest hv hmal hall
    have hneg : ¬ v < 0 := not_lt.mpr hv
    obtain ⟨ec, ec0, hc'⟩ := (coop_life_create hc v hint).1 (Or.inr hmal)
    obtain ⟨ep, ep0, hmu, hfc⟩ := (pre_life_create hp v hint).2.1 hneg hmal
    have e1 : pre_life pw h (LifeCall.create v hint :: rest) =
        LifeObs.created true none :: rest.map (fun _ => LifeObs.stuck) := by
      simp only [pre_life, ep, ep0, decide_True]
      rw [pre_life_stuck hmu hfc 0 rest hall]
    have e2 : coop_life w h (LifeCall.create v hint :: rest) =
        LifeObs.created true none :: coop_life w 0 rest := by
      simp only [coop_life, ec, ec0, decide_True]
    refine ⟨e1, e2, fun hval => coop_life_contract rest w 0 vals hc' hval, fun hne => ?_⟩
    rw [e1, e2]
    cases rest with
    | nil => exact absurd rfl hne
    | cons c cs =>
      intro e
      simp only [List.map_cons, List.cons.injEq, true_and] at e
      exact coop_life_ne_stuck w 0 c cs _ e.symm

/-- Witness for C17: in the empty worlds `exW` and `exPW`, the steps
`exLifeOk` (no failing `malloc`) give the same observations in both variants,
and on `exLife`, whose first `sem_create(1)` meets a failing `malloc`, the
cooperative variant creates the next semaphore and blocks thread 5 on it
while in the preemptive variant both calls block in `pthread_mutex_lock`. -/
theorem sem_variants_same_contract_witness :
    coop_life_rel exW 0 (fun _ => none) ∧ pre_life_rel exPW 0 (fun _ => none) ∧
    life_valid exW 0 exLifeOk ∧ mallocs_succeed (fun _ => none) 0 exLifeOk = true ∧
    pre_life exPW 0 exLifeOk = coop_life exW 0 exLifeOk ∧
    pre_life exPW 0 exLifeOk =
      [LifeObs.created false (some 0),
       LifeObs.step { val := some (-1), blocked := true, woke := false, result := none },
       LifeObs.step { val := some (-1), blocked := false, woke := false, result := some (-1) },
       LifeObs.step { val := some 0, blocked := false, woke := true, result := none },
       LifeObs.step { val := none, blocked := false, woke := false, result := some 1 },
       LifeObs.undefined] ∧
    pre_life exPW 0 exLife = [LifeObs.created true none, LifeObs.stuck, LifeObs.stuck] ∧
    coop_life exW 0 exLife =
      [LifeObs.created true none, LifeObs.created false (some 0),
       LifeObs.step { val := some (-1), blocked := true, woke := false, result := none }] :=
  have t := sem_variants_same_contract exW exPW 0 (fun _ => none) exW_life_rel exPW_life_rel
  have a := (t.1 exLifeOk exLifeOk_valid).2 (by decide)
  have b := t.2 1 none [LifeCall.create 0 (some 1), LifeCall.call (SemCall.P 5 5)]
    (by decide) rfl (by decide)
  ⟨exW_life_rel, exPW_life_rel, exLifeOk_valid, by decide, a.1, a.2.trans (by decide),
    b.1, b.2.1.trans (by decide)⟩

/-- C11: sender serialisation.  On a channel freshly created by `chan_create`
let the senders `ts` (pairwise distinct real threads, fewer than `INT_MAX`)
each call `chan_send(c, x t)` and let the receiver `R` (another real thread)
call `chan_receive` once for each of them, none of these threads being on
the ready queue at the start; let the statements of these calls and the
dispatches of the scheduler be interleaved in any order `acts`.  In the state
reached: at most one sender is between its `sem_P(c->send_serialiser)` and
its `sem_V(c->send_serialiser)`; the values delivered to the `chan_receive`
calls that have returned are the values of pairwise distinct senders, one for
each call; once every `chan_send` has returned, every `chan_receive` has
returned and the values received are exactly the values sent, each once
(equal as multisets); every enabled action is defined; some action is enabled
unless all calls have returned; and the schedule has at most
`11 * |ts| + |ready queue|` actions, so every schedule can be continued to
the state in which all calls have returned, and none runs for ever. -/
theorem chan_senders_serialised (w : World) (o : List (Option Ptr)) (w0 : World) (c : Ptr)
    (rl ts : List Ptr) (R : Ptr) (x : Ptr → Int) (r0 : Int)
    (hcreate : chan_create w o = some (w0, c)) (hc : c ≠ 0)
    (hrl : Holds w.next w.ready_queue rl)
    (hts : ts.Nodup) (hts0 : ∀ t ∈ ts, t ≠ 0 ∧ t ≠ R ∧ t ∉ rl)
    (hN : (ts.length : Int) ≤ INT_MAX) (hR : R ≠ 0) (hRrl : R ∉ rl)
    (acts : List MAct) (σ : MSys)
    (hrun : mrun ts R c x (msys_init w0 r0) acts = some σ) :
    (∀ t ∈ ts, ∀ t' ∈ ts, inside σ t = true → inside σ t' = true → t = t') ∧
    (∃ l : List Ptr, l.Nodup ∧ (∀ t ∈ l, t ∈ ts) ∧ l.length = σ.rcalls ∧
      σ.received = l.map x) ∧
    ((∀ t ∈ ts, σ.pc t = 5) → σ.rcalls = ts.length ∧ σ.received.Perm (ts.map x)) ∧
    (∀ a, menabled ts R σ a = true → ∃ σ', mexec R c x σ a = some σ') ∧
    (¬ ((∀ t ∈ ts, σ.pc t = 5) ∧ σ.rcalls = ts.length) → ∃ a, menabled ts R σ a = true) ∧
    acts.length ≤ 11 * ts.length + rl.length := by
  obtain ⟨rb, sb, ser, hinit⟩ := serinv_init x r0 hcreate hc hrl hts hts0 hN hR hRrl
  obtain ⟨rest', doneL', wl', hold', e', hinv, hlen⟩ :=
    mrun_inv acts _ _ _ _ _ _ _ hinit hrun
  refine ⟨?_, (minv_delivery hinv).1, (minv_delivery hinv).2, ?_, minv_progress hinv, ?_⟩
  · intro t ht t' ht' h1 h2
    have e1 := minv_mutex hinv t ht h1
    have e2 := minv_mutex hinv t' ht' h2
    rw [e1] at e2
    exact Option.some.inj e2
  · intro a he
    obtain ⟨σ', -, -, -, -, -, hex, -⟩ := mstep_inv hinv a he
    exact ⟨σ', hex⟩
  · rw [m_potential_init] at hlen
    omega

/-- Witness for C11: the first channel created in the empty world, senders 11
and 13 sending 42 and 43, receiver 12, and the schedule `exSchedule2`, at
whose end all calls have returned and the receiver has obtained 42 and 43. -/
theorem chan_senders_serialised_witness :
    exTrip2.received = [42, 43] ∧
    ((∀ t ∈ [11, 13], ∀ t' ∈ [11, 13], inside exTrip2 t = true → inside exTrip2 t' = true →
      t = t') ∧
    (∃ l : List Ptr, l.Nodup ∧ (∀ t ∈ l, t ∈ [11, 13]) ∧ l.length = exTrip2.rcalls ∧
      exTrip2.received = l.map exValues) ∧
    ((∀ t ∈ [11, 13], exTrip2.pc t = 5) →
      exTrip2.rcalls = [11, 13].length ∧ exTrip2.received.Perm ([11, 13].map exValues)) ∧
    (∀ a, menabled [11, 13] 12 exTrip2 a = true → ∃ σ', mexec 12 1 exValues exTrip2 a = some σ') ∧
    (¬ ((∀ t ∈ [11, 13], exTrip2.pc t = 5) ∧ exTrip2.rcalls = [11, 13].length) →
      ∃ a, menabled [11, 13] 12 exTrip2 a = true) ∧
    exSchedule2.length ≤ 11 * [11, 13].length + ([] : List Ptr).length) :=
  ⟨rfl, chan_senders_serialised exW [some 1, some 1, some 2, some 3, some 4] exChan 1 []
    [11, 13] 12 exValues 0 rfl (by decide) (holds_nil _) (by decide)
    (by
      intro t ht
      simp only [List.mem_cons, List.mem_singleton, List.not_mem_nil, or_false] at ht
      rcases ht with rfl | rfl <;> exact ⟨by decide, by decide, by simp⟩)
    (by decide) (by decide) (by simp) exSchedule2 exTrip2 rfl⟩

/-- C21, the code at the failing input and on the other paths.  Let the lock
`sem_mutex` be free when a call starts (for `sem_create` also: let the call
be the first one, which initialises the lock).  `sem_create` returns, and it
returns with the lock held exactly when the value is not negative and
`malloc` fails: that path returns null without `pthread_mutex_unlock`, and
any later `sem_create`, `sem_destroy`, `sem_P` or `sem_V` blocks in
`pthread_mutex_lock`.  On every other path the discipline holds: every
defined `sem_destroy`, `sem_P` and `sem_V` ends (returned, or blocked in
`pthread_cond_wait`) with the lock free and never blocks on the lock, and a
woken `sem_P` returns with the lock free. -/
theorem sem_create_failed_malloc_keeps_lock (w : Preemptive.World) (hint : Option Ptr)
    (v : Int) (hfree : w.firstcall = true ∨ w.sem_mutex = false) :
    (∃ p, (Preemptive.sem_create w hint v).2 = Preemptive.Outcome.returned p) ∧
    ((Preemptive.sem_create w hint v).1.sem_mutex = true ↔
      0 ≤ v ∧ malloc w.sems hint = none) ∧
    (0 ≤ v → malloc w.sems hint = none →
      (Preemptive.sem_create w hint v).2 = Preemptive.Outcome.returned 0 ∧
      (∀ hint2 v2, 0 ≤ v2 →
        (Preemptive.sem_create (Preemptive.sem_create w hint v).1 hint2 v2).2 =
          Preemptive.Outcome.stuck) ∧
      (∀ s t, Preemptive.sem_P (Preemptive.sem_create w hint v).1 s t =
        some ((Preemptive.sem_create w hint v).1, Preemptive.Outcome.stuck)) ∧
      (∀ s k, Preemptive.sem_V (Preemptive.sem_create w hint v).1 s k =
        some ((Preemptive.sem_create w hint v).1, Preemptive.Outcome.stuck)) ∧
      (∀ s, Preemptive.sem_destroy (Preemptive.sem_create w hint v).1 s =
        some ((Preemptive.sem_create w hint v).1, Preemptive.Outcome.stuck))) ∧
    (w.sem_mutex = false →
      (∀ s r, Preemptive.sem_destroy w s = some r →
        r.1.sem_mutex = false ∧ r.2 ≠ Preemptive.Outcome.stuck) ∧
      (∀ s t r, Preemptive.sem_P w s t = some r →
        r.1.sem_mutex = false ∧ r.2 ≠ Preemptive.Outcome.stuck) ∧
      (∀ s k r, Preemptive.sem_V w s k = some r →
        r.1.sem_mutex = false ∧ r.2 ≠ Preemptive.Outcome.stuck) ∧
      (Preemptive.sem_P_resume w).1.sem_mutex = false ∧
      (Preemptive.sem_P_resume w).2 = Preemptive.Outcome.returned ()) := by
  have h0 := pre_first_call_free hfree
  obtain ⟨w0, hw0⟩ : ∃ w0 : Preemptive.World, w0 =
      (if w.firstcall then { w with firstcall := false, sem_mutex := false } else w) :=
    ⟨_, rfl⟩
  rw [← hw0] at h0
  have hsems : w0.sems = w.sems := by
    rw [hw0]
    split_ifs <;> rfl
  have hfc : w0.firstcall = false := by
    rw [hw0]
    split_ifs with hf
    · rfl
    · simpa using hf
  have hdef : Preemptive.sem_create w hint v =
      (if v < 0 then (w0, Preemptive.Outcome.returned 0)
       else if w0.sem_mutex then (w0, Preemptive.Outcome.stuck)
       else
         match malloc (Preemptive.pthread_mutex_lock w0).sems hint with
         | none => (Preemptive.pthread_mutex_lock w0, Preemptive.Outcome.returned 0)
         | some s =>
           (Preemptive.pthread_mutex_unlock (Preemptive.set_sem (Preemptive.pthread_mutex_lock w0)
             s (some { val := v, cond := [] })), Preemptive.Outcome.returned s)) := by
    rw [hw0]
    rfl
  have hlk : (Preemptive.pthread_mutex_lock w0).sems = w.sems := by
    rw [← hsems]
    rfl
  rw [hdef]
  simp only [h0, Bool.false_eq_true, if_false, hlk]
  refine ⟨?_, ?_, ?_, ?_⟩
  · by_cases hv : v < 0
    · exact ⟨0, by simp [hv]⟩
    · cases hm : malloc w.sems hint with
      | none => exact ⟨0, by simp [hv]⟩
      | some p => exact ⟨p, by simp [hv]⟩
  · by_cases hv : v < 0
    · simp only [hv, if_true, h0]
      constructor
      · intro h
        cases h
      · intro h
        omega
    · cases hm : malloc w.sems hint with
      | none =>
        simp only [hv, if_false]
        exact ⟨fun _ => ⟨by omega, trivial⟩, fun _ => rfl⟩
      | some p =>
        simp only [hv, if_false]
        constructor
        · intro h
          simp [Preemptive.pthread_mutex_unlock] at h
        · intro h
          cases h.2
  · intro hv hm
    have hv' : ¬ v < 0 := by omega
    simp only [hv', if_false, hm]
    have hheld : (Preemptive.pthread_mutex_lock w0).sem_mutex = true := rfl
    have hfc' : (Preemptive.pthread_mutex_lock w0).firstcall = false := hfc
    refine ⟨trivial, ?_, ?_, ?_, ?_⟩
    · intro hint2 v2 hv2
      have hv2' : ¬ v2 < 0 := by omega
      simp [Preemptive.sem_create, hfc', hheld, hv2']
    · intro s t
      simp [Preemptive.sem_P, hheld]
    · intro s k
      simp [Preemptive.sem_V, hheld]
    · intro s
      simp [Preemptive.sem_destroy, hheld]
  · intro hl
    refine ⟨?_, ?_, ?_, ?_, ?_⟩
    · intro s r hr
      simp only [Preemptive.sem_destroy, hl, Bool.false_eq_true, if_false] at hr
      cases hs : (Preemptive.pthread_mutex_lock w).sems s with
      | none => simp [hs] at hr
      | some a =>
        simp only [hs] at hr
        split_ifs at hr
        · cases hr
          exact ⟨rfl, by simp⟩
        · cases hr
          exact ⟨rfl, by simp⟩
    · intro s t r hr
      simp only [Preemptive.sem_P, hl, Bool.false_eq_true, if_false] at hr
      cases hs : (Preemptive.pthread_mutex_lock w).sems s with
      | none => simp [hs] at hr
      | some a =>
        simp only [hs] at hr
        split_ifs at hr
        · cases hr
          refine ⟨?_, by simp⟩
          simp [Preemptive.pthread_cond_wait, Preemptive.set_sem,
            Preemptive.pthread_mutex_unlock]
        · cases hr
          exact ⟨rfl, by simp⟩
    · intro s k r hr
      simp only [Preemptive.sem_V, hl, Bool.false_eq_true, if_false] at hr
      cases hs : (Preemptive.pthread_mutex_lock w).sems s with
      | none => simp [hs] at hr
      | some a =>
        simp only [hs] at hr
        split_ifs at hr
        · cases hr
          exact ⟨rfl, by simp⟩
        · cases hr
          exact ⟨rfl, by simp⟩
    · simp [Preemptive.sem_P_resume, hl, Preemptive.pthread_mutex_unlock]
    · simp [Preemptive.sem_P_resume, hl]

/-- Witness for C21: the first `sem_create(1)` in the empty preemptive world
`exPW`, with a failing `malloc`: it returns null and leaves the lock held in
`exPWfailed`, where the next `sem_create` and every `sem_P`, `sem_V` and
`sem_destroy` block on the lock. -/
theorem sem_create_failed_malloc_keeps_lock_witness :
    (exPW.firstcall = true ∨ exPW.sem_mutex = false) ∧
    (exPWfailed.sem_mutex = true ↔ (0 : Int) ≤ 1 ∧ malloc exPW.sems none = none) ∧
    (Preemptive.sem_create exPW none 1).2 = Preemptive.Outcome.returned 0 ∧
    (∀ hint2 v2, 0 ≤ v2 →
      (Preemptive.sem_create exPWfailed hint2 v2).2 = Preemptive.Outcome.stuck) ∧
    (∀ s t, Preemptive.sem_P exPWfailed s t = some (exPWfailed, Preemptive.Outcome.stuck)) ∧
    (∀ s k, Preemptive.sem_V exPWfailed s k = some (exPWfailed, Preemptive.Outcome.stuck)) ∧
    (∀ s, Preemptive.sem_destroy exPWfailed s = some (exPWfailed, Preemptive.Outcome.stuck)) :=
  have h := sem_create_failed_malloc_keeps_lock exPW none 1 (Or.inl rfl)
  ⟨Or.inl rfl, h.2.1, h.2.2.1 (by decide) rfl⟩

end Threads
